import Mathlib

/-!
# DMRG block container: scheduler and truncation engine

A shallow embedding of `src/src/DMRGBlock/DMRGBlockContainer.hpp`.

* `PetscInt` values are modelled by `Int` (indices and counts that the code
  never lets go negative by `Nat`); all values that occur under the stated
  hypotheses are bounded by the site count, so no wrap-around is involved.
* `PetscScalar` / `PetscReal` values are modelled by exact rationals `ℚ`;
  rounding is not modelled.
* Calls into the external collaborators (PETSc, SLEPc, the `Block` and
  `Hamiltonian` template parameters) are recorded in an event log and their
  success is decided by an oracle `Collab.ok`.
-/

namespace DMRG

/-! ## Scheduler: data model -/

/-- The PETSc error code; `0` means success. -/
abbrev PetscErrorCode := Nat

/-- The PETSc code for an unsupported operation. -/
def PETSC_ERR_SUP : PetscErrorCode := 56

/-- The PETSc sentinel for "use the default value". -/
def PETSC_DEFAULT : Int := -2

/-- What the container observes of a `Block`: whether it has been initialized and
how many sites it represents. -/
structure Block where
  init : Bool
  NumSites : Int
  deriving DecidableEq, Repr

/-- A block that has not been initialized (or has been destroyed). -/
def Block.empty : Block := ⟨false, 0⟩

/-- Calls made to collaborators, in program order. -/
inductive Event where
  /-- The call `Makedir(BlockDir("Sys", iblock))` -/
  | mkdir (iblock : Int)
  /-- The call `sys_blocks[iblock].Initialize(mpi_comm)` followed by `InitializeSave(path)` -/
  | initSave (iblock : Int)
  /-- The call `sys_blocks[slot].Initialize(mpi_comm, 1, PETSC_DEFAULT)` -/
  | initSite (slot : Int)
  /-- The call `KronEye_Explicit(sys_blocks[src], AddSite, Ham.H(n), sys_blocks[dst])` -/
  | enlargeSlot (src dst n : Int)
  /-- The call `sys_blocks[slot].EnsureSaved()` -/
  | save (slot : Int)
  /-- The call `sys_blocks[slot].EnsureRetrieved()` -/
  | retrieve (slot : Int)
  /-- Entry of `SingleDMRGStep(sys_blocks[insys], sys_blocks[inenv], _,
  sys_blocks[outsys], sys_blocks[outenv])` -/
  | step (insys inenv outsys outenv : Int)
  /-- The call of `KronEye_Explicit` into a local enlarged block of `n` sites inside a step -/
  | enlarge (n : Int)
  /-- The call `KronBlocks.KronSumConstruct(Ham.H(n), H)` -/
  | kronSum (n : Int)
  /-- The ground-state eigensolve -/
  | solve
  /-- The call of `GetTruncation` -/
  | truncate
  /-- The call `sys_blocks[slot].Initialize(n, QN)` followed by `RotateOperators` -/
  | rotate (slot n : Int)
  deriving DecidableEq, Repr

/-- The external collaborators as seen from the container. -/
structure Collab where
  /-- The value of `Ham.NumEnvSites()` -/
  NumEnvSites : Int
  /-- The value of `AddSite.NumSites()` -/
  AddSiteNumSites : Int
  /-- The flag set by `PetscTestDirectory(save_dir, 'r', &flg)` -/
  dirExists : Bool
  /-- Whether the collaborator call recorded as the given event succeeds -/
  ok : Event → Bool

/-- The fields of `DMRGBlockContainer` that the scheduler reads and writes, together
with the log of collaborator calls. -/
structure Container where
  num_sites : Int
  mpi_rank : Int
  warmed_up : Bool
  no_symm : Bool
  do_save_dir : Bool
  num_sys_blocks : Int
  sys_blocks : List Block
  sys_ninit : Int
  env_ninit : Int
  log : List Event
  deriving DecidableEq, Repr

/-- The outcome of a call: the error code and the container afterwards. -/
abbrev Outcome := PetscErrorCode × Container

/-- The container right after construction for `N` sites (the member initializers). -/
def Container.fresh (N : Int) (rank : Int) (no_symm do_save_dir : Bool) : Container :=
  { num_sites := N, mpi_rank := rank, warmed_up := false, no_symm := no_symm,
    do_save_dir := do_save_dir, num_sys_blocks := 0, sys_blocks := [],
    sys_ninit := 0, env_ninit := 0, log := [] }

/-- Append an event to the log. -/
def Container.emit (c : Container) (e : Event) : Container :=
  { c with log := c.log ++ [e] }

/-- Read `sys_blocks[i]`. -/
def Container.blk (c : Container) (i : Int) : Block :=
  if 0 ≤ i then c.sys_blocks.getD i.toNat Block.empty else Block.empty

/-- Overwrite `sys_blocks[i]`. -/
def Container.setBlk (c : Container) (i : Int) (b : Block) : Container :=
  if 0 ≤ i then { c with sys_blocks := c.sys_blocks.set i.toNat b } else c

/-- A collaborator call followed by `CHKERRQ`: the call is logged; if it fails the error
is returned at once, otherwise the continuation runs. -/
def call (E : Collab) (e : Event) (c : Container) (k : Container → Outcome) : Outcome :=
  if E.ok e then k (c.emit e) else (1, c.emit e)

/-- The `ierr = f(...); CHKERRQ(ierr);` idiom for a modelled function. -/
def chk (r : Outcome) (k : Container → Outcome) : Outcome :=
  if r.1 = 0 then k r.2 else r

/-- Insertion into the ascending, duplicate-free element list of a `std::set<PetscInt>`. -/
def setInsert (x : Int) : List Int → List Int
  | [] => [x]
  | y :: ys => if x < y then x :: y :: ys else if x = y then y :: ys else y :: setInsert x ys

/-- The elements of a `std::set<PetscInt>` built from an initializer list, in iteration
order: ascending, without duplicates. -/
def stdSet (l : List Int) : List Int :=
  l.foldl (fun s x => setInsert x s) []

/-- The loop `for(idx = lo; idx < hi; ++idx) sys_blocks[idx].EnsureSaved();` with `fuel`
iterations available. -/
def saveRange (E : Collab) : Nat → Int → Int → Container → Outcome
  | 0, _, _, c => (0, c)
  | fuel + 1, idx, hi, c =>
    if idx < hi then
      call E (.save idx) c fun c => saveRange E fuel (idx + 1) hi c
    else (0, c)

/-- The loop over the active set in `SysBlocksActive`; returns the final `sys_idx` through
the continuation. -/
def activeLoop (E : Collab) : List Int → Int → Container → (Int → Container → Outcome) → Outcome
  | [], sys_idx, c, k => k sys_idx c
  | act :: rest, sys_idx, c, k =>
    chk (saveRange E (act - sys_idx).toNat sys_idx act c) fun c =>
    call E (.retrieve act) c fun c =>
    activeLoop E rest (act + 1) c k

/-- The method `SysBlocksActive`: ensure that required blocks are loaded while unrequired blocks are
saved. -/
def SysBlocksActive (E : Collab) (SysIdx : List Int) (c : Container) : Outcome :=
  activeLoop E (stdSet SysIdx) 0 c fun sys_idx c =>
    saveRange E (c.sys_ninit - sys_idx).toNat sys_idx c.sys_ninit c

/-- The method `SingleDMRGStep` as the scheduler sees it: the blocks are passed by their slots in
`sys_blocks` (two references are the same object exactly when the slots are equal). -/
def SingleDMRGStep (E : Collab) (insys inenv : Int) (MStates : Nat) (outsys outenv : Int)
    (c : Container) : Outcome :=
  let _ := MStates
  let c := c.emit (.step insys inenv outsys outenv)
  let flg : Bool := decide (insys = inenv)
  let NumSitesSysEnl := (c.blk insys).NumSites + E.AddSiteNumSites
  call E (.enlarge NumSitesSysEnl) c fun c =>
  let NumSitesEnvEnl :=
    if flg then NumSitesSysEnl else (c.blk inenv).NumSites + E.AddSiteNumSites
  (fun (k : Container → Outcome) =>
    if flg then k c else call E (.enlarge NumSitesEnvEnl) c k) fun c =>
  let NumSitesTotal := NumSitesSysEnl + NumSitesEnvEnl
  call E (.kronSum NumSitesTotal) c fun c =>
  call E .solve c fun c =>
  if c.no_symm then (PETSC_ERR_SUP, c) else
  call E .truncate c fun c =>
  let c := (c.setBlk outsys Block.empty).setBlk outenv Block.empty
  call E (.rotate outsys NumSitesSysEnl) c fun c =>
  let c := c.setBlk outsys ⟨true, NumSitesSysEnl⟩
  if flg then (0, c) else
  call E (.rotate outenv NumSitesEnvEnl) c fun c =>
  (0, c.setBlk outenv ⟨true, NumSitesEnvEnl⟩)

/-- A `SysBlocksActive` call guarded by `do_save_dir`. -/
def activeIfSaving (E : Collab) (SysIdx : List Int) (c : Container) : Outcome :=
  if c.do_save_dir then SysBlocksActive E SysIdx c else (0, c)

/-! ## Scheduler: `Sweep` -/

/-- The centre-to-right loop of `Sweep`, entered with loop variable `iblock`. -/
def sweepRight (E : Collab) (MStates : Nat) (min_block : Int) :
    Nat → Int → Container → Outcome
  | 0, _, c => (0, c)
  | fuel + 1, iblock, c =>
    if iblock < c.num_sites - min_block - 2 then
      let insys := iblock - 1
      let inenv := c.num_sites - iblock - 3
      let outsys := iblock
      let outenv := c.num_sites - iblock - 2
      chk (activeIfSaving E [insys, outsys, inenv, outenv] c) fun c =>
      chk (SingleDMRGStep E insys inenv MStates outsys outenv c) fun c =>
      sweepRight E MStates min_block fuel (iblock + 1) c
    else (0, c)

/-- The right-to-left loop of `Sweep`, entered with loop variable `iblock`. -/
def sweepLeft (E : Collab) (MStates : Nat) : Nat → Int → Container → Outcome
  | 0, _, c => (0, c)
  | fuel + 1, iblock, c =>
    if iblock < c.num_sites.tdiv 2 then
      let insys := c.num_sites - iblock - 3
      let inenv := iblock - 1
      let outsys := c.num_sites - iblock - 2
      let outenv := iblock
      chk (activeIfSaving E [insys, outsys, inenv, outenv] c) fun c =>
      chk (SingleDMRGStep E insys inenv MStates outsys outenv c) fun c =>
      sweepLeft E MStates fuel (iblock + 1) c
    else (0, c)

/-- The method `Sweep(MStates, MinBlock)`: the sweep stage. Each loop is given as many iterations as
its bounds allow. -/
def Sweep (E : Collab) (MStates : Nat) (MinBlock : Int) (c : Container) : Outcome :=
  if !c.warmed_up then (1, c) else
  let min_block := if MinBlock = PETSC_DEFAULT then 1 else MinBlock
  if min_block < 1 then (1, c) else
  chk (sweepRight E MStates min_block
        (c.num_sites - min_block - 2 - c.num_sites.tdiv 2).toNat (c.num_sites.tdiv 2) c) fun c =>
  chk (sweepLeft E MStates (c.num_sites.tdiv 2 - min_block).toNat min_block c) fun c =>
  (0, c)

/-! ## Scheduler: `Warmup` -/

/-- The loop `for(iblock = 0; iblock < num_sys_blocks; ++iblock)` over `Makedir`. -/
def mkdirLoop (E : Collab) : Nat → Int → Container → Outcome
  | 0, _, c => (0, c)
  | fuel + 1, iblock, c =>
    if iblock < c.num_sys_blocks then
      call E (.mkdir iblock) c fun c => mkdirLoop E fuel (iblock + 1) c
    else (0, c)

/-- The loop initializing every slot for saving. -/
def initSaveLoop (E : Collab) : Nat → Int → Container → Outcome
  | 0, _, c => (0, c)
  | fuel + 1, iblock, c =>
    if iblock < c.num_sys_blocks then
      call E (.initSave iblock) c fun c => initSaveLoop E fuel (iblock + 1) c
    else (0, c)

/-- The loop `while(sys_ninit < nsites_cluster)`: the exact initial blocks. -/
def clusterLoop (E : Collab) (nsites_cluster : Int) : Nat → Container → Outcome
  | 0, c => (0, c)
  | fuel + 1, c =>
    if c.sys_ninit < nsites_cluster then
      let NumSitesTotal := (c.blk (c.sys_ninit - 1)).NumSites + E.AddSiteNumSites
      call E (.enlargeSlot (c.sys_ninit - 1) c.sys_ninit NumSitesTotal) c fun c =>
      let c := c.setBlk c.sys_ninit ⟨true, NumSitesTotal⟩
      clusterLoop E nsites_cluster fuel { c with sys_ninit := c.sys_ninit + 1 }
    else (0, c)

/-- The environment size chosen by `Warmup` for `sys_ninit` initialized blocks. -/
def warmupEnvSites (sys_ninit nsites_cluster : Int) : Int :=
  let full_cluster := (((sys_ninit + 2).tdiv nsites_cluster) + 1) * nsites_cluster
  let env_numsites := full_cluster - sys_ninit - 2
  let env_add := ((sys_ninit - env_numsites).tdiv nsites_cluster) * nsites_cluster
  env_numsites + env_add

/-- The loop `while(sys_ninit < num_sites/2)`: the renormalization steps of the warmup. -/
def growLoop (E : Collab) (MStates : Nat) (nsites_cluster : Int) : Nat → Container → Outcome
  | 0, c => (0, c)
  | fuel + 1, c =>
    if c.sys_ninit < c.num_sites.tdiv 2 then
      let env_numsites := warmupEnvSites c.sys_ninit nsites_cluster
      if env_numsites < 1 ∨ env_numsites > c.sys_ninit then (1, c) else
      chk (activeIfSaving E
            [c.sys_ninit - 1, c.sys_ninit, env_numsites - 1, env_numsites] c) fun c =>
      chk (SingleDMRGStep E (c.sys_ninit - 1) (env_numsites - 1) MStates
            c.sys_ninit env_numsites c) fun c =>
      growLoop E MStates nsites_cluster fuel { c with sys_ninit := c.sys_ninit + 1 }
    else (0, c)

/-- The part of `Warmup` that initializes the directories for saving the block operators
(`if(do_save_dir){...}`). -/
def warmupSaveDirs (E : Collab) (c : Container) : Outcome :=
  if c.do_save_dir then
    if !E.dirExists then (1, c) else
    chk (if c.mpi_rank = 0 then mkdirLoop E c.num_sys_blocks.toNat 0 c else (0, c)) fun c =>
    initSaveLoop E c.num_sys_blocks.toNat 0 c
  else (0, c)

/-- The part of `Warmup` after the 0th system block has been initialized: the exact initial
blocks, the renormalization steps and the terminal check. -/
def warmupGrow (E : Collab) (MStates : Nat) (c : Container) : Outcome :=
  if c.num_sites.tmod 2 ≠ 0 then (1, c) else
  if E.AddSiteNumSites ≠ 1 then (1, c) else
  let nsites_cluster := E.NumEnvSites
  let nsites_cluster := if nsites_cluster.tmod 2 ≠ 0 then nsites_cluster * 2 else nsites_cluster
  chk (clusterLoop E nsites_cluster (nsites_cluster - c.sys_ninit).toNat c) fun c =>
  chk (growLoop E MStates nsites_cluster (c.num_sites.tdiv 2 - c.sys_ninit).toNat c) fun c =>
  if c.sys_ninit ≠ c.num_sites.tdiv 2 then (1, c) else
  (0, { c with env_ninit := 0, warmed_up := true })

/-- The part of `Warmup` from the initialization of the 0th system block to the end. The
subscript `sys_blocks[sys_ninit++]` advances `sys_ninit` before `Initialize` is called, so the
counter is advanced also when that call fails. -/
def warmupBlocks (E : Collab) (MStates : Nat) (c : Container) : Outcome :=
  let i := c.sys_ninit
  call E (.initSite i) { c with sys_ninit := c.sys_ninit + 1 } fun c =>
  warmupGrow E MStates (c.setBlk i ⟨true, 1⟩)

/-- The method `Warmup(MStates)`: the warmup stage. Each loop is given as many iterations as
its bounds allow. -/
def Warmup (E : Collab) (MStates : Nat) (c : Container) : Outcome :=
  if c.warmed_up then (1, c) else
  let c := { c with num_sys_blocks := c.num_sites - 1 }
  let c := { c with sys_blocks :=
    c.sys_blocks.take c.num_sys_blocks.toNat ++
      List.replicate (c.num_sys_blocks.toNat - c.sys_blocks.length) Block.empty }
  chk (warmupSaveDirs E c) fun c =>
  warmupBlocks E MStates c

/-- The quadruples `(insys, inenv, outsys, outenv)` of the renormalization steps recorded
in a log, in order. -/
def stepsOf : List Event → List (Int × Int × Int × Int)
  | [] => []
  | .step a b c d :: l => (a, b, c, d) :: stepsOf l
  | _ :: l => stepsOf l

/-- The collaborators that never fail, for a Hamiltonian with the given preferred
environment size. -/
def Collab.allOk (numEnvSites : Int) : Collab :=
  { NumEnvSites := numEnvSites, AddSiteNumSites := 1, dirExists := true, ok := fun _ => true }

/-- The integers `lo, lo+1, ..., hi-1` in increasing order. -/
def intRange (lo hi : Int) : List Int :=
  (List.range (hi - lo).toNat).map fun (t : Nat) => lo + (t : Int)

/-! ## Truncation engine: data model -/

/-- Storage for information on resulting eigenpairs of the reduced density matrices. -/
structure Eigen_t where
  /-- Eigenvalue -/
  eigval : ℚ
  /-- Index of the EPS and matrix objects in the vector sequence -/
  seqIdx : Nat
  /-- Index in the EPS object -/
  epsIdx : Nat
  /-- Index in the block's magnetization sectors -/
  blkIdx : Nat
  deriving DecidableEq, Repr

/-- Comparison operator for sorting `Eigen_t` objects by decreasing eigenvalues. -/
def greater_eigval (e1 e2 : Eigen_t) : Bool := decide (e1.eigval > e2.eigval)

/-- Comparison operator for sorting `Eigen_t` objects by increasing `blkIdx`. -/
def less_blkIdx (e1 e2 : Eigen_t) : Bool := decide (e1.blkIdx < e2.blkIdx)

/-- Stable insertion of an element that precedes, in the original sequence, every element
of the already sorted list: it moves past exactly the elements that compare strictly before
it. -/
def stable_insert {α : Type} (comp : α → α → Bool) (x : α) : List α → List α
  | [] => [x]
  | y :: ys => if comp y x then y :: stable_insert comp x ys else x :: y :: ys

/-- The library routine `std::stable_sort(first, last, comp)`, as a stable insertion sort. -/
def stable_sort {α : Type} (comp : α → α → Bool) : List α → List α
  | [] => []
  | x :: xs => stable_insert comp x (stable_sort comp xs)

/-- Modelled from the spec: the `QuantumNumbers` class (the quantum-number index of a block)
is not part of the sources; it is an ordered list of sector values with their sizes, with
derived cumulative offsets. -/
structure QuantumNumbers where
  qn_list : List ℚ
  qn_size : List Nat
  deriving DecidableEq, Repr

/-- Modelled from the spec: `Sizes(idx)`, the size of sector `idx`; `none` stands for the
sentinel `-1` of an invalid index. -/
def QuantumNumbers.Sizes (q : QuantumNumbers) (idx : Nat) : Option Nat :=
  q.qn_size.get? idx

/-- Modelled from the spec: `Offsets(idx)`, the cumulated size of the sectors before `idx`;
`none` stands for the sentinel `-1` of an invalid index. -/
def QuantumNumbers.Offsets (q : QuantumNumbers) (idx : Nat) : Option Nat :=
  if idx ≤ q.qn_size.length then some (q.qn_size.take idx).sum else none

/-- Modelled from the spec: `NumStates()`, the total number of states. -/
def QuantumNumbers.NumStates (q : QuantumNumbers) : Nat :=
  q.qn_size.sum

/-- Modelled from the spec: `List(idx)`, the value of sector `idx`. -/
def QuantumNumbers.ListAt (q : QuantumNumbers) (idx : Nat) : ℚ :=
  q.qn_list.getD idx 0

/-- Modelled from the spec: the `KronBlocks_t` context (the KronBlockIndex) is not part of
the sources; it holds the two enlarged blocks' quantum numbers, the (left sector, right
sector) pairs and the offsets of their segments. -/
structure KronBlocks_t where
  /-- The value of `LeftBlockRef().Magnetization` -/
  Left : QuantumNumbers
  /-- The value of `RightBlockRef().Magnetization` -/
  Right : QuantumNumbers
  /-- The pairs `(LeftIdx(idx), RightIdx(idx))` for `idx = 0 .. size()-1` -/
  pairs : List (Nat × Nat)
  /-- The values `Offsets(idx)` for `idx = 0 .. size()` -/
  offsets : List Nat
  /-- The value of `NumStates()` -/
  NumStates : Nat
  deriving DecidableEq, Repr

/-- A sequential dense matrix, by its dimensions and entries. -/
structure SeqDense where
  nrows : Nat
  ncols : Nat
  entry : Nat → Nat → ℚ

/-- The PETSc routine `MatCreateSeqDense(comm, m, n, data, &A)`: an `m × n` matrix over the
array `data`, which PETSc reads in column-major order. -/
def MatCreateSeqDense (m n : Nat) (data : Nat → ℚ) : SeqDense :=
  ⟨m, n, fun i j => data (i + j * m)⟩

/-- The PETSc routine `MatHermitianTranspose` for real scalars. -/
def MatHermitianTranspose (A : SeqDense) : SeqDense :=
  ⟨A.ncols, A.nrows, fun i j => A.entry j i⟩

/-- The PETSc routine `MatMatMult(A, B, ...)`: the product `A * B`. -/
def MatMatMult (A B : SeqDense) : SeqDense :=
  ⟨A.nrows, B.ncols, fun i j => ((List.range A.ncols).map fun k => A.entry i k * B.entry k j).sum⟩

/-- An eigensolver context after `EPSSolve`, as its getters report it. -/
structure EPS where
  /-- The value of `EPSGetConverged` -/
  nconv : Nat
  /-- The real and imaginary part given by `EPSGetEigenvalue(eps, i, ...)` -/
  eig : Nat → ℚ × ℚ
  /-- The eigenvector given by `EPSGetEigenpair(eps, i, ...)` -/
  vec : Nat → List ℚ

/-- A distributed matrix under assembly: its global sizes and the entries inserted with
`MatSetValues(..., INSERT_VALUES)`, in order, as `(row, column, value)`. -/
structure Mat where
  nrows : Nat
  ncols : Nat
  inserted : List (Nat × Nat × ℚ)
  deriving DecidableEq, Repr

/-- The entry of an assembled matrix: the last value inserted there, or zero. -/
def Mat.entry (A : Mat) (i j : Nat) : ℚ :=
  match A.inserted.reverse.find? (fun w => w.1 = i ∧ w.2.1 = j) with
  | some w => w.2.2
  | none => 0

/-- The columns of row `i` into which a value has been inserted. -/
def Mat.support (A : Mat) (i : Nat) : List Nat :=
  (A.inserted.filter fun w => w.1 = i).map fun w => w.2.1

/-! ## Truncation engine: `EigRDM_BlockDiag` -/

/-- The loop of `EigRDM_BlockDiag` over the converged eigenvalues, entered at `epsIdx` with
`fuel` iterations left. -/
def eigLoop (eps : EPS) (seqIdx blkIdx : Nat) :
    Nat → Nat → List Eigen_t → Except PetscErrorCode (List Eigen_t)
  | 0, _, eigList => .ok eigList
  | fuel + 1, epsIdx, eigList =>
    let (eigr, eigi) := eps.eig epsIdx
    if eigi ≠ 0 then .error 1 else
    eigLoop eps seqIdx blkIdx fuel (epsIdx + 1) (eigList ++ [⟨eigr, seqIdx, epsIdx, blkIdx⟩])

/-- The method `EigRDM_BlockDiag`: obtain the eigenspectrum of a diagonal block of the
reduced density matrix; `solve` is the eigensolver collaborator. -/
def EigRDM_BlockDiag (solve : SeqDense → EPS) (matin : SeqDense) (seqIdx blkIdx : Nat)
    (eigList : List Eigen_t) : Except PetscErrorCode (List Eigen_t × EPS) :=
  if matin.nrows ≠ matin.ncols then .error 1 else
  let eps := solve matin
  if eps.nconv ≠ matin.nrows then .error 1 else
  match eigLoop eps seqIdx blkIdx eps.nconv 0 eigList with
  | .error e => .error e
  | .ok l => .ok (l, eps)

/-! ## Truncation engine: `FillRotation_BlockDiag` -/

/-- The local variables of the loop in `FillRotation_BlockDiag`; `prev_blkIdx = none` is the
initial `-1`. -/
structure FillState where
  idx : List Nat
  prev_blkIdx : Option Nat
  startIdx : Nat
  numStates : Nat
  rowCtr : Nat
  RotMatT : Mat
  deriving DecidableEq, Repr

/-- The call `MatSetValues(RotMatT, 1, &row, n, idx, vals, INSERT_VALUES)`. -/
def MatSetValuesRow (A : Mat) (row n : Nat) (idx : List Nat) (vals : List ℚ) : Mat :=
  { A with inserted := A.inserted ++
      (List.range n).map fun j => (row, idx.getD j 0, vals.getD j 0) }

/-- One iteration of the loop in `FillRotation_BlockDiag`. An error code `134` stands for a
failed `assert`. -/
def fillStep (eps_list : List EPS) (BlockRef : QuantumNumbers) (st : FillState)
    (eig : Eigen_t) : Except PetscErrorCode FillState :=
  match eps_list.get? eig.seqIdx with
  | none => .error 1
  | some eps =>
    let eigr := (eps.eig eig.epsIdx).1
    let vals := eps.vec eig.epsIdx
    if eigr ≠ eig.eigval then .error 1 else
    let upd : Except PetscErrorCode FillState :=
      if st.prev_blkIdx ≠ some eig.blkIdx then
        match BlockRef.Offsets eig.blkIdx, BlockRef.Sizes eig.blkIdx with
        | some startIdx, some numStates =>
          .ok { st with
            startIdx := startIdx
            numStates := numStates
            idx := ((List.range (numStates + 1)).map fun i => startIdx + i) ++
              st.idx.drop (numStates + 1)
            prev_blkIdx := some eig.blkIdx }
        | _, _ => .error 134
      else .ok st
    match upd with
    | .error e => .error e
    | .ok st =>
      .ok { st with
        RotMatT := MatSetValuesRow st.RotMatT st.rowCtr st.numStates st.idx vals
        rowCtr := st.rowCtr + 1 }

/-- The loop `for(const Eigen_t &eig: eigen_list)` of `FillRotation_BlockDiag`. -/
def fillLoop (eps_list : List EPS) (BlockRef : QuantumNumbers) :
    List Eigen_t → FillState → Except PetscErrorCode FillState
  | [], st => .ok st
  | eig :: rest, st =>
    match fillStep eps_list BlockRef st eig with
    | .error e => .error e
    | .ok st => fillLoop eps_list BlockRef rest st

/-- The method `FillRotation_BlockDiag`: fills the rotation matrix assuming that the reduced
density matrix has a block diagonal structure. -/
def FillRotation_BlockDiag (eigen_list : List Eigen_t) (eps_list : List EPS)
    (BlockRef : QuantumNumbers) (RotMatT : Mat) : Except PetscErrorCode Mat :=
  let max_qnsize := BlockRef.qn_size.foldl max 0
  let idx := List.replicate (max_qnsize + 1) 0
  match fillLoop eps_list BlockRef eigen_list ⟨idx, none, 0, 0, 0, RotMatT⟩ with
  | .error e => .error e
  | .ok st => .ok st.RotMatT

/-! ## Truncation engine: `GetTruncation` -/

/-- The PETSc macro `PetscMin(a,b)`, which is `((a)<(b)) ? (a) : (b)`. -/
def PetscMin (a b : Nat) : Nat := if a < b then a else b

/-- The lists filled by the loop over the L-R pairs in `GetTruncation`. -/
structure RdmState where
  eigen_L : List Eigen_t
  eigen_R : List Eigen_t
  eps_list_L : List EPS
  eps_list_R : List EPS

/-- The matrix `PsiT` that `GetTruncation` creates over the segment starting at `Istart` of
the array `v` of the ground-state vector. -/
def segPsiT (v : List ℚ) (Istart N_L N_R : Nat) : SeqDense :=
  MatCreateSeqDense N_R N_L fun k => v.getD (Istart + k) 0

/-- The matrix `Psi` of a segment. -/
def segPsi (v : List ℚ) (Istart N_L N_R : Nat) : SeqDense :=
  MatHermitianTranspose (segPsiT v Istart N_L N_R)

/-- The diagonal block `rdmd_L` of the left reduced density matrix of a segment. -/
def segRdmL (v : List ℚ) (Istart N_L N_R : Nat) : SeqDense :=
  MatMatMult (segPsi v Istart N_L N_R) (segPsiT v Istart N_L N_R)

/-- The diagonal block `rdmd_R` of the right reduced density matrix of a segment. -/
def segRdmR (v : List ℚ) (Istart N_L N_R : Nat) : SeqDense :=
  MatMatMult (segPsiT v Istart N_L N_R) (segPsi v Istart N_L N_R)

/-- One iteration of the loop over the L-R pairs in `GetTruncation`. -/
def rdmStep (solve : SeqDense → EPS) (KronBlocks : KronBlocks_t) (v : List ℚ) (idx : Nat)
    (st : RdmState) : Except PetscErrorCode RdmState :=
  let Istart := KronBlocks.offsets.getD idx 0
  let Iend := KronBlocks.offsets.getD (idx + 1) 0
  let Idx_L := (KronBlocks.pairs.getD idx (0, 0)).1
  let Idx_R := (KronBlocks.pairs.getD idx (0, 0)).2
  match KronBlocks.Left.Sizes Idx_L, KronBlocks.Right.Sizes Idx_R with
  | some N_L, some N_R =>
    if (Iend : Int) - (Istart : Int) ≠ (N_L : Int) * (N_R : Int) then .error 1 else
    let rdmd_L := segRdmL v Istart N_L N_R
    let rdmd_R := segRdmR v Istart N_L N_R
    if rdmd_L.nrows ≠ N_L then .error 1 else
    if rdmd_L.ncols ≠ N_L then .error 1 else
    if rdmd_R.nrows ≠ N_R then .error 1 else
    if rdmd_R.ncols ≠ N_R then .error 1 else
    match EigRDM_BlockDiag solve rdmd_L idx Idx_L st.eigen_L with
    | .error e => .error e
    | .ok (eigen_L, eps_L) =>
      match EigRDM_BlockDiag solve rdmd_R idx Idx_R st.eigen_R with
      | .error e => .error e
      | .ok (eigen_R, eps_R) =>
        .ok ⟨eigen_L, eigen_R, st.eps_list_L ++ [eps_L], st.eps_list_R ++ [eps_R]⟩
  | _, _ => .error 1

/-- The loop `for(idx = 0; idx < KronBlocks.size(); ++idx)`, entered at `idx` with `fuel`
iterations left. -/
def rdmLoop (solve : SeqDense → EPS) (KronBlocks : KronBlocks_t) (v : List ℚ) :
    Nat → Nat → RdmState → Except PetscErrorCode RdmState
  | 0, _, st => .ok st
  | fuel + 1, idx, st =>
    match rdmStep solve KronBlocks v idx st with
    | .error e => .error e
    | .ok st => rdmLoop solve KronBlocks v fuel (idx + 1) st

/-- The ranking step: sort the eigenvalue list in descending order. -/
def rankEigen (eigen : List Eigen_t) : List Eigen_t :=
  stable_sort greater_eigval eigen

/-- The number `m` of states to retain. -/
def numRetained (MStates : Nat) (eigen : List Eigen_t) : Nat :=
  PetscMin MStates (rankEigen eigen).length

/-- The retained records: take only the first `m` states of the ranked list
(`eigen.resize(m)`) and sort in ascending order of `blkIdx`. -/
def retainEigen (MStates : Nat) (eigen : List Eigen_t) : List Eigen_t :=
  stable_sort less_blkIdx ((rankEigen eigen).take (numRetained MStates eigen))

/-- The truncation error loop: `TruncErr = 1.0; for(eig) TruncErr -= (eig.eigval > 0) *
eig.eigval;`. -/
def truncErr (eigen : List Eigen_t) : ℚ :=
  eigen.foldl (fun err eig => err - (if eig.eigval > 0 then 1 else 0) * eig.eigval) 1

/-- The update `BlockIdxs[k] += 1` of a `std::map`, kept as its ascending list of
(key, value) pairs; a missing key is inserted with value zero first. -/
def mapIncr (k : Nat) : List (Nat × Nat) → List (Nat × Nat)
  | [] => [(k, 1)]
  | (k', n) :: rest =>
    if k < k' then (k, 1) :: (k', n) :: rest
    else if k = k' then (k', n + 1) :: rest
    else (k', n) :: mapIncr k rest

/-- The map `BlockIdxs` after `for(eig: eigen) BlockIdxs[eig.blkIdx] += 1;`. -/
def BlockIdxs (eigen : List Eigen_t) : List (Nat × Nat) :=
  eigen.foldl (fun m eig => mapIncr eig.blkIdx m) []

/-- The quantum numbers of the truncated block, from the retained records and the quantum
numbers of the enlarged block. -/
def truncQN (parent : QuantumNumbers) (eigen : List Eigen_t) : QuantumNumbers :=
  ⟨(BlockIdxs eigen).map fun kv => parent.ListAt kv.1, (BlockIdxs eigen).map fun kv => kv.2⟩

/-- The results of `GetTruncation`. -/
structure Truncation where
  RotMatT_L : Mat
  QN_L : QuantumNumbers
  TruncErr_L : ℚ
  RotMatT_R : Mat
  QN_R : QuantumNumbers
  TruncErr_R : ℚ
  deriving DecidableEq, Repr

/-- The part of `GetTruncation` for one side, after the eigendecomposition: the rotation
matrix, the quantum numbers and the truncation error. -/
def truncateSide (MStates : Nat) (eigen : List Eigen_t) (eps_list : List EPS)
    (BlockRef : QuantumNumbers) : Except PetscErrorCode (Mat × QuantumNumbers × ℚ) :=
  let m := numRetained MStates eigen
  let NStates := BlockRef.NumStates
  let RotMatT : Mat := ⟨m, NStates, []⟩
  let eigen := retainEigen MStates eigen
  match FillRotation_BlockDiag eigen eps_list BlockRef RotMatT with
  | .error e => .error e
  | .ok RotMatT => .ok (RotMatT, truncQN BlockRef eigen, truncErr eigen)

/-- The method `GetTruncation`: obtain the rotation matrices for the truncation step from
the ground state vector, as computed on the root process and broadcast. -/
def GetTruncation (no_symm : Bool) (solve : SeqDense → EPS) (KronBlocks : KronBlocks_t)
    (gsv_r : List ℚ) (MStates : Nat) : Except PetscErrorCode Truncation :=
  if no_symm then .error PETSC_ERR_SUP else
  if KronBlocks.NumStates ≠ gsv_r.length then .error 1 else
  match rdmLoop solve KronBlocks gsv_r KronBlocks.pairs.length 0 ⟨[], [], [], []⟩ with
  | .error e => .error e
  | .ok st =>
    match truncateSide MStates st.eigen_L st.eps_list_L KronBlocks.Left with
    | .error e => .error e
    | .ok (RotMatT_L, QN_L, TruncErr_L) =>
      match truncateSide MStates st.eigen_R st.eps_list_R KronBlocks.Right with
      | .error e => .error e
      | .ok (RotMatT_R, QN_R, TruncErr_R) =>
        .ok ⟨RotMatT_L, QN_L, TruncErr_L, RotMatT_R, QN_R, TruncErr_R⟩

/-- The cached block data in the loop state agree with the quantum numbers. -/
def FillInv (BlockRef : QuantumNumbers) (st : FillState) : Prop :=
  ∀ b, st.prev_blkIdx = some b →
    BlockRef.Offsets b = some st.startIdx ∧ BlockRef.Sizes b = some st.numStates ∧
    ∀ j < st.numStates, st.idx.getD j 0 = st.startIdx + j

/-- The entries that the claim places in row `row` for the record `e`. -/
def specRow (eps_list : List EPS) (BlockRef : QuantumNumbers) (row : Nat) (e : Eigen_t) :
    List (Nat × Nat × ℚ) :=
  match eps_list.get? e.seqIdx, BlockRef.Offsets e.blkIdx, BlockRef.Sizes e.blkIdx with
  | some eps, some off, some n =>
    (List.range n).map fun j => (row, off + j, (eps.vec e.epsIdx).getD j 0)
  | _, _, _ => []

/-- The entries that the claim places in the rows `row, row+1, ...` for a list of records. -/
def specRows (eps_list : List EPS) (BlockRef : QuantumNumbers) :
    Nat → List Eigen_t → List (Nat × Nat × ℚ)
  | _, [] => []
  | row, e :: es => specRow eps_list BlockRef row e ++ specRows eps_list BlockRef (row + 1) es

/-- A record that `FillRotation_BlockDiag` can process: its solver context exists and
reports the recorded eigenvalue, and its sector exists. -/
def ValidRecord (eps_list : List EPS) (BlockRef : QuantumNumbers) (e : Eigen_t) : Prop :=
  e.blkIdx < BlockRef.qn_size.length ∧
    ∃ eps, eps_list.get? e.seqIdx = some eps ∧ (eps.eig e.epsIdx).1 = e.eigval

/-- The value stored under key `k` in a map given by its (key, value) pairs; zero when the
key is absent. -/
def mapGet (m : List (Nat × Nat)) (k : Nat) : Nat :=
  ((m.filter fun kv => decide (kv.1 = k)).map fun kv => kv.2).sum

/-- The basis labelling that a list of (sector, size) pairs stands for: each sector repeated
as many times as its size, in order. -/
def expandSectors {β : Type} (m : List (β × Nat)) : List β :=
  m.flatMap fun kv => List.replicate kv.2 kv.1

/-- The matrix `Ψ` of the claim for a segment: `Ψ[l][r] = v[Istart + l*N_R + r]`. -/
def specPsi (v : List ℚ) (Istart N_L N_R : Nat) : Matrix (Fin N_L) (Fin N_R) ℚ :=
  fun l r => v.getD (Istart + l.val * N_R + r.val) 0

/-- Example data: the solver contexts of three segments whose reduced density matrices are
`[0]`, `diag(1, 0)` and `[0]`, with unit eigenvectors. -/
def exampleEps : List EPS :=
  [⟨1, fun _ => (0, 0), fun _ => [1]⟩,
   ⟨2, fun i => (if i = 0 then 1 else 0, 0), fun i => if i = 0 then [1, 0] else [0, 1]⟩,
   ⟨1, fun _ => (0, 0), fun _ => [1]⟩]

/-- Example data: the eigen-records of the three segments of `exampleEps`, in enumeration
order. -/
def exampleEigen : List Eigen_t :=
  [⟨0, 0, 0, 0⟩, ⟨1, 1, 0, 1⟩, ⟨0, 1, 1, 1⟩, ⟨0, 2, 0, 2⟩]

/-- Example data: quantum numbers with sectors of sizes 1, 2 and 1. -/
def exampleQN : QuantumNumbers := ⟨[1, 0, -1], [1, 2, 1]⟩

/-- The enumeration order of the eigen-records: segment order, then solver index. -/
def enumBefore (a b : Eigen_t) : Prop :=
  a.seqIdx < b.seqIdx ∨ (a.seqIdx = b.seqIdx ∧ a.epsIdx < b.epsIdx)

/-- A list of records in enumeration order, all of segments before `idx`. -/
def EnumInv (idx : Nat) (l : List Eigen_t) : Prop :=
  l.Pairwise enumBefore ∧ ∀ x ∈ l, x.seqIdx < idx

/-- Example data: an eigensolver collaborator that is exact on diagonal matrices. -/
def exampleSolve (A : SeqDense) : EPS :=
  ⟨A.nrows, fun i => (A.entry i i, 0),
    fun i => (List.range A.nrows).map fun j => if j = i then 1 else 0⟩

/-- Example data: the KronBlockIndex of two enlarged blocks with sectors of sizes 1, 2, 1 and
target sector 0. -/
def exampleKron : KronBlocks_t :=
  { Left := exampleQN, Right := exampleQN, pairs := [(0, 2), (1, 1), (2, 0)],
    offsets := [0, 1, 5, 6], NumStates := 6 }

/-- Example data: a ground-state vector of unit norm. -/
def exampleGsv : List ℚ := [0, 1, 0, 0, 0, 0]

/-! ## Scheduler: general lemmas -/

/-- The container `c'` differs from `c` at most in the block array and the log. -/
structure Frame (c c' : Container) : Prop where
  num_sites : c'.num_sites = c.num_sites
  mpi_rank : c'.mpi_rank = c.mpi_rank
  warmed_up : c'.warmed_up = c.warmed_up
  no_symm : c'.no_symm = c.no_symm
  do_save_dir : c'.do_save_dir = c.do_save_dir
  num_sys_blocks : c'.num_sys_blocks = c.num_sys_blocks
  sys_ninit : c'.sys_ninit = c.sys_ninit
  env_ninit : c'.env_ninit = c.env_ninit

/-- The container `c'` differs from `c` at most in the block array, the number of
initialized blocks and the log. -/
structure WFrame (c c' : Container) : Prop where
  num_sites : c'.num_sites = c.num_sites
  mpi_rank : c'.mpi_rank = c.mpi_rank
  warmed_up : c'.warmed_up = c.warmed_up
  no_symm : c'.no_symm = c.no_symm
  do_save_dir : c'.do_save_dir = c.do_save_dir
  num_sys_blocks : c'.num_sys_blocks = c.num_sys_blocks
  env_ninit : c'.env_ninit = c.env_ninit

/-- The constructor `DMRGBlockContainer(mpi_comm)` for a Hamiltonian with `numSites` sites,
on a process of the given rank and with the given command-line flags; the collaborator
calls guarded by `assert` are taken to succeed. An exception is returned as its message. -/
def construct (numSites : Int) (rank : Int) (no_symm do_save_dir : Bool) :
    Except String Container :=
  if numSites < 2 then .error "There must be at least two total sites." else
  if numSites.tmod 2 ≠ 0 then .error "Total number of sites must be even." else
  .ok (Container.fresh numSites rank no_symm do_save_dir)

/-- The accessor `NumSites()`. -/
def NumSites (c : Container) : Int := c.num_sites

/-- The accessor `SysBlock(BlockIdx)`; an exception is returned as its message. -/
def SysBlock (c : Container) (BlockIdx : Int) : Except String Block :=
  if BlockIdx ≥ c.sys_ninit then .error "Attempted to access uninitialized system block."
  else .ok (c.blk BlockIdx)

/-- The container `x` comes from `c` by changes to the block array that keep its length and
by log entries whose renormalization steps are exactly `new`. -/
def StepPost (c : Container) (new : List (Int × Int × Int × Int)) (x : Container) : Prop :=
  Frame c x ∧ x.sys_blocks.length = c.sys_blocks.length ∧
    stepsOf x.log = stepsOf c.log ++ new

/-- The container `x` comes from `c` by changes to the block array and to the number of
initialized blocks, and by log entries whose renormalization steps all satisfy `P`. -/
def ExtPost (P : Int × Int × Int × Int → Prop) (c : Container) (x : Container) : Prop :=
  WFrame c x ∧ ∃ new, stepsOf x.log = stepsOf c.log ++ new ∧ ∀ q ∈ new, P q

/-- The relations of C13 for a step of `Sweep` on a chain of `N` sites. -/
def SweepStepProp (N : Int) (q : Int × Int × Int × Int) : Prop :=
  (q.1 + 1) + (q.2.1 + 1) + 2 = N ∧ q.2.2.1 = q.1 + 1 ∧ q.2.2.2 = q.2.1 + 1

/-- The relation of C13 for a step of `Warmup` on a chain of `N` sites: the two enlarged
blocks have at most `N` sites together. -/
def WarmupStepProp (N : Int) (q : Int × Int × Int × Int) : Prop :=
  (q.1 + 2) + (q.2.1 + 2) ≤ N ∧ q.2.2.1 = q.1 + 1 ∧ q.2.2.2 = q.2.1 + 1

/-- How an outcome `r` of the warmup relates to the container `y` reached before the final
update: either `r` is a failure that returns `y`, or `r` is the success that sets the
warmed-up flag on `y`, which then has `num_sites/2` initialized blocks. -/
def WarmupEnd (y : Container) (r : Outcome) : Prop :=
  (r.1 ≠ 0 ∧ r.2 = y) ∨
  (r.1 = 0 ∧ y.sys_ninit = y.num_sites.tdiv 2 ∧
    r.2 = { y with env_ninit := 0, warmed_up := true })

/-- Every initialized system block stored at array index `i` represents `i + 1` sites. -/
def SitesInv (c : Container) : Prop :=
  ∀ i : Int, (c.blk i).init = true → (c.blk i).NumSites = i + 1

/-- The system blocks at the indices `0 .. n-1` are initialized. -/
def InitUpTo (n : Int) (c : Container) : Prop :=
  ∀ i : Int, 0 ≤ i → i < n → (c.blk i).init = true

/-- The block array has `N - 1` slots, its initialized blocks have the site counts of their
slots, and the slots `0 .. i-1` are initialized. -/
def BlocksInv (N i : Int) (x : Container) : Prop :=
  SitesInv x ∧ (x.sys_blocks.length : Int) = N - 1 ∧ InitUpTo i x

/-- The final state of a call keeps the site counts right, and a successful call also
establishes `P`. -/
def SitesPost (P : Container → Prop) (r : Outcome) : Prop :=
  SitesInv r.2 ∧ (r.1 = 0 → P r.2)

/-- The state of `Warmup` between its steps: the block array has `N - 1` slots, at least one
block is initialized, the initialized blocks have the site counts of their slots, and the
slots below `sys_ninit` that exist are initialized. -/
def WarmInv (N : Int) (x : Container) : Prop :=
  x.num_sites = N ∧ SitesInv x ∧ (x.sys_blocks.length : Int) = N - 1 ∧ 1 ≤ x.sys_ninit ∧
    InitUpTo (min x.sys_ninit (N - 1)) x

/-- The result of a successful `Warmup` or `Sweep`: the container is warmed up, the added
site is a single site, and the blocks up to the centre are initialized with the site counts
of their slots. -/
def WarmedInv (E : Collab) (N : Int) (y : Container) : Prop :=
  y.num_sites = N ∧ y.warmed_up = true ∧ E.AddSiteNumSites = 1 ∧ BlocksInv N (N.tdiv 2) y

/-- The container states reached from a constructed container by successful calls of `Warmup`
and `Sweep`, with the collaborators `E`. -/
inductive Reachable (E : Collab) : Container → Prop where
  | init (numSites rank : Int) (no_symm do_save_dir : Bool) (c : Container) :
      construct numSites rank no_symm do_save_dir = .ok c → Reachable E c
  | warmup (c : Container) (MStates : Nat) :
      Reachable E c → (Warmup E MStates c).1 = 0 → Reachable E (Warmup E MStates c).2
  | sweep (c : Container) (MStates : Nat) (MinBlock : Int) :
      Reachable E c → (Sweep E MStates MinBlock c).1 = 0 →
      Reachable E (Sweep E MStates MinBlock c).2

/-- The invariant of the reachable states: a container is either not warmed up and holds no
blocks, or it satisfies `WarmedInv`. -/
def Good (E : Collab) (c : Container) : Prop :=
  2 ≤ c.num_sites ∧
    ((c.warmed_up = false ∧ c.sys_blocks = [] ∧ c.sys_ninit = 0) ∨
      WarmedInv E c.num_sites c)

/-- The run used as an example for the residency of blocks: on eight sites, with an
environment of two sites and collaborators that never fail, a warmup with four kept states
followed by one sweep with four kept states and minimum block length one. -/
def exampleSweep (do_save_dir : Bool) : Outcome :=
  Sweep (Collab.allOk 2) 4 1 (Warmup (Collab.allOk 2) 4 (Container.fresh 8 0 false do_save_dir)).2

/-- The records that `EigRDM_BlockDiag` appends for a solver context: one for each of the
first `n` eigenvalues, in the order of the solver. -/
def eigRecords (eps : EPS) (seqIdx blkIdx : Nat) (start n : Nat) : List Eigen_t :=
  (List.range n).map fun j => ⟨(eps.eig (start + j)).1, seqIdx, start + j, blkIdx⟩

/-- The cluster size of `Warmup`: the preferred environment size of the Hamiltonian, doubled
when it is odd. -/
def clusterSize (E : Collab) : Int :=
  if E.NumEnvSites.tmod 2 ≠ 0 then E.NumEnvSites * 2 else E.NumEnvSites

/-- The quadruple of the warmup step taken with `s` initialized blocks and cluster size
`cl`. -/
def warmupStep (s cl : Int) : Int × Int × Int × Int :=
  (s - 1, warmupEnvSites s cl - 1, s, warmupEnvSites s cl)

/-- A step `(insys, inenv, outsys, outenv)` whose output slots differ from its input slots
and whose inputs are the same slot exactly when its outputs are the same slot. -/
def StepDisjoint (q : Int × Int × Int × Int) : Prop :=
  q.2.2.1 ≠ q.1 ∧ q.2.2.1 ≠ q.2.1 ∧ q.2.2.2 ≠ q.1 ∧ q.2.2.2 ≠ q.2.1 ∧
    (q.1 = q.2.1 ↔ q.2.2.1 = q.2.2.2)

/-- The slots of `sys_blocks` that a recorded call addresses. -/
def Event.slots : Event → List Int
  | .mkdir _ => []
  | .initSave iblock => [iblock]
  | .initSite slot => [slot]
  | .enlargeSlot src dst _ => [src, dst]
  | .save slot => [slot]
  | .retrieve slot => [slot]
  | .step insys inenv outsys outenv => [insys, inenv, outsys, outenv]
  | .enlarge _ => []
  | .kronSum _ => []
  | .solve => []
  | .truncate => []
  | .rotate slot _ => [slot]

/-- The output slots of a list of steps. -/
def stepOuts (l : List (Int × Int × Int × Int)) : List Int :=
  l.flatMap fun q => [q.2.2.1, q.2.2.2]

/-- A slot that holds an initialized block when a step reads it: one of the slots
`0 .. N/2 - 1` that a successful warmup leaves initialized, or a slot written before. -/
def SlotReady (N : Int) (written : List Int) (x : Int) : Prop :=
  (0 ≤ x ∧ x < N.tdiv 2) ∨ x ∈ written

/-- Every step of the list reads two ready slots, where the outputs of a step count as
written for the steps after it. -/
def InputsReady (N : Int) : List (Int × Int × Int × Int) → List Int → Prop
  | [], _ => True
  | q :: rest, written =>
    SlotReady N written q.1 ∧ SlotReady N written q.2.1 ∧
      InputsReady N rest (q.2.2.1 :: q.2.2.2 :: written)

/-- All four slots of a step are slots of the array of `N - 1` blocks. -/
def SlotsInRange (N : Int) (q : Int × Int × Int × Int) : Prop :=
  (0 ≤ q.1 ∧ q.1 ≤ N - 2) ∧ (0 ≤ q.2.1 ∧ q.2.1 ≤ N - 2) ∧
    (0 ≤ q.2.2.1 ∧ q.2.2.1 ≤ N - 2) ∧ (0 ≤ q.2.2.2 ∧ q.2.2.2 ≤ N - 2)

/-- The steps recorded since `c0` address slots of the array and read ready slots, and they
have written every slot from `N/2` up to `i - 1`. -/
def SweepTrace (N : Int) (c0 : Container) (i : Int) (x : Container) : Prop :=
  x.num_sites = N ∧ ∃ new, stepsOf x.log = stepsOf c0.log ++ new ∧
    (∀ q ∈ new, SlotsInRange N q) ∧ InputsReady N new [] ∧
    ∀ j, N.tdiv 2 ≤ j → j < i → j ∈ stepOuts new

/-- The final state of a call satisfies `A`, and that of a successful call satisfies `P`. -/
def Post2 (A P : Container → Prop) (r : Outcome) : Prop :=
  A r.2 ∧ (r.1 = 0 → P r.2)

/-- A singular value solver context after `SVDSolve`, as its getters report it. -/
structure SVD where
  /-- The value of `SVDGetConverged` -/
  nconv : Int
  /-- The singular value given by `SVDGetSingularTriplet(svd, i, &sigma, ...)` -/
  sigma : Nat → ℚ
  /-- The vector `Vr` filled by `SVDGetSingularTriplet(svd, i, &sigma, Vr, nullptr)` -/
  vec : Nat → List ℚ

/-- The call `MatSetValues(mat, m, idxm, 1, &col, vals, INSERT_VALUES)`: one column. -/
def MatSetValuesCol (A : Mat) (m : Nat) (idxm : List Nat) (col : Nat) (vals : List ℚ) : Mat :=
  { A with inserted := A.inserted ++
      (List.range m).map fun r => (idxm.getD r 0, col, vals.getD r 0) }

/-- One iteration of the loop over `Istate` of `SVDLargestStates` on the process that owns
the rows `Istart .. Iend-1`: it adds the singular value to the sum and sets the local rows
of column `Istate`; `vals` is the local part of `Vr`. -/
def svdStateStep (svd : SVD) (Istart Iend : Nat) (acc : ℚ × Mat) (Istate : Nat) : ℚ × Mat :=
  (acc.1 + svd.sigma Istate,
    MatSetValuesCol acc.2 (Iend - Istart)
      ((List.range (Iend - Istart)).map fun r => Istart + r) Istate
      ((svd.vec Istate).drop Istart))

/-- The loop `for (Istate = 0; Istate < mstates; ++Istate)` of `SVDLargestStates`. -/
def svdStatesLoop (svd : SVD) (Istart Iend : Nat) (mstates : Nat) (mat : Mat) : ℚ × Mat :=
  (List.range mstates).foldl (svdStateStep svd Istart Iend) (0, mat)

/-- The routine `SVDLargestStates(mat_in, mstates_in, error, mat, fp)` on one process:
`solve` is the singular value solver, `vecRange` and `matRange` are the ownership ranges of
`Vr` and of the new matrix. The PETSc calls that only create or assemble objects are taken
to succeed when the sizes they are given are non-negative. A negative `mstates` that passes
the checks reaches `MatSetSizes` as the number of columns; what PETSc does with it is not
determined by the sources, and the result is `none`. Otherwise the result is the error
message, or the new matrix and the truncation error. -/
def SVDLargestStates (solve : SeqDense → SVD) (vecRange matRange : Nat × Nat)
    (mat_in : SeqDense) (mstates_in : Int) : Option (Except String (Mat × ℚ)) :=
  if mat_in.nrows ≠ mat_in.ncols then some (.error "Matrix dimension mismatch.") else
  let mstates := mstates_in
  if (mat_in.nrows : Int) < mstates then some (.error "Matrix dimension too small.") else
  let svd := solve mat_in
  if svd.nconv < mstates then
    some (.error "Number of converged singular values is less than mstates.") else
  if mstates < 0 then none else
  let mat : Mat := ⟨mat_in.nrows, mstates.toNat, []⟩
  if ¬(vecRange.1 = matRange.1 ∧ vecRange.2 = matRange.2) then
    some (.error "Matrix and vector layout do not match.") else
  let r := svdStatesLoop svd vecRange.1 vecRange.2 mstates.toNat mat
  some (.ok (r.2, 1 - r.1))

/-- The clamp `M_left = std::min(M_left, mstates_)` of `iDMRG::GetRotationMatrices`. -/
def stdMin (a b : Int) : Int := if b < a then b else a

/-- Example data: the matrix `diag(1, 0, 0, 0)`. -/
def exampleDiag4 : SeqDense :=
  ⟨4, 4, fun i j => if i = 0 ∧ j = 0 then 1 else 0⟩

/-- Example data: a singular value solver that is exact on diagonal matrices with
decreasing non-negative diagonal. -/
def exampleSVD (A : SeqDense) : SVD :=
  ⟨A.nrows, fun i => A.entry i i,
    fun i => (List.range A.nrows).map fun j => if j = i then 1 else 0⟩

/-- The members of `iDMRG` that the four stages read and write: the stage flags, whether
the matrix handles are non-null, and the sizes of the two `rho_block_dict` maps. -/
structure iDMRG where
  superblock_set_ : Bool
  groundstate_solved_ : Bool
  dm_solved : Bool
  dm_svd : Bool
  do_target_Sz : Bool
  /-- Whether `dm_left` is non-null -/
  dm_left : Bool
  /-- Whether `dm_right` is non-null -/
  dm_right : Bool
  /-- Whether `U_left_` is non-null -/
  U_left_ : Bool
  /-- Whether `U_right_` is non-null -/
  U_right_ : Bool
  /-- The value of `BlockLeft_.rho_block_dict.size()` -/
  rho_left : Nat
  /-- The value of `BlockRight_.rho_block_dict.size()` -/
  rho_right : Nat
  /-- How many times the operators of `BlockLeft_` have been replaced by rotated ones -/
  left_rotations : Nat
  /-- How many times the operators of `BlockRight_` have been replaced by rotated ones -/
  right_rotations : Nat
  ntruncations_ : Int
  deriving DecidableEq, Repr

/-- The method `iDMRG::SolveGroundState`, for an eigensolver that reports `nconv` converged
eigenpairs. The PETSc calls that only create, assemble or destroy objects are taken to
succeed in the four stages. -/
def SolveGroundState (nconv : Int) (s : iDMRG) : PetscErrorCode × iDMRG :=
  if s.superblock_set_ = false then (1, s) else
  if nconv < 1 then (1, s) else
  (0, { s with groundstate_solved_ := true })

/-- The loop over `sector_indices` in `BuildReducedDensityMatrices`: each sector is given by
`indices.size()`, the size of the left sector basis and the size of the right sector basis;
the result is the number of density matrix pairs stored and whether no check failed. -/
def rdmSectorLoop : List (Nat × Nat × Nat) → Nat → Nat × Bool
  | [], n => (n, true)
  | (nidx, size_left, size_right2) :: rest, n =>
    if nidx > 0 then
      let size_right := nidx / size_left
      if size_right ≠ size_right2 then (n, false) else
      if size_left * size_right ≠ nidx then (n, false) else
      rdmSectorLoop rest (n + 1)
    else rdmSectorLoop rest n

/-- The method `iDMRG::BuildReducedDensityMatrices`; `sectors` describes `sector_indices`. -/
def BuildReducedDensityMatrices (sectors : List (Nat × Nat × Nat)) (s : iDMRG) :
    PetscErrorCode × iDMRG :=
  if s.groundstate_solved_ = false then (1, s) else
  if s.do_target_Sz then
    let r := rdmSectorLoop sectors 0
    let s1 := { s with rho_left := r.1, rho_right := r.1,
                       dm_left := if r.1 > 0 then false else s.dm_left,
                       dm_right := if r.1 > 0 then false else s.dm_right }
    if r.2 = false then (1, s1) else
    (0, { s1 with groundstate_solved_ := false, dm_solved := true })
  else
    (0, { s with dm_left := true, dm_right := true,
                 groundstate_solved_ := false, dm_solved := true })

/-- The outcome of one of the calls that build a rotation matrix
(`GetRotationMatrices_targetSz`, `SVDLargestStates`): an error before or after the output
matrix was created, or success. -/
inductive RotOutcome where
  | failed (created : Bool)
  | ok
  deriving DecidableEq, Repr

/-- The two calls of `GetRotationMatrices` that build `U_left_` and `U_right_`. -/
def rotCalls (left right : RotOutcome) (s : iDMRG) : PetscErrorCode × iDMRG :=
  match left with
  | .failed created => (1, { s with U_left_ := s.U_left_ || created })
  | .ok =>
    let s := { s with U_left_ := true }
    match right with
    | .failed created => (1, { s with U_right_ := s.U_right_ || created })
    | .ok => (0, { s with U_right_ := true })

/-- The method `iDMRG::GetRotationMatrices`. -/
def GetRotationMatrices (left right : RotOutcome) (s : iDMRG) : PetscErrorCode × iDMRG :=
  if s.do_target_Sz then
    if !s.dm_solved then (1, s) else
    if s.rho_left = 0 then (1, s) else
    if s.rho_left = 0 then (1, s) else
    let r := rotCalls left right s
    if r.1 ≠ 0 then r else
    (0, { r.2 with rho_left := 0, rho_right := 0, dm_solved := false, dm_svd := true,
                   dm_left := false, dm_right := false })
  else
    if !(s.dm_left && s.dm_right && s.dm_solved) then (1, s) else
    let r := rotCalls left right s
    if r.1 ≠ 0 then r else
    (0, { r.2 with dm_solved := false, dm_svd := true, dm_left := false, dm_right := false })

/-- The method `iDMRG::TruncateOperators`: the operators of the left block are rotated
before the rotation matrix of the right block is looked at. -/
def TruncateOperators (s : iDMRG) : PetscErrorCode × iDMRG :=
  if !(s.dm_svd && s.U_left_) then (1, s) else
  let s := { s with left_rotations := s.left_rotations + 1 }
  if !(s.dm_svd && s.U_right_) then (1, s) else
  (0, { s with right_rotations := s.right_rotations + 1, U_left_ := false, U_right_ := false,
               ntruncations_ := s.ntruncations_ + 1 })

/-- A call of one of the four stages, with what its collaborators report. -/
inductive StageCall where
  | solve (nconv : Int)
  | rdm (sectors : List (Nat × Nat × Nat))
  | rot (left right : RotOutcome)
  | trunc
  deriving DecidableEq, Repr

/-- The four stages. -/
inductive Stage where
  | solve | rdm | rot | trunc
  deriving DecidableEq, Repr

/-- The stage that a call belongs to. -/
def StageCall.stage : StageCall → Stage
  | .solve _ => .solve
  | .rdm _ => .rdm
  | .rot _ _ => .rot
  | .trunc => .trunc

/-- Run one stage call. -/
def execStage (s : iDMRG) : StageCall → PetscErrorCode × iDMRG
  | .solve nconv => SolveGroundState nconv s
  | .rdm sectors => BuildReducedDensityMatrices sectors s
  | .rot left right => GetRotationMatrices left right s
  | .trunc => TruncateOperators s

/-- Run a sequence of stage calls, whatever they return; the result is the final state and
the stage and error code of each call, in order. -/
def runStages : iDMRG → List StageCall → iDMRG × List (Stage × PetscErrorCode)
  | s, [] => (s, [])
  | s, c :: rest =>
    let r := execStage s c
    let t := runStages r.2 rest
    (t.1, (c.stage, r.1) :: t.2)

/-- Whether a result of stage `a` is pending after the recorded calls: the last call among
the successful calls of `a` and of `b` is one of `a` (`init` when there is none). -/
def pendingAfter (a b : Stage) (init : Bool) : List (Stage × PetscErrorCode) → Bool
  | [] => init
  | (st, code) :: rest =>
    pendingAfter a b
      (if code = 0 ∧ st = a then true else if code = 0 ∧ st = b then false else init) rest

/-- Whether stage `a` was called, successfully or not, after the last successful call of
`b` (`init` when neither occurred). -/
def attemptedAfter (a b : Stage) (init : Bool) : List (Stage × PetscErrorCode) → Bool
  | [] => init
  | (st, code) :: rest =>
    attemptedAfter a b
      (if st = a then true else if code = 0 ∧ st = b then false else init) rest

/-- Whether the recorded calls contain a successful call of stage `a`. -/
def succeededIn (a : Stage) (log : List (Stage × PetscErrorCode)) : Bool :=
  log.any fun e => decide (e.1 = a ∧ e.2 = 0)

/-- Example data: a state in which only the superblock flag is set, without a target
magnetization. -/
def exampleStart : iDMRG :=
  { superblock_set_ := true, groundstate_solved_ := false, dm_solved := false, dm_svd := false,
    do_target_Sz := false, dm_left := false, dm_right := false, U_left_ := false,
    U_right_ := false, rho_left := 0, rho_right := 0, left_rotations := 0,
    right_rotations := 0, ntruncations_ := 0 }

/-- Segment `idx` of the KronBlockIndex has both sector sizes and its length
`Offsets(idx+1) - Offsets(idx)` is their product. -/
def SegmentOK (KronBlocks : KronBlocks_t) (idx : Nat) : Prop :=
  ∃ N_L N_R,
    KronBlocks.Left.Sizes (KronBlocks.pairs.getD idx (0, 0)).1 = some N_L ∧
    KronBlocks.Right.Sizes (KronBlocks.pairs.getD idx (0, 0)).2 = some N_R ∧
    ((KronBlocks.offsets.getD (idx + 1) 0 : Nat) : Int) - (KronBlocks.offsets.getD idx 0 : Nat) =
      (N_L : Int) * (N_R : Int)

/-- The eigensolver converges on the matrix `A` with real eigenvalues: it reports as many
converged eigenpairs as `A` has rows, and the first that many have no imaginary part. -/
def ConvergedOn (solve : SeqDense → EPS) (A : SeqDense) : Prop :=
  (solve A).nconv = A.nrows ∧ ∀ k < A.nrows, ((solve A).eig k).2 = 0

/-- The rest of `GetTruncation` after the loop over the L-R pairs has produced `st`. -/
def truncateBoth (KronBlocks : KronBlocks_t) (MStates : Nat) (st : RdmState) :
    Except PetscErrorCode Truncation :=
  match truncateSide MStates st.eigen_L st.eps_list_L KronBlocks.Left with
  | .error e => .error e
  | .ok (RotMatT_L, QN_L, TruncErr_L) =>
    match truncateSide MStates st.eigen_R st.eps_list_R KronBlocks.Right with
    | .error e => .error e
    | .ok (RotMatT_R, QN_R, TruncErr_R) =>
      .ok ⟨RotMatT_L, QN_L, TruncErr_L, RotMatT_R, QN_R, TruncErr_R⟩

/-- An eigensolver that converges on square matrices with real eigenvalues. -/
def SolverConverges (solve : SeqDense → EPS) : Prop :=
  ∀ A : SeqDense, A.nrows = A.ncols →
    (solve A).nconv = A.nrows ∧ ∀ k < A.nrows, ((solve A).eig k).2 = 0

/-- The block `rdmd_L` of a segment as a matrix over its index range. -/
def rdmMatL (v : List ℚ) (Istart N_L N_R : Nat) : Matrix (Fin N_L) (Fin N_L) ℚ :=
  fun i j => (segRdmL v Istart N_L N_R).entry i.val j.val

/-- The block `rdmd_R` of a segment as a matrix over its index range. -/
def rdmMatR (v : List ℚ) (Istart N_L N_R : Nat) : Matrix (Fin N_R) (Fin N_R) ℚ :=
  fun i j => (segRdmR v Istart N_L N_R).entry i.val j.val

/-- The eigenvalues `eig 0 .. eig (n-1)` that a solver context reports are the exact
eigenvalues of the `n × n` matrix `A`, with multiplicity: the characteristic polynomial of
`A` is the product of the factors `X - eig k`. -/
def ExactSpectrum (n : Nat) (A : Matrix (Fin n) (Fin n) ℚ) (eps : EPS) : Prop :=
  A.charpoly = ((List.range n).map fun k => Polynomial.X - Polynomial.C (eps.eig k).1).prod

/-- The eigenvalues `eig 0 .. eig (n-1)` that a solver context reports for the `n × n`
matrix `A` are non-negative and sum to the trace of `A`. The exact eigenvalues of a positive
semi-definite matrix have both properties; the records hold rational numbers, so these two
properties are what the records can carry of eigenvalues that are irrational. -/
def TraceSpectrum (n : Nat) (A : Matrix (Fin n) (Fin n) ℚ) (eps : EPS) : Prop :=
  (∀ k < n, 0 ≤ (eps.eig k).1) ∧ ((List.range n).map fun k => (eps.eig k).1).sum = A.trace

/-- On the two reduced density matrix blocks of every segment of the state vector the
eigenvalues that the solver reports are non-negative and sum to the trace of the block. -/
def TraceOnSegments (solve : SeqDense → EPS) (KronBlocks : KronBlocks_t) (v : List ℚ) : Prop :=
  ∀ idx < KronBlocks.pairs.length, ∀ N_L N_R,
    KronBlocks.Left.Sizes (KronBlocks.pairs.getD idx (0, 0)).1 = some N_L →
    KronBlocks.Right.Sizes (KronBlocks.pairs.getD idx (0, 0)).2 = some N_R →
    TraceSpectrum N_L (rdmMatL v (KronBlocks.offsets.getD idx 0) N_L N_R)
        (solve (segRdmL v (KronBlocks.offsets.getD idx 0) N_L N_R)) ∧
      TraceSpectrum N_R (rdmMatR v (KronBlocks.offsets.getD idx 0) N_L N_R)
        (solve (segRdmR v (KronBlocks.offsets.getD idx 0) N_L N_R))

/-- Example data: the KronBlockIndex of two enlarged blocks with one sector of size 2 each. -/
def exampleKron2 : KronBlocks_t :=
  { Left := ⟨[0], [2]⟩, Right := ⟨[0], [2]⟩, pairs := [(0, 0)], offsets := [0, 4],
    NumStates := 4 }

/-- Example data: a ground-state vector of unit norm whose reduced density matrices
`[[288, 84], [84, 337]] / 625` have the eigenvalues `16/25` and `9/25`. -/
def exampleGsvRot : List ℚ := [84 / 125, 12 / 125, 12 / 125, 91 / 125]

/-- Example data: a ground-state vector of unit norm whose reduced density matrices
`[[5, 2], [2, 4]] / 9` have irrational eigenvalues. -/
def exampleGsvThirds : List ℚ := [1 / 3, 2 / 3, 2 / 3, 0]

/-- Example data: an eigensolver that reports the eigenvalues `e0`, `e1` with the
eigenvectors `v0`, `v1`. -/
def exampleSolve2 (e0 e1 : ℚ) (v0 v1 : List ℚ) (A : SeqDense) : EPS :=
  ⟨A.nrows, fun k => (if k = 0 then e0 else e1, 0), fun k => if k = 0 then v0 else v1⟩

/-- Example data: the exact eigenpairs of the reduced density matrices of `exampleGsvRot`. -/
def exampleSolveRot : SeqDense → EPS :=
  exampleSolve2 (16 / 25) (9 / 25) [3 / 5, 4 / 5] [-4 / 5, 3 / 5]

/-- Example data: the eigenvalues of the reduced density matrices of `exampleGsvThirds`
rounded to four decimals, with rounded eigenvectors. -/
def exampleSolveThirds : SeqDense → EPS :=
  exampleSolve2 (7291 / 10000) (2709 / 10000) [4 / 5, 3 / 5] [-3 / 5, 4 / 5]

/-- The state of one side of the loop over the L-R pairs before segment `idx`, whose entries
start at `off`: one solver context per segment, every record usable by
`FillRotation_BlockDiag`, every eigenvalue non-negative, and the eigenvalues sum to the
weight of the entries before `off`. -/
def SideInv (BlockRef : QuantumNumbers) (v : List ℚ) (off idx : Nat) (eigen : List Eigen_t)
    (eps_list : List EPS) : Prop :=
  eps_list.length = idx ∧
    (∀ e ∈ eigen, ValidRecord eps_list BlockRef e) ∧
    (∀ e ∈ eigen, 0 ≤ e.eigval) ∧
    (eigen.map fun e => e.eigval).sum =
      ((List.range off).map fun k => v.getD k 0 * v.getD k 0).sum

theorem Frame.frefl (c : Container) : Frame c c :=
  ⟨rfl, rfl, rfl, rfl, rfl, rfl, rfl, rfl⟩

theorem Frame.ftrans {a b c : Container} (h₁ : Frame a b) (h₂ : Frame b c) : Frame a c :=
  ⟨h₂.num_sites.trans h₁.num_sites, h₂.mpi_rank.trans h₁.mpi_rank,
   h₂.warmed_up.trans h₁.warmed_up, h₂.no_symm.trans h₁.no_symm,
   h₂.do_save_dir.trans h₁.do_save_dir, h₂.num_sys_blocks.trans h₁.num_sys_blocks,
   h₂.sys_ninit.trans h₁.sys_ninit, h₂.env_ninit.trans h₁.env_ninit⟩

theorem Frame.of_emit (c : Container) (e : Event) : Frame c (c.emit e) :=
  ⟨rfl, rfl, rfl, rfl, rfl, rfl, rfl, rfl⟩

theorem Frame.of_setBlk (c : Container) (i : Int) (b : Block) : Frame c (c.setBlk i b) := by
  unfold Container.setBlk
  split
  · exact ⟨rfl, rfl, rfl, rfl, rfl, rfl, rfl, rfl⟩
  · exact Frame.frefl c

@[simp] theorem num_sites_emit (c : Container) (e : Event) : (c.emit e).num_sites = c.num_sites := rfl

@[simp] theorem num_sites_setBlk (c : Container) (i : Int) (b : Block) :
    (c.setBlk i b).num_sites = c.num_sites := (Frame.of_setBlk c i b).num_sites

@[simp] theorem mpi_rank_emit (c : Container) (e : Event) : (c.emit e).mpi_rank = c.mpi_rank := rfl

@[simp] theorem mpi_rank_setBlk (c : Container) (i : Int) (b : Block) :
    (c.setBlk i b).mpi_rank = c.mpi_rank := (Frame.of_setBlk c i b).mpi_rank

@[simp] theorem warmed_up_emit (c : Container) (e : Event) : (c.emit e).warmed_up = c.warmed_up := rfl

@[simp] theorem warmed_up_setBlk (c : Container) (i : Int) (b : Block) :
    (c.setBlk i b).warmed_up = c.warmed_up := (Frame.of_setBlk c i b).warmed_up

@[simp] theorem no_symm_emit (c : Container) (e : Event) : (c.emit e).no_symm = c.no_symm := rfl

@[simp] theorem no_symm_setBlk (c : Container) (i : Int) (b : Block) :
    (c.setBlk i b).no_symm = c.no_symm := (Frame.of_setBlk c i b).no_symm

@[simp] theorem do_save_dir_emit (c : Container) (e : Event) : (c.emit e).do_save_dir = c.do_save_dir := rfl

@[simp] theorem do_save_dir_setBlk (c : Container) (i : Int) (b : Block) :
    (c.setBlk i b).do_save_dir = c.do_save_dir := (Frame.of_setBlk c i b).do_save_dir

@[simp] theorem num_sys_blocks_emit (c : Container) (e : Event) : (c.emit e).num_sys_blocks = c.num_sys_blocks := rfl

@[simp] theorem num_sys_blocks_setBlk (c : Container) (i : Int) (b : Block) :
    (c.setBlk i b).num_sys_blocks = c.num_sys_blocks := (Frame.of_setBlk c i b).num_sys_blocks

@[simp] theorem sys_ninit_emit (c : Container) (e : Event) : (c.emit e).sys_ninit = c.sys_ninit := rfl

@[simp] theorem sys_ninit_setBlk (c : Container) (i : Int) (b : Block) :
    (c.setBlk i b).sys_ninit = c.sys_ninit := (Frame.of_setBlk c i b).sys_ninit

@[simp] theorem env_ninit_emit (c : Container) (e : Event) : (c.emit e).env_ninit = c.env_ninit := rfl

@[simp] theorem env_ninit_setBlk (c : Container) (i : Int) (b : Block) :
    (c.setBlk i b).env_ninit = c.env_ninit := (Frame.of_setBlk c i b).env_ninit

@[simp] theorem sys_blocks_emit (c : Container) (e : Event) :
    (c.emit e).sys_blocks = c.sys_blocks := rfl

@[simp] theorem log_setBlk (c : Container) (i : Int) (b : Block) : (c.setBlk i b).log = c.log := by
  unfold Container.setBlk
  split <;> rfl

@[simp] theorem log_emit (c : Container) (e : Event) : (c.emit e).log = c.log ++ [e] := rfl

theorem stepsOf_append (l₁ l₂ : List Event) :
    stepsOf (l₁ ++ l₂) = stepsOf l₁ ++ stepsOf l₂ := by
  induction l₁ with
  | nil => rfl
  | cons e l ih => cases e <;> simp [stepsOf, ih]

theorem call_ok {E : Collab} (hE : ∀ e, E.ok e = true) (e : Event) (c : Container)
    (k : Container → Outcome) : call E e c k = k (c.emit e) := by
  simp [call, hE]

theorem chk_ok {r : Outcome} {c : Container} (h : r = (0, c)) (k : Container → Outcome) :
    chk r k = k c := by
  subst h
  simp [chk]

/-- With collaborators that succeed, `saveRange` succeeds and records no step. -/
theorem saveRange_ok {E : Collab} (hE : ∀ e, E.ok e = true) (fuel : Nat) (idx hi : Int)
    (c : Container) :
    ∃ c', saveRange E fuel idx hi c = (0, c') ∧ Frame c c' ∧
      c'.sys_blocks = c.sys_blocks ∧ stepsOf c'.log = stepsOf c.log := by
  induction fuel generalizing idx c with
  | zero => exact ⟨c, rfl, Frame.frefl c, rfl, rfl⟩
  | succ n ih =>
    unfold saveRange
    split
    · rw [call_ok hE]
      obtain ⟨c', h1, h2, h3, h4⟩ := ih (idx + 1) (c.emit (.save idx))
      refine ⟨c', h1, (Frame.of_emit c _).ftrans h2, h3, ?_⟩
      rw [h4, log_emit, stepsOf_append]
      simp [stepsOf]
    · exact ⟨c, rfl, Frame.frefl c, rfl, rfl⟩

/-- With collaborators that succeed, the active-set loop runs to its continuation on a
container that differs only by saves and retrievals in the log. -/
theorem activeLoop_ok {E : Collab} (hE : ∀ e, E.ok e = true) (l : List Int) (sys_idx : Int)
    (c : Container) (k : Int → Container → Outcome) :
    ∃ c' i, activeLoop E l sys_idx c k = k i c' ∧ Frame c c' ∧
      c'.sys_blocks = c.sys_blocks ∧ stepsOf c'.log = stepsOf c.log := by
  induction l generalizing sys_idx c with
  | nil => exact ⟨c, sys_idx, rfl, Frame.frefl c, rfl, rfl⟩
  | cons act rest ih =>
    unfold activeLoop
    obtain ⟨c1, h1, f1, b1, s1⟩ := saveRange_ok hE (act - sys_idx).toNat sys_idx act c
    rw [chk_ok h1, call_ok hE]
    obtain ⟨c2, i, h2, f2, b2, s2⟩ := ih (act + 1) (c1.emit (.retrieve act))
    refine ⟨c2, i, h2, (f1.ftrans (Frame.of_emit c1 _)).ftrans f2, ?_, ?_⟩
    · rw [b2]; exact b1
    · rw [s2, log_emit, stepsOf_append, s1]
      simp [stepsOf]

theorem activeIfSaving_ok {E : Collab} (hE : ∀ e, E.ok e = true) (l : List Int)
    (c : Container) :
    ∃ c', activeIfSaving E l c = (0, c') ∧ Frame c c' ∧
      c'.sys_blocks = c.sys_blocks ∧ stepsOf c'.log = stepsOf c.log := by
  unfold activeIfSaving
  split
  · unfold SysBlocksActive
    obtain ⟨c1, i, h1, f1, b1, s1⟩ := activeLoop_ok hE (stdSet l) 0 c
      (fun sys_idx c => saveRange E (c.sys_ninit - sys_idx).toNat sys_idx c.sys_ninit c)
    obtain ⟨c2, h2, f2, b2, s2⟩ := saveRange_ok hE (c1.sys_ninit - i).toNat i c1.sys_ninit c1
    exact ⟨c2, h1.trans h2, f1.ftrans f2, b2.trans b1, s2.trans s1⟩
  · exact ⟨c, rfl, Frame.frefl c, rfl, rfl⟩

/-- With collaborators that succeed and symmetry enabled, a step succeeds and records
exactly its own quadruple. -/
theorem SingleDMRGStep_ok {E : Collab} (hE : ∀ e, E.ok e = true) (insys inenv : Int)
    (MStates : Nat) (outsys outenv : Int) (c : Container) (hs : c.no_symm = false) :
    ∃ c', SingleDMRGStep E insys inenv MStates outsys outenv c = (0, c') ∧ Frame c c' ∧
      stepsOf c'.log = stepsOf c.log ++ [(insys, inenv, outsys, outenv)] := by
  unfold SingleDMRGStep
  by_cases hflg : insys = inenv
  · simp only [hflg, decide_True, if_true, call_ok hE]
    rw [if_neg (by simp [hs])]
    refine ⟨_, rfl, ⟨?_, ?_, ?_, ?_, ?_, ?_, ?_, ?_⟩, ?_⟩ <;>
      simp [stepsOf_append, stepsOf]
  · simp only [hflg, decide_False, if_false, call_ok hE, Bool.false_eq_true]
    rw [if_neg (by simp [hs])]
    refine ⟨_, rfl, ⟨?_, ?_, ?_, ?_, ?_, ?_, ?_, ?_⟩, ?_⟩ <;>
      simp [stepsOf_append, stepsOf]

theorem range_succ_map_shift {β : Type} (f : Int → β) (lo : Int) (n : Nat) :
    (List.range (n + 1)).map (fun t : Nat => f (lo + (t : Int))) =
      f lo :: (List.range n).map (fun t : Nat => f (lo + 1 + (t : Int))) := by
  rw [List.range_succ_eq_map, List.map_cons, List.map_map]
  simp only [Nat.cast_zero, add_zero, List.cons.injEq, true_and]
  apply List.map_congr_left
  intro t _
  simp only [Function.comp, Nat.succ_eq_add_one, Nat.cast_add, Nat.cast_one]
  congr 1
  ring

/-- The centre-to-right loop with succeeding collaborators: when `fuel` is the number of
values left for `iblock`, the loop succeeds and records one step per value. -/
theorem sweepRight_ok {E : Collab} (hE : ∀ e, E.ok e = true) (MStates : Nat) (mb : Int)
    (fuel : Nat) (iblock : Int) (c : Container) (hs : c.no_symm = false)
    (hf : (c.num_sites - mb - 2 - iblock).toNat = fuel) :
    ∃ c', sweepRight E MStates mb fuel iblock c = (0, c') ∧ Frame c c' ∧
      stepsOf c'.log = stepsOf c.log ++ (List.range fuel).map (fun t : Nat =>
        (fun i : Int => (i - 1, c.num_sites - i - 3, i, c.num_sites - i - 2))
          (iblock + (t : Int))) := by
  induction fuel generalizing iblock c with
  | zero => exact ⟨c, rfl, Frame.frefl c, by simp⟩
  | succ n ih =>
    unfold sweepRight
    rw [if_pos (by omega)]
    obtain ⟨c1, h1, f1, _, s1⟩ := activeIfSaving_ok hE
      [iblock - 1, iblock, c.num_sites - iblock - 3, c.num_sites - iblock - 2] c
    simp only []
    rw [chk_ok h1]
    obtain ⟨c2, h2, f2, s2⟩ := SingleDMRGStep_ok hE (iblock - 1) (c.num_sites - iblock - 3)
      MStates iblock (c.num_sites - iblock - 2) c1 (f1.no_symm.trans hs)
    rw [chk_ok h2]
    have f12 := f1.ftrans f2
    obtain ⟨c3, h3, f3, s3⟩ := ih (iblock + 1) c2 (f12.no_symm.trans hs)
      (by rw [f12.num_sites]; omega)
    refine ⟨c3, h3, f12.ftrans f3, ?_⟩
    rw [s3, s2, s1, f12.num_sites, List.append_assoc]
    congr 1
    exact (range_succ_map_shift
      (fun i : Int => (i - 1, c.num_sites - i - 3, i, c.num_sites - i - 2)) iblock n).symm

/-- The right-to-left loop with succeeding collaborators. -/
theorem sweepLeft_ok {E : Collab} (hE : ∀ e, E.ok e = true) (MStates : Nat)
    (fuel : Nat) (iblock : Int) (c : Container) (hs : c.no_symm = false)
    (hf : (c.num_sites.tdiv 2 - iblock).toNat = fuel) :
    ∃ c', sweepLeft E MStates fuel iblock c = (0, c') ∧ Frame c c' ∧
      stepsOf c'.log = stepsOf c.log ++ (List.range fuel).map (fun t : Nat =>
        (fun i : Int => (c.num_sites - i - 3, i - 1, c.num_sites - i - 2, i))
          (iblock + (t : Int))) := by
  induction fuel generalizing iblock c with
  | zero => exact ⟨c, rfl, Frame.frefl c, by simp⟩
  | succ n ih =>
    unfold sweepLeft
    rw [if_pos (by omega)]
    obtain ⟨c1, h1, f1, _, s1⟩ := activeIfSaving_ok hE
      [c.num_sites - iblock - 3, c.num_sites - iblock - 2, iblock - 1, iblock] c
    simp only []
    rw [chk_ok h1]
    obtain ⟨c2, h2, f2, s2⟩ := SingleDMRGStep_ok hE (c.num_sites - iblock - 3) (iblock - 1)
      MStates (c.num_sites - iblock - 2) iblock c1 (f1.no_symm.trans hs)
    rw [chk_ok h2]
    have f12 := f1.ftrans f2
    obtain ⟨c3, h3, f3, s3⟩ := ih (iblock + 1) c2 (f12.no_symm.trans hs)
      (by rw [f12.num_sites]; omega)
    refine ⟨c3, h3, f12.ftrans f3, ?_⟩
    rw [s3, s2, s1, f12.num_sites, List.append_assoc]
    congr 1
    exact (range_succ_map_shift
      (fun i : Int => (c.num_sites - i - 3, i - 1, c.num_sites - i - 2, i)) iblock n).symm

/-- For a cluster size `cl ≥ 1` and `s ≥ cl` initialized blocks, the environment size
chosen by `Warmup` lies in `1..s`. -/
theorem warmupEnvSites_bounds (s cl : Int) (hcl : 1 ≤ cl) (hs : cl ≤ s) :
    1 ≤ warmupEnvSites s cl ∧ warmupEnvSites s cl ≤ s := by
  unfold warmupEnvSites
  simp only []
  have h1 : (s + 2).tdiv cl = (s + 2) / cl := Int.tdiv_eq_ediv (by omega) (by omega)
  rw [h1]
  have e1 := Int.ediv_add_emod (s + 2) cl
  have e2 := Int.emod_nonneg (s + 2) (by omega : cl ≠ 0)
  have e3 := Int.emod_lt_of_pos (s + 2) (by omega : 0 < cl)
  have henv0 : ((s + 2) / cl + 1) * cl - s - 2 = cl - (s + 2) % cl := by
    linear_combination e1
  rw [henv0]
  generalize (s + 2) % cl = r at e2 e3
  have h2 : (s - (cl - r)).tdiv cl = (s - (cl - r)) / cl :=
    Int.tdiv_eq_ediv (by omega) (by omega)
  rw [h2]
  have e4 := Int.ediv_add_emod (s - (cl - r)) cl
  have e5 := Int.emod_nonneg (s - (cl - r)) (by omega : cl ≠ 0)
  have e6 := Int.emod_lt_of_pos (s - (cl - r)) (by omega : 0 < cl)
  have e7 : 0 ≤ (s - (cl - r)) / cl := Int.ediv_nonneg (by omega) (by omega)
  have e8 : 0 ≤ (s - (cl - r)) / cl * cl := mul_nonneg e7 (by omega)
  have e9 : (s - (cl - r)) / cl * cl = cl * ((s - (cl - r)) / cl) := mul_comm _ _
  constructor <;> omega

theorem WFrame.wrefl (c : Container) : WFrame c c :=
  ⟨rfl, rfl, rfl, rfl, rfl, rfl, rfl⟩

theorem WFrame.wtrans {a b c : Container} (h₁ : WFrame a b) (h₂ : WFrame b c) : WFrame a c :=
  ⟨h₂.num_sites.trans h₁.num_sites, h₂.mpi_rank.trans h₁.mpi_rank,
   h₂.warmed_up.trans h₁.warmed_up, h₂.no_symm.trans h₁.no_symm,
   h₂.do_save_dir.trans h₁.do_save_dir, h₂.num_sys_blocks.trans h₁.num_sys_blocks,
   h₂.env_ninit.trans h₁.env_ninit⟩

theorem Frame.toWFrame {c c' : Container} (h : Frame c c') : WFrame c c' :=
  ⟨h.num_sites, h.mpi_rank, h.warmed_up, h.no_symm, h.do_save_dir, h.num_sys_blocks,
   h.env_ninit⟩

theorem mkdirLoop_ok {E : Collab} (hE : ∀ e, E.ok e = true) (fuel : Nat) (iblock : Int)
    (c : Container) :
    ∃ c', mkdirLoop E fuel iblock c = (0, c') ∧ Frame c c' ∧
      c'.sys_blocks = c.sys_blocks ∧ stepsOf c'.log = stepsOf c.log := by
  induction fuel generalizing iblock c with
  | zero => exact ⟨c, rfl, Frame.frefl c, rfl, rfl⟩
  | succ n ih =>
    unfold mkdirLoop
    split
    · rw [call_ok hE]
      obtain ⟨c', h1, h2, h3, h4⟩ := ih (iblock + 1) (c.emit (.mkdir iblock))
      refine ⟨c', h1, (Frame.of_emit c _).ftrans h2, h3, ?_⟩
      rw [h4, log_emit, stepsOf_append]
      simp [stepsOf]
    · exact ⟨c, rfl, Frame.frefl c, rfl, rfl⟩

theorem initSaveLoop_ok {E : Collab} (hE : ∀ e, E.ok e = true) (fuel : Nat) (iblock : Int)
    (c : Container) :
    ∃ c', initSaveLoop E fuel iblock c = (0, c') ∧ Frame c c' ∧
      c'.sys_blocks = c.sys_blocks ∧ stepsOf c'.log = stepsOf c.log := by
  induction fuel generalizing iblock c with
  | zero => exact ⟨c, rfl, Frame.frefl c, rfl, rfl⟩
  | succ n ih =>
    unfold initSaveLoop
    split
    · rw [call_ok hE]
      obtain ⟨c', h1, h2, h3, h4⟩ := ih (iblock + 1) (c.emit (.initSave iblock))
      refine ⟨c', h1, (Frame.of_emit c _).ftrans h2, h3, ?_⟩
      rw [h4, log_emit, stepsOf_append]
      simp [stepsOf]
    · exact ⟨c, rfl, Frame.frefl c, rfl, rfl⟩

/-- The exact-cluster loop with succeeding collaborators: when `fuel` is the number of
blocks missing up to the cluster size, the loop succeeds and initializes that many. -/
theorem clusterLoop_ok {E : Collab} (hE : ∀ e, E.ok e = true) (cl : Int) (fuel : Nat)
    (c : Container) (hf : (cl - c.sys_ninit).toNat = fuel) :
    ∃ c', clusterLoop E cl fuel c = (0, c') ∧ WFrame c c' ∧
      c'.sys_ninit = c.sys_ninit + fuel := by
  induction fuel generalizing c with
  | zero => exact ⟨c, rfl, WFrame.wrefl c, by simp⟩
  | succ n ih =>
    unfold clusterLoop
    rw [if_pos (by omega)]
    simp only [call_ok hE]
    obtain ⟨c', h1, h2, h3⟩ := ih
      { ((c.emit (.enlargeSlot (c.sys_ninit - 1) c.sys_ninit
            ((c.blk (c.sys_ninit - 1)).NumSites + E.AddSiteNumSites))).setBlk c.sys_ninit
            ⟨true, (c.blk (c.sys_ninit - 1)).NumSites + E.AddSiteNumSites⟩) with
        sys_ninit := c.sys_ninit + 1 }
      (by simp only []; omega)
    refine ⟨c', ?_, ?_, ?_⟩
    · simpa using h1
    · refine WFrame.wtrans ?_ h2
      exact ⟨by simp, by simp, by simp, by simp, by simp, by simp, by simp⟩
    · rw [h3]
      push_cast
      ring

/-- The renormalization loop of the warmup with succeeding collaborators: started with at
least a full cluster of blocks, it succeeds and adds one block per iteration. -/
theorem growLoop_ok {E : Collab} (hE : ∀ e, E.ok e = true) (MStates : Nat) (cl : Int)
    (hcl : 1 ≤ cl) (fuel : Nat) (c : Container) (hs : c.no_symm = false)
    (hc : cl ≤ c.sys_ninit) (hf : (c.num_sites.tdiv 2 - c.sys_ninit).toNat = fuel) :
    ∃ c', growLoop E MStates cl fuel c = (0, c') ∧ WFrame c c' ∧
      c'.sys_ninit = c.sys_ninit + fuel := by
  induction fuel generalizing c with
  | zero => exact ⟨c, rfl, WFrame.wrefl c, by simp⟩
  | succ n ih =>
    unfold growLoop
    rw [if_pos (by omega)]
    have hb := warmupEnvSites_bounds c.sys_ninit cl hcl hc
    simp only []
    rw [if_neg (by omega)]
    obtain ⟨c1, h1, f1, _, _⟩ := activeIfSaving_ok hE
      [c.sys_ninit - 1, c.sys_ninit, warmupEnvSites c.sys_ninit cl - 1,
        warmupEnvSites c.sys_ninit cl] c
    rw [chk_ok h1]
    obtain ⟨c2, h2, f2, _⟩ := SingleDMRGStep_ok hE (c1.sys_ninit - 1)
      (warmupEnvSites c.sys_ninit cl - 1) MStates c1.sys_ninit
      (warmupEnvSites c.sys_ninit cl) c1 (f1.no_symm.trans hs)
    rw [chk_ok h2]
    have f12 := f1.ftrans f2
    obtain ⟨c3, h3, f3, n3⟩ := ih { c2 with sys_ninit := c2.sys_ninit + 1 }
      (f12.no_symm.trans hs)
      (by simp only []; rw [f12.sys_ninit]; omega)
      (by simp only []; rw [f12.sys_ninit, f12.num_sites]; omega)
    refine ⟨c3, h3, ?_, ?_⟩
    · refine WFrame.wtrans (WFrame.wtrans f12.toWFrame ?_) f3
      exact ⟨rfl, rfl, rfl, rfl, rfl, rfl, rfl⟩
    · rw [n3]
      simp only []
      rw [f12.sys_ninit]
      push_cast
      ring

/-! ## Truncation engine: the stable sort -/

theorem stable_insert_perm {α : Type} (comp : α → α → Bool) (x : α) (l : List α) :
    (stable_insert comp x l).Perm (x :: l) := by
  induction l with
  | nil => exact List.Perm.refl _
  | cons y ys ih =>
    unfold stable_insert
    split
    · exact (List.Perm.cons y ih).trans (List.Perm.swap x y ys)
    · exact List.Perm.refl _

/-- The stable sort returns a permutation of its input. -/
theorem stable_sort_perm {α : Type} (comp : α → α → Bool) (l : List α) :
    (stable_sort comp l).Perm l := by
  induction l with
  | nil => exact List.Perm.refl _
  | cons x xs ih =>
    unfold stable_sort
    exact (stable_insert_perm comp x _).trans (List.Perm.cons x ih)

theorem stable_sort_length {α : Type} (comp : α → α → Bool) (l : List α) :
    (stable_sort comp l).length = l.length :=
  (stable_sort_perm comp l).length_eq

theorem stable_insert_sorted {α : Type} (comp : α → α → Bool)
    (hasym : ∀ a b, comp a b = true → comp b a = false)
    (hneg : ∀ a b c, comp a b = false → comp b c = false → comp a c = false)
    (x : α) (l : List α) (h : l.Pairwise fun a b => comp b a = false) :
    (stable_insert comp x l).Pairwise fun a b => comp b a = false := by
  induction l with
  | nil => simp [stable_insert]
  | cons y ys ih =>
    rw [List.pairwise_cons] at h
    unfold stable_insert
    split
    · rename_i hyx
      rw [List.pairwise_cons]
      refine ⟨?_, ih h.2⟩
      intro z hz
      have hz' : z ∈ x :: ys := (stable_insert_perm comp x ys).mem_iff.mp hz
      rcases List.mem_cons.mp hz' with hzx | hzy
      · rw [hzx]
        exact hasym y x hyx
      · exact h.1 z hzy
    · rename_i hyx
      have hyx' : comp y x = false := by simpa using hyx
      rw [List.pairwise_cons]
      refine ⟨?_, List.pairwise_cons.mpr h⟩
      intro z hz
      rcases List.mem_cons.mp hz with hz | hz
      · rw [hz]; exact hyx'
      · exact hneg z y x (h.1 z hz) hyx'

/-- For a comparison that is asymmetric and whose negation is transitive, the stable sort
returns a list in which no element compares strictly before an earlier one. -/
theorem stable_sort_sorted {α : Type} (comp : α → α → Bool)
    (hasym : ∀ a b, comp a b = true → comp b a = false)
    (hneg : ∀ a b c, comp a b = false → comp b c = false → comp a c = false)
    (l : List α) : (stable_sort comp l).Pairwise fun a b => comp b a = false := by
  induction l with
  | nil => simp [stable_sort]
  | cons x xs ih =>
    unfold stable_sort
    exact stable_insert_sorted comp hasym hneg x _ ih

theorem stable_insert_filter {α : Type} (comp : α → α → Bool) (p : α → Bool)
    (hp : ∀ a b, p a = true → p b = true → comp a b = false) (x : α) (l : List α) :
    (stable_insert comp x l).filter p = (x :: l).filter p := by
  induction l with
  | nil => simp [stable_insert]
  | cons y ys ih =>
    unfold stable_insert
    split
    · rename_i hyx
      rw [List.filter_cons, ih]
      by_cases hy : p y = true
      · have hx : p x = false := by
          by_contra hx
          have := hp y x hy (by simpa using hx)
          rw [this] at hyx
          exact Bool.false_ne_true hyx
        simp [List.filter_cons, hx, hy]
      · simp [List.filter_cons, hy]
    · rfl

/-- Stability: the elements of a class whose members never compare strictly before one
another keep their relative order. -/
theorem stable_sort_filter {α : Type} (comp : α → α → Bool) (p : α → Bool)
    (hp : ∀ a b, p a = true → p b = true → comp a b = false) (l : List α) :
    (stable_sort comp l).filter p = l.filter p := by
  induction l with
  | nil => simp [stable_sort]
  | cons x xs ih =>
    unfold stable_sort
    rw [stable_insert_filter comp p hp, List.filter_cons, List.filter_cons, ih]

theorem greater_eigval_asymm (a b : Eigen_t) (h : greater_eigval a b = true) :
    greater_eigval b a = false := by
  simp only [greater_eigval, decide_eq_true_eq, decide_eq_false_iff_not, not_lt, gt_iff_lt] at *
  exact le_of_lt h

theorem greater_eigval_negtrans (a b c : Eigen_t) (h₁ : greater_eigval a b = false)
    (h₂ : greater_eigval b c = false) : greater_eigval a c = false := by
  simp only [greater_eigval, decide_eq_false_iff_not, not_lt, gt_iff_lt] at *
  exact le_trans h₁ h₂

theorem less_blkIdx_asymm (a b : Eigen_t) (h : less_blkIdx a b = true) :
    less_blkIdx b a = false := by
  simp only [less_blkIdx, decide_eq_true_eq, decide_eq_false_iff_not, not_lt] at *
  exact le_of_lt h

theorem less_blkIdx_negtrans (a b c : Eigen_t) (h₁ : less_blkIdx a b = false)
    (h₂ : less_blkIdx b c = false) : less_blkIdx a c = false := by
  simp only [less_blkIdx, decide_eq_false_iff_not, not_lt] at *
  exact le_trans h₂ h₁

/-- The ranked list is in descending eigenvalue order. -/
theorem rankEigen_sorted (eigen : List Eigen_t) :
    (rankEigen eigen).Pairwise fun a b => a.eigval ≥ b.eigval := by
  have h := stable_sort_sorted greater_eigval greater_eigval_asymm greater_eigval_negtrans eigen
  refine h.imp ?_
  intro a b hab
  simpa [greater_eigval] using hab

theorem rankEigen_perm (eigen : List Eigen_t) : (rankEigen eigen).Perm eigen :=
  stable_sort_perm greater_eigval eigen

theorem rankEigen_length (eigen : List Eigen_t) : (rankEigen eigen).length = eigen.length :=
  stable_sort_length greater_eigval eigen

theorem numRetained_eq (MStates : Nat) (eigen : List Eigen_t) :
    numRetained MStates eigen = min MStates eigen.length := by
  unfold numRetained PetscMin
  rw [rankEigen_length]
  split <;> omega

/-! ## Truncation engine: retained records and truncation error -/

theorem retainEigen_perm (MStates : Nat) (eigen : List Eigen_t) :
    (retainEigen MStates eigen).Perm ((rankEigen eigen).take (numRetained MStates eigen)) :=
  stable_sort_perm less_blkIdx _

theorem retainEigen_length (MStates : Nat) (eigen : List Eigen_t) :
    (retainEigen MStates eigen).length = numRetained MStates eigen := by
  rw [(retainEigen_perm MStates eigen).length_eq, List.length_take, rankEigen_length,
    numRetained_eq]
  omega

theorem retainEigen_mem (MStates : Nat) (eigen : List Eigen_t) (e : Eigen_t)
    (h : e ∈ retainEigen MStates eigen) : e ∈ eigen :=
  (rankEigen_perm eigen).mem_iff.mp
    (List.mem_of_mem_take ((retainEigen_perm MStates eigen).mem_iff.mp h))

/-- The retained records are in non-decreasing order of sector index. -/
theorem retainEigen_sorted (MStates : Nat) (eigen : List Eigen_t) :
    (retainEigen MStates eigen).Pairwise fun a b => a.blkIdx ≤ b.blkIdx := by
  have h := stable_sort_sorted less_blkIdx less_blkIdx_asymm less_blkIdx_negtrans
    ((rankEigen eigen).take (numRetained MStates eigen))
  refine h.imp ?_
  intro a b hab
  simpa [less_blkIdx] using hab

/-- The second sort keeps the records of each sector in their ranked order. -/
theorem retainEigen_filter (MStates : Nat) (eigen : List Eigen_t) (b : Nat) :
    (retainEigen MStates eigen).filter (fun e => decide (e.blkIdx = b)) =
      ((rankEigen eigen).take (numRetained MStates eigen)).filter
        (fun e => decide (e.blkIdx = b)) := by
  apply stable_sort_filter
  intro x y hx hy
  simp only [decide_eq_true_eq] at hx hy
  simp [less_blkIdx, hx, hy]

/-- The clipped eigenvalue `(eigval > 0) * eigval` that enters the truncation error. -/
theorem clip_eq_max (x : ℚ) : (if x > 0 then (1 : ℚ) else 0) * x = max x 0 := by
  split
  · rename_i h
    rw [one_mul, max_eq_left (le_of_lt h)]
  · rename_i h
    rw [zero_mul, max_eq_right (not_lt.mp h)]

theorem truncErr_foldl (err : ℚ) (eigen : List Eigen_t) :
    eigen.foldl (fun err eig => err - (if eig.eigval > 0 then 1 else 0) * eig.eigval) err =
      err - (eigen.map fun e => max e.eigval 0).sum := by
  induction eigen generalizing err with
  | nil => simp
  | cons e es ih =>
    rw [List.foldl_cons, ih, clip_eq_max, List.map_cons, List.sum_cons]
    ring

/-- The truncation error is one minus the sum of the clipped eigenvalues. -/
theorem truncErr_eq (eigen : List Eigen_t) :
    truncErr eigen = 1 - (eigen.map fun e => max e.eigval 0).sum :=
  truncErr_foldl 1 eigen

theorem clipped_sum_take_mono (l : List ℚ) (h : ∀ x ∈ l, 0 ≤ x) (m₁ m₂ : Nat)
    (hm : m₁ ≤ m₂) : (l.take m₁).sum ≤ (l.take m₂).sum := by
  have h1 : l.take m₁ = (l.take m₂).take m₁ := by
    rw [List.take_take, min_eq_left hm]
  have h2 : (l.take m₂).sum = ((l.take m₂).take m₁).sum + ((l.take m₂).drop m₁).sum := by
    rw [← List.sum_append, List.take_append_drop]
  rw [h2, ← h1]
  have h3 : 0 ≤ ((l.take m₂).drop m₁).sum := by
    apply List.sum_nonneg
    intro x hx
    exact h x (List.mem_of_mem_take (List.mem_of_mem_drop hx))
  linarith

/-- The truncation error of the retained records, in terms of the ranked list. -/
theorem truncErr_retainEigen (MStates : Nat) (eigen : List Eigen_t) :
    truncErr (retainEigen MStates eigen) =
      1 - (((rankEigen eigen).map fun e => max e.eigval 0).take
            (min MStates eigen.length)).sum := by
  rw [truncErr_eq, ((retainEigen_perm MStates eigen).map _).sum_eq, List.map_take,
    numRetained_eq]

theorem idx_fill_getD (startIdx numStates : Nat) (old : List Nat) (j : Nat)
    (hj : j < numStates) :
    (((List.range (numStates + 1)).map fun i => startIdx + i) ++
      old.drop (numStates + 1)).getD j 0 = startIdx + j := by
  rw [List.getD_eq_getElem?_getD, List.getElem?_append_left (by simp; omega)]
  simp [List.getElem?_range, hj, Nat.lt_succ_of_lt hj]

theorem fillStep_ok (eps_list : List EPS) (BlockRef : QuantumNumbers) (st : FillState)
    (e : Eigen_t) (eps : EPS) (off n : Nat) (hinv : FillInv BlockRef st)
    (heps : eps_list.get? e.seqIdx = some eps) (hval : (eps.eig e.epsIdx).1 = e.eigval)
    (hoff : BlockRef.Offsets e.blkIdx = some off) (hn : BlockRef.Sizes e.blkIdx = some n) :
    ∃ st', fillStep eps_list BlockRef st e = .ok st' ∧ FillInv BlockRef st' ∧
      st'.rowCtr = st.rowCtr + 1 ∧ st'.RotMatT.nrows = st.RotMatT.nrows ∧
      st'.RotMatT.ncols = st.RotMatT.ncols ∧
      st'.RotMatT.inserted = st.RotMatT.inserted ++
        (List.range n).map fun j => (st.rowCtr, off + j, (eps.vec e.epsIdx).getD j 0) := by
  unfold fillStep
  rw [heps]
  simp only [hval, ne_eq, not_true_eq_false, if_false]
  by_cases hprev : st.prev_blkIdx = some e.blkIdx
  · obtain ⟨h1, h2, h3⟩ := hinv _ hprev
    rw [hoff] at h1
    rw [hn] at h2
    cases h1
    cases h2
    simp only [hprev, not_true_eq_false, if_false]
    refine ⟨_, rfl, ?_, rfl, rfl, rfl, ?_⟩
    · intro b hb
      exact hinv b (hprev.trans hb)
    · simp only [MatSetValuesRow]
      congr 1
      apply List.map_congr_left
      intro j hj
      rw [h3 j (List.mem_range.mp hj)]
  · simp only [hprev, not_false_eq_true, if_true, hoff, hn]
    refine ⟨_, rfl, ?_, rfl, rfl, rfl, ?_⟩
    · intro b hb
      simp only [Option.some.injEq] at hb
      subst hb
      exact ⟨hoff, hn, fun j hj => idx_fill_getD off n st.idx j hj⟩
    · simp only [MatSetValuesRow]
      congr 1
      apply List.map_congr_left
      intro j hj
      rw [idx_fill_getD off n st.idx j (List.mem_range.mp hj)]

theorem Offsets_of_lt (q : QuantumNumbers) (b : Nat) (h : b < q.qn_size.length) :
    q.Offsets b = some (q.qn_size.take b).sum := by
  unfold QuantumNumbers.Offsets
  rw [if_pos (le_of_lt h)]

theorem Sizes_of_lt (q : QuantumNumbers) (b : Nat) (h : b < q.qn_size.length) :
    q.Sizes b = some (q.qn_size.get ⟨b, h⟩) := by
  unfold QuantumNumbers.Sizes
  exact List.get?_eq_get h

theorem fillLoop_ok (eps_list : List EPS) (BlockRef : QuantumNumbers) (l : List Eigen_t)
    (st : FillState) (hinv : FillInv BlockRef st)
    (hvalid : ∀ e ∈ l, ValidRecord eps_list BlockRef e) :
    ∃ st', fillLoop eps_list BlockRef l st = .ok st' ∧
      st'.RotMatT.nrows = st.RotMatT.nrows ∧ st'.RotMatT.ncols = st.RotMatT.ncols ∧
      st'.RotMatT.inserted = st.RotMatT.inserted ++ specRows eps_list BlockRef st.rowCtr l := by
  induction l generalizing st with
  | nil => exact ⟨st, rfl, rfl, rfl, by simp [specRows]⟩
  | cons e es ih =>
    obtain ⟨hb, eps, heps, hval⟩ := hvalid e (List.mem_cons_self _ _)
    obtain ⟨st1, h1, i1, r1, n1, c1, w1⟩ := fillStep_ok eps_list BlockRef st e eps _ _ hinv
      heps hval (Offsets_of_lt BlockRef _ hb) (Sizes_of_lt BlockRef _ hb)
    obtain ⟨st2, h2, n2, c2, w2⟩ := ih st1 i1 (fun x hx => hvalid x (List.mem_cons_of_mem _ hx))
    refine ⟨st2, ?_, n2.trans n1, c2.trans c1, ?_⟩
    · unfold fillLoop
      rw [h1]
      exact h2
    · rw [w2, w1, r1, List.append_assoc]
      congr 1
      simp only [specRows, specRow, heps, Offsets_of_lt BlockRef _ hb, Sizes_of_lt BlockRef _ hb]

/-- With valid records, `FillRotation_BlockDiag` succeeds, keeps the sizes of the matrix and
inserts exactly the rows of the claim. -/
theorem FillRotation_BlockDiag_ok (eigen_list : List Eigen_t) (eps_list : List EPS)
    (BlockRef : QuantumNumbers) (RotMatT : Mat)
    (hvalid : ∀ e ∈ eigen_list, ValidRecord eps_list BlockRef e) :
    ∃ R, FillRotation_BlockDiag eigen_list eps_list BlockRef RotMatT = .ok R ∧
      R.nrows = RotMatT.nrows ∧ R.ncols = RotMatT.ncols ∧
      R.inserted = RotMatT.inserted ++ specRows eps_list BlockRef 0 eigen_list := by
  unfold FillRotation_BlockDiag
  obtain ⟨st', h, n, c, w⟩ := fillLoop_ok eps_list BlockRef eigen_list
    ⟨List.replicate (BlockRef.qn_size.foldl max 0 + 1) 0, none, 0, 0, 0, RotMatT⟩
    (by intro b hb; cases hb) hvalid
  simp only []
  rw [h]
  exact ⟨_, rfl, n, c, w⟩

/-- Whenever `FillRotation_BlockDiag` succeeds it keeps the sizes of the matrix. -/
theorem fillStep_sizes (eps_list : List EPS) (BlockRef : QuantumNumbers) (st st' : FillState)
    (e : Eigen_t) (h : fillStep eps_list BlockRef st e = .ok st') :
    st'.RotMatT.nrows = st.RotMatT.nrows ∧ st'.RotMatT.ncols = st.RotMatT.ncols := by
  unfold fillStep at h
  split at h
  · cases h
  · simp only [] at h
    split at h
    · cases h
    · split at h
      · cases h
      · rename_i st1 hupd
        cases h
        split at hupd
        · split at hupd
          · cases hupd
            exact ⟨rfl, rfl⟩
          · cases hupd
        · cases hupd
          exact ⟨rfl, rfl⟩

theorem fillLoop_sizes (eps_list : List EPS) (BlockRef : QuantumNumbers) (l : List Eigen_t)
    (st st' : FillState) (h : fillLoop eps_list BlockRef l st = .ok st') :
    st'.RotMatT.nrows = st.RotMatT.nrows ∧ st'.RotMatT.ncols = st.RotMatT.ncols := by
  induction l generalizing st with
  | nil =>
    cases h
    exact ⟨rfl, rfl⟩
  | cons e es ih =>
    unfold fillLoop at h
    split at h
    · cases h
    · rename_i st1 h1
      obtain ⟨a, b⟩ := ih st1 h
      obtain ⟨a1, b1⟩ := fillStep_sizes eps_list BlockRef st st1 e h1
      exact ⟨a.trans a1, b.trans b1⟩

theorem FillRotation_BlockDiag_sizes (eigen_list : List Eigen_t) (eps_list : List EPS)
    (BlockRef : QuantumNumbers) (RotMatT R : Mat)
    (h : FillRotation_BlockDiag eigen_list eps_list BlockRef RotMatT = .ok R) :
    R.nrows = RotMatT.nrows ∧ R.ncols = RotMatT.ncols := by
  unfold FillRotation_BlockDiag at h
  simp only [] at h
  split at h
  · cases h
  · rename_i st hst
    cases h
    exact fillLoop_sizes eps_list BlockRef eigen_list _ st hst

theorem mapGet_mapIncr (k k' : Nat) (m : List (Nat × Nat)) :
    mapGet (mapIncr k m) k' = mapGet m k' + if k' = k then 1 else 0 := by
  induction m with
  | nil =>
    by_cases h : k = k' <;> simp [mapIncr, mapGet, h, eq_comm]
  | cons kv rest ih =>
    obtain ⟨k₀, n⟩ := kv
    unfold mapIncr
    split
    · by_cases h : k = k'
      · simp [mapGet, List.filter_cons, h]
        omega
      · have h' : ¬ k' = k := fun e => h e.symm
        simp [mapGet, List.filter_cons, h, h']
    · split
      · rename_i h1 h2
        subst h2
        by_cases h : k = k'
        · subst h
          simp [mapGet, List.filter_cons]
          omega
        · have h' : ¬ k' = k := fun e => h e.symm
          simp [mapGet, List.filter_cons, h, h']
      · rename_i h1 h2
        have : mapGet ((k₀, n) :: mapIncr k rest) k' =
            (if k₀ = k' then n else 0) + mapGet (mapIncr k rest) k' := by
          by_cases h : k₀ = k' <;> simp [mapGet, List.filter_cons, h]
        rw [this, ih]
        have : mapGet ((k₀, n) :: rest) k' = (if k₀ = k' then n else 0) + mapGet rest k' := by
          by_cases h : k₀ = k' <;> simp [mapGet, List.filter_cons, h]
        rw [this]
        omega

theorem mem_keys_mapIncr (k k' : Nat) (m : List (Nat × Nat))
    (h : k' ∈ (mapIncr k m).map Prod.fst) : k' = k ∨ k' ∈ m.map Prod.fst := by
  induction m with
  | nil => simpa [mapIncr] using h
  | cons kv rest ih =>
    obtain ⟨k₀, n⟩ := kv
    unfold mapIncr at h
    split at h
    · simpa using h
    · split at h
      · right
        simpa using h
      · simp only [List.map_cons, List.mem_cons] at h ⊢
        rcases h with h | h
        · exact Or.inr (Or.inl h)
        · rcases ih h with h | h
          · exact Or.inl h
          · exact Or.inr (Or.inr h)

/-- The keys of the map stay in strictly ascending order. -/
theorem keys_sorted_mapIncr (k : Nat) (m : List (Nat × Nat))
    (h : (m.map Prod.fst).Pairwise (· < ·)) :
    ((mapIncr k m).map Prod.fst).Pairwise (· < ·) := by
  induction m with
  | nil => simp [mapIncr]
  | cons kv rest ih =>
    obtain ⟨k₀, n⟩ := kv
    rw [List.map_cons, List.pairwise_cons] at h
    unfold mapIncr
    split
    · rename_i hlt
      rw [List.map_cons, List.pairwise_cons]
      refine ⟨?_, by rw [List.map_cons, List.pairwise_cons]; exact h⟩
      intro x hx
      rcases List.mem_cons.mp hx with hx | hx
      · rw [hx]; exact hlt
      · exact lt_trans hlt (h.1 x hx)
    · split
      · rw [List.map_cons, List.pairwise_cons]
        exact h
      · rename_i h1 h2
        rw [List.map_cons, List.pairwise_cons]
        refine ⟨?_, ih h.2⟩
        intro x hx
        rcases mem_keys_mapIncr k x rest hx with hx | hx
        · rw [hx]
          simp only [] at h1 h2 ⊢
          omega
        · exact h.1 x hx

theorem values_pos_mapIncr (k : Nat) (m : List (Nat × Nat)) (h : ∀ kv ∈ m, 1 ≤ kv.2) :
    ∀ kv ∈ mapIncr k m, 1 ≤ kv.2 := by
  induction m with
  | nil => simp [mapIncr]
  | cons kv rest ih =>
    obtain ⟨k₀, n⟩ := kv
    unfold mapIncr
    split
    · intro x hx
      rcases List.mem_cons.mp hx with hx | hx
      · rw [hx]
      · exact h x hx
    · split
      · intro x hx
        rcases List.mem_cons.mp hx with hx | hx
        · rw [hx]
          simp
        · exact h x (List.mem_cons_of_mem _ hx)
      · intro x hx
        rcases List.mem_cons.mp hx with hx | hx
        · rw [hx]
          exact h _ (List.mem_cons_self _ _)
        · exact ih (fun y hy => h y (List.mem_cons_of_mem _ hy)) x hx

theorem values_sum_mapIncr (k : Nat) (m : List (Nat × Nat)) :
    ((mapIncr k m).map Prod.snd).sum = (m.map Prod.snd).sum + 1 := by
  induction m with
  | nil => simp [mapIncr]
  | cons kv rest ih =>
    obtain ⟨k₀, n⟩ := kv
    unfold mapIncr
    split
    · simp
      omega
    · split
      · simp
        omega
      · simp only [List.map_cons, List.sum_cons, ih]
        omega

/-- Appending a record of the largest sector so far extends the labelling by that sector. -/
theorem expandSectors_mapIncr (k : Nat) (m : List (Nat × Nat))
    (hs : (m.map Prod.fst).Pairwise (· < ·)) (hk : ∀ k' ∈ m.map Prod.fst, k' ≤ k) :
    expandSectors (mapIncr k m) = expandSectors m ++ [k] := by
  induction m with
  | nil => simp [mapIncr, expandSectors]
  | cons kv rest ih =>
    obtain ⟨k₀, n⟩ := kv
    rw [List.map_cons, List.pairwise_cons] at hs
    have hk₀ : k₀ ≤ k := hk k₀ (by simp)
    unfold mapIncr
    split
    · rename_i hlt
      omega
    · split
      · rename_i h1 h2
        subst h2
        have hrest : rest = [] := by
          cases rest with
          | nil => rfl
          | cons kv' rest' =>
            have h3 := hs.1 kv'.1 (by simp)
            have h4 := hk kv'.1 (by simp)
            omega
        subst hrest
        simp [expandSectors, List.replicate_succ']
      · have := ih hs.2 (fun k' hk' => hk k' (by simp only [List.map_cons, List.mem_cons]; exact Or.inr hk'))
        simp only [expandSectors, List.flatMap_cons, List.append_assoc] at this ⊢
        rw [this]

theorem BlockIdxs_foldl_get (l : List Eigen_t) (m : List (Nat × Nat)) (k : Nat) :
    mapGet (l.foldl (fun m eig => mapIncr eig.blkIdx m) m) k =
      mapGet m k + l.countP fun e => decide (e.blkIdx = k) := by
  induction l generalizing m with
  | nil => simp
  | cons e es ih =>
    rw [List.foldl_cons, ih, mapGet_mapIncr, List.countP_cons]
    by_cases h : e.blkIdx = k
    · subst h
      simp
      omega
    · have h' : ¬ k = e.blkIdx := fun x => h x.symm
      simp [h, h']

theorem BlockIdxs_foldl_sorted (l : List Eigen_t) (m : List (Nat × Nat))
    (h : (m.map Prod.fst).Pairwise (· < ·)) :
    ((l.foldl (fun m eig => mapIncr eig.blkIdx m) m).map Prod.fst).Pairwise (· < ·) := by
  induction l generalizing m with
  | nil => exact h
  | cons e es ih => exact ih _ (keys_sorted_mapIncr e.blkIdx m h)

theorem BlockIdxs_foldl_pos (l : List Eigen_t) (m : List (Nat × Nat))
    (h : ∀ kv ∈ m, 1 ≤ kv.2) :
    ∀ kv ∈ l.foldl (fun m eig => mapIncr eig.blkIdx m) m, 1 ≤ kv.2 := by
  induction l generalizing m with
  | nil => exact h
  | cons e es ih => exact ih _ (values_pos_mapIncr e.blkIdx m h)

theorem BlockIdxs_foldl_sum (l : List Eigen_t) (m : List (Nat × Nat)) :
    ((l.foldl (fun m eig => mapIncr eig.blkIdx m) m).map Prod.snd).sum =
      (m.map Prod.snd).sum + l.length := by
  induction l generalizing m with
  | nil => simp
  | cons e es ih =>
    rw [List.foldl_cons, ih, values_sum_mapIncr, List.length_cons]
    omega

theorem BlockIdxs_foldl_expand (l : List Eigen_t) (m : List (Nat × Nat))
    (hs : (m.map Prod.fst).Pairwise (· < ·))
    (hk : ∀ k ∈ m.map Prod.fst, ∀ e ∈ l, k ≤ e.blkIdx)
    (hl : l.Pairwise fun a b => a.blkIdx ≤ b.blkIdx) :
    expandSectors (l.foldl (fun m eig => mapIncr eig.blkIdx m) m) =
      expandSectors m ++ l.map fun e => e.blkIdx := by
  induction l generalizing m with
  | nil => simp
  | cons e es ih =>
    rw [List.pairwise_cons] at hl
    rw [List.foldl_cons, ih _ (keys_sorted_mapIncr e.blkIdx m hs) ?_ hl.2,
      expandSectors_mapIncr e.blkIdx m hs (fun k hk' => hk k hk' e (List.mem_cons_self _ _))]
    · simp
    · intro k hk' x hx
      rcases mem_keys_mapIncr e.blkIdx k m hk' with h | h
      · rw [h]
        exact hl.1 x hx
      · exact hk k h x (List.mem_cons_of_mem _ hx)

/-- The keys of `BlockIdxs` are in strictly ascending order. -/
theorem BlockIdxs_sorted (l : List Eigen_t) :
    ((BlockIdxs l).map Prod.fst).Pairwise (· < ·) :=
  BlockIdxs_foldl_sorted l [] List.Pairwise.nil

/-- The value that `BlockIdxs` stores under a key is the number of records of that sector. -/
theorem BlockIdxs_get (l : List Eigen_t) (k : Nat) :
    mapGet (BlockIdxs l) k = l.countP fun e => decide (e.blkIdx = k) := by
  unfold BlockIdxs
  rw [BlockIdxs_foldl_get]
  simp [mapGet]

theorem mapGet_of_mem (m : List (Nat × Nat)) (h : (m.map Prod.fst).Pairwise (· < ·))
    (kn : Nat × Nat) (hkn : kn ∈ m) : mapGet m kn.1 = kn.2 := by
  induction m with
  | nil => cases hkn
  | cons kv rest ih =>
    rw [List.map_cons, List.pairwise_cons] at h
    rcases List.mem_cons.mp hkn with hkn | hkn
    · subst hkn
      have hrest : rest.filter (fun x => decide (x.1 = kn.1)) = [] := by
        rw [List.filter_eq_nil_iff]
        intro x hx
        have := h.1 x.1 (List.mem_map_of_mem _ hx)
        simp only [decide_eq_true_eq]
        omega
      simp [mapGet, List.filter_cons, hrest]
    · have hne : ¬ kv.1 = kn.1 := by
        have := h.1 kn.1 (List.mem_map_of_mem _ hkn)
        omega
      have := ih h.2 hkn
      simp only [mapGet, List.filter_cons, hne, decide_False, Bool.false_eq_true, if_false]
        at this ⊢
      exact this

theorem mem_keys_of_mapGet_pos (m : List (Nat × Nat)) (k : Nat) (h : 0 < mapGet m k) :
    k ∈ m.map Prod.fst := by
  unfold mapGet at h
  have hne : m.filter (fun kv => decide (kv.1 = k)) ≠ [] := by
    intro he
    rw [he] at h
    simp at h
  obtain ⟨x, hx⟩ := List.exists_mem_of_ne_nil _ hne
  rw [List.mem_filter] at hx
  have hx2 : x.1 = k := by simpa using hx.2
  rw [← hx2]
  exact List.mem_map_of_mem _ hx.1

theorem expandSectors_map {β γ : Type} (f : β → γ) (m : List (β × Nat)) :
    expandSectors (m.map fun kv => (f kv.1, kv.2)) = (expandSectors m).map f := by
  induction m with
  | nil => rfl
  | cons kv rest ih =>
    simp only [expandSectors, List.map_cons, List.flatMap_cons, List.map_append,
      List.map_replicate] at ih ⊢
    rw [ih]

theorem list_range_sum_eq_fin_sum (n : Nat) (f : Nat → ℚ) :
    ((List.range n).map f).sum = ∑ i : Fin n, f i.val := by
  rw [Fin.sum_univ_eq_sum_range]
  rfl

theorem truncateSide_ok (MStates : Nat) (eigen : List Eigen_t) (eps_list : List EPS)
    (BlockRef : QuantumNumbers) (R : Mat) (QN : QuantumNumbers) (err : ℚ)
    (h : truncateSide MStates eigen eps_list BlockRef = .ok (R, QN, err)) :
    FillRotation_BlockDiag (retainEigen MStates eigen) eps_list BlockRef
        ⟨numRetained MStates eigen, BlockRef.NumStates, []⟩ = .ok R ∧
      QN = truncQN BlockRef (retainEigen MStates eigen) ∧
      err = truncErr (retainEigen MStates eigen) := by
  unfold truncateSide at h
  simp only [] at h
  split at h
  · cases h
  · rename_i R' hR
    cases h
    exact ⟨hR, rfl, rfl⟩

/-- A successful `GetTruncation` is the result of `truncateSide` on the two record lists
that the loop over the L-R pairs produced. -/
theorem GetTruncation_ok (no_symm : Bool) (solve : SeqDense → EPS) (KronBlocks : KronBlocks_t)
    (gsv_r : List ℚ) (MStates : Nat) (T : Truncation)
    (h : GetTruncation no_symm solve KronBlocks gsv_r MStates = .ok T) :
    ∃ st, rdmLoop solve KronBlocks gsv_r KronBlocks.pairs.length 0 ⟨[], [], [], []⟩ = .ok st ∧
      truncateSide MStates st.eigen_L st.eps_list_L KronBlocks.Left =
        .ok (T.RotMatT_L, T.QN_L, T.TruncErr_L) ∧
      truncateSide MStates st.eigen_R st.eps_list_R KronBlocks.Right =
        .ok (T.RotMatT_R, T.QN_R, T.TruncErr_R) := by
  unfold GetTruncation at h
  split at h
  · cases h
  · split at h
    · cases h
    · split at h
      · cases h
      · rename_i st hst
        split at h
        · cases h
        · rename_i RL QL EL hL
          split at h
          · cases h
          · rename_i RR QR ER hR
            cases h
            exact ⟨st, hst, hL, hR⟩

/-- C3: `GetTruncation` retains on each side exactly `m = min(MStates, number of records)`
records, a rearrangement of the first `m` records of the ranked list; every retained
record's eigenvalue is at least every discarded record's eigenvalue; `m` never exceeds
`MStates`; and the transposed rotation matrix has `m` rows and as many columns as the
enlarged block has states. -/
theorem C3_retained_states (MStates : Nat) (eigen : List Eigen_t) :
    numRetained MStates eigen = min MStates eigen.length ∧
    (retainEigen MStates eigen).length = min MStates eigen.length ∧
    (retainEigen MStates eigen).Perm ((rankEigen eigen).take (min MStates eigen.length)) ∧
    (∀ a ∈ retainEigen MStates eigen,
      ∀ b ∈ (rankEigen eigen).drop (min MStates eigen.length), a.eigval ≥ b.eigval) ∧
    min MStates eigen.length ≤ MStates ∧
    (∀ (eps_list : List EPS) (BlockRef : QuantumNumbers) (R : Mat) (QN : QuantumNumbers)
      (err : ℚ), truncateSide MStates eigen eps_list BlockRef = .ok (R, QN, err) →
      R.nrows = min MStates eigen.length ∧ R.ncols = BlockRef.NumStates) := by
  have hm := numRetained_eq MStates eigen
  have hp := retainEigen_perm MStates eigen
  rw [hm] at hp
  refine ⟨hm, ?_, hp, ?_, Nat.min_le_left _ _, ?_⟩
  · rw [retainEigen_length, hm]
  · intro a ha b hb
    exact List.Sorted.rel_of_mem_take_of_mem_drop (rankEigen_sorted eigen)
      (hp.mem_iff.mp ha) hb
  · intro eps_list BlockRef R QN err h
    obtain ⟨hR, _, _⟩ := truncateSide_ok MStates eigen eps_list BlockRef R QN err h
    have hs := FillRotation_BlockDiag_sizes _ _ _ _ _ hR
    rw [hm] at hs
    exact hs

/-- C5: for every list of retained eigen-records the truncation error is one minus the sum
of `max(eigenvalue, 0)` over the list, and every retained record is one of the records as
the solver produced them (its stored eigenvalue is not clipped). -/
theorem C5_truncation_error (MStates : Nat) (eigen : List Eigen_t) :
    (∀ retained : List Eigen_t,
      truncErr retained = 1 - (retained.map fun e => max e.eigval 0).sum) ∧
    (∀ e ∈ retainEigen MStates eigen, e ∈ eigen) :=
  ⟨truncErr_eq, retainEigen_mem MStates eigen⟩

/-- C6: for a fixed list of eigen-records and `M1 ≤ M2`, the truncation error computed with
`M2` is at most the truncation error computed with `M1`. -/
theorem C6_truncation_error_monotone (eigen : List Eigen_t) (M1 M2 : Nat) (h : M1 ≤ M2) :
    truncErr (retainEigen M2 eigen) ≤ truncErr (retainEigen M1 eigen) := by
  rw [truncErr_retainEigen, truncErr_retainEigen]
  have hmono := clipped_sum_take_mono ((rankEigen eigen).map fun e => max e.eigval 0)
    (by
      intro x hx
      obtain ⟨e, _, he⟩ := List.mem_map.mp hx
      rw [← he]
      exact le_max_right _ _)
    (min M1 eigen.length) (min M2 eigen.length) (by omega)
  linarith

/-- C6 at a concrete list: keeping two states instead of one lowers the error. -/
theorem C6_truncation_error_monotone_witness :
    (1 : Nat) ≤ 2 ∧
    truncErr (retainEigen 2 [⟨0, 0, 0, 0⟩, ⟨1, 1, 0, 1⟩, ⟨0, 1, 1, 1⟩]) ≤
      truncErr (retainEigen 1 [⟨0, 0, 0, 0⟩, ⟨1, 1, 0, 1⟩, ⟨0, 1, 1, 1⟩]) :=
  ⟨by decide, C6_truncation_error_monotone _ 1 2 (by decide)⟩

/-- C7: after the second sort the retained list is a permutation of the first `m` ranked
records in non-decreasing sector index, so the records of one sector are contiguous, and
within each sector the records remain in descending eigenvalue order. -/
theorem C7_sector_sort (MStates : Nat) (eigen : List Eigen_t) :
    (retainEigen MStates eigen).Perm ((rankEigen eigen).take (numRetained MStates eigen)) ∧
    (retainEigen MStates eigen).Pairwise (fun a b => a.blkIdx ≤ b.blkIdx) ∧
    (∀ i j k : Fin (retainEigen MStates eigen).length, i < j → j < k →
      ((retainEigen MStates eigen).get i).blkIdx = ((retainEigen MStates eigen).get k).blkIdx →
      ((retainEigen MStates eigen).get j).blkIdx = ((retainEigen MStates eigen).get i).blkIdx) ∧
    (∀ b : Nat, ((retainEigen MStates eigen).filter fun e => decide (e.blkIdx = b)).Pairwise
      fun x y => x.eigval ≥ y.eigval) := by
  have hs := retainEigen_sorted MStates eigen
  refine ⟨retainEigen_perm MStates eigen, hs, ?_, ?_⟩
  · intro i j k hij hjk hik
    have h1 := List.pairwise_iff_get.mp hs i j hij
    have h2 := List.pairwise_iff_get.mp hs j k hjk
    omega
  · intro b
    rw [retainEigen_filter]
    exact ((rankEigen_sorted eigen).sublist (List.take_sublist _ _)).filter _

theorem specRow_row (eps_list : List EPS) (BlockRef : QuantumNumbers) (row : Nat)
    (e : Eigen_t) (w : Nat × Nat × ℚ) (hw : w ∈ specRow eps_list BlockRef row e) :
    w.1 = row := by
  unfold specRow at hw
  split at hw
  · obtain ⟨j, _, hj⟩ := List.mem_map.mp hw
    rw [← hj]
  · cases hw

theorem specRows_row (eps_list : List EPS) (BlockRef : QuantumNumbers) (l : List Eigen_t)
    (r0 : Nat) (w : Nat × Nat × ℚ) (hw : w ∈ specRows eps_list BlockRef r0 l) :
    r0 ≤ w.1 ∧ w.1 < r0 + l.length := by
  induction l generalizing r0 with
  | nil => cases hw
  | cons e es ih =>
    unfold specRows at hw
    rcases List.mem_append.mp hw with h | h
    · rw [specRow_row _ _ _ _ _ h, List.length_cons]
      omega
    · have := ih (r0 + 1) h
      rw [List.length_cons]
      omega

theorem specRows_filter_outside (eps_list : List EPS) (BlockRef : QuantumNumbers)
    (l : List Eigen_t) (r0 i : Nat) (h : i < r0 ∨ r0 + l.length ≤ i) :
    (specRows eps_list BlockRef r0 l).filter (fun w => decide (w.1 = i)) = [] := by
  rw [List.filter_eq_nil_iff]
  intro w hw
  have := specRows_row _ _ _ _ _ hw
  simp only [decide_eq_true_eq]
  omega

/-- The entries of row `r0 + k` among the rows of the claim are those of the `k`-th
record. -/
theorem specRows_filter (eps_list : List EPS) (BlockRef : QuantumNumbers)
    (l : List Eigen_t) (r0 k : Nat) (hk : k < l.length) :
    (specRows eps_list BlockRef r0 l).filter (fun w => decide (w.1 = r0 + k)) =
      specRow eps_list BlockRef (r0 + k) (l.get ⟨k, hk⟩) := by
  induction l generalizing r0 k with
  | nil => cases hk
  | cons e es ih =>
    unfold specRows
    rw [List.filter_append]
    cases k with
    | zero =>
      rw [specRows_filter_outside _ _ _ _ _ (Or.inl (by omega)), List.append_nil]
      have h0 : (specRow eps_list BlockRef r0 e).filter (fun w => decide (w.1 = r0 + 0)) =
          specRow eps_list BlockRef r0 e := by
        rw [List.filter_eq_self]
        intro w hw
        simp [specRow_row _ _ _ _ _ hw]
      rw [h0]
      rfl
    | succ k' =>
      have h1 : (specRow eps_list BlockRef r0 e).filter
          (fun w => decide (w.1 = r0 + (k' + 1))) = [] := by
        rw [List.filter_eq_nil_iff]
        intro w hw
        rw [specRow_row _ _ _ _ _ hw]
        simp
      rw [h1, List.nil_append]
      have h2 := ih (r0 + 1) k' (by simpa using hk)
      have h3 : r0 + 1 + k' = r0 + (k' + 1) := by omega
      rw [h3] at h2
      rw [h2]
      rfl

theorem prefix_sum_mono (l : List Nat) (a c : Nat) (h : a ≤ c) :
    (l.take a).sum ≤ (l.take c).sum := by
  have h1 : l.take a = (l.take c).take a := by
    rw [List.take_take, min_eq_left h]
  have h2 : (l.take c).sum = ((l.take c).take a).sum + ((l.take c).drop a).sum := by
    rw [← List.sum_append, List.take_append_drop]
  rw [h2, ← h1]
  omega

/-- The column ranges of two different sectors do not overlap. -/
theorem sector_ranges_disjoint (q : QuantumNumbers) (b b' off off' n n' : Nat)
    (hb : b ≠ b') (ho : q.Offsets b = some off) (ho' : q.Offsets b' = some off')
    (hn : q.Sizes b = some n) (hn' : q.Sizes b' = some n') (j j' : Nat) (hj : j < n)
    (hj' : j' < n') : off + j ≠ off' + j' := by
  have key : ∀ (b b' off off' n j j' : Nat), b < b' → q.Offsets b = some off →
      q.Offsets b' = some off' → q.Sizes b = some n → j < n → off + j < off' + j' := by
    intro b b' off off' n j j' hlt ho ho' hn hj
    unfold QuantumNumbers.Offsets at ho ho'
    unfold QuantumNumbers.Sizes at hn
    have hbl : b < q.qn_size.length := by
      by_contra hcon
      rw [List.get?_eq_none.mpr (by omega)] at hn
      cases hn
    rw [List.get?_eq_get hbl] at hn
    split at ho
    · split at ho'
      · simp only [Option.some.injEq] at ho ho' hn
        have h1 := List.sum_take_succ q.qn_size b hbl
        have h2 := prefix_sum_mono q.qn_size (b + 1) b' (by omega)
        have h3 : q.qn_size.get ⟨b, hbl⟩ = q.qn_size[b] := rfl
        omega
      · cases ho'
    · cases ho
  rcases Nat.lt_or_gt_of_ne hb with h | h
  · have := key b b' off off' n j j' h ho ho' hn hj
    omega
  · have := key b' b off' off n' j' j h ho' ho hn' hj'
    omega

/-- C8: with records that `FillRotation_BlockDiag` can process, it fills row `i` with the
eigenvector of the `i`-th retained record at the columns `Offsets(blkIdx_i) ..
Offsets(blkIdx_i)+Sizes(blkIdx_i)-1` and inserts nothing else in that row, nor in any later
row; rows of different sectors have disjoint column supports. -/
theorem C8_fill_rotation (eigen_list : List Eigen_t) (eps_list : List EPS)
    (BlockRef : QuantumNumbers) (m NStates : Nat)
    (hvalid : ∀ e ∈ eigen_list, ValidRecord eps_list BlockRef e) :
    ∃ R, FillRotation_BlockDiag eigen_list eps_list BlockRef ⟨m, NStates, []⟩ = .ok R ∧
      (∀ (i : Fin eigen_list.length) (eps : EPS) (off n : Nat),
        eps_list.get? (eigen_list.get i).seqIdx = some eps →
        BlockRef.Offsets (eigen_list.get i).blkIdx = some off →
        BlockRef.Sizes (eigen_list.get i).blkIdx = some n →
        R.inserted.filter (fun w => decide (w.1 = i.val)) =
          (List.range n).map fun j =>
            (i.val, off + j, (eps.vec (eigen_list.get i).epsIdx).getD j 0)) ∧
      (∀ i, eigen_list.length ≤ i → R.inserted.filter (fun w => decide (w.1 = i)) = []) ∧
      (∀ i i' : Fin eigen_list.length,
        (eigen_list.get i).blkIdx ≠ (eigen_list.get i').blkIdx →
        List.Disjoint (R.support i.val) (R.support i'.val)) := by
  obtain ⟨R, hR, _, _, hw⟩ := FillRotation_BlockDiag_ok eigen_list eps_list BlockRef
    ⟨m, NStates, []⟩ hvalid
  simp only [List.nil_append] at hw
  have hrow : ∀ (i : Fin eigen_list.length),
      R.inserted.filter (fun w => decide (w.1 = i.val)) =
        specRow eps_list BlockRef i.val (eigen_list.get i) := by
    intro i
    have := specRows_filter eps_list BlockRef eigen_list 0 i.val i.isLt
    simp only [Nat.zero_add] at this
    rw [hw]
    exact this
  refine ⟨R, hR, ?_, ?_, ?_⟩
  · intro i eps off n heps hoff hn
    rw [hrow i]
    simp only [specRow, heps, hoff, hn]
  · intro i hi
    rw [hw]
    exact specRows_filter_outside _ _ _ _ _ (Or.inr (by omega))
  · intro i i' hne c hc hc'
    obtain ⟨hb, eps, heps, _⟩ := hvalid _ (List.get_mem eigen_list i.val i.isLt)
    obtain ⟨hb', eps', heps', _⟩ := hvalid _ (List.get_mem eigen_list i'.val i'.isLt)
    have ho := Offsets_of_lt BlockRef _ hb
    have hn := Sizes_of_lt BlockRef _ hb
    have ho' := Offsets_of_lt BlockRef _ hb'
    have hn' := Sizes_of_lt BlockRef _ hb'
    unfold Mat.support at hc hc'
    have e1 : (List.filter (fun w => decide (w.1 = i.val)) R.inserted) =
        specRow eps_list BlockRef i.val (eigen_list.get i) := hrow i
    have e2 : (List.filter (fun w => decide (w.1 = i'.val)) R.inserted) =
        specRow eps_list BlockRef i'.val (eigen_list.get i') := hrow i'
    rw [e1] at hc
    rw [e2] at hc'
    simp only [specRow, heps, ho, hn, heps', ho', hn', List.map_map, List.mem_map,
      List.mem_range, Function.comp] at hc hc'
    obtain ⟨j, hj, hjc⟩ := hc
    obtain ⟨j', hj', hjc'⟩ := hc'
    exact sector_ranges_disjoint BlockRef _ _ _ _ _ _ hne ho ho' hn hn' j j' hj hj'
      (hjc.trans hjc'.symm)

theorem truncQN_zip (parent : QuantumNumbers) (l : List Eigen_t) :
    (truncQN parent l).qn_list.zip (truncQN parent l).qn_size =
      (BlockIdxs l).map fun kv => (parent.ListAt kv.1, kv.2) := by
  unfold truncQN
  simp only []
  rw [List.zip_map']

theorem ListAt_injOn (parent : QuantumNumbers) (hnd : parent.qn_list.Nodup) (a b : Nat)
    (ha : a < parent.qn_list.length) (hb : b < parent.qn_list.length)
    (h : parent.ListAt a = parent.ListAt b) : a = b := by
  unfold QuantumNumbers.ListAt at h
  rw [List.getD_eq_getElem _ _ ha, List.getD_eq_getElem _ _ hb] at h
  exact (List.Nodup.getElem_inj_iff hnd).mp h

/-- C9: the quantum-number index built for a truncated block lists, in ascending order of
parent sector index, exactly the parent sectors with at least one retained record, each
with the number of retained records of that sector as its size; the sizes sum to `m`; the
basis labelling they stand for gives row `i` the parent value of record `i`'s sector; and
the sector values are pairwise distinct whenever the parent's are. -/
theorem C9_truncated_quantum_numbers (parent : QuantumNumbers) (MStates : Nat)
    (eigen : List Eigen_t) :
    (truncQN parent (retainEigen MStates eigen)).qn_list =
      (BlockIdxs (retainEigen MStates eigen)).map (fun kv => parent.ListAt kv.1) ∧
    (truncQN parent (retainEigen MStates eigen)).qn_size =
      (BlockIdxs (retainEigen MStates eigen)).map Prod.snd ∧
    ((BlockIdxs (retainEigen MStates eigen)).map Prod.fst).Pairwise (· < ·) ∧
    (∀ k, k ∈ (BlockIdxs (retainEigen MStates eigen)).map Prod.fst ↔
      ∃ e ∈ retainEigen MStates eigen, e.blkIdx = k) ∧
    (∀ kn ∈ BlockIdxs (retainEigen MStates eigen),
      kn.2 = (retainEigen MStates eigen).countP fun e => decide (e.blkIdx = kn.1)) ∧
    (truncQN parent (retainEigen MStates eigen)).qn_size.sum = numRetained MStates eigen ∧
    expandSectors ((truncQN parent (retainEigen MStates eigen)).qn_list.zip
        (truncQN parent (retainEigen MStates eigen)).qn_size) =
      (retainEigen MStates eigen).map (fun e => parent.ListAt e.blkIdx) ∧
    (parent.qn_list.Nodup → (∀ e ∈ eigen, e.blkIdx < parent.qn_list.length) →
      (truncQN parent (retainEigen MStates eigen)).qn_list.Nodup) := by
  have hsorted := BlockIdxs_sorted (retainEigen MStates eigen)
  have hcount : ∀ kn ∈ BlockIdxs (retainEigen MStates eigen),
      kn.2 = (retainEigen MStates eigen).countP fun e => decide (e.blkIdx = kn.1) := by
    intro kn hkn
    rw [← BlockIdxs_get, mapGet_of_mem _ hsorted kn hkn]
  have hpos := BlockIdxs_foldl_pos (retainEigen MStates eigen) [] (by intro kv h; cases h)
  have hkeys : ∀ k, k ∈ (BlockIdxs (retainEigen MStates eigen)).map Prod.fst ↔
      ∃ e ∈ retainEigen MStates eigen, e.blkIdx = k := by
    intro k
    constructor
    · intro hk
      obtain ⟨kn, hkn, hk1⟩ := List.mem_map.mp hk
      have h1 := hpos kn hkn
      rw [hcount kn hkn] at h1
      obtain ⟨e, he, hek⟩ := List.countP_pos_iff.mp h1
      exact ⟨e, he, by simpa [hk1] using hek⟩
    · rintro ⟨e, he, hek⟩
      apply mem_keys_of_mapGet_pos
      rw [BlockIdxs_get]
      exact List.countP_pos_iff.mpr ⟨e, he, by simpa using hek⟩
  refine ⟨rfl, rfl, hsorted, hkeys, hcount, ?_, ?_, ?_⟩
  · have := BlockIdxs_foldl_sum (retainEigen MStates eigen) []
    simp only [List.map_nil, List.sum_nil, Nat.zero_add] at this
    rw [← retainEigen_length]
    exact this
  · rw [truncQN_zip, expandSectors_map]
    have := BlockIdxs_foldl_expand (retainEigen MStates eigen) [] List.Pairwise.nil
      (by intro k hk; cases hk) (retainEigen_sorted MStates eigen)
    unfold BlockIdxs
    rw [this]
    simp [expandSectors]
  · intro hnd hlt
    apply List.Nodup.map_on
    · intro x hx y hy hxy
      have hx1 : x.1 < parent.qn_list.length := by
        obtain ⟨e, he, hek⟩ := (hkeys x.1).mp (List.mem_map_of_mem _ hx)
        rw [← hek]
        exact hlt e (retainEigen_mem MStates eigen e he)
      have hy1 : y.1 < parent.qn_list.length := by
        obtain ⟨e, he, hek⟩ := (hkeys y.1).mp (List.mem_map_of_mem _ hy)
        rw [← hek]
        exact hlt e (retainEigen_mem MStates eigen e he)
      have hk := ListAt_injOn parent hnd x.1 y.1 hx1 hy1 hxy
      have h2 : x.2 = y.2 := by rw [hcount x hx, hcount y hy, hk]
      exact Prod.ext hk h2
    · have : ((BlockIdxs (retainEigen MStates eigen)).map Prod.fst).Nodup :=
        hsorted.imp (fun h => ne_of_lt h)
      exact List.Nodup.of_map _ this

/-- C10: for every segment starting at `Istart` with sector sizes `N_L` and `N_R`, the
matrix `Psi` that `GetTruncation` forms is `N_L × N_R` with `Psi[l][r] = v[Istart + l*N_R
+ r]`, and it computes `rdmd_L = Psi * Psi^T` of size `N_L × N_L` and `rdmd_R = Psi^T *
Psi` of size `N_R × N_R`. -/
theorem C10_reduced_density_blocks (v : List ℚ) (Istart N_L N_R : Nat) :
    (segPsi v Istart N_L N_R).nrows = N_L ∧ (segPsi v Istart N_L N_R).ncols = N_R ∧
    (∀ l r, (segPsi v Istart N_L N_R).entry l r = v.getD (Istart + l * N_R + r) 0) ∧
    (segRdmL v Istart N_L N_R).nrows = N_L ∧ (segRdmL v Istart N_L N_R).ncols = N_L ∧
    (fun (i j : Fin N_L) => (segRdmL v Istart N_L N_R).entry i.val j.val) =
      specPsi v Istart N_L N_R * (specPsi v Istart N_L N_R).transpose ∧
    (segRdmR v Istart N_L N_R).nrows = N_R ∧ (segRdmR v Istart N_L N_R).ncols = N_R ∧
    (fun (i j : Fin N_R) => (segRdmR v Istart N_L N_R).entry i.val j.val) =
      (specPsi v Istart N_L N_R).transpose * specPsi v Istart N_L N_R := by
  have hpsi : ∀ l r, (segPsi v Istart N_L N_R).entry l r = v.getD (Istart + l * N_R + r) 0 := by
    intro l r
    simp only [segPsi, segPsiT, MatHermitianTranspose, MatCreateSeqDense]
    congr 1
    omega
  have hpsiT : ∀ r l, (segPsiT v Istart N_L N_R).entry r l = v.getD (Istart + l * N_R + r) 0 := by
    intro r l
    simp only [segPsiT, MatCreateSeqDense]
    congr 1
    omega
  refine ⟨rfl, rfl, hpsi, rfl, rfl, ?_, rfl, rfl, ?_⟩
  · funext i j
    rw [Matrix.mul_apply]
    simp only [segRdmL, MatMatMult]
    have hc : (segPsi v Istart N_L N_R).ncols = N_R := rfl
    rw [hc, list_range_sum_eq_fin_sum]
    apply Finset.sum_congr rfl
    intro k _
    rw [hpsi, hpsiT]
    rfl
  · funext i j
    rw [Matrix.mul_apply]
    simp only [segRdmR, MatMatMult]
    have hc : (segPsiT v Istart N_L N_R).ncols = N_L := rfl
    rw [hc, list_range_sum_eq_fin_sum]
    apply Finset.sum_congr rfl
    intro k _
    rw [hpsi, hpsiT]
    rfl

theorem exampleEigen_valid :
    ∀ e ∈ retainEigen 3 exampleEigen, ValidRecord exampleEps exampleQN e := by
  intro e he
  have h : retainEigen 3 exampleEigen = [⟨0, 0, 0, 0⟩, ⟨1, 1, 0, 1⟩, ⟨0, 1, 1, 1⟩] := by decide
  rw [h] at he
  simp only [List.mem_cons, List.mem_singleton, List.not_mem_nil, or_false] at he
  rcases he with rfl | rfl | rfl
  · exact ⟨by decide, _, rfl, rfl⟩
  · exact ⟨by decide, _, rfl, rfl⟩
  · exact ⟨by decide, _, rfl, rfl⟩

/-- C8 at concrete data: three retained records of the sectors 0, 1, 1. -/
theorem C8_fill_rotation_witness :
    ∃ R, FillRotation_BlockDiag (retainEigen 3 exampleEigen) exampleEps exampleQN ⟨3, 4, []⟩
        = .ok R ∧
      (∀ (i : Fin (retainEigen 3 exampleEigen).length) (eps : EPS) (off n : Nat),
        exampleEps.get? ((retainEigen 3 exampleEigen).get i).seqIdx = some eps →
        exampleQN.Offsets ((retainEigen 3 exampleEigen).get i).blkIdx = some off →
        exampleQN.Sizes ((retainEigen 3 exampleEigen).get i).blkIdx = some n →
        R.inserted.filter (fun w => decide (w.1 = i.val)) =
          (List.range n).map fun j =>
            (i.val, off + j, (eps.vec ((retainEigen 3 exampleEigen).get i).epsIdx).getD j 0)) ∧
      (∀ i, (retainEigen 3 exampleEigen).length ≤ i →
        R.inserted.filter (fun w => decide (w.1 = i)) = []) ∧
      (∀ i i' : Fin (retainEigen 3 exampleEigen).length,
        ((retainEigen 3 exampleEigen).get i).blkIdx ≠
          ((retainEigen 3 exampleEigen).get i').blkIdx →
        List.Disjoint (R.support i.val) (R.support i'.val)) :=
  C8_fill_rotation (retainEigen 3 exampleEigen) exampleEps exampleQN 3 4 exampleEigen_valid

/-- C8 evaluated: the entries inserted for the example are the three unit eigenvectors at
the columns of their sectors. -/
theorem FillRotation_BlockDiag_example :
    (match FillRotation_BlockDiag (retainEigen 3 exampleEigen) exampleEps exampleQN
        ⟨3, 4, []⟩ with
      | .ok R => some R
      | .error _ => none) =
    some ⟨3, 4, [(0, 0, 1), (1, 1, 1), (1, 2, 0), (2, 1, 0), (2, 2, 1)]⟩ := by
  decide

/-- C3 at concrete data: with `MStates = 3` and four records, three are retained and the
rotation matrix is `3 × 4`. -/
theorem C3_retained_states_witness :
    (retainEigen 3 exampleEigen).length = 3 ∧
    (match truncateSide 3 exampleEigen exampleEps exampleQN with
      | .ok (R, _, _) => R.nrows = 3 ∧ R.ncols = 4
      | .error _ => False) := by
  have h := C3_retained_states 3 exampleEigen
  refine ⟨h.2.1, ?_⟩
  obtain ⟨R, hR, _⟩ := FillRotation_BlockDiag_ok (retainEigen 3 exampleEigen) exampleEps
    exampleQN ⟨3, 4, []⟩ exampleEigen_valid
  have ht : truncateSide 3 exampleEigen exampleEps exampleQN =
      .ok (R, truncQN exampleQN (retainEigen 3 exampleEigen),
        truncErr (retainEigen 3 exampleEigen)) := by
    unfold truncateSide
    simp only []
    have e1 : numRetained 3 exampleEigen = 3 := by decide
    have e2 : exampleQN.NumStates = 4 := by decide
    rw [e1, e2, hR]
  rw [ht]
  exact h.2.2.2.2.2 exampleEps exampleQN R _ _ ht

/-- The records that `eigLoop` appends belong to the given segment and come in increasing
solver index. -/
theorem eigLoop_append (eps : EPS) (seqIdx blkIdx : Nat) (fuel epsIdx : Nat)
    (l l' : List Eigen_t) (h : eigLoop eps seqIdx blkIdx fuel epsIdx l = .ok l') :
    ∃ new, l' = l ++ new ∧ new.Pairwise enumBefore ∧
      ∀ x ∈ new, x.seqIdx = seqIdx ∧ epsIdx ≤ x.epsIdx := by
  induction fuel generalizing epsIdx l with
  | zero =>
    unfold eigLoop at h
    cases h
    exact ⟨[], by simp, List.Pairwise.nil, by intro x hx; cases hx⟩
  | succ n ih =>
    unfold eigLoop at h
    simp only [] at h
    split at h
    · cases h
    · obtain ⟨new, h1, h2, h3⟩ := ih _ _ h
      refine ⟨⟨(eps.eig epsIdx).1, seqIdx, epsIdx, blkIdx⟩ :: new, ?_, ?_, ?_⟩
      · rw [h1, List.append_assoc]
        rfl
      · rw [List.pairwise_cons]
        refine ⟨?_, h2⟩
        intro x hx
        obtain ⟨hx1, hx2⟩ := h3 x hx
        right
        exact ⟨hx1.symm, by simp only []; omega⟩
      · intro x hx
        rcases List.mem_cons.mp hx with hx | hx
        · rw [hx]
          exact ⟨rfl, le_refl _⟩
        · obtain ⟨hx1, hx2⟩ := h3 x hx
          exact ⟨hx1, by omega⟩

theorem EigRDM_BlockDiag_append (solve : SeqDense → EPS) (matin : SeqDense)
    (seqIdx blkIdx : Nat) (l l' : List Eigen_t) (eps : EPS)
    (h : EigRDM_BlockDiag solve matin seqIdx blkIdx l = .ok (l', eps)) :
    ∃ new, l' = l ++ new ∧ new.Pairwise enumBefore ∧ ∀ x ∈ new, x.seqIdx = seqIdx := by
  unfold EigRDM_BlockDiag at h
  split at h
  · cases h
  · simp only [] at h
    split at h
    · cases h
    · split at h
      · cases h
      · rename_i l'' hl
        cases h
        obtain ⟨new, h1, h2, h3⟩ := eigLoop_append _ _ _ _ _ _ _ hl
        exact ⟨new, h1, h2, fun x hx => (h3 x hx).1⟩

theorem EnumInv_append (idx : Nat) (l new : List Eigen_t) (h : EnumInv idx l)
    (h2 : new.Pairwise enumBefore) (h3 : ∀ x ∈ new, x.seqIdx = idx) :
    EnumInv (idx + 1) (l ++ new) := by
  constructor
  · rw [List.pairwise_append]
    refine ⟨h.1, h2, ?_⟩
    intro a ha b hb
    left
    rw [h3 b hb]
    exact h.2 a ha
  · intro x hx
    rcases List.mem_append.mp hx with hx | hx
    · have := h.2 x hx
      omega
    · rw [h3 x hx]
      omega

theorem rdmStep_enum (solve : SeqDense → EPS) (KronBlocks : KronBlocks_t) (v : List ℚ)
    (idx : Nat) (st st' : RdmState) (h : rdmStep solve KronBlocks v idx st = .ok st')
    (hL : EnumInv idx st.eigen_L) (hR : EnumInv idx st.eigen_R) :
    EnumInv (idx + 1) st'.eigen_L ∧ EnumInv (idx + 1) st'.eigen_R := by
  unfold rdmStep at h
  simp only [] at h
  split at h
  · split at h
    · cases h
    · split at h
      · cases h
      · split at h
        · cases h
        · split at h
          · cases h
          · split at h
            · cases h
            · split at h
              · cases h
              · rename_i eL epsL hEL
                split at h
                · cases h
                · rename_i eR epsR hER
                  cases h
                  obtain ⟨nL, a1, a2, a3⟩ := EigRDM_BlockDiag_append _ _ _ _ _ _ _ hEL
                  obtain ⟨nR, b1, b2, b3⟩ := EigRDM_BlockDiag_append _ _ _ _ _ _ _ hER
                  simp only []
                  rw [a1, b1]
                  exact ⟨EnumInv_append idx _ _ hL a2 a3, EnumInv_append idx _ _ hR b2 b3⟩
  · cases h

theorem rdmLoop_enum (solve : SeqDense → EPS) (KronBlocks : KronBlocks_t) (v : List ℚ)
    (fuel idx : Nat) (st st' : RdmState)
    (h : rdmLoop solve KronBlocks v fuel idx st = .ok st')
    (hL : EnumInv idx st.eigen_L) (hR : EnumInv idx st.eigen_R) :
    st'.eigen_L.Pairwise enumBefore ∧ st'.eigen_R.Pairwise enumBefore := by
  induction fuel generalizing idx st with
  | zero =>
    unfold rdmLoop at h
    cases h
    exact ⟨hL.1, hR.1⟩
  | succ n ih =>
    unfold rdmLoop at h
    split at h
    · cases h
    · rename_i st1 h1
      obtain ⟨a, b⟩ := rdmStep_enum _ _ _ _ _ _ h1 hL hR
      exact ih _ _ h a b

/-- A relation that holds within every class of a key holds between any two elements of
equal key. -/
theorem pairwise_of_filter {α β : Type} [DecidableEq β] (key : α → β) (R : α → α → Prop)
    (l : List α) (h : ∀ v, (l.filter fun a => decide (key a = v)).Pairwise R) :
    l.Pairwise fun a b => key a = key b → R a b := by
  induction l with
  | nil => exact List.Pairwise.nil
  | cons a l ih =>
    rw [List.pairwise_cons]
    constructor
    · intro b hb hab
      have h1 := h (key a)
      rw [List.filter_cons_of_pos (by simp), List.pairwise_cons] at h1
      exact h1.1 b (List.mem_filter.mpr ⟨hb, by simp [hab]⟩)
    · apply ih
      intro v
      have h1 := h v
      rw [List.filter_cons] at h1
      split at h1
      · exact (List.pairwise_cons.mp h1).2
      · exact h1

/-- Ranking a list that is in enumeration order leaves records of equal eigenvalue in
enumeration order. -/
theorem rankEigen_ties (eigen : List Eigen_t) (h : eigen.Pairwise enumBefore) :
    (rankEigen eigen).Pairwise fun a b => a.eigval = b.eigval → enumBefore a b := by
  apply pairwise_of_filter (fun e : Eigen_t => e.eigval)
  intro v
  have hf : (rankEigen eigen).filter (fun e => decide (e.eigval = v)) =
      eigen.filter (fun e => decide (e.eigval = v)) := by
    apply stable_sort_filter
    intro a b ha hb
    simp only [decide_eq_true_eq] at ha hb
    simp [greater_eigval, ha, hb]
  rw [hf]
  exact h.filter _

theorem rdmLoop_example :
    ∃ st, rdmLoop exampleSolve exampleKron exampleGsv exampleKron.pairs.length 0
        ⟨[], [], [], []⟩ = .ok st ∧ st.eigen_L = exampleEigen := by
  refine ⟨_, rfl, ?_⟩
  with_unfolding_all decide

/-- The whole of `GetTruncation` evaluated on the example: with `MStates = 3` the three
records of the sectors 0, 1, 1 are retained on the left, nothing of the weight is lost. -/
theorem GetTruncation_example :
    (match GetTruncation false exampleSolve exampleKron exampleGsv 3 with
      | .ok T => some T
      | .error _ => none) =
    some ⟨⟨3, 4, [(0, 0, 1), (1, 1, 1), (1, 2, 0), (2, 1, 0), (2, 2, 1)]⟩, ⟨[1, 0], [1, 2]⟩, 0,
          ⟨3, 4, [(0, 1, 1), (0, 2, 0), (1, 1, 0), (1, 2, 1), (2, 3, 1)]⟩, ⟨[0, -1], [2, 1]⟩, 0⟩ := by
  with_unfolding_all decide

/-- C4: the ranking sort turns the eigen-record list into a permutation of itself, in
descending eigenvalue order, in which the records of any one eigenvalue keep their original
relative order; for the lists that the loop over the L-R pairs builds, that order is the
segment order, then the solver index. -/
theorem C4_ranking_sort (eigen : List Eigen_t) :
    (rankEigen eigen).Perm eigen ∧
    (rankEigen eigen).Pairwise (fun a b => a.eigval ≥ b.eigval) ∧
    (∀ v : ℚ, (rankEigen eigen).filter (fun e => decide (e.eigval = v)) =
      eigen.filter (fun e => decide (e.eigval = v))) ∧
    (∀ (solve : SeqDense → EPS) (KronBlocks : KronBlocks_t) (v : List ℚ) (st : RdmState),
      rdmLoop solve KronBlocks v KronBlocks.pairs.length 0 ⟨[], [], [], []⟩ = .ok st →
      (rankEigen st.eigen_L).Pairwise (fun a b => a.eigval = b.eigval → enumBefore a b) ∧
      (rankEigen st.eigen_R).Pairwise (fun a b => a.eigval = b.eigval → enumBefore a b)) := by
  refine ⟨rankEigen_perm eigen, rankEigen_sorted eigen, ?_, ?_⟩
  · intro v
    apply stable_sort_filter
    intro a b ha hb
    simp only [decide_eq_true_eq] at ha hb
    simp [greater_eigval, ha, hb]
  · intro solve KronBlocks v st h
    have h0 : EnumInv 0 ([] : List Eigen_t) :=
      ⟨List.Pairwise.nil, by intro x hx; cases hx⟩
    obtain ⟨hL, hR⟩ := rdmLoop_enum solve KronBlocks v _ 0 _ st h h0 h0
    exact ⟨rankEigen_ties _ hL, rankEigen_ties _ hR⟩

/-- C4 at concrete data: the record lists of the example run and their ranking; the three
records of eigenvalue zero stay in enumeration order. -/
theorem C4_ranking_sort_witness :
    ∃ st, rdmLoop exampleSolve exampleKron exampleGsv exampleKron.pairs.length 0
        ⟨[], [], [], []⟩ = .ok st ∧ st.eigen_L = exampleEigen ∧
      rankEigen exampleEigen = [⟨1, 1, 0, 1⟩, ⟨0, 0, 0, 0⟩, ⟨0, 1, 1, 1⟩, ⟨0, 2, 0, 2⟩] ∧
      (rankEigen st.eigen_L).Pairwise (fun a b => a.eigval = b.eigval → enumBefore a b) := by
  obtain ⟨st, h1, h2⟩ := rdmLoop_example
  exact ⟨st, h1, h2, by decide, ((C4_ranking_sort []).2.2.2 _ _ _ st h1).1⟩

/-- C5 at concrete data: a retained negative eigenvalue contributes nothing to the sum, and
the ranking uses the unclipped values (the record of eigenvalue `-1`, first in enumeration
order, ranks behind the record of eigenvalue `0`). -/
theorem C5_truncation_error_witness :
    truncErr [⟨-1, 0, 0, 0⟩, ⟨1, 1, 0, 1⟩] =
      1 - ([⟨-1, 0, 0, 0⟩, ⟨1, 1, 0, 1⟩].map fun e : Eigen_t => max e.eigval 0).sum ∧
    truncErr [⟨-1, 0, 0, 0⟩, ⟨1, 1, 0, 1⟩] = 0 ∧
    retainEigen 2 [⟨-1, 0, 0, 0⟩, ⟨1, 1, 0, 1⟩, ⟨0, 1, 1, 1⟩] =
      [⟨1, 1, 0, 1⟩, ⟨0, 1, 1, 1⟩] ∧
    (∀ e ∈ retainEigen 2 [⟨-1, 0, 0, 0⟩, ⟨1, 1, 0, 1⟩, ⟨0, 1, 1, 1⟩],
      e ∈ [(⟨-1, 0, 0, 0⟩ : Eigen_t), ⟨1, 1, 0, 1⟩, ⟨0, 1, 1, 1⟩]) :=
  ⟨(C5_truncation_error 2 [⟨-1, 0, 0, 0⟩, ⟨1, 1, 0, 1⟩, ⟨0, 1, 1, 1⟩]).1 _,
   by with_unfolding_all decide, by decide,
   (C5_truncation_error 2 [⟨-1, 0, 0, 0⟩, ⟨1, 1, 0, 1⟩, ⟨0, 1, 1, 1⟩]).2⟩

/-- C7 at concrete data: the three retained records of the example, by sector. -/
theorem C7_sector_sort_witness :
    retainEigen 3 exampleEigen = [⟨0, 0, 0, 0⟩, ⟨1, 1, 0, 1⟩, ⟨0, 1, 1, 1⟩] ∧
    (retainEigen 3 exampleEigen).Pairwise (fun a b => a.blkIdx ≤ b.blkIdx) ∧
    ((retainEigen 3 exampleEigen).filter fun e => decide (e.blkIdx = 1)).Pairwise
      (fun x y => x.eigval ≥ y.eigval) :=
  ⟨by decide, (C7_sector_sort 3 exampleEigen).2.1, (C7_sector_sort 3 exampleEigen).2.2.2 1⟩

/-- C9 at concrete data: the truncated block of the example keeps the sectors 0 and 1 of
the parent, with sizes 1 and 2, and distinct values. -/
theorem C9_truncated_quantum_numbers_witness :
    truncQN exampleQN (retainEigen 3 exampleEigen) = ⟨[1, 0], [1, 2]⟩ ∧
    (truncQN exampleQN (retainEigen 3 exampleEigen)).qn_size.sum = numRetained 3 exampleEigen ∧
    (truncQN exampleQN (retainEigen 3 exampleEigen)).qn_list.Nodup :=
  ⟨by decide, (C9_truncated_quantum_numbers exampleQN 3 exampleEigen).2.2.2.2.2.1,
   (C9_truncated_quantum_numbers exampleQN 3 exampleEigen).2.2.2.2.2.2.2
     (by decide) (by decide)⟩

/-- C12: with cluster size `c ≥ 1` (in `Warmup` it is even) and `s ≥ c` initialized blocks,
the environment size `e` computed by `Warmup` satisfies `1 ≤ e ≤ s`, `s + e + 2` is a
multiple of `c`, and `e` is the largest value in `1..s` with that property. -/
theorem C12_warmup_env_sites (s c : Int) (hc : 1 ≤ c) (hs : c ≤ s) :
    1 ≤ warmupEnvSites s c ∧ warmupEnvSites s c ≤ s ∧
    c ∣ s + warmupEnvSites s c + 2 ∧
    ∀ e', 1 ≤ e' → e' ≤ s → c ∣ s + e' + 2 → e' ≤ warmupEnvSites s c := by
  have hb := warmupEnvSites_bounds s c hc hs
  have key : c ∣ s + warmupEnvSites s c + 2 ∧ s - warmupEnvSites s c < c := by
    unfold warmupEnvSites
    simp only []
    have h1 : (s + 2).tdiv c = (s + 2) / c := Int.tdiv_eq_ediv (by omega) (by omega)
    rw [h1]
    have e1 := Int.ediv_add_emod (s + 2) c
    have e2 := Int.emod_nonneg (s + 2) (by omega : c ≠ 0)
    have e3 := Int.emod_lt_of_pos (s + 2) (by omega : 0 < c)
    have henv0 : ((s + 2) / c + 1) * c - s - 2 = c - (s + 2) % c := by
      linear_combination e1
    rw [henv0]
    generalize hq : (s + 2) / c = q at e1
    generalize (s + 2) % c = r at e1 e2 e3
    have h2 : (s - (c - r)).tdiv c = (s - (c - r)) / c :=
      Int.tdiv_eq_ediv (by omega) (by omega)
    rw [h2]
    have e4 := Int.ediv_add_emod (s - (c - r)) c
    have e6 := Int.emod_lt_of_pos (s - (c - r)) (by omega : 0 < c)
    generalize (s - (c - r)) / c = k at e4
    generalize (s - (c - r)) % c = t at e4 e6
    constructor
    · refine ⟨q + 1 + k, ?_⟩
      linear_combination (-1 : ℤ) * e1
    · have : k * c = c * k := mul_comm _ _
      omega
  refine ⟨hb.1, hb.2, key.1, ?_⟩
  intro e' _ he's hdiv
  by_contra hlt
  have hlt' : warmupEnvSites s c < e' := not_le.mp hlt
  have hd : c ∣ e' - warmupEnvSites s c := by
    have := Int.dvd_sub hdiv key.1
    have e : s + e' + 2 - (s + warmupEnvSites s c + 2) = e' - warmupEnvSites s c := by ring
    rwa [e] at this
  have := Int.le_of_dvd (by omega) hd
  omega

/-- C12 at concrete values: for cluster size 4 and 6 initialized blocks the environment has
4 sites, and `6 + 4 + 2 = 12` is a multiple of 4. -/
theorem C12_warmup_env_sites_witness :
    warmupEnvSites 6 4 = 4 ∧ (1 : Int) ≤ warmupEnvSites 6 4 ∧ warmupEnvSites 6 4 ≤ 6 ∧
    (4 : Int) ∣ 6 + warmupEnvSites 6 4 + 2 :=
  ⟨by decide, (C12_warmup_env_sites 6 4 (by decide) (by decide)).1,
   (C12_warmup_env_sites 6 4 (by decide) (by decide)).2.1,
   (C12_warmup_env_sites 6 4 (by decide) (by decide)).2.2.1⟩

/-- C16 (as stated) fails: `MinBlock = -2` is less than 1, but it is the sentinel
`PETSC_DEFAULT`, so `Sweep` uses the minimum block length 1, succeeds and performs the
renormalization steps. -/
theorem C16_min_block_counterexample :
    (-2 : Int) < 1 ∧
    (Sweep (Collab.allOk 2) 4 (-2)
      (Warmup (Collab.allOk 2) 4 (Container.fresh 8 0 false false)).2).1 = 0 ∧
    stepsOf (Sweep (Collab.allOk 2) 4 (-2)
      (Warmup (Collab.allOk 2) 4 (Container.fresh 8 0 false false)).2).2.log =
      stepsOf (Warmup (Collab.allOk 2) 4 (Container.fresh 8 0 false false)).2.log ++
        [(3, 1, 4, 2), (4, 0, 5, 1), (3, 1, 4, 2), (2, 2, 3, 3)] := by
  decide

/-- C16 (amended): for every `MinBlock` less than 1 other than the sentinel `PETSC_DEFAULT`,
`Sweep` returns an error and leaves the container, its log included, as it was (no
renormalization step); when `MinBlock` is `PETSC_DEFAULT`, the value of an omitted
argument, the minimum block length used is 1. -/
theorem C16_min_block (E : Collab) (MStates : Nat) (MinBlock : Int) (c : Container)
    (h : MinBlock < 1) (hd : MinBlock ≠ PETSC_DEFAULT) :
    Sweep E MStates MinBlock c = (1, c) ∧
    Sweep E MStates PETSC_DEFAULT c = Sweep E MStates 1 c := by
  constructor
  · unfold Sweep
    split
    · rfl
    · simp only [hd, if_false, h, if_true]
  · unfold Sweep
    have h1 : ¬ (1 : Int) = PETSC_DEFAULT := by decide
    simp only [if_true, h1, if_false]

/-- C16 at a concrete value: `MinBlock = 0` on the warmed-up 8-site container. -/
theorem C16_min_block_witness :
    Sweep (Collab.allOk 2) 4 0
        (Warmup (Collab.allOk 2) 4 (Container.fresh 8 0 false false)).2 =
      (1, (Warmup (Collab.allOk 2) 4 (Container.fresh 8 0 false false)).2) :=
  (C16_min_block (Collab.allOk 2) 4 0 _ (by decide) (by decide)).1

/-- C17: the constructor throws exactly when the site count is less than 2 or odd; for every
even `N ≥ 2` it succeeds and `NumSites()` returns `N`. -/
theorem C17_constructor_site_count (N rank : Int) (no_symm do_save_dir : Bool) :
    ((∃ msg, construct N rank no_symm do_save_dir = .error msg) ↔ (N < 2 ∨ N % 2 ≠ 0)) ∧
    (2 ≤ N → N % 2 = 0 →
      ∃ c, construct N rank no_symm do_save_dir = .ok c ∧ NumSites c = N) := by
  unfold construct
  constructor
  · constructor
    · rintro ⟨msg, h⟩
      by_contra hcon
      have h2 : ¬ N < 2 := fun x => hcon (Or.inl x)
      have h3 : N % 2 = 0 := by
        by_contra x
        exact hcon (Or.inr x)
      have h4 : N.tmod 2 = 0 := by
        rw [Int.tmod_eq_emod (by omega) (by omega)]
        exact h3
      simp [h2, h4] at h
    · intro h
      by_cases h2 : N < 2
      · exact ⟨_, if_pos h2⟩
      · have h3 : N % 2 ≠ 0 := by
          rcases h with h | h
          · exact absurd h h2
          · exact h
        have h4 : N.tmod 2 ≠ 0 := by
          rw [Int.tmod_eq_emod (by omega) (by omega)]
          exact h3
        exact ⟨_, by rw [if_neg h2, if_pos h4]⟩
  · intro h2 h3
    have h4 : N.tmod 2 = 0 := by
      rw [Int.tmod_eq_emod (by omega) (by omega)]
      exact h3
    have h5 : ¬ N < 2 := by omega
    refine ⟨Container.fresh N rank no_symm do_save_dir, ?_, rfl⟩
    rw [if_neg h5, if_neg (by simp [h4])]

/-- C17 at concrete values: 8 sites are accepted, 1 and 7 sites are rejected. -/
theorem C17_constructor_site_count_witness :
    (∃ c, construct 8 0 false false = .ok c ∧ NumSites c = 8) ∧
    (∃ msg, construct 1 0 false false = .error msg) ∧
    (∃ msg, construct 7 0 false false = .error msg) :=
  ⟨(C17_constructor_site_count 8 0 false false).2 (by decide) (by decide),
   (C17_constructor_site_count 1 0 false false).1.mpr (Or.inl (by decide)),
   (C17_constructor_site_count 7 0 false false).1.mpr (Or.inr (by decide))⟩

@[simp] theorem blk_emit (c : Container) (e : Event) (i : Int) :
    (c.emit e).blk i = c.blk i := rfl

theorem setBlk_log_blocks (c : Container) (i : Int) (b : Block) :
    (c.setBlk i b).sys_blocks.length = c.sys_blocks.length := by
  unfold Container.setBlk
  split
  · simp
  · rfl

/-- C11: when the symmetry-disable flag is set, `GetTruncation` returns the unsupported
error for every input, and every `SingleDMRGStep` fails, leaving the block array untouched
and without reaching the truncation or the rotation of an output block; the error is the
unsupported error whenever the collaborator calls before the check succeed. -/
theorem C11_no_symm_unsupported (E : Collab) (solve : SeqDense → EPS)
    (KronBlocks : KronBlocks_t) (gsv_r : List ℚ) (MStates : Nat)
    (insys inenv outsys outenv : Int) (c : Container) (hs : c.no_symm = true) :
    GetTruncation true solve KronBlocks gsv_r MStates = .error PETSC_ERR_SUP ∧
    (SingleDMRGStep E insys inenv MStates outsys outenv c).1 ≠ 0 ∧
    (SingleDMRGStep E insys inenv MStates outsys outenv c).2.sys_blocks = c.sys_blocks ∧
    (∃ new, (SingleDMRGStep E insys inenv MStates outsys outenv c).2.log = c.log ++ new ∧
      Event.truncate ∉ new ∧ ∀ s n, Event.rotate s n ∉ new) ∧
    ((∀ e, E.ok e = true) →
      (SingleDMRGStep E insys inenv MStates outsys outenv c).1 = PETSC_ERR_SUP) := by
  refine ⟨rfl, ?_⟩
  unfold SingleDMRGStep call
  simp only [no_symm_emit, hs, if_true]
  split_ifs <;>
    refine ⟨by simp [PETSC_ERR_SUP], by simp, ⟨_, by simp only [log_emit, List.append_assoc]; rfl, by simp, by simp⟩, ?_⟩ <;>
    intro hE <;> simp_all

/-- C11 at concrete data: a step on a container with symmetry disabled. -/
theorem C11_no_symm_unsupported_witness :
    GetTruncation true exampleSolve exampleKron exampleGsv 3 = .error PETSC_ERR_SUP ∧
    (SingleDMRGStep (Collab.allOk 2) 0 0 4 1 1 (Container.fresh 8 0 true false)).1 =
      PETSC_ERR_SUP ∧
    (SingleDMRGStep (Collab.allOk 2) 0 0 4 1 1 (Container.fresh 8 0 true false)).2.sys_blocks =
      (Container.fresh 8 0 true false).sys_blocks :=
  ⟨(C11_no_symm_unsupported (Collab.allOk 2) exampleSolve exampleKron exampleGsv 3 0 0 1 1
      (Container.fresh 8 0 true false) rfl).1,
   (C11_no_symm_unsupported (Collab.allOk 2) exampleSolve exampleKron exampleGsv 4 0 0 1 1
      (Container.fresh 8 0 true false) rfl).2.2.2.2 (fun _ => rfl),
   (C11_no_symm_unsupported (Collab.allOk 2) exampleSolve exampleKron exampleGsv 4 0 0 1 1
      (Container.fresh 8 0 true false) rfl).2.2.1⟩

theorem StepPost_emit (c : Container) (new : List (Int × Int × Int × Int)) (x : Container)
    (e : Event) (he : stepsOf [e] = []) (h : StepPost c new x) : StepPost c new (x.emit e) := by
  obtain ⟨h1, h2, h3⟩ := h
  refine ⟨h1.ftrans (Frame.of_emit x e), h2, ?_⟩
  rw [log_emit, stepsOf_append, h3, he, List.append_nil]

theorem StepPost_setBlk (c : Container) (new : List (Int × Int × Int × Int)) (x : Container)
    (i : Int) (b : Block) (h : StepPost c new x) : StepPost c new (x.setBlk i b) := by
  obtain ⟨h1, h2, h3⟩ := h
  refine ⟨h1.ftrans (Frame.of_setBlk x i b), ?_, ?_⟩
  · rw [setBlk_log_blocks, h2]
  · rw [log_setBlk, h3]

/-- A property that survives the logging of the call holds after a collaborator call if the
continuation keeps it. -/
theorem call_post (Q : Container → Prop) (E : Collab) (e : Event) (c : Container)
    (k : Container → Outcome) (he : ∀ x, Q x → Q (x.emit e)) (hc : Q c)
    (hk : ∀ x, Q x → Q (k x).2) : Q (call E e c k).2 := by
  unfold call
  split
  · exact hk _ (he _ hc)
  · exact he _ hc

theorem chk_post (Q : Container → Prop) (r : Outcome) (k : Container → Outcome)
    (hr : Q r.2) (hk : ∀ x, Q x → Q (k x).2) : Q (chk r k).2 := by
  unfold chk
  split
  · exact hk _ hr
  · exact hr

/-- Whatever the collaborators do, a step changes at most the block array and the log,
keeps the length of the block array, and records exactly its own quadruple. -/
theorem SingleDMRGStep_any (E : Collab) (insys inenv : Int) (MStates : Nat)
    (outsys outenv : Int) (c : Container) :
    StepPost c [(insys, inenv, outsys, outenv)]
      (SingleDMRGStep E insys inenv MStates outsys outenv c).2 := by
  have hem : ∀ (e : Event), stepsOf [e] = [] → ∀ x,
      StepPost c [(insys, inenv, outsys, outenv)] x →
      StepPost c [(insys, inenv, outsys, outenv)] (x.emit e) :=
    fun e he x hx => StepPost_emit _ _ x e he hx
  have h0 : StepPost c [(insys, inenv, outsys, outenv)]
      (c.emit (.step insys inenv outsys outenv)) := by
    refine ⟨Frame.of_emit _ _, rfl, ?_⟩
    rw [log_emit, stepsOf_append]
    rfl
  unfold SingleDMRGStep
  simp only []
  refine call_post _ E _ _ _ (hem _ rfl) h0 (fun x1 h1 => ?_)
  have htail : ∀ x, StepPost c [(insys, inenv, outsys, outenv)] x →
      ∀ n1 n2 : Int, StepPost c [(insys, inenv, outsys, outenv)]
        (call E (.kronSum (n1 + n2)) x fun c =>
          call E .solve c fun c =>
          if c.no_symm then (PETSC_ERR_SUP, c) else
          call E .truncate c fun c =>
          call E (.rotate outsys n1) ((c.setBlk outsys Block.empty).setBlk outenv Block.empty)
            fun c =>
          if decide (insys = inenv) then (0, c.setBlk outsys ⟨true, n1⟩) else
          call E (.rotate outenv n2) (c.setBlk outsys ⟨true, n1⟩) fun c =>
          (0, c.setBlk outenv ⟨true, n2⟩)).2 := by
    intro x hx n1 n2
    refine call_post _ E _ _ _ (hem _ rfl) hx (fun x2 h2 => ?_)
    refine call_post _ E _ _ _ (hem _ rfl) h2 (fun x3 h3 => ?_)
    split
    · exact h3
    · refine call_post _ E _ _ _ (hem _ rfl) h3 (fun x4 h4 => ?_)
      refine call_post _ E _ _ _ (hem _ rfl)
        (StepPost_setBlk _ _ _ _ _ (StepPost_setBlk _ _ _ _ _ h4)) (fun x5 h5 => ?_)
      split
      · exact StepPost_setBlk _ _ _ _ _ h5
      · refine call_post _ E _ _ _ (hem _ rfl) (StepPost_setBlk _ _ _ _ _ h5)
          (fun x6 h6 => ?_)
        exact StepPost_setBlk _ _ _ _ _ h6
  by_cases hflg : insys = inenv
  · simp only [hflg, decide_True, if_true]
    have := htail x1 h1 ((c.blk inenv).NumSites + E.AddSiteNumSites)
      ((c.blk inenv).NumSites + E.AddSiteNumSites)
    simpa [hflg] using this
  · simp only [hflg, decide_False, Bool.false_eq_true, if_false]
    refine call_post _ E _ _ _ (hem _ rfl) h1 (fun x2 h2 => ?_)
    have := htail x2 h2 ((c.blk insys).NumSites + E.AddSiteNumSites)
      ((x1.blk inenv).NumSites + E.AddSiteNumSites)
    simpa [hflg] using this

theorem ExtPost_refl (P : Int × Int × Int × Int → Prop) (c : Container) : ExtPost P c c :=
  ⟨WFrame.wrefl c, [], by simp, by intro q hq; cases hq⟩

/-- Steps recorded after `x` extend the steps recorded up to `x`. -/
theorem ExtPost_step (P : Int × Int × Int × Int → Prop) (c x y : Container)
    (new : List (Int × Int × Int × Int)) (hx : ExtPost P c x) (hy : StepPost x new y)
    (hP : ∀ q ∈ new, P q) : ExtPost P c y := by
  obtain ⟨f1, old, s1, p1⟩ := hx
  obtain ⟨f2, _, s2⟩ := hy
  refine ⟨f1.wtrans f2.toWFrame, old ++ new, ?_, ?_⟩
  · rw [s2, s1, List.append_assoc]
  · intro q hq
    rcases List.mem_append.mp hq with h | h
    · exact p1 q h
    · exact hP q h

theorem ExtPost_sys_ninit (P : Int × Int × Int × Int → Prop) (c x : Container) (n : Int)
    (hx : ExtPost P c x) : ExtPost P c { x with sys_ninit := n } := by
  obtain ⟨f1, old, s1, p1⟩ := hx
  exact ⟨⟨f1.num_sites, f1.mpi_rank, f1.warmed_up, f1.no_symm, f1.do_save_dir,
    f1.num_sys_blocks, f1.env_ninit⟩, old, s1, p1⟩

theorem StepPost_refl (c : Container) : StepPost c [] c :=
  ⟨Frame.frefl c, rfl, by simp⟩

theorem StepPost_trans (c x y : Container) (a b : List (Int × Int × Int × Int))
    (h1 : StepPost c a x) (h2 : StepPost x b y) : StepPost c (a ++ b) y := by
  obtain ⟨f1, l1, s1⟩ := h1
  obtain ⟨f2, l2, s2⟩ := h2
  exact ⟨f1.ftrans f2, l2.trans l1, by rw [s2, s1, List.append_assoc]⟩

/-- Whatever the collaborators do, `saveRange` only logs saves. -/
theorem saveRange_any (E : Collab) (c0 : Container) (fuel : Nat) (idx hi : Int)
    (x : Container) (hx : StepPost c0 [] x) :
    StepPost c0 [] (saveRange E fuel idx hi x).2 := by
  induction fuel generalizing idx x with
  | zero => exact hx
  | succ n ih =>
    unfold saveRange
    split
    · exact call_post _ E _ _ _ (fun y hy => StepPost_emit _ _ y _ rfl hy) hx
        (fun y hy => ih _ y hy)
    · exact hx

theorem activeLoop_any (E : Collab) (c0 : Container) (l : List Int) (sys_idx : Int)
    (x : Container) (k : Int → Container → Outcome) (hx : StepPost c0 [] x)
    (hk : ∀ i y, StepPost c0 [] y → StepPost c0 [] (k i y).2) :
    StepPost c0 [] (activeLoop E l sys_idx x k).2 := by
  induction l generalizing sys_idx x with
  | nil => exact hk _ _ hx
  | cons act rest ih =>
    unfold activeLoop
    refine chk_post _ _ _ (saveRange_any E c0 _ _ _ x hx) (fun y hy => ?_)
    exact call_post _ E _ _ _ (fun z hz => StepPost_emit _ _ z _ rfl hz) hy
      (fun z hz => ih _ z hz)

/-- Whatever the collaborators do, `SysBlocksActive` (when called) only logs saves and
retrievals. -/
theorem activeIfSaving_any (E : Collab) (l : List Int) (c : Container) :
    StepPost c [] (activeIfSaving E l c).2 := by
  unfold activeIfSaving
  split
  · unfold SysBlocksActive
    exact activeLoop_any E c _ _ c _ (StepPost_refl c)
      (fun i y hy => saveRange_any E c _ _ _ y hy)
  · exact StepPost_refl c

theorem mkdirLoop_any (E : Collab) (c0 : Container) (fuel : Nat) (iblock : Int)
    (x : Container) (hx : StepPost c0 [] x) :
    StepPost c0 [] (mkdirLoop E fuel iblock x).2 := by
  induction fuel generalizing iblock x with
  | zero => exact hx
  | succ n ih =>
    unfold mkdirLoop
    split
    · exact call_post _ E _ _ _ (fun y hy => StepPost_emit _ _ y _ rfl hy) hx
        (fun y hy => ih _ y hy)
    · exact hx

theorem initSaveLoop_any (E : Collab) (c0 : Container) (fuel : Nat) (iblock : Int)
    (x : Container) (hx : StepPost c0 [] x) :
    StepPost c0 [] (initSaveLoop E fuel iblock x).2 := by
  induction fuel generalizing iblock x with
  | zero => exact hx
  | succ n ih =>
    unfold initSaveLoop
    split
    · exact call_post _ E _ _ _ (fun y hy => StepPost_emit _ _ y _ rfl hy) hx
        (fun y hy => ih _ y hy)
    · exact hx

theorem warmupSaveDirs_any (E : Collab) (c : Container) :
    StepPost c [] (warmupSaveDirs E c).2 := by
  unfold warmupSaveDirs
  split
  · split
    · exact StepPost_refl c
    · refine chk_post _ _ _ ?_ (fun y hy => initSaveLoop_any E c _ _ y hy)
      split
      · exact mkdirLoop_any E c _ _ c (StepPost_refl c)
      · exact StepPost_refl c
  · exact StepPost_refl c

/-- One guarded renormalization step inside a loop keeps `ExtPost`. -/
theorem loopStep_any (P : Int × Int × Int × Int → Prop) (E : Collab) (c0 x : Container)
    (l : List Int) (insys inenv : Int) (MStates : Nat) (outsys outenv : Int)
    (k : Container → Outcome) (hx : ExtPost P c0 x) (hP : P (insys, inenv, outsys, outenv))
    (hk : ∀ y, ExtPost P c0 y → ExtPost P c0 (k y).2) :
    ExtPost P c0
      (chk (activeIfSaving E l x) fun c =>
        chk (SingleDMRGStep E insys inenv MStates outsys outenv c) k).2 := by
  have hx1 : ExtPost P c0 (activeIfSaving E l x).2 :=
    ExtPost_step P c0 x _ [] hx (activeIfSaving_any E l x) (by intro q hq; cases hq)
  refine chk_post _ _ _ hx1 (fun y hy => ?_)
  refine chk_post _ _ _ ?_ hk
  exact ExtPost_step P c0 _ _ _ hy (SingleDMRGStep_any E insys inenv MStates outsys outenv y)
    (by
      intro q hq
      rw [List.mem_singleton.mp hq]
      exact hP)

theorem sweepRight_any (E : Collab) (MStates : Nat) (mb : Int) (c0 : Container) (fuel : Nat)
    (iblock : Int) (x : Container) (hx : ExtPost (SweepStepProp c0.num_sites) c0 x) :
    ExtPost (SweepStepProp c0.num_sites) c0 (sweepRight E MStates mb fuel iblock x).2 := by
  induction fuel generalizing iblock x with
  | zero => exact hx
  | succ n ih =>
    unfold sweepRight
    split
    · refine loopStep_any _ E c0 x _ _ _ _ _ _ _ hx ?_ (fun y hy => ih _ y hy)
      have := hx.1.num_sites
      refine ⟨?_, ?_, ?_⟩ <;> simp only [] <;> omega
    · exact hx

theorem sweepLeft_any (E : Collab) (MStates : Nat) (c0 : Container) (fuel : Nat)
    (iblock : Int) (x : Container) (hx : ExtPost (SweepStepProp c0.num_sites) c0 x) :
    ExtPost (SweepStepProp c0.num_sites) c0 (sweepLeft E MStates fuel iblock x).2 := by
  induction fuel generalizing iblock x with
  | zero => exact hx
  | succ n ih =>
    unfold sweepLeft
    split
    · refine loopStep_any _ E c0 x _ _ _ _ _ _ _ hx ?_ (fun y hy => ih _ y hy)
      have := hx.1.num_sites
      refine ⟨?_, ?_, ?_⟩ <;> simp only [] <;> omega
    · exact hx

/-- Whatever the collaborators do, `Sweep` changes at most the block array and the log, and
every step it records satisfies the relations of `SweepStepProp`. -/
theorem Sweep_any (E : Collab) (MStates : Nat) (MinBlock : Int) (c : Container) :
    ExtPost (SweepStepProp c.num_sites) c (Sweep E MStates MinBlock c).2 := by
  unfold Sweep
  split
  · exact ExtPost_refl _ c
  · simp only []
    generalize (if MinBlock = PETSC_DEFAULT then 1 else MinBlock) = mb
    split
    · exact ExtPost_refl _ c
    · refine chk_post _ _ _ (sweepRight_any E MStates _ c _ _ c (ExtPost_refl _ c))
        (fun y hy => ?_)
      exact chk_post _ _ _ (sweepLeft_any E MStates c _ _ y hy) (fun z hz => hz)

theorem ExtPost_trans (P : Int × Int × Int × Int → Prop) (c x y : Container)
    (h1 : ExtPost P c x) (h2 : ExtPost P x y) : ExtPost P c y := by
  obtain ⟨f1, a, s1, p1⟩ := h1
  obtain ⟨f2, b, s2, p2⟩ := h2
  refine ⟨f1.wtrans f2, a ++ b, by rw [s2, s1, List.append_assoc], ?_⟩
  intro q hq
  rcases List.mem_append.mp hq with h | h
  · exact p1 q h
  · exact p2 q h

theorem ExtPost_emit (P : Int × Int × Int × Int → Prop) (c x : Container) (e : Event)
    (he : stepsOf [e] = []) (hx : ExtPost P c x) : ExtPost P c (x.emit e) :=
  ExtPost_step P c x _ [] hx (StepPost_emit x [] x e he (StepPost_refl x))
    (by intro q hq; cases hq)

theorem ExtPost_setBlk (P : Int × Int × Int × Int → Prop) (c x : Container) (i : Int)
    (b : Block) (hx : ExtPost P c x) : ExtPost P c (x.setBlk i b) :=
  ExtPost_step P c x _ [] hx (StepPost_setBlk x [] x i b (StepPost_refl x))
    (by intro q hq; cases hq)

theorem clusterLoop_any (P : Int × Int × Int × Int → Prop) (E : Collab) (cl : Int)
    (c0 : Container) (fuel : Nat) (x : Container) (hx : ExtPost P c0 x) :
    ExtPost P c0 (clusterLoop E cl fuel x).2 := by
  induction fuel generalizing x with
  | zero => exact hx
  | succ n ih =>
    unfold clusterLoop
    split
    · simp only []
      refine call_post _ E _ _ _ (fun y hy => ExtPost_emit P c0 y _ rfl hy) hx (fun y hy => ?_)
      exact ih _ (ExtPost_sys_ninit P c0 _ _ (ExtPost_setBlk P c0 y _ _ hy))
    · exact hx

theorem two_mul_succ_le_of_lt_tdiv (N s : Int) (hs : 1 ≤ s) (h : s < N.tdiv 2) :
    2 * (s + 1) ≤ N := by
  by_cases hN : 0 ≤ N
  · rw [Int.tdiv_eq_ediv hN (by omega)] at h
    omega
  · have h1 := Int.tdiv_nonneg (a := -N) (b := 2) (by omega) (by omega)
    rw [Int.neg_tdiv] at h1
    omega

theorem growLoop_any (E : Collab) (MStates : Nat) (cl N : Int) (c0 : Container)
    (hN : c0.num_sites = N) (fuel : Nat) (x : Container)
    (hx : ExtPost (WarmupStepProp N) c0 x) :
    ExtPost (WarmupStepProp N) c0 (growLoop E MStates cl fuel x).2 := by
  induction fuel generalizing x with
  | zero => exact hx
  | succ n ih =>
    unfold growLoop
    split
    · rename_i hlt
      simp only []
      split
      · exact hx
      · rename_i hg
        have hx1 : ExtPost (WarmupStepProp N) c0 (activeIfSaving E
            [x.sys_ninit - 1, x.sys_ninit, warmupEnvSites x.sys_ninit cl - 1,
              warmupEnvSites x.sys_ninit cl] x).2 :=
          ExtPost_step _ c0 x _ [] hx (activeIfSaving_any E _ x) (by intro q hq; cases hq)
        have hf := (activeIfSaving_any E
            [x.sys_ninit - 1, x.sys_ninit, warmupEnvSites x.sys_ninit cl - 1,
              warmupEnvSites x.sys_ninit cl] x).1
        unfold chk
        split
        · simp only []
          have h2 := SingleDMRGStep_any E ((activeIfSaving E
            [x.sys_ninit - 1, x.sys_ninit, warmupEnvSites x.sys_ninit cl - 1,
              warmupEnvSites x.sys_ninit cl] x).2.sys_ninit - 1)
            (warmupEnvSites x.sys_ninit cl - 1) MStates (activeIfSaving E
            [x.sys_ninit - 1, x.sys_ninit, warmupEnvSites x.sys_ninit cl - 1,
              warmupEnvSites x.sys_ninit cl] x).2.sys_ninit (warmupEnvSites x.sys_ninit cl)
            (activeIfSaving E
            [x.sys_ninit - 1, x.sys_ninit, warmupEnvSites x.sys_ninit cl - 1,
              warmupEnvSites x.sys_ninit cl] x).2
          have hx2 := ExtPost_step _ c0 _ _ _ hx1 h2 (by
            intro q hq
            rw [List.mem_singleton.mp hq, hf.sys_ninit]
            have hns : x.num_sites = N := hx.1.num_sites.trans hN
            rw [hns] at hlt
            have := two_mul_succ_le_of_lt_tdiv N x.sys_ninit (by omega) hlt
            refine ⟨?_, ?_, ?_⟩ <;> simp only [] <;> omega)
          split
          · exact ih _ (ExtPost_sys_ninit _ c0 _ _ hx2)
          · exact hx2
        · exact hx1
    · exact hx

theorem warmupGrow_any (E : Collab) (MStates : Nat) (N : Int) (x : Container)
    (hN : x.num_sites = N) :
    ∃ y, ExtPost (WarmupStepProp N) x y ∧ WarmupEnd y (warmupGrow E MStates x) := by
  have hfail : ∀ y : Container, WarmupEnd y (1, y) := fun y => Or.inl ⟨by simp, rfl⟩
  unfold warmupGrow
  split
  · exact ⟨x, ExtPost_refl _ x, hfail x⟩
  · split
    · exact ⟨x, ExtPost_refl _ x, hfail x⟩
    · simp only []
      generalize (if E.NumEnvSites.tmod 2 ≠ 0 then E.NumEnvSites * 2 else E.NumEnvSites) = cl
      have h1 := clusterLoop_any (WarmupStepProp N) E cl x (cl - x.sys_ninit).toNat x
        (ExtPost_refl _ x)
      generalize clusterLoop E cl (cl - x.sys_ninit).toNat x = r1 at h1
      unfold chk
      split
      · simp only []
        have h2 := growLoop_any E MStates cl N x hN
          (r1.2.num_sites.tdiv 2 - r1.2.sys_ninit).toNat r1.2 h1
        generalize growLoop E MStates cl (r1.2.num_sites.tdiv 2 - r1.2.sys_ninit).toNat r1.2
          = r2 at h2
        split
        · split
          · exact ⟨r2.2, h2, hfail _⟩
          · rename_i hs
            exact ⟨r2.2, h2, Or.inr ⟨rfl, by simpa using hs, rfl⟩⟩
        · rename_i hne
          exact ⟨r2.2, h2, Or.inl ⟨hne, rfl⟩⟩
      · rename_i hne
        exact ⟨r1.2, h1, Or.inl ⟨hne, rfl⟩⟩

theorem warmupBlocks_any (E : Collab) (MStates : Nat) (N : Int) (x : Container)
    (hN : x.num_sites = N) :
    ∃ y, ExtPost (WarmupStepProp N) x y ∧ WarmupEnd y (warmupBlocks E MStates x) := by
  unfold warmupBlocks call
  simp only []
  have h0 : ExtPost (WarmupStepProp N) x
      ({ x with sys_ninit := x.sys_ninit + 1 }.emit (.initSite x.sys_ninit)) :=
    ExtPost_emit _ x _ (.initSite x.sys_ninit) rfl
      (ExtPost_sys_ninit _ x x _ (ExtPost_refl _ x))
  split
  · have hx' := ExtPost_setBlk _ x _ x.sys_ninit ⟨true, 1⟩ h0
    obtain ⟨y, hy, he⟩ := warmupGrow_any E MStates N _ (hx'.1.num_sites.trans hN)
    exact ⟨y, ExtPost_trans _ x _ y hx' hy, he⟩
  · exact ⟨_, h0, Or.inl ⟨by simp, rfl⟩⟩

/-- Whatever the collaborators do, an outcome of `Warmup` comes from a container `y` that
keeps the site count and the flags of the start and whose new steps satisfy
`WarmupStepProp`; a failure returns `y`, a success starts from a container that was not
warmed up and returns `y` with the warmed-up flag set. -/
theorem Warmup_any (E : Collab) (MStates : Nat) (c : Container) :
    ∃ y, (y.num_sites = c.num_sites ∧ y.mpi_rank = c.mpi_rank ∧ y.warmed_up = c.warmed_up ∧
        y.no_symm = c.no_symm ∧ y.do_save_dir = c.do_save_dir) ∧
      (∃ new, stepsOf y.log = stepsOf c.log ++ new ∧
        ∀ q ∈ new, WarmupStepProp c.num_sites q) ∧
      WarmupEnd y (Warmup E MStates c) ∧ ((Warmup E MStates c).1 = 0 → c.warmed_up = false) := by
  unfold Warmup
  split
  · exact ⟨c, ⟨rfl, rfl, rfl, rfl, rfl⟩, ⟨[], by simp, by intro q hq; cases hq⟩,
      Or.inl ⟨by simp, rfl⟩, by simp⟩
  · rename_i hw
    have hw' : c.warmed_up = false := by simpa using hw
    simp only []
    generalize hc' : ({ c with
      num_sys_blocks := c.num_sites - 1
      sys_blocks := c.sys_blocks.take (c.num_sites - 1).toNat ++
        List.replicate ((c.num_sites - 1).toNat - c.sys_blocks.length) Block.empty }
      : Container) = c'
    have e1 : c'.num_sites = c.num_sites := by rw [← hc']
    have e2 : c'.mpi_rank = c.mpi_rank := by rw [← hc']
    have e3 : c'.warmed_up = c.warmed_up := by rw [← hc']
    have e4 : c'.no_symm = c.no_symm := by rw [← hc']
    have e5 : c'.do_save_dir = c.do_save_dir := by rw [← hc']
    have e6 : c'.log = c.log := by rw [← hc']
    have h1 := warmupSaveDirs_any E c'
    generalize warmupSaveDirs E c' = r1 at h1
    have key : ∀ y, ExtPost (WarmupStepProp c.num_sites) r1.2 y →
        (y.num_sites = c.num_sites ∧ y.mpi_rank = c.mpi_rank ∧ y.warmed_up = c.warmed_up ∧
          y.no_symm = c.no_symm ∧ y.do_save_dir = c.do_save_dir) ∧
        (∃ new, stepsOf y.log = stepsOf c.log ++ new ∧
          ∀ q ∈ new, WarmupStepProp c.num_sites q) := by
      intro y hy
      obtain ⟨f, new, s, p⟩ := hy
      obtain ⟨f1, _, s1⟩ := h1
      refine ⟨⟨(f.num_sites.trans f1.num_sites).trans e1,
        (f.mpi_rank.trans f1.mpi_rank).trans e2, (f.warmed_up.trans f1.warmed_up).trans e3,
        (f.no_symm.trans f1.no_symm).trans e4,
        (f.do_save_dir.trans f1.do_save_dir).trans e5⟩, new, ?_, p⟩
      rw [s, s1, e6]
      simp
    unfold chk
    split
    · obtain ⟨y, hy, he⟩ := warmupBlocks_any E MStates c.num_sites r1.2
        (h1.1.num_sites.trans e1)
      exact ⟨y, (key y hy).1, (key y hy).2, he, fun _ => hw'⟩
    · rename_i hne
      exact ⟨r1.2, (key _ (ExtPost_refl _ _)).1, (key _ (ExtPost_refl _ _)).2,
        Or.inl ⟨hne, rfl⟩, fun _ => hw'⟩

theorem WarmupEnd_log (y : Container) (r : Outcome) (h : WarmupEnd y r) : r.2.log = y.log := by
  rcases h with ⟨_, h⟩ | ⟨_, _, h⟩ <;> rw [h]

/-- C13: every step that `Sweep` records has `(insys+1) + (inenv+1) + 2 = N`,
`outsys = insys + 1` and `outenv = inenv + 1` (hence `outsys + outenv = N - 2`); in every
step that `Warmup` records the two enlarged blocks, of `insys + 2` and `inenv + 2` sites,
have at most `N` sites together. This holds whatever the collaborators do. -/
theorem C13_step_geometry (E : Collab) (MStates : Nat) (MinBlock : Int) (c : Container) :
    (∃ new, stepsOf (Sweep E MStates MinBlock c).2.log = stepsOf c.log ++ new ∧
      ∀ q ∈ new, (q.1 + 1) + (q.2.1 + 1) + 2 = c.num_sites ∧ q.2.2.1 = q.1 + 1 ∧
        q.2.2.2 = q.2.1 + 1 ∧ q.2.2.1 + q.2.2.2 = c.num_sites - 2) ∧
    (∃ new, stepsOf (Warmup E MStates c).2.log = stepsOf c.log ++ new ∧
      ∀ q ∈ new, (q.1 + 2) + (q.2.1 + 2) ≤ c.num_sites) := by
  constructor
  · obtain ⟨_, new, hs, hp⟩ := Sweep_any E MStates MinBlock c
    refine ⟨new, hs, ?_⟩
    intro q hq
    obtain ⟨h1, h2, h3⟩ := hp q hq
    exact ⟨h1, h2, h3, by omega⟩
  · obtain ⟨y, _, ⟨new, hs, hp⟩, he, _⟩ := Warmup_any E MStates c
    refine ⟨new, ?_, fun q hq => (hp q hq).1⟩
    rw [WarmupEnd_log y _ he]
    exact hs

/-- C13 at the concrete run: the steps of the warmup and of the sweep of the 8-site chain. -/
theorem C13_step_geometry_witness :
    stepsOf (Warmup (Collab.allOk 2) 4 (Container.fresh 8 0 false false)).2.log =
      [(1, 1, 2, 2), (2, 2, 3, 3)] ∧
    (∃ new, stepsOf (Sweep (Collab.allOk 2) 4 1
        (Warmup (Collab.allOk 2) 4 (Container.fresh 8 0 false false)).2).2.log =
        stepsOf (Warmup (Collab.allOk 2) 4 (Container.fresh 8 0 false false)).2.log ++ new ∧
      ∀ q ∈ new, (q.1 + 1) + (q.2.1 + 1) + 2 =
          (Warmup (Collab.allOk 2) 4 (Container.fresh 8 0 false false)).2.num_sites ∧
        q.2.2.1 = q.1 + 1 ∧ q.2.2.2 = q.2.1 + 1 ∧
        q.2.2.1 + q.2.2.2 =
          (Warmup (Collab.allOk 2) 4 (Container.fresh 8 0 false false)).2.num_sites - 2) :=
  ⟨by decide, (C13_step_geometry (Collab.allOk 2) 4 1
    (Warmup (Collab.allOk 2) 4 (Container.fresh 8 0 false false)).2).1⟩

/-- C14: after a successful `Warmup` the warmed-up flag is set, and every further `Warmup`
call, whatever its arguments and collaborators, returns an error at once and leaves the
whole container, its log included, unchanged. -/
theorem C14_warmup_only_once (E E' : Collab) (MStates MStates' : Nat) (c : Container)
    (h : (Warmup E MStates c).1 = 0) :
    (Warmup E MStates c).2.warmed_up = true ∧
    Warmup E' MStates' (Warmup E MStates c).2 = (1, (Warmup E MStates c).2) := by
  have hw : (Warmup E MStates c).2.warmed_up = true := by
    obtain ⟨y, _, _, he, _⟩ := Warmup_any E MStates c
    rcases he with ⟨hne, _⟩ | ⟨_, _, hr⟩
    · exact absurd h hne
    · rw [hr]
  refine ⟨hw, ?_⟩
  generalize (Warmup E MStates c).2 = c' at hw
  unfold Warmup
  rw [if_pos hw]

/-- C14 at the concrete run: a second warmup of the 8-site chain. -/
theorem C14_warmup_only_once_witness :
    (Warmup (Collab.allOk 2) 4 (Container.fresh 8 0 false false)).1 = 0 ∧
    Warmup (Collab.allOk 2) 4 (Warmup (Collab.allOk 2) 4 (Container.fresh 8 0 false false)).2 =
      (1, (Warmup (Collab.allOk 2) 4 (Container.fresh 8 0 false false)).2) :=
  ⟨by decide, (C14_warmup_only_once (Collab.allOk 2) (Collab.allOk 2) 4 4
    (Container.fresh 8 0 false false) (by decide)).2⟩

/-- C15: `Sweep` on a container whose warmed-up flag is not set returns an error and leaves
the container, its log included, unchanged (no step, no block load or eviction); the flag
is false on construction, `Sweep` never changes it, a failing `Warmup` leaves it as it was
and a successful `Warmup` sets it. -/
theorem C15_sweep_requires_warmup (E : Collab) (MStates : Nat) (MinBlock : Int)
    (c : Container) (N rank : Int) (no_symm do_save_dir : Bool) :
    (c.warmed_up = false → Sweep E MStates MinBlock c = (1, c)) ∧
    (∀ c0, construct N rank no_symm do_save_dir = .ok c0 → c0.warmed_up = false) ∧
    (Sweep E MStates MinBlock c).2.warmed_up = c.warmed_up ∧
    ((Warmup E MStates c).1 ≠ 0 → (Warmup E MStates c).2.warmed_up = c.warmed_up) ∧
    ((Warmup E MStates c).1 = 0 → (Warmup E MStates c).2.warmed_up = true) := by
  refine ⟨?_, ?_, (Sweep_any E MStates MinBlock c).1.warmed_up, ?_, ?_⟩
  · intro hw
    unfold Sweep
    simp [hw]
  · intro c0 h
    unfold construct at h
    split at h
    · cases h
    · split at h
      · cases h
      · cases h
        rfl
  · intro hne
    obtain ⟨y, hy, _, he, _⟩ := Warmup_any E MStates c
    rcases he with ⟨_, hr⟩ | ⟨h0, _⟩
    · rw [hr]
      exact hy.2.2.1
    · exact absurd h0 hne
  · intro h0
    obtain ⟨y, _, _, he, _⟩ := Warmup_any E MStates c
    rcases he with ⟨hne, _⟩ | ⟨_, _, hr⟩
    · exact absurd h0 hne
    · rw [hr]

/-- C15 at concrete data: a sweep on the freshly constructed 8-site container. -/
theorem C15_sweep_requires_warmup_witness :
    Sweep (Collab.allOk 2) 4 1 (Container.fresh 8 0 false false) =
      (1, Container.fresh 8 0 false false) ∧
    (∀ c0, construct 8 0 false false = .ok c0 → c0.warmed_up = false) :=
  ⟨(C15_sweep_requires_warmup (Collab.allOk 2) 4 1 (Container.fresh 8 0 false false)
      8 0 false false).1 rfl,
   (C15_sweep_requires_warmup (Collab.allOk 2) 4 1 (Container.fresh 8 0 false false)
      8 0 false false).2.1⟩

theorem blk_congr (a b : Container) (h : a.sys_blocks = b.sys_blocks) (j : Int) :
    a.blk j = b.blk j := by
  unfold Container.blk
  rw [h]

theorem blk_setBlk_ne (c : Container) (i j : Int) (b : Block) (h : j ≠ i) :
    (c.setBlk i b).blk j = c.blk j := by
  unfold Container.setBlk Container.blk
  by_cases hi : 0 ≤ i
  · rw [if_pos hi]
    by_cases hj : 0 ≤ j
    · rw [if_pos hj, if_pos hj]
      simp only []
      rw [List.getD_eq_getElem?_getD, List.getD_eq_getElem?_getD,
        List.getElem?_set_ne (by omega)]
    · rw [if_neg hj, if_neg hj]
  · rw [if_neg hi]

theorem blk_setBlk_eq (c : Container) (i : Int) (b : Block) (h0 : 0 ≤ i)
    (h1 : i < c.sys_blocks.length) : (c.setBlk i b).blk i = b := by
  unfold Container.setBlk Container.blk
  rw [if_pos h0, if_pos h0]
  simp only []
  rw [List.getD_eq_getElem?_getD, List.getElem?_set_self (by omega)]
  rfl

/-- A block read after a write is the written block or the block that was there. -/
theorem blk_setBlk_cases (c : Container) (i j : Int) (b : Block) :
    (c.setBlk i b).blk j = c.blk j ∨ (j = i ∧ (c.setBlk i b).blk j = b) := by
  by_cases hji : j = i
  · subst hji
    by_cases h0 : 0 ≤ j
    · by_cases h1 : j < c.sys_blocks.length
      · exact Or.inr ⟨rfl, blk_setBlk_eq c j b h0 h1⟩
      · left
        unfold Container.setBlk
        rw [if_pos h0]
        unfold Container.blk
        simp only []
        rw [List.set_eq_of_length_le (by omega)]
    · left
      unfold Container.setBlk
      rw [if_neg h0]
  · exact Or.inl (blk_setBlk_ne c i j b hji)

theorem SitesInv_setBlk (c : Container) (i : Int) (b : Block) (h : SitesInv c)
    (hb : b.init = true → b.NumSites = i + 1) : SitesInv (c.setBlk i b) := by
  intro j hj
  rcases blk_setBlk_cases c i j b with h1 | ⟨h1, h2⟩
  · rw [h1] at hj ⊢
    exact h j hj
  · rw [h2] at hj ⊢
    rw [h1]
    exact hb hj

theorem SitesInv_congr (a b : Container) (h : a.sys_blocks = b.sys_blocks) (hb : SitesInv b) :
    SitesInv a := by
  intro j hj
  rw [blk_congr a b h] at hj ⊢
  exact hb j hj

theorem InitUpTo_congr (n : Int) (a b : Container) (h : a.sys_blocks = b.sys_blocks)
    (hb : InitUpTo n b) : InitUpTo n a := by
  intro j h0 h1
  rw [blk_congr a b h]
  exact hb j h0 h1

theorem call_zero (E : Collab) (e : Event) (c : Container) (k : Container → Outcome)
    (h : (call E e c k).1 = 0) : call E e c k = k (c.emit e) := by
  unfold call at h ⊢
  split
  · rfl
  · rename_i hne
    rw [if_neg hne] at h
    simp at h

theorem chk_zero (r : Outcome) (k : Container → Outcome) (h : (chk r k).1 = 0) :
    r.1 = 0 ∧ chk r k = k r.2 := by
  unfold chk at h ⊢
  split
  · rename_i h0
    exact ⟨h0, rfl⟩
  · rename_i hne
    rw [if_neg hne] at h
    exact absurd h hne

/-- The block array after a successful step: both output slots are emptied, then the
rotated enlarged blocks are stored (a single one when the two inputs are the same slot). -/
theorem SingleDMRGStep_zero (E : Collab) (insys inenv : Int) (MStates : Nat)
    (outsys outenv : Int) (c : Container)
    (h : (SingleDMRGStep E insys inenv MStates outsys outenv c).1 = 0) :
    (SingleDMRGStep E insys inenv MStates outsys outenv c).2.sys_blocks =
      (if insys = inenv then
        ((c.setBlk outsys Block.empty).setBlk outenv Block.empty).setBlk outsys
          ⟨true, (c.blk insys).NumSites + E.AddSiteNumSites⟩
      else
        (((c.setBlk outsys Block.empty).setBlk outenv Block.empty).setBlk outsys
          ⟨true, (c.blk insys).NumSites + E.AddSiteNumSites⟩).setBlk outenv
          ⟨true, (c.blk inenv).NumSites + E.AddSiteNumSites⟩).sys_blocks := by
  revert h
  unfold SingleDMRGStep
  simp only [blk_emit]
  generalize (c.blk insys).NumSites + E.AddSiteNumSites = n1
  generalize hc1 : c.emit (.step insys inenv outsys outenv) = c1
  have hb1 : c1.sys_blocks = c.sys_blocks := by rw [← hc1]; rfl
  have hblk : ∀ x : Container, x.sys_blocks = c.sys_blocks → ∀ j, x.blk j = c.blk j :=
    fun x hx j => blk_congr x c hx j
  have hset : ∀ (x y : Container) (i : Int) (b : Block), x.sys_blocks = y.sys_blocks →
      (x.setBlk i b).sys_blocks = (y.setBlk i b).sys_blocks := by
    intro x y i b hxy
    unfold Container.setBlk
    split <;> simp [hxy]
  have htail : ∀ (x : Container) (n2 : Int), x.sys_blocks = c.sys_blocks →
      (call E (.kronSum (n1 + n2)) x fun c =>
          call E .solve c fun c =>
          if c.no_symm then (PETSC_ERR_SUP, c) else
          call E .truncate c fun c =>
          call E (.rotate outsys n1) ((c.setBlk outsys Block.empty).setBlk outenv Block.empty)
            fun c =>
          if decide (insys = inenv) then (0, c.setBlk outsys ⟨true, n1⟩) else
          call E (.rotate outenv n2) (c.setBlk outsys ⟨true, n1⟩) fun c =>
          (0, c.setBlk outenv ⟨true, n2⟩)).1 = 0 →
      (call E (.kronSum (n1 + n2)) x fun c =>
          call E .solve c fun c =>
          if c.no_symm then (PETSC_ERR_SUP, c) else
          call E .truncate c fun c =>
          call E (.rotate outsys n1) ((c.setBlk outsys Block.empty).setBlk outenv Block.empty)
            fun c =>
          if decide (insys = inenv) then (0, c.setBlk outsys ⟨true, n1⟩) else
          call E (.rotate outenv n2) (c.setBlk outsys ⟨true, n1⟩) fun c =>
          (0, c.setBlk outenv ⟨true, n2⟩)).2.sys_blocks =
        (if insys = inenv then
          ((c.setBlk outsys Block.empty).setBlk outenv Block.empty).setBlk outsys ⟨true, n1⟩
        else
          (((c.setBlk outsys Block.empty).setBlk outenv Block.empty).setBlk outsys
            ⟨true, n1⟩).setBlk outenv ⟨true, n2⟩).sys_blocks := by
    intro x n2 hx h
    have e1 := call_zero _ _ _ _ h
    rw [e1] at h ⊢
    have e2 := call_zero _ _ _ _ h
    rw [e2] at h ⊢
    split at h
    · simp [PETSC_ERR_SUP] at h
    · rename_i hns
      rw [if_neg hns]
      have e3 := call_zero _ _ _ _ h
      rw [e3] at h ⊢
      have e4 := call_zero _ _ _ _ h
      rw [e4] at h ⊢
      have hd : ((((((x.emit (.kronSum (n1 + n2))).emit .solve).emit .truncate).setBlk outsys
          Block.empty).setBlk outenv Block.empty).emit (.rotate outsys n1)).sys_blocks =
          ((c.setBlk outsys Block.empty).setBlk outenv Block.empty).sys_blocks :=
        hset _ _ _ _ (hset _ _ _ _ hx)
      by_cases hflg : insys = inenv
      · simp only [hflg, decide_True, if_true]
        exact hset _ _ _ _ (by simpa [hflg] using hd)
      · simp only [hflg, decide_False, Bool.false_eq_true, if_false] at h ⊢
        have e5 := call_zero _ _ _ _ h
        rw [e5]
        exact hset _ _ _ _ (hset _ _ _ _ hd)
  intro h
  have e0 := call_zero _ _ _ _ h
  rw [e0] at h ⊢
  simp only [blk_emit] at h ⊢
  rw [hblk c1 hb1] at h ⊢
  by_cases hflg : insys = inenv
  · simp only [hflg, decide_True, if_true] at h ⊢
    have := htail (c1.emit (.enlarge n1)) n1 hb1 (by simpa [hflg] using h)
    simpa [hflg] using this
  · simp only [hflg, decide_False, Bool.false_eq_true, if_false] at h ⊢
    have e6 := call_zero _ _ _ _ h
    rw [e6] at h ⊢
    have := htail ((c1.emit (.enlarge n1)).emit
      (.enlarge ((c.blk inenv).NumSites + E.AddSiteNumSites)))
      ((c.blk inenv).NumSites + E.AddSiteNumSites) hb1 (by simpa [hflg] using h)
    simpa [hflg] using this

theorem call_post2 (P Q : Container → Prop) (E : Collab) (e : Event) (c : Container)
    (k : Container → Outcome) (he : ∀ x, P x → P (x.emit e)) (hPQ : ∀ x, P x → Q x)
    (hc : P c) (hk : ∀ x, P x → Q (k x).2) : Q (call E e c k).2 := by
  unfold call
  split
  · exact hk _ (he _ hc)
  · exact hPQ _ (he _ hc)

theorem saveRange_blocks (E : Collab) (fuel : Nat) (idx hi : Int) (x : Container) :
    (saveRange E fuel idx hi x).2.sys_blocks = x.sys_blocks := by
  induction fuel generalizing idx x with
  | zero => rfl
  | succ n ih =>
    unfold saveRange
    split
    · exact call_post (fun y => y.sys_blocks = x.sys_blocks) E _ _ _ (fun y hy => hy) rfl
        (fun y hy => (ih _ y).trans hy)
    · rfl

theorem activeLoop_blocks (E : Collab) (l : List Int) (sys_idx : Int) (x : Container)
    (k : Int → Container → Outcome) (hk : ∀ i y, (k i y).2.sys_blocks = y.sys_blocks) :
    (activeLoop E l sys_idx x k).2.sys_blocks = x.sys_blocks := by
  induction l generalizing sys_idx x with
  | nil => exact hk _ _
  | cons act rest ih =>
    unfold activeLoop
    refine chk_post (fun y => y.sys_blocks = x.sys_blocks) _ _ (saveRange_blocks E _ _ _ x)
      (fun y hy => ?_)
    exact call_post (fun z => z.sys_blocks = x.sys_blocks) E _ _ _ (fun z hz => hz) hy
      (fun z hz => (ih _ z).trans hz)

/-- Whatever the collaborators do, `SysBlocksActive` (when called) leaves the block array
as it is. -/
theorem activeIfSaving_blocks (E : Collab) (l : List Int) (c : Container) :
    (activeIfSaving E l c).2.sys_blocks = c.sys_blocks := by
  unfold activeIfSaving
  split
  · unfold SysBlocksActive
    exact activeLoop_blocks E _ _ c _ (fun i y => saveRange_blocks E _ _ _ y)
  · rfl

theorem mkdirLoop_blocks (E : Collab) (fuel : Nat) (iblock : Int) (x : Container) :
    (mkdirLoop E fuel iblock x).2.sys_blocks = x.sys_blocks := by
  induction fuel generalizing iblock x with
  | zero => rfl
  | succ n ih =>
    unfold mkdirLoop
    split
    · exact call_post (fun y => y.sys_blocks = x.sys_blocks) E _ _ _ (fun y hy => hy) rfl
        (fun y hy => (ih _ y).trans hy)
    · rfl

theorem initSaveLoop_blocks (E : Collab) (fuel : Nat) (iblock : Int) (x : Container) :
    (initSaveLoop E fuel iblock x).2.sys_blocks = x.sys_blocks := by
  induction fuel generalizing iblock x with
  | zero => rfl
  | succ n ih =>
    unfold initSaveLoop
    split
    · exact call_post (fun y => y.sys_blocks = x.sys_blocks) E _ _ _ (fun y hy => hy) rfl
        (fun y hy => (ih _ y).trans hy)
    · rfl

theorem warmupSaveDirs_blocks (E : Collab) (c : Container) :
    (warmupSaveDirs E c).2.sys_blocks = c.sys_blocks := by
  unfold warmupSaveDirs
  split
  · split
    · rfl
    · refine chk_post (fun y => y.sys_blocks = c.sys_blocks) _ _ ?_
        (fun y hy => (initSaveLoop_blocks E _ _ y).trans hy)
      split
      · exact mkdirLoop_blocks E _ _ c
      · rfl
  · rfl

theorem SitesInv_emit (x : Container) (e : Event) (h : SitesInv x) : SitesInv (x.emit e) :=
  SitesInv_congr _ x rfl h

theorem SitesInv_setEmpty (x : Container) (i : Int) (h : SitesInv x) :
    SitesInv (x.setBlk i Block.empty) :=
  SitesInv_setBlk x i _ h (fun hb => by simp [Block.empty] at hb)

/-- Whatever the collaborators do, a step whose enlarged inputs have the site counts of
the output slots keeps the site counts of all initialized blocks right. -/
theorem SingleDMRGStep_sites (E : Collab) (insys inenv : Int) (MStates : Nat)
    (outsys outenv : Int) (c : Container) (hS : SitesInv c)
    (h1 : (c.blk insys).NumSites + E.AddSiteNumSites = outsys + 1)
    (h2 : (c.blk inenv).NumSites + E.AddSiteNumSites = outenv + 1) :
    SitesInv (SingleDMRGStep E insys inenv MStates outsys outenv c).2 := by
  have hem : ∀ (e : Event) (x : Container), x.sys_blocks = c.sys_blocks →
      (x.emit e).sys_blocks = c.sys_blocks := fun e x hx => hx
  have hPQ : ∀ x : Container, x.sys_blocks = c.sys_blocks → SitesInv x :=
    fun x hx => SitesInv_congr x c hx hS
  unfold SingleDMRGStep
  simp only [blk_emit]
  have htail : ∀ x, SitesInv x →
      ∀ n1 n2 : Int, n1 = outsys + 1 → n2 = outenv + 1 → SitesInv
        (call E (.kronSum (n1 + n2)) x fun c =>
          call E .solve c fun c =>
          if c.no_symm then (PETSC_ERR_SUP, c) else
          call E .truncate c fun c =>
          call E (.rotate outsys n1) ((c.setBlk outsys Block.empty).setBlk outenv Block.empty)
            fun c =>
          if decide (insys = inenv) then (0, c.setBlk outsys ⟨true, n1⟩) else
          call E (.rotate outenv n2) (c.setBlk outsys ⟨true, n1⟩) fun c =>
          (0, c.setBlk outenv ⟨true, n2⟩)).2 := by
    intro x hx n1 n2 hn1 hn2
    refine call_post _ E _ _ _ (fun y hy => SitesInv_emit y _ hy) hx (fun x2 h2 => ?_)
    refine call_post _ E _ _ _ (fun y hy => SitesInv_emit y _ hy) h2 (fun x3 h3 => ?_)
    split
    · exact h3
    · refine call_post _ E _ _ _ (fun y hy => SitesInv_emit y _ hy) h3 (fun x4 h4 => ?_)
      refine call_post _ E _ _ _ (fun y hy => SitesInv_emit y _ hy)
        (SitesInv_setEmpty _ _ (SitesInv_setEmpty _ _ h4)) (fun x5 h5 => ?_)
      split
      · exact SitesInv_setBlk _ _ _ h5 (fun _ => hn1)
      · refine call_post _ E _ _ _ (fun y hy => SitesInv_emit y _ hy)
          (SitesInv_setBlk _ _ _ h5 (fun _ => hn1)) (fun x6 h6 => ?_)
        exact SitesInv_setBlk _ _ _ h6 (fun _ => hn2)
  refine call_post2 (fun x => x.sys_blocks = c.sys_blocks) _ E _ _ _ (hem _) hPQ rfl
    (fun x1 hx1 => ?_)
  by_cases hflg : insys = inenv
  · simp only [hflg, decide_True, if_true]
    have := htail x1 (hPQ x1 hx1) ((c.blk inenv).NumSites + E.AddSiteNumSites)
      ((c.blk inenv).NumSites + E.AddSiteNumSites) (by rw [← hflg]; exact h1)
      h2
    simpa [hflg] using this
  · simp only [hflg, decide_False, Bool.false_eq_true, if_false]
    refine call_post2 (fun x => x.sys_blocks = c.sys_blocks) _ E _ _ _ (hem _) hPQ hx1
      (fun x2 hx2 => ?_)
    have := htail x2 (hPQ x2 hx2) ((c.blk insys).NumSites + E.AddSiteNumSites)
      ((x1.blk inenv).NumSites + E.AddSiteNumSites) h1
      (by rw [blk_congr x1 c hx1]; exact h2)
    simpa [hflg] using this

theorem InitUpTo_mono (n m : Int) (c : Container) (h : InitUpTo n c) (hm : m ≤ n) :
    InitUpTo m c :=
  fun i h0 h1 => h i h0 (by omega)

theorem InitUpTo_succ (n : Int) (c : Container) (h : InitUpTo n c)
    (hn : (c.blk n).init = true) : InitUpTo (n + 1) c := by
  intro i h0 h1
  by_cases hi : i = n
  · rw [hi]; exact hn
  · exact h i h0 (by omega)

theorem BlocksInv_congr (N i : Int) (a b : Container) (h : a.sys_blocks = b.sys_blocks)
    (hb : BlocksInv N i b) : BlocksInv N i a :=
  ⟨SitesInv_congr a b h hb.1, by rw [h]; exact hb.2.1, InitUpTo_congr i a b h hb.2.2⟩

/-- The blocks read after the writes of a successful step. -/
theorem blk_after_step (c : Container) (o1 o2 : Int) (B1 B2 : Block) (j : Int)
    (h1 : 0 ≤ o1 ∧ o1 < c.sys_blocks.length) (h2 : 0 ≤ o2 ∧ o2 < c.sys_blocks.length) :
    ((((c.setBlk o1 Block.empty).setBlk o2 Block.empty).setBlk o1 B1).blk j =
        if j = o1 then B1 else if j = o2 then Block.empty else c.blk j) ∧
    (((((c.setBlk o1 Block.empty).setBlk o2 Block.empty).setBlk o1 B1).setBlk o2 B2).blk j =
        if j = o2 then B2 else if j = o1 then B1 else c.blk j) := by
  have l1 : ((c.setBlk o1 Block.empty).sys_blocks.length : Int) = c.sys_blocks.length := by
    rw [setBlk_log_blocks]
  have l2 : (((c.setBlk o1 Block.empty).setBlk o2 Block.empty).sys_blocks.length : Int) =
      c.sys_blocks.length := by
    rw [setBlk_log_blocks, setBlk_log_blocks]
  have l3 : ((((c.setBlk o1 Block.empty).setBlk o2 Block.empty).setBlk o1 B1).sys_blocks.length
      : Int) = c.sys_blocks.length := by
    rw [setBlk_log_blocks, setBlk_log_blocks, setBlk_log_blocks]
  have e3 : (((c.setBlk o1 Block.empty).setBlk o2 Block.empty).setBlk o1 B1).blk j =
      if j = o1 then B1 else if j = o2 then Block.empty else c.blk j := by
    by_cases hj1 : j = o1
    · rw [if_pos hj1, hj1]
      exact blk_setBlk_eq _ _ _ h1.1 (by omega)
    · rw [if_neg hj1, blk_setBlk_ne _ _ _ _ hj1]
      by_cases hj2 : j = o2
      · rw [if_pos hj2, hj2]
        exact blk_setBlk_eq _ _ _ h2.1 (by omega)
      · rw [if_neg hj2, blk_setBlk_ne _ _ _ _ hj2, blk_setBlk_ne _ _ _ _ hj1]
  refine ⟨e3, ?_⟩
  by_cases hj2 : j = o2
  · rw [if_pos hj2, hj2]
    exact blk_setBlk_eq _ _ _ h2.1 (by omega)
  · rw [if_neg hj2, blk_setBlk_ne _ _ _ _ hj2, e3]
    by_cases hj1 : j = o1
    · rw [if_pos hj1, if_pos hj1]
    · rw [if_neg hj1, if_neg hj1, if_neg hj2]

/-- A successful step on initialized inputs writes initialized blocks to its two output
slots and leaves every other block as it was. -/
theorem SingleDMRGStep_init (E : Collab) (insys inenv : Int) (MStates : Nat)
    (outsys outenv : Int) (c : Container)
    (h : (SingleDMRGStep E insys inenv MStates outsys outenv c).1 = 0)
    (ho : insys = inenv → outsys = outenv)
    (h1 : 0 ≤ outsys ∧ outsys < c.sys_blocks.length)
    (h2 : 0 ≤ outenv ∧ outenv < c.sys_blocks.length) (j : Int) :
    ((SingleDMRGStep E insys inenv MStates outsys outenv c).2.blk j).init = true ∨
      (j ≠ outsys ∧ j ≠ outenv ∧
        (SingleDMRGStep E insys inenv MStates outsys outenv c).2.blk j = c.blk j) := by
  have hz := SingleDMRGStep_zero E insys inenv MStates outsys outenv c h
  have hb := blk_after_step c outsys outenv
    ⟨true, (c.blk insys).NumSites + E.AddSiteNumSites⟩
    ⟨true, (c.blk inenv).NumSites + E.AddSiteNumSites⟩ j h1 h2
  by_cases hflg : insys = inenv
  · rw [if_pos hflg] at hz
    rw [blk_congr _ _ hz, hb.1]
    have hoo := ho hflg
    by_cases hj1 : j = outsys
    · left; rw [if_pos hj1]
    · right
      exact ⟨hj1, by omega, by rw [if_neg hj1, if_neg (by omega)]⟩
  · rw [if_neg hflg] at hz
    rw [blk_congr _ _ hz, hb.2]
    by_cases hj2 : j = outenv
    · left; rw [if_pos hj2]
    · by_cases hj1 : j = outsys
      · left; rw [if_neg hj2, if_pos hj1]
      · right
        exact ⟨hj1, hj2, by rw [if_neg hj2, if_neg hj1]⟩

/-- A successful step in a block array that satisfies `BlocksInv` keeps it and leaves its two
output slots initialized. -/
theorem SingleDMRGStep_inv (E : Collab) (insys inenv : Int) (MStates : Nat)
    (outsys outenv : Int) (c : Container) (N i : Int) (hB : BlocksInv N i c)
    (hA : E.AddSiteNumSites = 1)
    (hi1 : 0 ≤ insys ∧ insys < i) (hi2 : 0 ≤ inenv ∧ inenv < i)
    (ho1 : outsys = insys + 1) (ho2 : outenv = inenv + 1)
    (hb1 : outsys < N - 1) (hb2 : outenv < N - 1) :
    SitesInv (SingleDMRGStep E insys inenv MStates outsys outenv c).2 ∧
    ((SingleDMRGStep E insys inenv MStates outsys outenv c).1 = 0 →
      BlocksInv N i (SingleDMRGStep E insys inenv MStates outsys outenv c).2 ∧
      ((SingleDMRGStep E insys inenv MStates outsys outenv c).2.blk outsys).init = true ∧
      ((SingleDMRGStep E insys inenv MStates outsys outenv c).2.blk outenv).init = true) := by
  obtain ⟨hS, hL, hI⟩ := hB
  have hs : SitesInv (SingleDMRGStep E insys inenv MStates outsys outenv c).2 := by
    refine SingleDMRGStep_sites E _ _ _ _ _ c hS ?_ ?_
    · rw [hS insys (hI insys hi1.1 hi1.2), hA, ho1]
    · rw [hS inenv (hI inenv hi2.1 hi2.2), hA, ho2]
  refine ⟨hs, fun h => ?_⟩
  have hlen := (SingleDMRGStep_any E insys inenv MStates outsys outenv c).2.1
  have hcase := SingleDMRGStep_init E insys inenv MStates outsys outenv c h
    (fun e => by omega) ⟨by omega, by omega⟩ ⟨by omega, by omega⟩
  refine ⟨⟨hs, by rw [hlen]; exact hL, ?_⟩, ?_, ?_⟩
  · intro j h0 hj
    rcases hcase j with hc | ⟨_, _, hc⟩
    · exact hc
    · rw [hc]; exact hI j h0 hj
  · rcases hcase outsys with hc | ⟨hc, _⟩
    · exact hc
    · exact absurd rfl hc
  · rcases hcase outenv with hc | ⟨_, hc, _⟩
    · exact hc
    · exact absurd rfl hc

theorem chk_SitesPost (P Q : Container → Prop) (r : Outcome) (k : Container → Outcome)
    (hr : SitesPost P r) (hk : ∀ y, P y → SitesPost Q (k y)) : SitesPost Q (chk r k) := by
  unfold chk
  split
  · rename_i h
    exact hk _ (hr.2 h)
  · rename_i h
    exact ⟨hr.1, fun h0 => absurd h0 h⟩

theorem SitesPost_mono (P Q : Container → Prop) (r : Outcome) (hr : SitesPost P r)
    (h : ∀ y, P y → Q y) : SitesPost Q r :=
  ⟨hr.1, fun h0 => h _ (hr.2 h0)⟩

/-- One iteration of a loop of `Warmup` or `Sweep` in a block array that satisfies
`BlocksInv`: the residency call, the step, and the rest of the loop. -/
theorem loopStep_inv {n : Int} (E : Collab) (x : Container) (N i : Int) (l : List Int)
    (insys inenv : Int) (MStates : Nat) (outsys outenv : Int) (k : Container → Outcome)
    (P : Container → Prop) (hN : x.num_sites = N) (hn : x.sys_ninit = n)
    (hB : BlocksInv N i x) (hA : E.AddSiteNumSites = 1)
    (hi1 : 0 ≤ insys ∧ insys < i) (hi2 : 0 ≤ inenv ∧ inenv < i)
    (ho1 : outsys = insys + 1) (ho2 : outenv = inenv + 1)
    (hb1 : outsys < N - 1) (hb2 : outenv < N - 1)
    (hk : ∀ y, y.num_sites = N → y.sys_ninit = n → BlocksInv N i y →
      (y.blk outsys).init = true → (y.blk outenv).init = true → SitesPost P (k y)) :
    SitesPost P (chk (activeIfSaving E l x) fun c =>
      chk (SingleDMRGStep E insys inenv MStates outsys outenv c) k) := by
  have ha := activeIfSaving_any E l x
  have hab := activeIfSaving_blocks E l x
  refine chk_SitesPost (fun y => y.num_sites = N ∧ y.sys_ninit = n ∧ BlocksInv N i y) _ _ _
    ⟨SitesInv_congr _ x hab hB.1, fun _ =>
      ⟨ha.1.num_sites.trans hN, ha.1.sys_ninit.trans hn, BlocksInv_congr N i _ x hab hB⟩⟩
    (fun y hy => ?_)
  obtain ⟨hyN, hyn, hyB⟩ := hy
  have hs := SingleDMRGStep_any E insys inenv MStates outsys outenv y
  have hi := SingleDMRGStep_inv E insys inenv MStates outsys outenv y N i hyB hA hi1 hi2
    ho1 ho2 hb1 hb2
  refine chk_SitesPost (fun z => z.num_sites = N ∧ z.sys_ninit = n ∧ BlocksInv N i z ∧
      (z.blk outsys).init = true ∧ (z.blk outenv).init = true) _ _ _
    ⟨hi.1, fun h0 => ⟨hs.1.num_sites.trans hyN, hs.1.sys_ninit.trans hyn, hi.2 h0⟩⟩
    (fun z hz => hk z hz.1 hz.2.1 hz.2.2.1 hz.2.2.2.1 hz.2.2.2.2)

theorem sweepRight_inv (E : Collab) (MStates : Nat) (mb N : Int) (fuel : Nat) (iblock : Int)
    (x : Container) (hN : x.num_sites = N) (h2 : 2 ≤ N) (hmb : 1 ≤ mb)
    (hA : E.AddSiteNumSites = 1) (hB : BlocksInv N iblock x) (hh : N.tdiv 2 ≤ iblock)
    (hf : N - mb - 2 ≤ iblock + fuel) :
    SitesPost (fun y => y.num_sites = N ∧ BlocksInv N (max iblock (N - mb - 2)) y)
      (sweepRight E MStates mb fuel iblock x) := by
  have hd : N.tdiv 2 = N / 2 := Int.tdiv_eq_ediv (by omega) (by omega)
  induction fuel generalizing iblock x with
  | zero =>
    refine ⟨hB.1, fun _ => ⟨hN, ?_⟩⟩
    rw [max_eq_left (by omega)]
    exact hB
  | succ m ih =>
    unfold sweepRight
    rw [hN]
    split
    · rename_i hlt
      refine loopStep_inv E x N iblock _ _ _ _ _ _ _ _ hN rfl hB hA (by omega) (by omega)
        (by omega) (by omega) (by omega) (by omega) (fun y hyN _ hyB ho _ => ?_)
      have := ih (iblock + 1) y hyN ⟨hyB.1, hyB.2.1, InitUpTo_succ _ _ hyB.2.2 ho⟩
        (by omega) (by omega)
      rw [max_eq_right (by omega)] at this ⊢
      exact this
    · rename_i hlt
      refine ⟨hB.1, fun _ => ⟨hN, ?_⟩⟩
      rw [max_eq_left (by omega)]
      exact hB

theorem sweepLeft_inv (E : Collab) (MStates : Nat) (N K : Int) (fuel : Nat) (iblock : Int)
    (x : Container) (hN : x.num_sites = N) (h2 : 2 ≤ N) (h1 : 1 ≤ iblock)
    (hA : E.AddSiteNumSites = 1) (hB : BlocksInv N K x) (hK : N.tdiv 2 ≤ K)
    (hK2 : N - iblock - 2 ≤ K) :
    SitesPost (fun y => y.num_sites = N ∧ BlocksInv N K y)
      (sweepLeft E MStates fuel iblock x) := by
  have hd : N.tdiv 2 = N / 2 := Int.tdiv_eq_ediv (by omega) (by omega)
  induction fuel generalizing iblock x with
  | zero => exact ⟨hB.1, fun _ => ⟨hN, hB⟩⟩
  | succ m ih =>
    unfold sweepLeft
    rw [hN]
    split
    · rename_i hlt
      refine loopStep_inv E x N K _ _ _ _ _ _ _ _ hN rfl hB hA (by omega) (by omega)
        (by omega) (by omega) (by omega) (by omega) (fun y hyN _ hyB _ _ => ?_)
      exact ih (iblock + 1) y hyN (by omega) hyB (by omega)
    · exact ⟨hB.1, fun _ => ⟨hN, hB⟩⟩

/-- From a block array that satisfies `BlocksInv` up to the centre, `Sweep` keeps the site
counts right whatever its outcome, and a successful `Sweep` keeps `BlocksInv`. -/
theorem Sweep_inv (E : Collab) (MStates : Nat) (MinBlock N : Int) (c : Container)
    (hN : c.num_sites = N) (h2 : 2 ≤ N) (hA : E.AddSiteNumSites = 1)
    (hB : BlocksInv N (N.tdiv 2) c) :
    SitesPost (fun y => BlocksInv N (N.tdiv 2) y) (Sweep E MStates MinBlock c) := by
  have hd : N.tdiv 2 = N / 2 := Int.tdiv_eq_ediv (by omega) (by omega)
  unfold Sweep
  split
  · exact ⟨hB.1, fun h0 => by simp at h0⟩
  · simp only []
    generalize (if MinBlock = PETSC_DEFAULT then 1 else MinBlock) = mb
    split
    · exact ⟨hB.1, fun h0 => by simp at h0⟩
    · rename_i hmb
      rw [hN]
      refine chk_SitesPost _ _ _ _
        (sweepRight_inv E MStates mb N _ _ c hN h2 (by omega) hA hB (le_refl _) (by omega))
        (fun y hy => ?_)
      rw [hy.1]
      refine chk_SitesPost _ _ _ _
        (sweepLeft_inv E MStates N _ _ mb y hy.1 h2 (by omega) hA hy.2
          (le_max_left _ _) (le_max_right _ _))
        (fun z hz => ?_)
      exact ⟨hz.2.1, fun _ => ⟨hz.2.1, hz.2.2.1, InitUpTo_mono _ _ _ hz.2.2.2 (le_max_left _ _)⟩⟩

theorem setBlk_out_of_range (c : Container) (i : Int) (b : Block)
    (h : (c.sys_blocks.length : Int) ≤ i) : (c.setBlk i b).sys_blocks = c.sys_blocks := by
  unfold Container.setBlk
  split
  · simp only []
    rw [List.set_eq_of_length_le (by omega)]
  · rfl

/-- Writing the next exact block keeps `WarmInv`. -/
theorem WarmInv_cluster (E : Collab) (N : Int) (x y : Container) (hA : E.AddSiteNumSites = 1)
    (hW : WarmInv N x) (hb : y.sys_blocks = x.sys_blocks) (hn : y.sys_ninit = x.sys_ninit)
    (hs : y.num_sites = x.num_sites) :
    WarmInv N { y.setBlk y.sys_ninit
      ⟨true, (x.blk (x.sys_ninit - 1)).NumSites + E.AddSiteNumSites⟩ with
      sys_ninit := (y.setBlk y.sys_ninit
        ⟨true, (x.blk (x.sys_ninit - 1)).NumSites + E.AddSiteNumSites⟩).sys_ninit + 1 } := by
  obtain ⟨hN, hS, hL, h1, hI⟩ := hW
  have hSy : SitesInv y := SitesInv_congr y x hb hS
  have hIy : InitUpTo (min x.sys_ninit (N - 1)) y := InitUpTo_congr _ y x hb hI
  have hLy : (y.sys_blocks.length : Int) = N - 1 := by rw [hb]; exact hL
  rw [sys_ninit_setBlk, hn]
  by_cases hr : x.sys_ninit < N - 1
  · have hpre : (x.blk (x.sys_ninit - 1)).NumSites = x.sys_ninit - 1 + 1 :=
      hS _ (hI _ (by omega) (by omega))
    refine ⟨?_, ?_, ?_, ?_, ?_⟩
    · show (y.setBlk _ _).num_sites = N
      rw [num_sites_setBlk, hs, hN]
    · refine SitesInv_congr _ (y.setBlk x.sys_ninit
        ⟨true, (x.blk (x.sys_ninit - 1)).NumSites + E.AddSiteNumSites⟩) rfl ?_
      exact SitesInv_setBlk _ _ _ hSy (fun _ => by rw [hpre, hA]; simp)
    · show ((y.setBlk _ _).sys_blocks.length : Int) = N - 1
      rw [setBlk_log_blocks]; exact hLy
    · show 1 ≤ x.sys_ninit + 1
      omega
    · intro j h0 hj
      have hj2 : j < x.sys_ninit + 1 := lt_of_lt_of_le hj (min_le_left _ _)
      show ((y.setBlk x.sys_ninit _).blk j).init = true
      by_cases hjs : j = x.sys_ninit
      · rw [hjs, blk_setBlk_eq _ _ _ (by omega) (by omega)]
      · rw [blk_setBlk_ne _ _ _ _ hjs]
        exact hIy j h0 (by rw [min_eq_left (by omega)]; omega)
  · have hout := setBlk_out_of_range y x.sys_ninit
      ⟨true, (x.blk (x.sys_ninit - 1)).NumSites + E.AddSiteNumSites⟩ (by omega)
    refine ⟨?_, ?_, ?_, ?_, ?_⟩
    · show (y.setBlk _ _).num_sites = N
      rw [num_sites_setBlk, hs, hN]
    · exact SitesInv_congr _ y hout hSy
    · show ((y.setBlk _ _).sys_blocks.length : Int) = N - 1
      rw [setBlk_log_blocks]; exact hLy
    · show 1 ≤ x.sys_ninit + 1
      omega
    · show InitUpTo (min (x.sys_ninit + 1) (N - 1)) _
      rw [min_eq_right (by omega)]
      rw [min_eq_right (by omega)] at hIy
      exact InitUpTo_congr _ _ y hout hIy

/-- Whatever the collaborators do, the loop of the exact blocks keeps `WarmInv`. -/
theorem clusterLoop_inv (E : Collab) (cl N : Int) (fuel : Nat) (x : Container)
    (hA : E.AddSiteNumSites = 1) (hW : WarmInv N x) :
    WarmInv N (clusterLoop E cl fuel x).2 := by
  induction fuel generalizing x with
  | zero => exact hW
  | succ m ih =>
    unfold clusterLoop
    split
    · simp only []
      refine call_post2
        (fun y => y.sys_blocks = x.sys_blocks ∧ y.sys_ninit = x.sys_ninit ∧
          y.num_sites = x.num_sites) _ E _ _ _ (fun y hy => hy) (fun y hy => ?_)
        ⟨rfl, rfl, rfl⟩ (fun y hy => ?_)
      · obtain ⟨hN, hS, hL, h1, hI⟩ := hW
        exact ⟨hy.2.2.trans hN, SitesInv_congr y x hy.1 hS, by rw [hy.1]; exact hL,
          by rw [hy.2.1]; exact h1, by rw [hy.2.1]; exact InitUpTo_congr _ y x hy.1 hI⟩
      · exact ih _ (WarmInv_cluster E N x y hA hW hy.1 hy.2.1 hy.2.2)
    · exact hW

/-- From a state that satisfies `WarmInv`, the loop of the warmup steps keeps the site counts
right whatever its outcome, and keeps `WarmInv` when it succeeds. -/
theorem growLoop_inv (E : Collab) (MStates : Nat) (cl N : Int) (fuel : Nat) (x : Container)
    (h2 : 2 ≤ N) (hA : E.AddSiteNumSites = 1) (hW : WarmInv N x) :
    SitesPost (WarmInv N) (growLoop E MStates cl fuel x) := by
  have hd : N.tdiv 2 = N / 2 := Int.tdiv_eq_ediv (by omega) (by omega)
  induction fuel generalizing x with
  | zero => exact ⟨hW.2.1, fun _ => hW⟩
  | succ m ih =>
    obtain ⟨hN, hS, hL, h1, hI⟩ := hW
    unfold growLoop
    rw [hN]
    split
    · rename_i hlt
      simp only []
      split
      · exact ⟨hS, fun h0 => by simp at h0⟩
      · rename_i hg
        have hB : BlocksInv N x.sys_ninit x :=
          ⟨hS, hL, by rw [min_eq_left (by omega)] at hI; exact hI⟩
        have ha := activeIfSaving_any E [x.sys_ninit - 1, x.sys_ninit,
          warmupEnvSites x.sys_ninit cl - 1, warmupEnvSites x.sys_ninit cl] x
        have hab := activeIfSaving_blocks E [x.sys_ninit - 1, x.sys_ninit,
          warmupEnvSites x.sys_ninit cl - 1, warmupEnvSites x.sys_ninit cl] x
        refine chk_SitesPost (fun y => y.num_sites = N ∧ y.sys_ninit = x.sys_ninit ∧
            BlocksInv N x.sys_ninit y) _ _ _
          ⟨SitesInv_congr _ x hab hS, fun _ =>
            ⟨ha.1.num_sites.trans hN, ha.1.sys_ninit, BlocksInv_congr N _ _ x hab hB⟩⟩
          (fun y hy => ?_)
        obtain ⟨hyN, hyn, hyB⟩ := hy
        simp only [hyn]
        have hs := SingleDMRGStep_any E (x.sys_ninit - 1) (warmupEnvSites x.sys_ninit cl - 1)
          MStates x.sys_ninit (warmupEnvSites x.sys_ninit cl) y
        have hi := SingleDMRGStep_inv E (x.sys_ninit - 1) (warmupEnvSites x.sys_ninit cl - 1)
          MStates x.sys_ninit (warmupEnvSites x.sys_ninit cl) y N x.sys_ninit hyB hA
          (by omega) (by omega) (by omega) (by omega) (by omega) (by omega)
        refine chk_SitesPost (fun z => z.num_sites = N ∧ z.sys_ninit = x.sys_ninit ∧
            BlocksInv N x.sys_ninit z ∧ (z.blk x.sys_ninit).init = true) _ _ _
          ⟨hi.1, fun h0 => ⟨hs.1.num_sites.trans hyN, hs.1.sys_ninit.trans hyn, (hi.2 h0).1,
            (hi.2 h0).2.1⟩⟩
          (fun z hz => ?_)
        obtain ⟨hzN, hzn, hzB, hzi⟩ := hz
        refine ih _ ⟨hzN, hzB.1, hzB.2.1, ?_, ?_⟩
        · show 1 ≤ z.sys_ninit + 1
          omega
        · show InitUpTo (min (z.sys_ninit + 1) (N - 1)) _
          rw [hzn, min_eq_left (by omega)]
          exact InitUpTo_succ _ z hzB.2.2 hzi
    · exact ⟨hS, fun _ => ⟨hN, hS, hL, h1, hI⟩⟩

theorem call_SitesPost (P : Container → Prop) (Q : Container → Prop) (E : Collab) (e : Event)
    (c : Container) (k : Container → Outcome) (he : ∀ x, P x → P (x.emit e))
    (hS : ∀ x, P x → SitesInv x) (hc : P c) (hk : ∀ x, P x → SitesPost Q (k x)) :
    SitesPost Q (call E e c k) := by
  unfold call
  split
  · exact hk _ (he _ hc)
  · exact ⟨hS _ (he _ hc), fun h0 => by simp at h0⟩

theorem SitesInv_of_empty (c : Container) (h : ∀ b ∈ c.sys_blocks, b = Block.empty) :
    SitesInv c := by
  intro i hi
  exfalso
  revert hi
  unfold Container.blk
  split
  · rw [List.getD_eq_getElem?_getD]
    cases hg : c.sys_blocks[i.toNat]? with
    | none => simp [Block.empty]
    | some b =>
      have hb := h b (List.mem_iff_getElem?.mpr ⟨_, hg⟩)
      simp [hb, Block.empty]
  · simp [Block.empty]

theorem warmupGrow_inv (E : Collab) (MStates : Nat) (N : Int) (x : Container) (h2 : 2 ≤ N)
    (hW : WarmInv N x) : SitesPost (WarmedInv E N) (warmupGrow E MStates x) := by
  have hd : N.tdiv 2 = N / 2 := Int.tdiv_eq_ediv (by omega) (by omega)
  unfold warmupGrow
  split
  · exact ⟨hW.2.1, fun h0 => by simp at h0⟩
  · split
    · exact ⟨hW.2.1, fun h0 => by simp at h0⟩
    · rename_i hA
      have hA1 : E.AddSiteNumSites = 1 := not_not.mp hA
      simp only []
      generalize (if E.NumEnvSites.tmod 2 ≠ 0 then E.NumEnvSites * 2 else E.NumEnvSites) = cl
      have hc := clusterLoop_inv E cl N (cl - x.sys_ninit).toNat x hA1 hW
      refine chk_SitesPost (WarmInv N) _ _ _ ⟨hc.2.1, fun _ => hc⟩ (fun y hy => ?_)
      refine chk_SitesPost (WarmInv N) _ _ _ (growLoop_inv E MStates cl N _ y h2 hA1 hy)
        (fun z hz => ?_)
      obtain ⟨hzN, hzS, hzL, hz1, hzI⟩ := hz
      split
      · exact ⟨hzS, fun h0 => by simp at h0⟩
      · rename_i hne
        have hn : z.sys_ninit = N.tdiv 2 := by rw [← hzN]; exact not_not.mp hne
        refine ⟨SitesInv_congr _ z rfl hzS, fun _ => ⟨hzN, rfl, hA1,
          SitesInv_congr _ z rfl hzS, hzL, InitUpTo_congr _ _ z rfl ?_⟩⟩
        rw [hn, min_eq_left (by omega)] at hzI
        exact hzI

theorem warmupBlocks_inv (E : Collab) (MStates : Nat) (N : Int) (x : Container) (h2 : 2 ≤ N)
    (hN : x.num_sites = N) (hL : (x.sys_blocks.length : Int) = N - 1) (hS : SitesInv x)
    (h0 : x.sys_ninit = 0) : SitesPost (WarmedInv E N) (warmupBlocks E MStates x) := by
  unfold warmupBlocks
  simp only []
  refine call_SitesPost (fun y => y.sys_blocks = x.sys_blocks ∧
      y.sys_ninit = x.sys_ninit + 1 ∧ y.num_sites = x.num_sites) _ E _ _ _ (fun y hy => hy)
    (fun y hy => SitesInv_congr y x hy.1 hS) ⟨rfl, rfl, rfl⟩ (fun y hy => ?_)
  obtain ⟨hyb, hyn, hys⟩ := hy
  have hyL : (y.sys_blocks.length : Int) = N - 1 := by rw [hyb]; exact hL
  refine warmupGrow_inv E MStates N _ h2 ⟨?_, ?_, ?_, ?_, ?_⟩
  · show (y.setBlk _ _).num_sites = N
    rw [num_sites_setBlk, hys, hN]
  · exact SitesInv_setBlk _ _ _ (SitesInv_congr y x hyb hS)
      (fun _ => by rw [h0]; rfl)
  · show ((y.setBlk _ _).sys_blocks.length : Int) = N - 1
    rw [setBlk_log_blocks]; exact hyL
  · show 1 ≤ (y.setBlk _ _).sys_ninit
    rw [sys_ninit_setBlk, hyn, h0]
    decide
  · show InitUpTo (min ((y.setBlk _ _).sys_ninit) (N - 1)) _
    rw [sys_ninit_setBlk, hyn, h0]
    intro j hj0 hj
    have hj1 : j < 0 + 1 := lt_of_lt_of_le hj (min_le_left _ _)
    have hj2 : j = 0 := by omega
    show ((y.setBlk 0 _).blk j).init = true
    rw [hj2, blk_setBlk_eq _ _ _ (le_refl _) (by omega)]

/-- On a container that holds no blocks yet, `Warmup` keeps the site counts right whatever
its outcome, and a successful `Warmup` establishes `WarmedInv`. -/
theorem Warmup_inv (E : Collab) (MStates : Nat) (N : Int) (c : Container) (h2 : 2 ≤ N)
    (hN : c.num_sites = N) (hb : c.sys_blocks = []) (h0 : c.sys_ninit = 0) :
    SitesPost (WarmedInv E N) (Warmup E MStates c) := by
  have hSc : SitesInv c := SitesInv_of_empty c (by rw [hb]; intro b hb; cases hb)
  unfold Warmup
  split
  · exact ⟨hSc, fun h0 => by simp at h0⟩
  · simp only []
    refine chk_SitesPost (fun y => y.num_sites = N ∧ (y.sys_blocks.length : Int) = N - 1 ∧
        SitesInv y ∧ y.sys_ninit = 0) _ _ _ ⟨?_, fun _ => ⟨?_, ?_, ?_, ?_⟩⟩
      (fun y hy => warmupBlocks_inv E MStates N y h2 hy.1 hy.2.1 hy.2.2.1 hy.2.2.2)
    · refine SitesInv_of_empty _ ?_
      rw [warmupSaveDirs_blocks]
      intro b hb1
      simp [hb] at hb1
      exact hb1.2
    · exact (warmupSaveDirs_any E _).1.num_sites.trans hN
    · rw [warmupSaveDirs_blocks]
      simp [hb, hN]
      omega
    · refine SitesInv_of_empty _ ?_
      rw [warmupSaveDirs_blocks]
      intro b hb1
      simp [hb] at hb1
      exact hb1.2
    · exact (warmupSaveDirs_any E _).1.sys_ninit.trans h0

theorem construct_good (E : Collab) (numSites rank : Int) (no_symm do_save_dir : Bool)
    (c : Container) (h : construct numSites rank no_symm do_save_dir = .ok c) : Good E c := by
  unfold construct at h
  split at h
  · cases h
  · split at h
    · cases h
    · rename_i hlt _
      cases h
      exact ⟨not_lt.mp hlt, Or.inl ⟨rfl, rfl, rfl⟩⟩

theorem Warmup_good (E : Collab) (MStates : Nat) (c : Container) (hg : Good E c)
    (h : (Warmup E MStates c).1 = 0) : Good E (Warmup E MStates c).2 := by
  obtain ⟨h2, hf | hw⟩ := hg
  · have hp := (Warmup_inv E MStates c.num_sites c h2 rfl hf.2.1 hf.2.2).2 h
    exact ⟨by rw [hp.1]; exact h2, Or.inr (by rw [hp.1]; exact hp)⟩
  · exfalso
    revert h
    unfold Warmup
    rw [if_pos hw.2.1]
    simp

theorem Sweep_good (E : Collab) (MStates : Nat) (MinBlock : Int) (c : Container)
    (hg : Good E c) (h : (Sweep E MStates MinBlock c).1 = 0) :
    Good E (Sweep E MStates MinBlock c).2 := by
  obtain ⟨h2, hf | hw⟩ := hg
  · exfalso
    revert h
    unfold Sweep
    rw [if_pos (by simp [hf.1])]
    simp
  · have hp := (Sweep_inv E MStates MinBlock c.num_sites c rfl h2 hw.2.2.1 hw.2.2.2).2 h
    have hfr := (Sweep_any E MStates MinBlock c).1
    exact ⟨by rw [hfr.num_sites]; exact h2, Or.inr (by
      rw [hfr.num_sites]
      exact ⟨hfr.num_sites, hfr.warmed_up.trans hw.2.1, hw.2.2.1, hp⟩)⟩

theorem Reachable_good (E : Collab) (c : Container) (h : Reachable E c) : Good E c := by
  induction h with
  | init numSites rank no_symm do_save_dir c hc =>
    exact construct_good E numSites rank no_symm do_save_dir c hc
  | warmup c MStates _ hz ih => exact Warmup_good E MStates c ih hz
  | sweep c MStates MinBlock _ hz ih => exact Sweep_good E MStates MinBlock c ih hz

/-- C18: the code deviates. In the example run with persistence enabled the 35 events of the
warmup are followed by the events of the four sweep steps listed here. The second step
retrieves block 5 and rotates a new block into slot 5; the residency calls before the third
step (needed set 1,2,3,4) and the fourth step (needed set 2,3) save no block above index 3,
so blocks 4 and 5 stay resident although they are not needed. Block 5 is never saved during
the whole run, and a further `SysBlocksActive` call with the needed set 1,2,3,4 on the final
state saves block 0 only. -/
theorem C18_unneeded_block_left_resident :
    (exampleSweep true).1 = 0 ∧
    (exampleSweep true).2.log.drop 35 =
      [.save 0, .retrieve 1, .retrieve 2, .retrieve 3, .retrieve 4, .step 3 1 4 2,
        .enlarge 5, .enlarge 3, .kronSum 8, .solve, .truncate, .rotate 4 5, .rotate 2 3,
       .retrieve 0, .retrieve 1, .save 2, .save 3, .retrieve 4, .retrieve 5, .step 4 0 5 1,
        .enlarge 6, .enlarge 2, .kronSum 8, .solve, .truncate, .rotate 5 6, .rotate 1 2,
       .save 0, .retrieve 1, .retrieve 2, .retrieve 3, .retrieve 4, .step 3 1 4 2,
        .enlarge 5, .enlarge 3, .kronSum 8, .solve, .truncate, .rotate 4 5, .rotate 2 3,
       .save 0, .save 1, .retrieve 2, .retrieve 3, .step 2 2 3 3,
        .enlarge 4, .kronSum 8, .solve, .truncate, .rotate 3 4] ∧
    ((exampleSweep true).2.blk 5).init = true ∧
    Event.save 5 ∉ (exampleSweep true).2.log ∧
    (SysBlocksActive (Collab.allOk 2) [3, 4, 1, 2] (exampleSweep true).2).1 = 0 ∧
    (SysBlocksActive (Collab.allOk 2) [3, 4, 1, 2] (exampleSweep true).2).2.log.drop 85 =
      [.save 0, .retrieve 1, .retrieve 2, .retrieve 3, .retrieve 4] := by
  decide

/-- C19: the code deviates. After the warmup and one sweep of the example run the blocks
0 to 5 are initialized, yet `sys_ninit` is still 4, and the accessor `SysBlock(4)` throws
although block 4 is initialized. -/
theorem C19_sys_ninit_stale :
    (exampleSweep false).1 = 0 ∧
    (exampleSweep false).2.sys_ninit = 4 ∧
    (exampleSweep false).2.sys_blocks =
      [⟨true, 1⟩, ⟨true, 2⟩, ⟨true, 3⟩, ⟨true, 4⟩, ⟨true, 5⟩, ⟨true, 6⟩, Block.empty] ∧
    ((exampleSweep false).2.sys_blocks.filter fun (b : Block) => b.init).length = 6 ∧
    ((exampleSweep false).2.blk 4).init = true ∧
    SysBlock (exampleSweep false).2 4 =
      .error "Attempted to access uninitialized system block." := by
  refine ⟨by decide, by decide, by decide, by decide, by decide, rfl⟩

theorem eigLoop_ok_iff (eps : EPS) (seqIdx blkIdx : Nat) (fuel epsIdx : Nat)
    (l : List Eigen_t) :
    ((∀ j < fuel, (eps.eig (epsIdx + j)).2 = 0) →
      eigLoop eps seqIdx blkIdx fuel epsIdx l =
        .ok (l ++ eigRecords eps seqIdx blkIdx epsIdx fuel)) ∧
    ((∃ j < fuel, (eps.eig (epsIdx + j)).2 ≠ 0) →
      eigLoop eps seqIdx blkIdx fuel epsIdx l = .error 1) := by
  induction fuel generalizing epsIdx l with
  | zero =>
    refine ⟨fun _ => ?_, fun h => ?_⟩
    · simp [eigLoop, eigRecords]
    · obtain ⟨j, hj, _⟩ := h
      omega
  | succ n ih =>
    refine ⟨fun h => ?_, fun h => ?_⟩
    · unfold eigLoop
      simp only []
      have h0 := h 0 (by omega)
      rw [Nat.add_zero] at h0
      rw [if_neg (by simp [h0])]
      rw [(ih (epsIdx + 1) _).1 (fun j hj => by
        have := h (j + 1) (by omega)
        rw [show epsIdx + 1 + j = epsIdx + (j + 1) by omega]
        exact this)]
      congr 1
      rw [List.append_assoc]
      congr 1
      unfold eigRecords
      rw [List.range_succ_eq_map, List.map_cons, List.map_map]
      simp only [Nat.add_zero, List.singleton_append, List.cons.injEq, true_and]
      apply List.map_congr_left
      intro j _
      simp only [Function.comp, Nat.succ_eq_add_one]
      rw [show epsIdx + 1 + j = epsIdx + (j + 1) by omega]
    · unfold eigLoop
      simp only []
      by_cases h0 : (eps.eig epsIdx).2 = 0
      · rw [if_neg (by simp [h0])]
        apply (ih (epsIdx + 1) _).2
        obtain ⟨j, hj, hne⟩ := h
        cases j with
        | zero => exact absurd h0 hne
        | succ j =>
          refine ⟨j, by omega, ?_⟩
          rw [show epsIdx + 1 + j = epsIdx + (j + 1) by omega]
          exact hne
      · rw [if_pos h0]

/-- C25: `EigRDM_BlockDiag` returns an error if its input is not square, if the number of
converged eigenpairs differs from the dimension `n`, or if one of the first `n` eigenvalues
has a nonzero imaginary part; otherwise it succeeds, and the list it returns is the list it
was given followed by the `n` records `(eigenvalue k, seqIdx, k, blkIdx)`, `k = 0 .. n-1`. -/
theorem C25_eig_block_diag (solve : SeqDense → EPS) (matin : SeqDense) (seqIdx blkIdx : Nat)
    (eigList : List Eigen_t) :
    (matin.nrows ≠ matin.ncols →
      EigRDM_BlockDiag solve matin seqIdx blkIdx eigList = .error 1) ∧
    ((solve matin).nconv ≠ matin.nrows →
      EigRDM_BlockDiag solve matin seqIdx blkIdx eigList = .error 1) ∧
    ((∃ k < matin.nrows, ((solve matin).eig k).2 ≠ 0) →
      EigRDM_BlockDiag solve matin seqIdx blkIdx eigList = .error 1) ∧
    (matin.nrows = matin.ncols → (solve matin).nconv = matin.nrows →
      (∀ k < matin.nrows, ((solve matin).eig k).2 = 0) →
      EigRDM_BlockDiag solve matin seqIdx blkIdx eigList =
        .ok (eigList ++ (List.range matin.nrows).map fun k =>
          ⟨((solve matin).eig k).1, seqIdx, k, blkIdx⟩, solve matin)) := by
  refine ⟨fun h => ?_, fun h => ?_, fun h => ?_, fun h1 h2 h3 => ?_⟩
  · unfold EigRDM_BlockDiag
    rw [if_pos h]
  · unfold EigRDM_BlockDiag
    split
    · rfl
    · simp only []
      rw [if_pos h]
  · unfold EigRDM_BlockDiag
    split
    · rfl
    · simp only []
      split
      · rfl
      · rename_i hc
        have hc2 : (solve matin).nconv = matin.nrows := not_not.mp hc
        rw [(eigLoop_ok_iff (solve matin) seqIdx blkIdx (solve matin).nconv 0 eigList).2
          (by
            obtain ⟨k, hk, hne⟩ := h
            exact ⟨k, by omega, by rw [Nat.zero_add]; exact hne⟩)]
  · unfold EigRDM_BlockDiag
    rw [if_neg (by simp [h1])]
    simp only []
    rw [if_neg (by simp [h2])]
    rw [(eigLoop_ok_iff (solve matin) seqIdx blkIdx (solve matin).nconv 0 eigList).1
      (fun j hj => by rw [Nat.zero_add]; exact h3 j (by omega))]
    simp only [eigRecords, Nat.zero_add, h2]

/-- C25 at the example solver and the matrix `diag(1, 0)`: two records are appended to a
list that holds one record. -/
theorem C25_eig_block_diag_witness :
    ∃ r, EigRDM_BlockDiag exampleSolve (segRdmL exampleGsv 1 2 2) 1 1 [⟨0, 0, 0, 0⟩] = .ok r ∧
      r.1 = [⟨0, 0, 0, 0⟩, ⟨1, 1, 0, 1⟩, ⟨0, 1, 1, 1⟩] :=
  ⟨_, (C25_eig_block_diag exampleSolve (segRdmL exampleGsv 1 2 2) 1 1 [⟨0, 0, 0, 0⟩]).2.2.2
    rfl rfl (fun k _ => rfl), by with_unfolding_all decide⟩

/-- The calls recorded by a successful step, in order. -/
theorem SingleDMRGStep_log (E : Collab) (insys inenv : Int) (MStates : Nat)
    (outsys outenv : Int) (c : Container)
    (h : (SingleDMRGStep E insys inenv MStates outsys outenv c).1 = 0) :
    (SingleDMRGStep E insys inenv MStates outsys outenv c).2.log = c.log ++
      (if insys = inenv then
        [.step insys inenv outsys outenv,
          .enlarge ((c.blk insys).NumSites + E.AddSiteNumSites),
          .kronSum (((c.blk insys).NumSites + E.AddSiteNumSites) +
            ((c.blk insys).NumSites + E.AddSiteNumSites)),
          .solve, .truncate,
          .rotate outsys ((c.blk insys).NumSites + E.AddSiteNumSites)]
      else
        [.step insys inenv outsys outenv,
          .enlarge ((c.blk insys).NumSites + E.AddSiteNumSites),
          .enlarge ((c.blk inenv).NumSites + E.AddSiteNumSites),
          .kronSum (((c.blk insys).NumSites + E.AddSiteNumSites) +
            ((c.blk inenv).NumSites + E.AddSiteNumSites)),
          .solve, .truncate,
          .rotate outsys ((c.blk insys).NumSites + E.AddSiteNumSites),
          .rotate outenv ((c.blk inenv).NumSites + E.AddSiteNumSites)]) := by
  revert h
  unfold SingleDMRGStep
  simp only [blk_emit]
  generalize (c.blk insys).NumSites + E.AddSiteNumSites = n1
  intro h
  have e0 := call_zero _ _ _ _ h
  rw [e0] at h ⊢
  clear e0
  by_cases hflg : insys = inenv
  · simp only [hflg, decide_True, if_true] at h ⊢
    have e1 := call_zero _ _ _ _ h
    rw [e1] at h ⊢
    have e2 := call_zero _ _ _ _ h
    rw [e2] at h ⊢
    split at h
    · simp [PETSC_ERR_SUP] at h
    · rename_i hns
      rw [if_neg hns]
      have e3 := call_zero _ _ _ _ h
      rw [e3] at h ⊢
      have e4 := call_zero _ _ _ _ h
      rw [e4]
      simp [log_setBlk, log_emit, List.append_assoc]
  · simp only [hflg, decide_False, Bool.false_eq_true, if_false] at h ⊢
    simp only [blk_emit] at h ⊢
    have e1 := call_zero _ _ _ _ h
    rw [e1] at h ⊢
    have e2 := call_zero _ _ _ _ h
    rw [e2] at h ⊢
    have e3 := call_zero _ _ _ _ h
    rw [e3] at h ⊢
    split at h
    · simp [PETSC_ERR_SUP] at h
    · rename_i hns
      rw [if_neg hns]
      have e4 := call_zero _ _ _ _ h
      rw [e4] at h ⊢
      have e5 := call_zero _ _ _ _ h
      rw [e5] at h ⊢
      have e6 := call_zero _ _ _ _ h
      rw [e6]
      simp [log_setBlk, log_emit, List.append_assoc]

/-- C24: a successful step whose two input slots are the same slot makes exactly one
enlargement call, builds the superblock from that enlarged block on both sides, and
initializes and rotates the system output only (the environment output slot is left
destroyed unless it is the same slot); a successful step on two different slots makes two
enlargement calls and rotates both outputs. In both cases the truncation is called once,
and a successful `GetTruncation` has filled both the left and the right rotation matrix. -/
theorem C24_same_block_single_enlargement (E : Collab) (insys inenv : Int) (MStates : Nat)
    (outsys outenv : Int) (c : Container)
    (h : (SingleDMRGStep E insys inenv MStates outsys outenv c).1 = 0) :
    (insys = inenv →
      (SingleDMRGStep E insys inenv MStates outsys outenv c).2.log = c.log ++
        [.step insys inenv outsys outenv,
          .enlarge ((c.blk insys).NumSites + E.AddSiteNumSites),
          .kronSum (((c.blk insys).NumSites + E.AddSiteNumSites) +
            ((c.blk insys).NumSites + E.AddSiteNumSites)),
          .solve, .truncate,
          .rotate outsys ((c.blk insys).NumSites + E.AddSiteNumSites)] ∧
      (SingleDMRGStep E insys inenv MStates outsys outenv c).2.sys_blocks =
        (((c.setBlk outsys Block.empty).setBlk outenv Block.empty).setBlk outsys
          ⟨true, (c.blk insys).NumSites + E.AddSiteNumSites⟩).sys_blocks) ∧
    (insys ≠ inenv →
      (SingleDMRGStep E insys inenv MStates outsys outenv c).2.log = c.log ++
        [.step insys inenv outsys outenv,
          .enlarge ((c.blk insys).NumSites + E.AddSiteNumSites),
          .enlarge ((c.blk inenv).NumSites + E.AddSiteNumSites),
          .kronSum (((c.blk insys).NumSites + E.AddSiteNumSites) +
            ((c.blk inenv).NumSites + E.AddSiteNumSites)),
          .solve, .truncate,
          .rotate outsys ((c.blk insys).NumSites + E.AddSiteNumSites),
          .rotate outenv ((c.blk inenv).NumSites + E.AddSiteNumSites)] ∧
      (SingleDMRGStep E insys inenv MStates outsys outenv c).2.sys_blocks =
        ((((c.setBlk outsys Block.empty).setBlk outenv Block.empty).setBlk outsys
          ⟨true, (c.blk insys).NumSites + E.AddSiteNumSites⟩).setBlk outenv
          ⟨true, (c.blk inenv).NumSites + E.AddSiteNumSites⟩).sys_blocks) ∧
    (∀ (no_symm : Bool) (solve : SeqDense → EPS) (KronBlocks : KronBlocks_t) (gsv_r : List ℚ)
      (M : Nat) (T : Truncation), GetTruncation no_symm solve KronBlocks gsv_r M = .ok T →
      ∃ st : RdmState, FillRotation_BlockDiag (retainEigen M st.eigen_L) st.eps_list_L KronBlocks.Left
          ⟨numRetained M st.eigen_L, KronBlocks.Left.NumStates, []⟩ = .ok T.RotMatT_L ∧
        FillRotation_BlockDiag (retainEigen M st.eigen_R) st.eps_list_R KronBlocks.Right
          ⟨numRetained M st.eigen_R, KronBlocks.Right.NumStates, []⟩ = .ok T.RotMatT_R) := by
  have hl := SingleDMRGStep_log E insys inenv MStates outsys outenv c h
  have hz := SingleDMRGStep_zero E insys inenv MStates outsys outenv c h
  refine ⟨fun hflg => ?_, fun hflg => ?_, ?_⟩
  · rw [if_pos hflg] at hl hz
    exact ⟨hl, hz⟩
  · rw [if_neg hflg] at hl hz
    exact ⟨hl, hz⟩
  · intro no_symm solve KronBlocks gsv_r M T hT
    obtain ⟨st, _, hL, hR⟩ := GetTruncation_ok no_symm solve KronBlocks gsv_r M T hT
    exact ⟨st, (truncateSide_ok _ _ _ _ _ _ _ hL).1, (truncateSide_ok _ _ _ _ _ _ _ hR).1⟩

/-- C24 at a self-joined step on the one-site block of slot 0: one enlargement, one
rotation, and only slot 1 is rebuilt. -/
theorem C24_same_block_single_enlargement_witness :
    (SingleDMRGStep (Collab.allOk 2) 0 0 4 1 1
      { Container.fresh 4 0 false false with
        sys_blocks := [⟨true, 1⟩, Block.empty, Block.empty] }).1 = 0 ∧
    (SingleDMRGStep (Collab.allOk 2) 0 0 4 1 1
      { Container.fresh 4 0 false false with
        sys_blocks := [⟨true, 1⟩, Block.empty, Block.empty] }).2.log =
      [.step 0 0 1 1, .enlarge 2, .kronSum 4, .solve, .truncate, .rotate 1 2] ∧
    (SingleDMRGStep (Collab.allOk 2) 0 0 4 1 1
      { Container.fresh 4 0 false false with
        sys_blocks := [⟨true, 1⟩, Block.empty, Block.empty] }).2.sys_blocks =
      [⟨true, 1⟩, ⟨true, 2⟩, Block.empty] :=
  ⟨by decide, (C24_same_block_single_enlargement (Collab.allOk 2) 0 0 4 1 1
    { Container.fresh 4 0 false false with
      sys_blocks := [⟨true, 1⟩, Block.empty, Block.empty] } (by decide)).1 rfl⟩

theorem growLoop_ext (P : Int × Int × Int × Int → Prop) (E : Collab) (MStates : Nat)
    (cl N : Int) (c0 : Container) (hN : c0.num_sites = N)
    (hP : ∀ s : Int, s < N.tdiv 2 → 1 ≤ warmupEnvSites s cl → warmupEnvSites s cl ≤ s →
      P (warmupStep s cl)) (fuel : Nat) (x : Container)
    (hx : ExtPost P c0 x) :
    ExtPost P c0 (growLoop E MStates cl fuel x).2 := by
  induction fuel generalizing x with
  | zero => exact hx
  | succ n ih =>
    unfold growLoop
    split
    · rename_i hlt
      simp only []
      split
      · exact hx
      · rename_i hg
        have hx1 : ExtPost P c0 (activeIfSaving E
            [x.sys_ninit - 1, x.sys_ninit, warmupEnvSites x.sys_ninit cl - 1,
              warmupEnvSites x.sys_ninit cl] x).2 :=
          ExtPost_step _ c0 x _ [] hx (activeIfSaving_any E _ x) (by intro q hq; cases hq)
        have hf := (activeIfSaving_any E
            [x.sys_ninit - 1, x.sys_ninit, warmupEnvSites x.sys_ninit cl - 1,
              warmupEnvSites x.sys_ninit cl] x).1
        unfold chk
        split
        · simp only []
          have h2 := SingleDMRGStep_any E ((activeIfSaving E
            [x.sys_ninit - 1, x.sys_ninit, warmupEnvSites x.sys_ninit cl - 1,
              warmupEnvSites x.sys_ninit cl] x).2.sys_ninit - 1)
            (warmupEnvSites x.sys_ninit cl - 1) MStates (activeIfSaving E
            [x.sys_ninit - 1, x.sys_ninit, warmupEnvSites x.sys_ninit cl - 1,
              warmupEnvSites x.sys_ninit cl] x).2.sys_ninit (warmupEnvSites x.sys_ninit cl)
            (activeIfSaving E
            [x.sys_ninit - 1, x.sys_ninit, warmupEnvSites x.sys_ninit cl - 1,
              warmupEnvSites x.sys_ninit cl] x).2
          have hx2 := ExtPost_step _ c0 _ _ _ hx1 h2 (by
            intro q hq
            rw [List.mem_singleton.mp hq, hf.sys_ninit]
            have hns : x.num_sites = N := hx.1.num_sites.trans hN
            rw [hns] at hlt
            exact hP x.sys_ninit hlt (by omega) (by omega))
          split
          · exact ih _ (ExtPost_sys_ninit _ c0 _ _ hx2)
          · exact hx2
        · exact hx1
    · exact hx

theorem warmupGrow_ext (P : Int × Int × Int × Int → Prop) (E : Collab) (MStates : Nat)
    (N : Int) (x : Container) (hN : x.num_sites = N)
    (hP : ∀ s : Int, s < N.tdiv 2 → 1 ≤ warmupEnvSites s (clusterSize E) →
      warmupEnvSites s (clusterSize E) ≤ s → P (warmupStep s (clusterSize E))) :
    ∃ y, ExtPost P x y ∧ WarmupEnd y (warmupGrow E MStates x) := by
  have hfail : ∀ y : Container, WarmupEnd y (1, y) := fun y => Or.inl ⟨by simp, rfl⟩
  unfold clusterSize at hP
  unfold warmupGrow
  split
  · exact ⟨x, ExtPost_refl _ x, hfail x⟩
  · split
    · exact ⟨x, ExtPost_refl _ x, hfail x⟩
    · simp only []
      generalize (if E.NumEnvSites.tmod 2 ≠ 0 then E.NumEnvSites * 2 else E.NumEnvSites) = cl
        at hP ⊢
      have h1 := clusterLoop_any P E cl x (cl - x.sys_ninit).toNat x
        (ExtPost_refl _ x)
      generalize clusterLoop E cl (cl - x.sys_ninit).toNat x = r1 at h1
      unfold chk
      split
      · simp only []
        have h2 := growLoop_ext P E MStates cl N x hN hP
          (r1.2.num_sites.tdiv 2 - r1.2.sys_ninit).toNat r1.2 h1
        generalize growLoop E MStates cl (r1.2.num_sites.tdiv 2 - r1.2.sys_ninit).toNat r1.2
          = r2 at h2
        split
        · split
          · exact ⟨r2.2, h2, hfail _⟩
          · rename_i hs
            exact ⟨r2.2, h2, Or.inr ⟨rfl, by simpa using hs, rfl⟩⟩
        · rename_i hne
          exact ⟨r2.2, h2, Or.inl ⟨hne, rfl⟩⟩
      · rename_i hne
        exact ⟨r1.2, h1, Or.inl ⟨hne, rfl⟩⟩

theorem warmupBlocks_ext (P : Int × Int × Int × Int → Prop) (E : Collab) (MStates : Nat)
    (N : Int) (x : Container) (hN : x.num_sites = N)
    (hP : ∀ s : Int, s < N.tdiv 2 → 1 ≤ warmupEnvSites s (clusterSize E) →
      warmupEnvSites s (clusterSize E) ≤ s → P (warmupStep s (clusterSize E))) :
    ∃ y, ExtPost P x y ∧ WarmupEnd y (warmupBlocks E MStates x) := by
  unfold warmupBlocks call
  simp only []
  have h0 : ExtPost P x
      ({ x with sys_ninit := x.sys_ninit + 1 }.emit (.initSite x.sys_ninit)) :=
    ExtPost_emit _ x _ (.initSite x.sys_ninit) rfl
      (ExtPost_sys_ninit _ x x _ (ExtPost_refl _ x))
  split
  · have hx' := ExtPost_setBlk _ x _ x.sys_ninit ⟨true, 1⟩ h0
    obtain ⟨y, hy, he⟩ := warmupGrow_ext P E MStates N _ (hx'.1.num_sites.trans hN) hP
    exact ⟨y, ExtPost_trans _ x _ y hx' hy, he⟩
  · exact ⟨_, h0, Or.inl ⟨by simp, rfl⟩⟩

theorem Warmup_ext (P : Int × Int × Int × Int → Prop) (E : Collab) (MStates : Nat)
    (c : Container)
    (hP : ∀ s : Int, s < c.num_sites.tdiv 2 → 1 ≤ warmupEnvSites s (clusterSize E) →
      warmupEnvSites s (clusterSize E) ≤ s → P (warmupStep s (clusterSize E))) :
    ∃ y, (y.num_sites = c.num_sites ∧ y.mpi_rank = c.mpi_rank ∧ y.warmed_up = c.warmed_up ∧
        y.no_symm = c.no_symm ∧ y.do_save_dir = c.do_save_dir) ∧
      (∃ new, stepsOf y.log = stepsOf c.log ++ new ∧
        ∀ q ∈ new, P q) ∧
      WarmupEnd y (Warmup E MStates c) ∧ ((Warmup E MStates c).1 = 0 → c.warmed_up = false) := by
  unfold Warmup
  split
  · exact ⟨c, ⟨rfl, rfl, rfl, rfl, rfl⟩, ⟨[], by simp, by intro q hq; cases hq⟩,
      Or.inl ⟨by simp, rfl⟩, by simp⟩
  · rename_i hw
    have hw' : c.warmed_up = false := by simpa using hw
    simp only []
    generalize hc' : ({ c with
      num_sys_blocks := c.num_sites - 1
      sys_blocks := c.sys_blocks.take (c.num_sites - 1).toNat ++
        List.replicate ((c.num_sites - 1).toNat - c.sys_blocks.length) Block.empty }
      : Container) = c'
    have e1 : c'.num_sites = c.num_sites := by rw [← hc']
    have e2 : c'.mpi_rank = c.mpi_rank := by rw [← hc']
    have e3 : c'.warmed_up = c.warmed_up := by rw [← hc']
    have e4 : c'.no_symm = c.no_symm := by rw [← hc']
    have e5 : c'.do_save_dir = c.do_save_dir := by rw [← hc']
    have e6 : c'.log = c.log := by rw [← hc']
    have h1 := warmupSaveDirs_any E c'
    generalize warmupSaveDirs E c' = r1 at h1
    have key : ∀ y, ExtPost P r1.2 y →
        (y.num_sites = c.num_sites ∧ y.mpi_rank = c.mpi_rank ∧ y.warmed_up = c.warmed_up ∧
          y.no_symm = c.no_symm ∧ y.do_save_dir = c.do_save_dir) ∧
        (∃ new, stepsOf y.log = stepsOf c.log ++ new ∧
          ∀ q ∈ new, P q) := by
      intro y hy
      obtain ⟨f, new, s, p⟩ := hy
      obtain ⟨f1, _, s1⟩ := h1
      refine ⟨⟨(f.num_sites.trans f1.num_sites).trans e1,
        (f.mpi_rank.trans f1.mpi_rank).trans e2, (f.warmed_up.trans f1.warmed_up).trans e3,
        (f.no_symm.trans f1.no_symm).trans e4,
        (f.do_save_dir.trans f1.do_save_dir).trans e5⟩, new, ?_, p⟩
      rw [s, s1, e6]
      simp
    unfold chk
    split
    · obtain ⟨y, hy, he⟩ := warmupBlocks_ext P E MStates c.num_sites r1.2
        (h1.1.num_sites.trans e1) hP
      exact ⟨y, (key y hy).1, (key y hy).2, he, fun _ => hw'⟩
    · rename_i hne
      exact ⟨r1.2, (key _ (ExtPost_refl _ _)).1, (key _ (ExtPost_refl _ _)).2,
        Or.inl ⟨hne, rfl⟩, fun _ => hw'⟩

theorem clusterSize_even (E : Collab) : (2 : Int) ∣ clusterSize E := by
  unfold clusterSize
  split
  · exact Dvd.intro_left _ rfl
  · rename_i h
    exact Int.dvd_of_tmod_eq_zero (not_not.mp h)

/-- For an even cluster size the environment size chosen by `Warmup` has the parity of the
number of initialized blocks. -/
theorem warmupEnvSites_parity (s cl : Int) (h : (2 : Int) ∣ cl) :
    (2 : Int) ∣ warmupEnvSites s cl + s := by
  unfold warmupEnvSites
  simp only []
  have e : ((s + 2).tdiv cl + 1) * cl - s - 2 +
      (s - (((s + 2).tdiv cl + 1) * cl - s - 2)).tdiv cl * cl + s =
      ((s + 2).tdiv cl + 1) * cl +
        (s - (((s + 2).tdiv cl + 1) * cl - s - 2)).tdiv cl * cl - 2 := by ring
  rw [e]
  exact dvd_sub (dvd_add (Dvd.dvd.mul_left h _) (Dvd.dvd.mul_left h _)) (dvd_refl 2)

theorem warmupStep_disjoint (s cl : Int) (h : (2 : Int) ∣ cl) :
    StepDisjoint (warmupStep s cl) := by
  obtain ⟨k, hk⟩ := warmupEnvSites_parity s cl h
  unfold StepDisjoint warmupStep
  simp only []
  refine ⟨?_, ?_, ?_, ?_, ?_⟩ <;> omega

theorem SweepStepProp_disjoint (N : Int) (hN : N.tmod 2 = 0) (q : Int × Int × Int × Int)
    (h : SweepStepProp N q) : StepDisjoint q := by
  obtain ⟨k, hk⟩ := Int.dvd_of_tmod_eq_zero hN
  obtain ⟨h1, h2, h3⟩ := h
  unfold StepDisjoint
  refine ⟨?_, ?_, ?_, ?_, ?_⟩ <;> omega

/-- C28: whatever the collaborators do, in every step that `Warmup` records, and for an even
number of sites in every step that `Sweep` records, neither output slot is one of the input
slots, and the two input slots are the same slot exactly when the two output slots are the
same slot. -/
theorem C28_step_slots_disjoint (E : Collab) (MStates : Nat) (MinBlock : Int) (c : Container)
    (hN : c.num_sites.tmod 2 = 0) :
    (∃ new, stepsOf (Warmup E MStates c).2.log = stepsOf c.log ++ new ∧
      ∀ q ∈ new, q.2.2.1 ≠ q.1 ∧ q.2.2.1 ≠ q.2.1 ∧ q.2.2.2 ≠ q.1 ∧ q.2.2.2 ≠ q.2.1 ∧
        (q.1 = q.2.1 ↔ q.2.2.1 = q.2.2.2)) ∧
    (∃ new, stepsOf (Sweep E MStates MinBlock c).2.log = stepsOf c.log ++ new ∧
      ∀ q ∈ new, q.2.2.1 ≠ q.1 ∧ q.2.2.1 ≠ q.2.1 ∧ q.2.2.2 ≠ q.1 ∧ q.2.2.2 ≠ q.2.1 ∧
        (q.1 = q.2.1 ↔ q.2.2.1 = q.2.2.2)) := by
  constructor
  · obtain ⟨y, _, ⟨new, hs, hp⟩, he, _⟩ := Warmup_ext StepDisjoint E MStates c
      (fun s _ _ _ => warmupStep_disjoint s _ (clusterSize_even E))
    refine ⟨new, ?_, hp⟩
    rw [WarmupEnd_log y _ he]
    exact hs
  · obtain ⟨_, new, hs, hp⟩ := Sweep_any E MStates MinBlock c
    exact ⟨new, hs, fun q hq => SweepStepProp_disjoint _ hN q (hp q hq)⟩

/-- C28 at the concrete run: the steps of the warmup and of the sweep of the 8-site chain. -/
theorem C28_step_slots_disjoint_witness :
    (Warmup (Collab.allOk 2) 4 (Container.fresh 8 0 false false)).2.num_sites.tmod 2 = 0 ∧
    stepsOf (Sweep (Collab.allOk 2) 4 1
      (Warmup (Collab.allOk 2) 4 (Container.fresh 8 0 false false)).2).2.log =
      [(1, 1, 2, 2), (2, 2, 3, 3), (3, 1, 4, 2), (4, 0, 5, 1), (3, 1, 4, 2), (2, 2, 3, 3)] ∧
    (∃ new, stepsOf (Sweep (Collab.allOk 2) 4 1
        (Warmup (Collab.allOk 2) 4 (Container.fresh 8 0 false false)).2).2.log =
        stepsOf (Warmup (Collab.allOk 2) 4 (Container.fresh 8 0 false false)).2.log ++ new ∧
      ∀ q ∈ new, q.2.2.1 ≠ q.1 ∧ q.2.2.1 ≠ q.2.1 ∧ q.2.2.2 ≠ q.1 ∧ q.2.2.2 ≠ q.2.1 ∧
        (q.1 = q.2.1 ↔ q.2.2.1 = q.2.2.2)) :=
  ⟨by decide, by decide, (C28_step_slots_disjoint (Collab.allOk 2) 4 1
    (Warmup (Collab.allOk 2) 4 (Container.fresh 8 0 false false)).2 (by decide)).2⟩

theorem chk_Post2 (A P Q : Container → Prop) (r : Outcome) (k : Container → Outcome)
    (hr : Post2 A P r) (hk : ∀ y, P y → Post2 A Q (k y)) : Post2 A Q (chk r k) := by
  unfold chk
  split
  · rename_i h
    exact hk _ (hr.2 h)
  · rename_i h
    exact ⟨hr.1, fun h0 => absurd h0 h⟩

theorem SlotReady_mono (N : Int) (w w' : List Int) (x : Int) (h : SlotReady N w x)
    (hw : ∀ y ∈ w, y ∈ w') : SlotReady N w' x := by
  rcases h with h | h
  · exact Or.inl h
  · exact Or.inr (hw x h)

theorem stepOuts_append (l : List (Int × Int × Int × Int)) (q : Int × Int × Int × Int) :
    stepOuts (l ++ [q]) = stepOuts l ++ [q.2.2.1, q.2.2.2] := by
  simp [stepOuts, List.flatMap_append]

/-- Appending a step keeps `InputsReady` when its inputs are ready after the steps before
it. -/
theorem InputsReady_append (N : Int) (l : List (Int × Int × Int × Int))
    (q : Int × Int × Int × Int) (w : List Int) (hl : InputsReady N l w)
    (h1 : SlotReady N (stepOuts l ++ w) q.1) (h2 : SlotReady N (stepOuts l ++ w) q.2.1) :
    InputsReady N (l ++ [q]) w := by
  induction l generalizing w with
  | nil =>
    simp only [stepOuts, List.flatMap_nil, List.nil_append] at h1 h2
    exact ⟨h1, h2, trivial⟩
  | cons p rest ih =>
    obtain ⟨a, b, c⟩ := hl
    refine ⟨a, b, ih _ c ?_ ?_⟩
    · refine SlotReady_mono N _ _ _ h1 (fun y hy => ?_)
      simp only [stepOuts, List.flatMap_cons, List.mem_append, List.mem_cons,
        List.mem_singleton, List.not_mem_nil, or_false] at hy ⊢
      tauto
    · refine SlotReady_mono N _ _ _ h2 (fun y hy => ?_)
      simp only [stepOuts, List.flatMap_cons, List.mem_append, List.mem_cons,
        List.mem_singleton, List.not_mem_nil, or_false] at hy ⊢
      tauto

theorem SweepTrace_mono (N : Int) (c0 : Container) (i i' : Int) (x : Container)
    (h : SweepTrace N c0 i x) (hi : i' ≤ i) : SweepTrace N c0 i' x := by
  obtain ⟨hN, new, hs, hr, hin, hc⟩ := h
  exact ⟨hN, new, hs, hr, hin, fun j h1 h2 => hc j h1 (by omega)⟩

theorem SweepTrace_quiet (N : Int) (c0 : Container) (i : Int) (x y : Container)
    (h : SweepTrace N c0 i x) (hy : StepPost x [] y) : SweepTrace N c0 i y := by
  obtain ⟨hN, new, hs, hr, hin, hc⟩ := h
  obtain ⟨f, _, s⟩ := hy
  exact ⟨f.num_sites.trans hN, new, by rw [s, hs]; simp, hr, hin, hc⟩

/-- Recording a step whose slots are in range and whose inputs are initialized by the
warmup or covered by the steps recorded so far keeps `SweepTrace`, with the outputs of the
step added to the written slots. -/
theorem SweepTrace_step (N : Int) (c0 : Container) (i i' : Int) (x y : Container)
    (q : Int × Int × Int × Int) (h : SweepTrace N c0 i x) (hy : StepPost x [q] y)
    (hq : SlotsInRange N q)
    (h1 : q.1 < N.tdiv 2 ∨ (N.tdiv 2 ≤ q.1 ∧ q.1 < i))
    (h2 : q.2.1 < N.tdiv 2 ∨ (N.tdiv 2 ≤ q.2.1 ∧ q.2.1 < i))
    (hi : ∀ j, N.tdiv 2 ≤ j → j < i' → j < i ∨ j = q.2.2.1 ∨ j = q.2.2.2) :
    SweepTrace N c0 i' y := by
  obtain ⟨hN, new, hs, hr, hin, hc⟩ := h
  obtain ⟨f, _, s⟩ := hy
  refine ⟨f.num_sites.trans hN, new ++ [q], by rw [s, hs, List.append_assoc], ?_, ?_, ?_⟩
  · intro p hp
    rcases List.mem_append.mp hp with hp | hp
    · exact hr p hp
    · rw [List.mem_singleton.mp hp]
      exact hq
  · refine InputsReady_append N new q [] hin ?_ ?_
    · rcases h1 with h1 | h1
      · exact Or.inl ⟨hq.1.1, h1⟩
      · exact Or.inr (by simpa using hc _ h1.1 h1.2)
    · rcases h2 with h2 | h2
      · exact Or.inl ⟨hq.2.1.1, h2⟩
      · exact Or.inr (by simpa using hc _ h2.1 h2.2)
  · intro j hj1 hj2
    rw [stepOuts_append]
    rcases hi j hj1 hj2 with h | h | h
    · exact List.mem_append_left _ (hc j hj1 h)
    · exact List.mem_append_right _ (by simp [h])
    · exact List.mem_append_right _ (by simp [h])

theorem SweepTrace_base (N : Int) (c0 : Container) (i : Int) (x : Container)
    (h : SweepTrace N c0 i x) : SweepTrace N c0 (N.tdiv 2) x := by
  obtain ⟨hN, new, hs, hr, hin, _⟩ := h
  exact ⟨hN, new, hs, hr, hin, fun j h1 h2 => absurd h2 (not_lt.mpr h1)⟩

/-- One iteration of a loop of `Sweep`: the residency call, the step and the rest of the
loop, for the trace of recorded steps. -/
theorem loopStep_trace (E : Collab) (N : Int) (c0 x : Container) (i i' : Int) (l : List Int)
    (insys inenv : Int) (MStates : Nat) (outsys outenv : Int) (k : Container → Outcome)
    (Q : Container → Prop) (h : SweepTrace N c0 i x)
    (hq : SlotsInRange N (insys, inenv, outsys, outenv))
    (h1 : insys < N.tdiv 2 ∨ (N.tdiv 2 ≤ insys ∧ insys < i))
    (h2 : inenv < N.tdiv 2 ∨ (N.tdiv 2 ≤ inenv ∧ inenv < i))
    (hi : ∀ j, N.tdiv 2 ≤ j → j < i' → j < i ∨ j = outsys ∨ j = outenv)
    (hk : ∀ y, SweepTrace N c0 i' y → Post2 (SweepTrace N c0 (N.tdiv 2)) Q (k y)) :
    Post2 (SweepTrace N c0 (N.tdiv 2)) Q
      (chk (activeIfSaving E l x) fun c =>
        chk (SingleDMRGStep E insys inenv MStates outsys outenv c) k) := by
  have ha := SweepTrace_quiet N c0 i x _ h (activeIfSaving_any E l x)
  refine chk_Post2 _ (SweepTrace N c0 i) _ _ _
    ⟨SweepTrace_base N c0 i _ ha, fun _ => ha⟩ (fun y hy => ?_)
  have hs := SweepTrace_step N c0 i i' y _ (insys, inenv, outsys, outenv) hy
    (SingleDMRGStep_any E insys inenv MStates outsys outenv y) hq h1 h2 hi
  have hs0 := SweepTrace_step N c0 i (N.tdiv 2) y _ (insys, inenv, outsys, outenv) hy
    (SingleDMRGStep_any E insys inenv MStates outsys outenv y) hq h1 h2
    (fun j a b => absurd b (not_lt.mpr a))
  exact chk_Post2 _ (SweepTrace N c0 i') _ _ _ ⟨hs0, fun _ => hs⟩ hk

theorem sweepRight_trace (E : Collab) (MStates : Nat) (mb N : Int) (c0 : Container)
    (fuel : Nat) (iblock : Int) (x : Container) (h2 : 2 ≤ N) (hmb : 1 ≤ mb)
    (h : SweepTrace N c0 iblock x) (hh : N.tdiv 2 ≤ iblock)
    (hf : N - mb - 2 ≤ iblock + fuel) :
    Post2 (SweepTrace N c0 (N.tdiv 2)) (SweepTrace N c0 (max iblock (N - mb - 2)))
      (sweepRight E MStates mb fuel iblock x) := by
  have hd : N.tdiv 2 = N / 2 := Int.tdiv_eq_ediv (by omega) (by omega)
  induction fuel generalizing iblock x with
  | zero =>
    refine ⟨SweepTrace_base N c0 _ x h, fun _ => ?_⟩
    rw [max_eq_left (by omega)]
    exact h
  | succ m ih =>
    unfold sweepRight
    rw [h.1]
    split
    · rename_i hlt
      refine loopStep_trace E N c0 x iblock (iblock + 1) _ _ _ _ _ _ _ _ h
        ⟨⟨by simp only []; omega, by simp only []; omega⟩,
          ⟨by simp only []; omega, by simp only []; omega⟩,
          ⟨by simp only []; omega, by simp only []; omega⟩,
          ⟨by simp only []; omega, by simp only []; omega⟩⟩
        (by omega) (by omega) (fun j _ _ => by omega) (fun y hy => ?_)
      have := ih (iblock + 1) y hy (by omega) (by omega)
      rw [max_eq_right (by omega)] at this ⊢
      exact this
    · rename_i hlt
      refine ⟨SweepTrace_base N c0 _ x h, fun _ => ?_⟩
      rw [max_eq_left (by omega)]
      exact h

theorem sweepLeft_trace (E : Collab) (MStates : Nat) (N K : Int) (c0 : Container)
    (fuel : Nat) (iblock : Int) (x : Container) (h2 : 2 ≤ N) (h1 : 1 ≤ iblock)
    (h : SweepTrace N c0 K x) (hK : N - iblock - 2 ≤ K) :
    Post2 (SweepTrace N c0 (N.tdiv 2)) (SweepTrace N c0 K)
      (sweepLeft E MStates fuel iblock x) := by
  have hd : N.tdiv 2 = N / 2 := Int.tdiv_eq_ediv (by omega) (by omega)
  induction fuel generalizing iblock x with
  | zero => exact ⟨SweepTrace_base N c0 _ x h, fun _ => h⟩
  | succ m ih =>
    unfold sweepLeft
    rw [h.1]
    split
    · rename_i hlt
      refine loopStep_trace E N c0 x K K _ _ _ _ _ _ _ _ h
        ⟨⟨by simp only []; omega, by simp only []; omega⟩,
          ⟨by simp only []; omega, by simp only []; omega⟩,
          ⟨by simp only []; omega, by simp only []; omega⟩,
          ⟨by simp only []; omega, by simp only []; omega⟩⟩
        (by omega) (by omega) (fun j _ hj => Or.inl hj) (fun y hy => ?_)
      exact ih (iblock + 1) y (by omega) hy (by omega)
    · exact ⟨SweepTrace_base N c0 _ x h, fun _ => h⟩

/-- Whatever the collaborators do, the steps that `Sweep` records address slots of the
block array and read slots that the warmup initialized or that an earlier step of the same
sweep wrote. -/
theorem Sweep_trace (E : Collab) (MStates : Nat) (MinBlock : Int) (c : Container)
    (h2 : 2 ≤ c.num_sites) :
    SweepTrace c.num_sites c (c.num_sites.tdiv 2) (Sweep E MStates MinBlock c).2 := by
  have hd : c.num_sites.tdiv 2 = c.num_sites / 2 := Int.tdiv_eq_ediv (by omega) (by omega)
  have h0 : SweepTrace c.num_sites c (c.num_sites.tdiv 2) c :=
    ⟨rfl, [], (by simp), (fun q hq => by cases hq), trivial,
      fun j a b => absurd b (not_lt.mpr a)⟩
  unfold Sweep
  split
  · exact h0
  · simp only []
    generalize (if MinBlock = PETSC_DEFAULT then 1 else MinBlock) = mb
    split
    · exact h0
    · rename_i hmb
      refine (chk_Post2 _ _ (SweepTrace c.num_sites c (c.num_sites.tdiv 2)) _ _
        (sweepRight_trace E MStates mb c.num_sites c _ _ c h2 (by omega) h0 (le_refl _)
          (by omega)) (fun y hy => ?_)).1
      rw [hy.1]
      refine chk_Post2 _ _ _ _ _
        (sweepLeft_trace E MStates c.num_sites _ c _ mb y h2 (by omega) hy
          (le_max_right _ _)) (fun z hz => ?_)
      exact ⟨SweepTrace_base _ c _ z hz, fun _ => SweepTrace_base _ c _ z hz⟩

/-- C29: for `N ≥ 2` sites and whatever the collaborators do, every slot that a step of
`Sweep` reads or writes lies in `0 .. N-2`, and every slot that a step reads is one of the
slots `0 .. N/2 - 1` or an output slot of an earlier step of the same sweep; in a container
reached by successful calls and warmed up, the slots `0 .. N/2 - 1` hold initialized
blocks. -/
theorem C29_sweep_slots_ready (E : Collab) (MStates : Nat) (MinBlock : Int) (c : Container)
    (h2 : 2 ≤ c.num_sites) :
    (∃ new, stepsOf (Sweep E MStates MinBlock c).2.log = stepsOf c.log ++ new ∧
      (∀ q ∈ new, (0 ≤ q.1 ∧ q.1 ≤ c.num_sites - 2) ∧ (0 ≤ q.2.1 ∧ q.2.1 ≤ c.num_sites - 2) ∧
        (0 ≤ q.2.2.1 ∧ q.2.2.1 ≤ c.num_sites - 2) ∧
        (0 ≤ q.2.2.2 ∧ q.2.2.2 ≤ c.num_sites - 2)) ∧
      InputsReady c.num_sites new []) ∧
    (Reachable E c → c.warmed_up = true →
      ∀ i : Int, 0 ≤ i → i < c.num_sites.tdiv 2 → (c.blk i).init = true) := by
  constructor
  · obtain ⟨_, new, hs, hr, hin, _⟩ := Sweep_trace E MStates MinBlock c h2
    exact ⟨new, hs, hr, hin⟩
  · intro hr hw
    obtain ⟨_, hf | hg⟩ := Reachable_good E c hr
    · rw [hf.1] at hw
      cases hw
    · exact hg.2.2.2.2.2

/-- C29 at the concrete run: the sweep of the 8-site chain after its warmup. -/
theorem C29_sweep_slots_ready_witness :
    stepsOf (Sweep (Collab.allOk 2) 4 1
      (Warmup (Collab.allOk 2) 4 (Container.fresh 8 0 false false)).2).2.log =
      [(1, 1, 2, 2), (2, 2, 3, 3), (3, 1, 4, 2), (4, 0, 5, 1), (3, 1, 4, 2), (2, 2, 3, 3)] ∧
    InputsReady 8 [(3, 1, 4, 2), (4, 0, 5, 1), (3, 1, 4, 2), (2, 2, 3, 3)] [] ∧
    ∃ new, stepsOf (Sweep (Collab.allOk 2) 4 1
        (Warmup (Collab.allOk 2) 4 (Container.fresh 8 0 false false)).2).2.log =
        stepsOf (Warmup (Collab.allOk 2) 4 (Container.fresh 8 0 false false)).2.log ++ new ∧
      (∀ q ∈ new, (0 ≤ q.1 ∧ q.1 ≤ 8 - 2) ∧ (0 ≤ q.2.1 ∧ q.2.1 ≤ 8 - 2) ∧
        (0 ≤ q.2.2.1 ∧ q.2.2.1 ≤ 8 - 2) ∧ (0 ≤ q.2.2.2 ∧ q.2.2.2 ≤ 8 - 2)) ∧
      InputsReady 8 new [] :=
  ⟨by decide, (by simp [InputsReady, SlotReady]; decide),
    (C29_sweep_slots_ready (Collab.allOk 2) 4 1
      (Warmup (Collab.allOk 2) 4 (Container.fresh 8 0 false false)).2 (by decide)).1⟩

/-- C30: the code deviates. For `N = 2` sites (an even count that the constructor accepts) and
the positive environment size 1 the block array has one entry, and the loop of the exact
blocks of `Warmup`, which runs up to the cluster size 2, calls `KronEye_Explicit` with the
destination `sys_blocks[1]`, outside the valid range `0 .. N-2`; only afterwards the
terminal check returns an error. The same happens for environment size 2. -/
theorem C30_cluster_slot_out_of_range :
    construct 2 0 false false = .ok (Container.fresh 2 0 false false) ∧
    clusterSize (Collab.allOk 1) = 2 ∧
    (Warmup (Collab.allOk 1) 4 (Container.fresh 2 0 false false)).2.sys_blocks.length = 1 ∧
    (Warmup (Collab.allOk 1) 4 (Container.fresh 2 0 false false)).2.log =
      [.initSite 0, .enlargeSlot 0 1 2] ∧
    (∃ e ∈ (Warmup (Collab.allOk 1) 4 (Container.fresh 2 0 false false)).2.log,
      ∃ i ∈ e.slots, ¬(0 ≤ i ∧ i ≤ 2 - 2)) ∧
    (Warmup (Collab.allOk 1) 4 (Container.fresh 2 0 false false)).1 = 1 ∧
    (Warmup (Collab.allOk 2) 4 (Container.fresh 2 0 false false)).2.log =
      [.initSite 0, .enlargeSlot 0 1 2] := by
  refine ⟨rfl, by decide, by decide, by decide, by decide, by decide, by decide⟩

theorem svdStatesLoop_fold (svd : SVD) (Istart Iend : Nat) (mstates : Nat) (mat : Mat) :
    (svdStatesLoop svd Istart Iend mstates mat).1 =
        ((List.range mstates).map svd.sigma).sum ∧
    (svdStatesLoop svd Istart Iend mstates mat).2.nrows = mat.nrows ∧
    (svdStatesLoop svd Istart Iend mstates mat).2.ncols = mat.ncols ∧
    (svdStatesLoop svd Istart Iend mstates mat).2.inserted = mat.inserted ++
      (List.range mstates).flatMap fun k =>
        (List.range (Iend - Istart)).map fun r =>
          (Istart + r, k, (svd.vec k).getD (Istart + r) 0) := by
  unfold svdStatesLoop
  induction mstates with
  | zero => simp
  | succ n ih =>
    rw [List.range_succ, List.foldl_append, List.foldl_cons, List.foldl_nil]
    obtain ⟨h1, h2, h3, h4⟩ := ih
    generalize List.foldl (svdStateStep svd Istart Iend) (0, mat) (List.range n) = acc
      at h1 h2 h3 h4 ⊢
    refine ⟨?_, ?_, ?_, ?_⟩
    · simp only [svdStateStep]
      rw [h1]
      simp
    · simp only [svdStateStep, MatSetValuesCol]
      exact h2
    · simp only [svdStateStep, MatSetValuesCol]
      exact h3
    · simp only [svdStateStep, MatSetValuesCol]
      rw [h4, List.flatMap_append, List.append_assoc]
      congr 2
      simp only [List.flatMap_cons, List.flatMap_nil, List.append_nil]
      apply List.map_congr_left
      intro r hr
      have hr' : r < Iend - Istart := List.mem_range.mp hr
      simp [List.getD_eq_getElem?_getD, List.getElem?_range, hr', List.getElem?_drop]

/-- An entry of a matrix all of whose inserted values are given by `f`, at a position that
was inserted. -/
theorem Mat_entry_of_inserted (A : Mat) (f : Nat → Nat → ℚ) (i j : Nat)
    (hf : ∀ w ∈ A.inserted, w.2.2 = f w.1 w.2.1)
    (hm : ∃ w ∈ A.inserted, w.1 = i ∧ w.2.1 = j) : A.entry i j = f i j := by
  unfold Mat.entry
  cases hfind : A.inserted.reverse.find? (fun w => w.1 = i ∧ w.2.1 = j) with
  | none =>
    exfalso
    obtain ⟨w, hw, h1, h2⟩ := hm
    have := List.find?_eq_none.mp hfind w (List.mem_reverse.mpr hw)
    simp [h1, h2] at this
  | some w =>
    simp only []
    have hw := List.mem_of_find?_eq_some hfind
    have hp := List.find?_some hfind
    simp only [decide_eq_true_eq] at hp
    rw [hf w (List.mem_reverse.mp hw), hp.1, hp.2]

/-- C27, as the code has it: `SVDLargestStates` returns an error when the input is not
square, when `mstates` exceeds the dimension, when fewer than `mstates` singular triplets
converged, and also, when none of these holds and `mstates` is not negative, when the
ownership range of the solver's vector differs from that of the new matrix. Otherwise, for
`mstates` not negative, it returns a matrix with as many rows as the input and `mstates`
columns whose column `k` holds, in the rows of the process, the entries of the `k`-th vector
of the solver, and the truncation error is one minus the sum of the first `mstates` singular
values. With `mstates` clamped to the dimension as in `iDMRG::GetRotationMatrices`, the
error of a too small dimension does not occur. -/
theorem C27_svd_largest_states (solve : SeqDense → SVD) (vecRange matRange : Nat × Nat)
    (mat_in : SeqDense) (mstates : Int) :
    (mat_in.nrows ≠ mat_in.ncols →
      SVDLargestStates solve vecRange matRange mat_in mstates =
        some (.error "Matrix dimension mismatch.")) ∧
    ((mat_in.nrows : Int) < mstates →
      ∃ msg, SVDLargestStates solve vecRange matRange mat_in mstates = some (.error msg)) ∧
    ((solve mat_in).nconv < mstates →
      ∃ msg, SVDLargestStates solve vecRange matRange mat_in mstates = some (.error msg)) ∧
    (mat_in.nrows = mat_in.ncols → 0 ≤ mstates → mstates ≤ mat_in.nrows →
      mstates ≤ (solve mat_in).nconv → vecRange ≠ matRange →
      SVDLargestStates solve vecRange matRange mat_in mstates =
        some (.error "Matrix and vector layout do not match.")) ∧
    (mat_in.nrows = mat_in.ncols → 0 ≤ mstates → mstates ≤ mat_in.nrows →
      mstates ≤ (solve mat_in).nconv → vecRange = matRange →
      ∃ mat err,
        SVDLargestStates solve vecRange matRange mat_in mstates = some (.ok (mat, err)) ∧
        mat.nrows = mat_in.nrows ∧ (mat.ncols : Int) = mstates ∧
        (∀ k i : Nat, (k : Int) < mstates → vecRange.1 ≤ i → i < vecRange.2 →
          mat.entry i k = ((solve mat_in).vec k).getD i 0) ∧
        err = 1 - ((List.range mstates.toNat).map (solve mat_in).sigma).sum) ∧
    (∀ mstates_ : Int,
      SVDLargestStates solve vecRange matRange mat_in (stdMin mat_in.nrows mstates_) ≠
        some (.error "Matrix dimension too small.")) := by
  refine ⟨fun h => ?_, fun h => ?_, fun h => ?_, fun h1 h0 h2 h3 h4 => ?_,
    fun h1 h0 h2 h3 h4 => ?_, fun m => ?_⟩
  · unfold SVDLargestStates
    rw [if_pos h]
  · unfold SVDLargestStates
    split
    · exact ⟨_, rfl⟩
    · simp only []
      rw [if_pos h]
      exact ⟨_, rfl⟩
  · unfold SVDLargestStates
    split
    · exact ⟨_, rfl⟩
    · simp only []
      split
      · exact ⟨_, rfl⟩
      · exact ⟨_, rfl⟩
  · unfold SVDLargestStates
    rw [if_neg (by simp [h1])]
    simp only []
    rw [if_neg (by omega), if_neg (by omega), if_neg (by omega), if_pos]
    intro hc
    exact h4 (Prod.ext hc.1 hc.2)
  · obtain ⟨f1, f2, f3, f4⟩ := svdStatesLoop_fold (solve mat_in) vecRange.1 vecRange.2
      mstates.toNat ⟨mat_in.nrows, mstates.toNat, []⟩
    refine ⟨(svdStatesLoop (solve mat_in) vecRange.1 vecRange.2 mstates.toNat
        ⟨mat_in.nrows, mstates.toNat, []⟩).2,
      1 - (svdStatesLoop (solve mat_in) vecRange.1 vecRange.2 mstates.toNat
        ⟨mat_in.nrows, mstates.toNat, []⟩).1, ?_, f2, ?_, ?_, by rw [f1]⟩
    · unfold SVDLargestStates
      rw [if_neg (by simp [h1])]
      simp only []
      rw [if_neg (by omega), if_neg (by omega), if_neg (by omega), if_neg (by simp [h4])]
    · rw [f3]
      exact Int.toNat_of_nonneg h0
    · intro k i hk hi1 hi2
      refine Mat_entry_of_inserted _ (fun i k => ((solve mat_in).vec k).getD i 0) i k ?_ ?_
      · intro w hw
        rw [f4] at hw
        simp only [List.nil_append, List.mem_flatMap, List.mem_map, List.mem_range] at hw
        obtain ⟨a, _, r, _, hr⟩ := hw
        rw [← hr]
      · rw [f4]
        refine ⟨(i, k, ((solve mat_in).vec k).getD i 0), ?_, rfl, rfl⟩
        simp only [List.nil_append, List.mem_flatMap, List.mem_map, List.mem_range]
        refine ⟨k, by omega, i - vecRange.1, by omega, ?_⟩
        rw [Nat.add_sub_cancel' hi1]
  · unfold SVDLargestStates
    split
    · simp
    · simp only []
      rw [if_neg (by unfold stdMin; split <;> omega)]
      split
      · simp
      · split
        · simp
        · split
          · simp
          · simp

/-- C27 at the example solver and the matrix `diag(1, 0)` with one state: the result is the
column `(1, 0)` and the truncation error is zero. -/
theorem C27_svd_largest_states_witness :
    ∃ mat err, SVDLargestStates exampleSVD (0, 2) (0, 2) (segRdmL exampleGsv 1 2 2) 1 =
        some (.ok (mat, err)) ∧
      mat.nrows = 2 ∧ (mat.ncols : Int) = 1 ∧
      (∀ k i : Nat, (k : Int) < 1 → 0 ≤ i → i < 2 →
        mat.entry i k = ((exampleSVD (segRdmL exampleGsv 1 2 2)).vec k).getD i 0) ∧
      err = 1 - ((List.range 1).map (exampleSVD (segRdmL exampleGsv 1 2 2)).sigma).sum :=
  (C27_svd_largest_states exampleSVD (0, 2) (0, 2) (segRdmL exampleGsv 1 2 2) 1).2.2.2.2.1
    rfl (by decide) (by decide) (by decide) rfl

/-- C27, counterexample: on a process that owns the rows `0 .. 2` of the solver's vector and
the rows `0 .. 1` of the new matrix, for the square matrix `diag(1, 0, 0, 0)`, one state and
four converged triplets, none of the three conditions of the claim holds and yet
`SVDLargestStates` returns an error. -/
theorem C27_layout_counterexample :
    (exampleDiag4.nrows = exampleDiag4.ncols) ∧
    ¬ ((exampleDiag4.nrows : Int) < 1) ∧
    ¬ ((exampleSVD exampleDiag4).nconv < 1) ∧
    SVDLargestStates exampleSVD (0, 3) (0, 2) exampleDiag4 1 =
      some (.error "Matrix and vector layout do not match.") := by
  refine ⟨rfl, by decide, by decide, rfl⟩

theorem rotCalls_flags (left right : RotOutcome) (s : iDMRG) :
    (rotCalls left right s).2.superblock_set_ = s.superblock_set_ ∧
    (rotCalls left right s).2.groundstate_solved_ = s.groundstate_solved_ ∧
    (rotCalls left right s).2.dm_solved = s.dm_solved := by
  unfold rotCalls
  cases left <;> cases right <;> exact ⟨rfl, rfl, rfl⟩

/-- No stage changes the superblock flag. -/
theorem execStage_superblock (s : iDMRG) (c : StageCall) :
    (execStage s c).2.superblock_set_ = s.superblock_set_ := by
  cases c with
  | solve nconv =>
    simp only [execStage, SolveGroundState]
    split_ifs <;> rfl
  | rdm sectors =>
    simp only [execStage, BuildReducedDensityMatrices]
    split_ifs <;> rfl
  | rot left right =>
    have h := (rotCalls_flags left right s).1
    simp only [execStage, GetRotationMatrices]
    split_ifs <;> first | rfl | exact h
  | trunc =>
    simp only [execStage, TruncateOperators]
    split_ifs <;> rfl

/-- The ground-state flag is set by a successful `SolveGroundState`, cleared by a successful
`BuildReducedDensityMatrices` and left alone otherwise. -/
theorem execStage_groundstate (s : iDMRG) (c : StageCall) :
    (execStage s c).2.groundstate_solved_ =
      (if (execStage s c).1 = 0 ∧ c.stage = .solve then true
       else if (execStage s c).1 = 0 ∧ c.stage = .rdm then false
       else s.groundstate_solved_) := by
  cases c with
  | solve nconv =>
    simp only [execStage, SolveGroundState, StageCall.stage]
    split_ifs <;> simp_all
  | rdm sectors =>
    simp only [execStage, BuildReducedDensityMatrices, StageCall.stage]
    split_ifs <;> simp_all
  | rot left right =>
    have h := (rotCalls_flags left right s).2.1
    simp only [execStage, GetRotationMatrices, StageCall.stage]
    split_ifs <;> simp_all
  | trunc =>
    simp only [execStage, TruncateOperators, StageCall.stage]
    split_ifs <;> simp_all

/-- The density-matrix flag is set by a successful `BuildReducedDensityMatrices`, cleared by
a successful `GetRotationMatrices` and left alone otherwise. -/
theorem execStage_dm_solved (s : iDMRG) (c : StageCall) :
    (execStage s c).2.dm_solved =
      (if (execStage s c).1 = 0 ∧ c.stage = .rdm then true
       else if (execStage s c).1 = 0 ∧ c.stage = .rot then false
       else s.dm_solved) := by
  cases c with
  | solve nconv =>
    simp only [execStage, SolveGroundState, StageCall.stage]
    split_ifs <;> simp_all
  | rdm sectors =>
    simp only [execStage, BuildReducedDensityMatrices, StageCall.stage]
    split_ifs <;> simp_all
  | rot left right =>
    have h := (rotCalls_flags left right s).2.2
    simp only [execStage, GetRotationMatrices, StageCall.stage]
    split_ifs <;> simp_all
  | trunc =>
    simp only [execStage, TruncateOperators, StageCall.stage]
    split_ifs <;> simp_all

/-- Both rotation matrices exist after a stage only if the stage was `GetRotationMatrices`
or they existed before and the stage was not a successful `TruncateOperators`. -/
theorem execStage_rotation (s : iDMRG) (c : StageCall)
    (h : ((execStage s c).2.U_left_ && (execStage s c).2.U_right_) = true) :
    (if c.stage = .rot then true
     else if (execStage s c).1 = 0 ∧ c.stage = .trunc then false
     else (s.U_left_ && s.U_right_)) = true := by
  cases c with
  | solve nconv =>
    revert h
    simp only [execStage, SolveGroundState, StageCall.stage]
    split_ifs <;> simp_all
  | rdm sectors =>
    revert h
    simp only [execStage, BuildReducedDensityMatrices, StageCall.stage]
    split_ifs <;> simp_all
  | rot left right => simp [StageCall.stage]
  | trunc =>
    revert h
    simp only [execStage, TruncateOperators, StageCall.stage]
    split_ifs <;> simp_all

theorem attemptedAfter_mono (a b : Stage) (i i' : Bool) (l : List (Stage × PetscErrorCode))
    (hi : i = true → i' = true) (h : attemptedAfter a b i l = true) :
    attemptedAfter a b i' l = true := by
  induction l generalizing i i' with
  | nil => exact hi h
  | cons e rest ih =>
    obtain ⟨st, code⟩ := e
    unfold attemptedAfter at h ⊢
    refine ih _ _ ?_ h
    split_ifs <;> simp_all

theorem runStages_superblock (s : iDMRG) (cs : List StageCall) :
    (runStages s cs).1.superblock_set_ = s.superblock_set_ := by
  induction cs generalizing s with
  | nil => rfl
  | cons c rest ih =>
    unfold runStages
    simp only []
    rw [ih, execStage_superblock]

theorem runStages_groundstate (s : iDMRG) (cs : List StageCall) :
    (runStages s cs).1.groundstate_solved_ =
      pendingAfter .solve .rdm s.groundstate_solved_ (runStages s cs).2 := by
  induction cs generalizing s with
  | nil => rfl
  | cons c rest ih =>
    unfold runStages
    simp only [pendingAfter]
    rw [ih, execStage_groundstate]

theorem runStages_dm_solved (s : iDMRG) (cs : List StageCall) :
    (runStages s cs).1.dm_solved =
      pendingAfter .rdm .rot s.dm_solved (runStages s cs).2 := by
  induction cs generalizing s with
  | nil => rfl
  | cons c rest ih =>
    unfold runStages
    simp only [pendingAfter]
    rw [ih, execStage_dm_solved]

theorem runStages_rotation (s : iDMRG) (cs : List StageCall)
    (h : ((runStages s cs).1.U_left_ && (runStages s cs).1.U_right_) = true) :
    attemptedAfter .rot .trunc (s.U_left_ && s.U_right_) (runStages s cs).2 = true := by
  induction cs generalizing s with
  | nil => exact h
  | cons c rest ih =>
    unfold runStages at h ⊢
    simp only [attemptedAfter] at h ⊢
    exact attemptedAfter_mono _ _ _ _ _ (execStage_rotation s c) (ih _ h)

theorem rotCalls_dm_svd (left right : RotOutcome) (s : iDMRG) :
    (rotCalls left right s).2.dm_svd = s.dm_svd := by
  unfold rotCalls
  cases left <;> cases right <;> rfl

/-- The flag `dm_svd` is set by a successful `GetRotationMatrices` and never cleared. -/
theorem execStage_dm_svd (s : iDMRG) (c : StageCall) :
    (execStage s c).2.dm_svd =
      (s.dm_svd || decide (c.stage = .rot ∧ (execStage s c).1 = 0)) := by
  cases c with
  | solve nconv =>
    simp only [execStage, SolveGroundState, StageCall.stage]
    split_ifs <;> simp
  | rdm sectors =>
    simp only [execStage, BuildReducedDensityMatrices, StageCall.stage]
    split_ifs <;> simp
  | rot left right =>
    have h := rotCalls_dm_svd left right s
    simp only [execStage, GetRotationMatrices, StageCall.stage]
    split_ifs <;> simp_all
  | trunc =>
    simp only [execStage, TruncateOperators, StageCall.stage]
    split_ifs <;> simp

theorem runStages_dm_svd (s : iDMRG) (cs : List StageCall) :
    (runStages s cs).1.dm_svd = (s.dm_svd || succeededIn .rot (runStages s cs).2) := by
  induction cs generalizing s with
  | nil => simp [runStages, succeededIn]
  | cons c rest ih =>
    unfold runStages
    simp only []
    rw [ih, execStage_dm_svd]
    simp only [succeededIn, List.any_cons, Bool.or_assoc] at *

theorem rotCalls_ok_U (left right : RotOutcome) (s : iDMRG)
    (h : (rotCalls left right s).1 = 0) :
    (rotCalls left right s).2.U_left_ = true ∧ (rotCalls left right s).2.U_right_ = true := by
  revert h
  unfold rotCalls
  cases left <;> cases right <;> simp

/-- A successful `GetRotationMatrices` leaves both rotation matrices in place. -/
theorem GetRotationMatrices_ok_U (left right : RotOutcome) (s : iDMRG)
    (h : (GetRotationMatrices left right s).1 = 0) :
    (GetRotationMatrices left right s).2.U_left_ = true ∧
      (GetRotationMatrices left right s).2.U_right_ = true := by
  have hr := rotCalls_ok_U left right s
  revert h
  unfold GetRotationMatrices
  generalize rotCalls left right s = q at hr
  by_cases hq : q.1 = 0 <;> split_ifs <;> simp_all

/-- A stage other than a failed `GetRotationMatrices` changes the presence of the rotation
matrices only by creating both or by destroying both. -/
theorem execStage_rotation_exact (s : iDMRG) (c : StageCall)
    (h : c.stage = .rot → (execStage s c).1 = 0) :
    ((execStage s c).2.U_left_ && (execStage s c).2.U_right_) =
      (if (execStage s c).1 = 0 ∧ c.stage = .rot then true
       else if (execStage s c).1 = 0 ∧ c.stage = .trunc then false
       else (s.U_left_ && s.U_right_)) := by
  cases c with
  | solve nconv =>
    simp only [execStage, SolveGroundState, StageCall.stage]
    split_ifs <;> simp_all
  | rdm sectors =>
    simp only [execStage, BuildReducedDensityMatrices, StageCall.stage]
    split_ifs <;> simp_all
  | rot left right =>
    have h0 : (GetRotationMatrices left right s).1 = 0 := h rfl
    obtain ⟨hl, hr⟩ := GetRotationMatrices_ok_U left right s h0
    simp only [execStage, StageCall.stage]
    rw [hl, hr, if_pos ⟨h0, trivial⟩]
    rfl
  | trunc =>
    simp only [execStage, TruncateOperators, StageCall.stage]
    split_ifs <;> simp_all

theorem runStages_rotation_exact (s : iDMRG) (cs : List StageCall)
    (h : ∀ e ∈ (runStages s cs).2, e.1 = .rot → e.2 = 0) :
    ((runStages s cs).1.U_left_ && (runStages s cs).1.U_right_) =
      pendingAfter .rot .trunc (s.U_left_ && s.U_right_) (runStages s cs).2 := by
  induction cs generalizing s with
  | nil => rfl
  | cons c rest ih =>
    unfold runStages at h ⊢
    simp only [pendingAfter] at h ⊢
    rw [ih _ (fun e he => h e (List.mem_cons_of_mem _ he)),
      execStage_rotation_exact s c (fun hc => h _ (List.mem_cons_self _ _) hc)]

/-- `TruncateOperators` succeeds exactly when `dm_svd` is set and both rotation matrices
exist, and then it destroys both. -/
theorem TruncateOperators_ok (s : iDMRG) :
    ((TruncateOperators s).1 = 0 ↔
      (s.dm_svd = true ∧ s.U_left_ = true ∧ s.U_right_ = true)) ∧
    ((TruncateOperators s).1 = 0 →
      (TruncateOperators s).2.U_left_ = false ∧ (TruncateOperators s).2.U_right_ = false) := by
  cases hd : s.dm_svd <;> cases hl : s.U_left_ <;> cases hr : s.U_right_ <;>
    simp [TruncateOperators, hd, hl, hr]

/-- C26, as the code has it: after any sequence of stage calls from any state,
`SolveGroundState` succeeds exactly when the superblock flag of the start is set and an
eigenpair converged (no stage clears that flag); `BuildReducedDensityMatrices` succeeds only
if the last successful call among `SolveGroundState` and itself was `SolveGroundState`;
`GetRotationMatrices` succeeds only if the last successful call among
`BuildReducedDensityMatrices` and itself was `BuildReducedDensityMatrices`;
`TruncateOperators` succeeds exactly when `dm_svd` is set, which is so from the first
successful `GetRotationMatrices` on, and both rotation matrices exist, which requires a call
of `GetRotationMatrices`, successful or failed, after the last successful
`TruncateOperators`, and it destroys them; and when no call of `GetRotationMatrices` has
failed, `TruncateOperators` succeeds only if the last successful call among
`GetRotationMatrices` and itself was `GetRotationMatrices`. The flags and the rotation
matrices of the start state count as results of earlier calls. -/
theorem C26_stage_flags (s : iDMRG) (cs : List StageCall) :
    (∀ nconv, (SolveGroundState nconv (runStages s cs).1).1 = 0 ↔
      (s.superblock_set_ = true ∧ 1 ≤ nconv)) ∧
    (∀ sectors, (BuildReducedDensityMatrices sectors (runStages s cs).1).1 = 0 →
      pendingAfter .solve .rdm s.groundstate_solved_ (runStages s cs).2 = true) ∧
    (∀ left right, (GetRotationMatrices left right (runStages s cs).1).1 = 0 →
      pendingAfter .rdm .rot s.dm_solved (runStages s cs).2 = true) ∧
    ((TruncateOperators (runStages s cs).1).1 = 0 ↔
      ((s.dm_svd || succeededIn .rot (runStages s cs).2) = true ∧
        (runStages s cs).1.U_left_ = true ∧ (runStages s cs).1.U_right_ = true)) ∧
    ((TruncateOperators (runStages s cs).1).1 = 0 →
      attemptedAfter .rot .trunc (s.U_left_ && s.U_right_) (runStages s cs).2 = true ∧
      (TruncateOperators (runStages s cs).1).2.U_left_ = false ∧
      (TruncateOperators (runStages s cs).1).2.U_right_ = false) ∧
    ((∀ e ∈ (runStages s cs).2, e.1 = .rot → e.2 = 0) →
      (TruncateOperators (runStages s cs).1).1 = 0 →
      pendingAfter .rot .trunc (s.U_left_ && s.U_right_) (runStages s cs).2 = true) := by
  obtain ⟨t1, t2⟩ := TruncateOperators_ok (runStages s cs).1
  refine ⟨fun nconv => ?_, fun sectors h => ?_, fun left right h => ?_, ?_, fun h => ?_,
    fun hr h => ?_⟩
  · have hs := runStages_superblock s cs
    unfold SolveGroundState
    rw [hs]
    split_ifs <;> simp_all
  · rw [← runStages_groundstate]
    revert h
    unfold BuildReducedDensityMatrices
    split_ifs <;> simp_all
  · rw [← runStages_dm_solved]
    revert h
    unfold GetRotationMatrices
    split_ifs <;> simp_all
  · rw [t1, runStages_dm_svd]
  · obtain ⟨_, hl, hr⟩ := t1.mp h
    exact ⟨runStages_rotation s cs (by rw [hl, hr]; rfl), t2 h⟩
  · obtain ⟨_, hl, hr'⟩ := t1.mp h
    rw [← runStages_rotation_exact s cs hr, hl, hr']
    rfl

/-- C26, counterexample: the flags do not keep every stage from running on the result of an
earlier iteration. From a state in which only the superblock flag is set, two complete
iterations of the four stages succeed one after the other although nothing sets a superblock
in between. After a complete iteration and a second `SolveGroundState` and
`BuildReducedDensityMatrices`, a `GetRotationMatrices` whose second call fails after its
output matrix was created returns an error, and then `TruncateOperators`, a repeated
`GetRotationMatrices` and a further `TruncateOperators` all succeed, three truncations in
all. When that second call fails before its matrix was created, `TruncateOperators` returns
an error after it has rotated the operators of the left block. With a target magnetization,
a `BuildReducedDensityMatrices` that succeeds directly after a failed one has no
`SolveGroundState` between them. -/
theorem C26_stale_results_counterexample :
    (runStages exampleStart
      [.solve 1, .rdm [], .rot .ok .ok, .trunc, .solve 1, .rdm [], .rot .ok .ok, .trunc]).2 =
      [(.solve, 0), (.rdm, 0), (.rot, 0), (.trunc, 0),
       (.solve, 0), (.rdm, 0), (.rot, 0), (.trunc, 0)] ∧
    (runStages exampleStart
      [.solve 1, .rdm [], .rot .ok .ok, .trunc]).1.superblock_set_ = true ∧
    (runStages exampleStart
      [.solve 1, .rdm [], .rot .ok .ok, .trunc, .solve 1, .rdm [],
       .rot .ok (.failed true), .trunc, .rot .ok .ok, .trunc]).2 =
      [(.solve, 0), (.rdm, 0), (.rot, 0), (.trunc, 0), (.solve, 0), (.rdm, 0),
       (.rot, 1), (.trunc, 0), (.rot, 0), (.trunc, 0)] ∧
    (runStages exampleStart
      [.solve 1, .rdm [], .rot .ok .ok, .trunc, .solve 1, .rdm [],
       .rot .ok (.failed true), .trunc, .rot .ok .ok, .trunc]).1.ntruncations_ = 3 ∧
    (runStages exampleStart
      [.solve 1, .rdm [], .rot .ok .ok, .trunc, .solve 1, .rdm [],
       .rot .ok (.failed false), .trunc]).2 =
      [(.solve, 0), (.rdm, 0), (.rot, 0), (.trunc, 0), (.solve, 0), (.rdm, 0),
       (.rot, 1), (.trunc, 1)] ∧
    (runStages exampleStart
      [.solve 1, .rdm [], .rot .ok .ok, .trunc, .solve 1, .rdm [],
       .rot .ok (.failed false), .trunc]).1.left_rotations = 2 ∧
    (runStages exampleStart
      [.solve 1, .rdm [], .rot .ok .ok, .trunc, .solve 1, .rdm [],
       .rot .ok (.failed false), .trunc]).1.right_rotations = 1 ∧
    (runStages { exampleStart with do_target_Sz := true }
      [.solve 1, .rdm [(3, 2, 2)], .rdm [(4, 2, 2)]]).2 =
      [(.solve, 0), (.rdm, 1), (.rdm, 0)] := by
  decide

theorem EigRDM_BlockDiag_converged (solve : SeqDense → EPS) (matin : SeqDense)
    (seqIdx blkIdx : Nat) (eigList : List Eigen_t) (h1 : matin.nrows = matin.ncols)
    (h2 : (solve matin).nconv = matin.nrows)
    (h3 : ∀ k < matin.nrows, ((solve matin).eig k).2 = 0) :
    EigRDM_BlockDiag solve matin seqIdx blkIdx eigList =
      .ok (eigList ++ eigRecords (solve matin) seqIdx blkIdx 0 matin.nrows, solve matin) := by
  unfold EigRDM_BlockDiag
  rw [if_neg (by simp [h1])]
  simp only []
  rw [if_neg (by simp [h2])]
  rw [(eigLoop_ok_iff (solve matin) seqIdx blkIdx (solve matin).nconv 0 eigList).1
    (fun j hj => by rw [Nat.zero_add]; exact h3 j (by omega))]
  simp only [h2]

/-- A step of the loop over the L-R pairs on a segment of the right length: none of its
checks fires, it is the two eigensolver calls. -/
theorem rdmStep_checked (solve : SeqDense → EPS) (KronBlocks : KronBlocks_t) (v : List ℚ)
    (idx : Nat) (st : RdmState) (N_L N_R : Nat)
    (hL : KronBlocks.Left.Sizes (KronBlocks.pairs.getD idx (0, 0)).1 = some N_L)
    (hR : KronBlocks.Right.Sizes (KronBlocks.pairs.getD idx (0, 0)).2 = some N_R)
    (hlen : ((KronBlocks.offsets.getD (idx + 1) 0 : Nat) : Int) -
      (KronBlocks.offsets.getD idx 0 : Nat) = (N_L : Int) * (N_R : Int)) :
    rdmStep solve KronBlocks v idx st =
      (match EigRDM_BlockDiag solve (segRdmL v (KronBlocks.offsets.getD idx 0) N_L N_R) idx
          (KronBlocks.pairs.getD idx (0, 0)).1 st.eigen_L with
        | .error e => .error e
        | .ok (eigen_L, eps_L) =>
          match EigRDM_BlockDiag solve (segRdmR v (KronBlocks.offsets.getD idx 0) N_L N_R) idx
              (KronBlocks.pairs.getD idx (0, 0)).2 st.eigen_R with
          | .error e => .error e
          | .ok (eigen_R, eps_R) =>
            .ok ⟨eigen_L, eigen_R, st.eps_list_L ++ [eps_L], st.eps_list_R ++ [eps_R]⟩) := by
  unfold rdmStep
  simp only [hL, hR]
  rw [if_neg (not_not.mpr hlen)]
  have e1 : (segRdmL v (KronBlocks.offsets.getD idx 0) N_L N_R).nrows = N_L := rfl
  have e2 : (segRdmL v (KronBlocks.offsets.getD idx 0) N_L N_R).ncols = N_L := rfl
  have e3 : (segRdmR v (KronBlocks.offsets.getD idx 0) N_L N_R).nrows = N_R := rfl
  have e4 : (segRdmR v (KronBlocks.offsets.getD idx 0) N_L N_R).ncols = N_R := rfl
  rw [if_neg (not_not.mpr e1), if_neg (not_not.mpr e2), if_neg (not_not.mpr e3),
    if_neg (not_not.mpr e4)]

theorem rdmStep_mismatch (solve : SeqDense → EPS) (KronBlocks : KronBlocks_t) (v : List ℚ)
    (idx : Nat) (st : RdmState) (N_L N_R : Nat)
    (hL : KronBlocks.Left.Sizes (KronBlocks.pairs.getD idx (0, 0)).1 = some N_L)
    (hR : KronBlocks.Right.Sizes (KronBlocks.pairs.getD idx (0, 0)).2 = some N_R)
    (hlen : ((KronBlocks.offsets.getD (idx + 1) 0 : Nat) : Int) -
      (KronBlocks.offsets.getD idx 0 : Nat) ≠ (N_L : Int) * (N_R : Int)) :
    rdmStep solve KronBlocks v idx st = .error 1 := by
  unfold rdmStep
  simp only [hL, hR]
  rw [if_pos hlen]

theorem rdmLoop_mismatch (solve : SeqDense → EPS) (KronBlocks : KronBlocks_t) (v : List ℚ)
    (fuel idx : Nat) (st : RdmState) (j N_L N_R : Nat) (hj1 : idx ≤ j) (hj2 : j < idx + fuel)
    (hL : KronBlocks.Left.Sizes (KronBlocks.pairs.getD j (0, 0)).1 = some N_L)
    (hR : KronBlocks.Right.Sizes (KronBlocks.pairs.getD j (0, 0)).2 = some N_R)
    (hlen : ((KronBlocks.offsets.getD (j + 1) 0 : Nat) : Int) -
      (KronBlocks.offsets.getD j 0 : Nat) ≠ (N_L : Int) * (N_R : Int)) :
    ∃ e, rdmLoop solve KronBlocks v fuel idx st = .error e := by
  induction fuel generalizing idx st with
  | zero => omega
  | succ n ih =>
    unfold rdmLoop
    cases hstep : rdmStep solve KronBlocks v idx st with
    | error e => exact ⟨e, rfl⟩
    | ok st1 =>
      simp only []
      by_cases hji : j = idx
      · subst hji
        rw [rdmStep_mismatch solve KronBlocks v j st N_L N_R hL hR hlen] at hstep
        cases hstep
      · exact ih (idx + 1) st1 (by omega) (by omega)

theorem rdmLoop_converges (solve : SeqDense → EPS) (KronBlocks : KronBlocks_t) (v : List ℚ)
    (fuel idx : Nat) (st : RdmState) (hs : SolverConverges solve)
    (hseg : ∀ j, idx ≤ j → j < idx + fuel → SegmentOK KronBlocks j) :
    ∃ st', rdmLoop solve KronBlocks v fuel idx st = .ok st' := by
  induction fuel generalizing idx st with
  | zero => exact ⟨st, rfl⟩
  | succ n ih =>
    obtain ⟨N_L, N_R, hL, hR, hlen⟩ := hseg idx (le_refl _) (by omega)
    unfold rdmLoop
    rw [rdmStep_checked solve KronBlocks v idx st N_L N_R hL hR hlen]
    obtain ⟨a1, a2⟩ := hs (segRdmL v (KronBlocks.offsets.getD idx 0) N_L N_R) rfl
    obtain ⟨b1, b2⟩ := hs (segRdmR v (KronBlocks.offsets.getD idx 0) N_L N_R) rfl
    rw [EigRDM_BlockDiag_converged solve _ _ _ _ rfl a1 a2,
      EigRDM_BlockDiag_converged solve _ _ _ _ rfl b1 b2]
    exact ih (idx + 1) _ (fun j h1 h2 => hseg j (by omega) (by omega))

/-- With segments of the right lengths the offsets increase up to the last one. -/
theorem offsets_le_last (KronBlocks : KronBlocks_t)
    (hseg : ∀ j < KronBlocks.pairs.length, SegmentOK KronBlocks j) (j d : Nat)
    (hjd : j + d ≤ KronBlocks.pairs.length) :
    KronBlocks.offsets.getD j 0 ≤ KronBlocks.offsets.getD (j + d) 0 := by
  induction d with
  | zero => exact le_refl _
  | succ n ih =>
    obtain ⟨N_L, N_R, _, _, hlen⟩ := hseg (j + n) (by omega)
    have h1 := ih (by omega)
    have h2 : (0 : Int) ≤ (N_L : Int) * (N_R : Int) := by positivity
    rw [show j + (n + 1) = j + n + 1 by omega]
    omega

/-- On a square matrix `EigRDM_BlockDiag` succeeds exactly when the eigensolver converges
on it with real eigenvalues. -/
theorem EigRDM_BlockDiag_ok_iff (solve : SeqDense → EPS) (matin : SeqDense)
    (seqIdx blkIdx : Nat) (eigList : List Eigen_t) (h1 : matin.nrows = matin.ncols) :
    (∃ r, EigRDM_BlockDiag solve matin seqIdx blkIdx eigList = .ok r) ↔
      ConvergedOn solve matin := by
  constructor
  · rintro ⟨r, hr⟩
    by_cases hc : (solve matin).nconv = matin.nrows
    · refine ⟨hc, ?_⟩
      by_contra hne
      push_neg at hne
      obtain ⟨k, hk, hk2⟩ := hne
      unfold EigRDM_BlockDiag at hr
      rw [if_neg (by simp [h1])] at hr
      simp only [] at hr
      rw [if_neg (by simp [hc])] at hr
      rw [(eigLoop_ok_iff (solve matin) seqIdx blkIdx (solve matin).nconv 0 eigList).2
        ⟨k, by omega, by rw [Nat.zero_add]; exact hk2⟩] at hr
      cases hr
    · unfold EigRDM_BlockDiag at hr
      rw [if_neg (by simp [h1])] at hr
      simp only [] at hr
      rw [if_pos hc] at hr
      cases hr
  · rintro ⟨h2, h3⟩
    exact ⟨_, EigRDM_BlockDiag_converged solve matin seqIdx blkIdx eigList h1 h2 h3⟩

/-- A step of the loop over the L-R pairs on a segment of the right length succeeds exactly
when the eigensolver converges with real eigenvalues on both blocks of the segment. -/
theorem rdmStep_ok_iff (solve : SeqDense → EPS) (KronBlocks : KronBlocks_t) (v : List ℚ)
    (idx : Nat) (st : RdmState) (N_L N_R : Nat)
    (hL : KronBlocks.Left.Sizes (KronBlocks.pairs.getD idx (0, 0)).1 = some N_L)
    (hR : KronBlocks.Right.Sizes (KronBlocks.pairs.getD idx (0, 0)).2 = some N_R)
    (hlen : ((KronBlocks.offsets.getD (idx + 1) 0 : Nat) : Int) -
      (KronBlocks.offsets.getD idx 0 : Nat) = (N_L : Int) * (N_R : Int)) :
    (∃ st', rdmStep solve KronBlocks v idx st = .ok st') ↔
      (ConvergedOn solve (segRdmL v (KronBlocks.offsets.getD idx 0) N_L N_R) ∧
        ConvergedOn solve (segRdmR v (KronBlocks.offsets.getD idx 0) N_L N_R)) := by
  rw [rdmStep_checked solve KronBlocks v idx st N_L N_R hL hR hlen]
  constructor
  · rintro ⟨st', h⟩
    split at h
    · cases h
    · rename_i eL epsL hEL
      split at h
      · cases h
      · rename_i eR epsR hER
        exact ⟨(EigRDM_BlockDiag_ok_iff solve _ _ _ _ rfl).mp ⟨_, hEL⟩,
          (EigRDM_BlockDiag_ok_iff solve _ _ _ _ rfl).mp ⟨_, hER⟩⟩
  · rintro ⟨⟨a1, a2⟩, ⟨b1, b2⟩⟩
    rw [EigRDM_BlockDiag_converged solve _ _ _ _ rfl a1 a2,
      EigRDM_BlockDiag_converged solve _ _ _ _ rfl b1 b2]
    exact ⟨_, rfl⟩

/-- The loop over the L-R pairs on segments of the right lengths succeeds exactly when the
eigensolver converges with real eigenvalues on both blocks of each segment. -/
theorem rdmLoop_ok_iff (solve : SeqDense → EPS) (KronBlocks : KronBlocks_t) (v : List ℚ)
    (fuel idx : Nat) (st : RdmState)
    (hseg : ∀ j, idx ≤ j → j < idx + fuel → SegmentOK KronBlocks j) :
    (∃ st', rdmLoop solve KronBlocks v fuel idx st = .ok st') ↔
      ∀ j, idx ≤ j → j < idx + fuel → ∀ N_L N_R,
        KronBlocks.Left.Sizes (KronBlocks.pairs.getD j (0, 0)).1 = some N_L →
        KronBlocks.Right.Sizes (KronBlocks.pairs.getD j (0, 0)).2 = some N_R →
        ConvergedOn solve (segRdmL v (KronBlocks.offsets.getD j 0) N_L N_R) ∧
          ConvergedOn solve (segRdmR v (KronBlocks.offsets.getD j 0) N_L N_R) := by
  induction fuel generalizing idx st with
  | zero =>
    constructor
    · intro _ j h1 h2
      omega
    · intro _
      exact ⟨st, rfl⟩
  | succ n ih =>
    obtain ⟨N_L, N_R, hL, hR, hlen⟩ := hseg idx (le_refl _) (by omega)
    have hstep := rdmStep_ok_iff solve KronBlocks v idx st N_L N_R hL hR hlen
    have hseg' : ∀ j, idx + 1 ≤ j → j < idx + 1 + n → SegmentOK KronBlocks j :=
      fun j h1 h2 => hseg j (by omega) (by omega)
    constructor
    · rintro ⟨st', h⟩
      unfold rdmLoop at h
      cases hs : rdmStep solve KronBlocks v idx st with
      | error e =>
        rw [hs] at h
        cases h
      | ok st1 =>
        rw [hs] at h
        simp only [] at h
        have h0 := hstep.mp ⟨st1, hs⟩
        have hrest := (ih (idx + 1) st1 hseg').mp ⟨st', h⟩
        intro j h1 h2 N_L' N_R' hL' hR'
        by_cases hj : j = idx
        · subst hj
          rw [hL] at hL'
          rw [hR] at hR'
          cases hL'
          cases hR'
          exact h0
        · exact hrest j (by omega) (by omega) N_L' N_R' hL' hR'
    · intro h
      obtain ⟨st1, hs⟩ := hstep.mpr (h idx (le_refl _) (by omega) N_L N_R hL hR)
      obtain ⟨st', h'⟩ := (ih (idx + 1) st1 hseg').mpr
        (fun j h1 h2 => h j (by omega) (by omega))
      refine ⟨st', ?_⟩
      unfold rdmLoop
      rw [hs]
      exact h'

/-- C23: `GetTruncation` returns an error when the length of the gathered vector differs
from the total number of states of the KronBlockIndex, and when some segment's length
`Offsets(idx+1) - Offsets(idx)` differs from the product of its two sector sizes.
Conversely, when the vector has the total length, every segment has the length of that
product and the last offset is the total length, then neither check fires: every step of the
loop over the segments is the pair of its eigensolver calls on the two blocks of the segment,
the loop succeeds exactly when the eigensolver converges with real eigenvalues on both
blocks of every segment, an error of the loop is the error of `GetTruncation` and after a
successful loop `GetTruncation` is the truncation of the two sides; and every entry read for
a segment lies inside the vector. -/
theorem C23_length_checks (no_symm : Bool) (solve : SeqDense → EPS) (KronBlocks : KronBlocks_t)
    (gsv_r : List ℚ) (MStates : Nat) :
    (KronBlocks.NumStates ≠ gsv_r.length →
      ∃ e, GetTruncation no_symm solve KronBlocks gsv_r MStates = .error e) ∧
    ((∃ idx < KronBlocks.pairs.length, ∃ N_L N_R,
        KronBlocks.Left.Sizes (KronBlocks.pairs.getD idx (0, 0)).1 = some N_L ∧
        KronBlocks.Right.Sizes (KronBlocks.pairs.getD idx (0, 0)).2 = some N_R ∧
        ((KronBlocks.offsets.getD (idx + 1) 0 : Nat) : Int) -
          (KronBlocks.offsets.getD idx 0 : Nat) ≠ (N_L : Int) * (N_R : Int)) →
      ∃ e, GetTruncation no_symm solve KronBlocks gsv_r MStates = .error e) ∧
    (KronBlocks.NumStates = gsv_r.length →
      (∀ idx < KronBlocks.pairs.length, SegmentOK KronBlocks idx) →
      KronBlocks.offsets.getD KronBlocks.pairs.length 0 = KronBlocks.NumStates →
      (∀ idx < KronBlocks.pairs.length, ∀ st : RdmState, ∃ N_L N_R,
        KronBlocks.Left.Sizes (KronBlocks.pairs.getD idx (0, 0)).1 = some N_L ∧
        KronBlocks.Right.Sizes (KronBlocks.pairs.getD idx (0, 0)).2 = some N_R ∧
        rdmStep solve KronBlocks gsv_r idx st =
          (match EigRDM_BlockDiag solve
              (segRdmL gsv_r (KronBlocks.offsets.getD idx 0) N_L N_R) idx
              (KronBlocks.pairs.getD idx (0, 0)).1 st.eigen_L with
            | .error e => .error e
            | .ok (eigen_L, eps_L) =>
              match EigRDM_BlockDiag solve
                  (segRdmR gsv_r (KronBlocks.offsets.getD idx 0) N_L N_R) idx
                  (KronBlocks.pairs.getD idx (0, 0)).2 st.eigen_R with
              | .error e => .error e
              | .ok (eigen_R, eps_R) =>
                .ok ⟨eigen_L, eigen_R, st.eps_list_L ++ [eps_L], st.eps_list_R ++ [eps_R]⟩)) ∧
      ((∃ st, rdmLoop solve KronBlocks gsv_r KronBlocks.pairs.length 0 ⟨[], [], [], []⟩ =
          .ok st) ↔
        ∀ idx < KronBlocks.pairs.length, ∀ N_L N_R,
          KronBlocks.Left.Sizes (KronBlocks.pairs.getD idx (0, 0)).1 = some N_L →
          KronBlocks.Right.Sizes (KronBlocks.pairs.getD idx (0, 0)).2 = some N_R →
          ConvergedOn solve (segRdmL gsv_r (KronBlocks.offsets.getD idx 0) N_L N_R) ∧
            ConvergedOn solve (segRdmR gsv_r (KronBlocks.offsets.getD idx 0) N_L N_R)) ∧
      (∀ e, rdmLoop solve KronBlocks gsv_r KronBlocks.pairs.length 0 ⟨[], [], [], []⟩ =
          .error e →
        GetTruncation false solve KronBlocks gsv_r MStates = .error e) ∧
      (∀ st, rdmLoop solve KronBlocks gsv_r KronBlocks.pairs.length 0 ⟨[], [], [], []⟩ =
          .ok st →
        GetTruncation false solve KronBlocks gsv_r MStates =
          truncateBoth KronBlocks MStates st) ∧
      (∀ idx < KronBlocks.pairs.length, ∀ N_L N_R,
        KronBlocks.Left.Sizes (KronBlocks.pairs.getD idx (0, 0)).1 = some N_L →
        KronBlocks.Right.Sizes (KronBlocks.pairs.getD idx (0, 0)).2 = some N_R →
        ∀ k < N_L * N_R, KronBlocks.offsets.getD idx 0 + k < gsv_r.length)) := by
  refine ⟨fun h => ?_, fun h => ?_, fun h1 h2 h3 => ⟨?_, ?_, ?_, ?_, ?_⟩⟩
  · unfold GetTruncation
    split
    · exact ⟨_, rfl⟩
    · exact ⟨_, rfl⟩
  · obtain ⟨idx, hidx, N_L, N_R, hL, hR, hlen⟩ := h
    obtain ⟨e, he⟩ := rdmLoop_mismatch solve KronBlocks gsv_r KronBlocks.pairs.length 0
      ⟨[], [], [], []⟩ idx N_L N_R (Nat.zero_le _) (by omega) hL hR hlen
    unfold GetTruncation
    split
    · exact ⟨_, rfl⟩
    · split
      · exact ⟨_, rfl⟩
      · rw [he]
        exact ⟨_, rfl⟩
  · intro idx hidx st
    obtain ⟨N_L, N_R, hL, hR, hlen⟩ := h2 idx hidx
    exact ⟨N_L, N_R, hL, hR, rdmStep_checked solve KronBlocks gsv_r idx st N_L N_R hL hR hlen⟩
  · rw [rdmLoop_ok_iff solve KronBlocks gsv_r KronBlocks.pairs.length 0 _
      (fun j _ hj => h2 j (by omega))]
    constructor
    · intro h idx hidx
      exact h idx (Nat.zero_le _) (by omega)
    · intro h j _ hj
      exact h j (by omega)
  · intro e he
    unfold GetTruncation
    rw [if_neg (by simp), if_neg (not_not.mpr h1), he]
  · intro st hst
    unfold GetTruncation truncateBoth
    rw [if_neg (by simp), if_neg (not_not.mpr h1), hst]
  · intro idx hidx N_L N_R hL hR k hk
    obtain ⟨N_L', N_R', hL', hR', hlen⟩ := h2 idx hidx
    rw [hL] at hL'
    rw [hR] at hR'
    cases hL'
    cases hR'
    have hmono := offsets_le_last KronBlocks h2 (idx + 1)
      (KronBlocks.pairs.length - (idx + 1)) (by omega)
    rw [show idx + 1 + (KronBlocks.pairs.length - (idx + 1)) = KronBlocks.pairs.length by omega,
      h3, h1] at hmono
    have hk' : ((k : Nat) : Int) < (N_L : Int) * (N_R : Int) := by exact_mod_cast hk
    omega

theorem exampleKron_segments : ∀ idx < exampleKron.pairs.length, SegmentOK exampleKron idx := by
  intro idx hidx
  have h3 : idx < 3 := hidx
  interval_cases idx
  · exact ⟨1, 1, rfl, rfl, by decide⟩
  · exact ⟨2, 2, rfl, rfl, by decide⟩
  · exact ⟨1, 1, rfl, rfl, by decide⟩

/-- C23 at the example index with segments of lengths 1, 4 and 1 and a vector of length 6:
every entry read lies inside the vector. -/
theorem C23_length_checks_witness :
    exampleKron.NumStates = exampleGsv.length ∧
    exampleKron.offsets.getD exampleKron.pairs.length 0 = exampleKron.NumStates ∧
    (∀ idx < exampleKron.pairs.length, ∀ N_L N_R,
      exampleKron.Left.Sizes (exampleKron.pairs.getD idx (0, 0)).1 = some N_L →
      exampleKron.Right.Sizes (exampleKron.pairs.getD idx (0, 0)).2 = some N_R →
      ∀ k < N_L * N_R, exampleKron.offsets.getD idx 0 + k < exampleGsv.length) :=
  ⟨rfl, rfl, ((C23_length_checks false exampleSolve exampleKron exampleGsv 3).2.2
    rfl exampleKron_segments rfl).2.2.2.2⟩

theorem segPsi_entry (v : List ℚ) (Istart N_L N_R l r : Nat) :
    (segPsi v Istart N_L N_R).entry l r = v.getD (Istart + l * N_R + r) 0 := by
  simp only [segPsi, segPsiT, MatHermitianTranspose, MatCreateSeqDense]
  congr 1
  omega

theorem segPsiT_entry (v : List ℚ) (Istart N_L N_R r l : Nat) :
    (segPsiT v Istart N_L N_R).entry r l = v.getD (Istart + l * N_R + r) 0 := by
  simp only [segPsiT, MatCreateSeqDense]
  congr 1
  omega

theorem rdmMatL_eq (v : List ℚ) (Istart N_L N_R : Nat) :
    rdmMatL v Istart N_L N_R =
      specPsi v Istart N_L N_R * (specPsi v Istart N_L N_R).transpose := by
  funext i j
  rw [Matrix.mul_apply]
  simp only [rdmMatL, segRdmL, MatMatMult]
  have hc : (segPsi v Istart N_L N_R).ncols = N_R := rfl
  rw [hc, list_range_sum_eq_fin_sum]
  apply Finset.sum_congr rfl
  intro k _
  rw [segPsi_entry, segPsiT_entry]
  rfl

theorem rdmMatR_eq (v : List ℚ) (Istart N_L N_R : Nat) :
    rdmMatR v Istart N_L N_R =
      (specPsi v Istart N_L N_R).transpose * specPsi v Istart N_L N_R := by
  funext i j
  rw [Matrix.mul_apply]
  simp only [rdmMatR, segRdmR, MatMatMult]
  have hc : (segPsiT v Istart N_L N_R).ncols = N_L := rfl
  rw [hc, list_range_sum_eq_fin_sum]
  apply Finset.sum_congr rfl
  intro k _
  rw [segPsi_entry, segPsiT_entry]
  rfl

/-- The characteristic polynomials of `A * B` and `B * A` for rectangular matrices agree up
to a power of the variable. -/
theorem charpoly_mul_comm_rect {m n : ℕ} (A : Matrix (Fin m) (Fin n) ℚ)
    (B : Matrix (Fin n) (Fin m) ℚ) :
    (Polynomial.X : Polynomial ℚ) ^ n * (A * B).charpoly =
      Polynomial.X ^ m * (B * A).charpoly := by
  have hP : (Matrix.fromBlocks (Matrix.scalar (Fin m) (Polynomial.X : Polynomial ℚ))
      (A.map Polynomial.C) (B.map Polynomial.C) 1).det = (A * B).charpoly := by
    rw [Matrix.det_fromBlocks_one₂₂, Matrix.charpoly, Matrix.charmatrix,
      RingHom.mapMatrix_apply, Matrix.map_mul]
  have hQ : (Matrix.fromBlocks 1 (A.map Polynomial.C) (B.map Polynomial.C)
      (Matrix.scalar (Fin n) (Polynomial.X : Polynomial ℚ))).det = (B * A).charpoly := by
    rw [Matrix.det_fromBlocks_one₁₁, Matrix.charpoly, Matrix.charmatrix,
      RingHom.mapMatrix_apply, Matrix.map_mul]
  have hD1 : (Matrix.fromBlocks (1 : Matrix (Fin m) (Fin m) (Polynomial ℚ)) 0 0
      (Matrix.scalar (Fin n) (Polynomial.X : Polynomial ℚ))).det = Polynomial.X ^ n := by
    rw [Matrix.det_fromBlocks_zero₂₁, Matrix.det_one, one_mul, Matrix.scalar_apply,
      Matrix.det_diagonal]
    simp
  have hD2 : (Matrix.fromBlocks (Matrix.scalar (Fin m) (Polynomial.X : Polynomial ℚ)) 0 0
      (1 : Matrix (Fin n) (Fin n) (Polynomial ℚ))).det = Polynomial.X ^ m := by
    rw [Matrix.det_fromBlocks_zero₂₁, Matrix.det_one, mul_one, Matrix.scalar_apply,
      Matrix.det_diagonal]
    simp
  have hmul : Matrix.fromBlocks (Matrix.scalar (Fin m) (Polynomial.X : Polynomial ℚ))
        (A.map Polynomial.C) (B.map Polynomial.C) 1 *
      Matrix.fromBlocks (1 : Matrix (Fin m) (Fin m) (Polynomial ℚ)) 0 0
        (Matrix.scalar (Fin n) (Polynomial.X : Polynomial ℚ)) =
      Matrix.fromBlocks (Matrix.scalar (Fin m) (Polynomial.X : Polynomial ℚ)) 0 0
        (1 : Matrix (Fin n) (Fin n) (Polynomial ℚ)) *
      Matrix.fromBlocks 1 (A.map Polynomial.C) (B.map Polynomial.C)
        (Matrix.scalar (Fin n) (Polynomial.X : Polynomial ℚ)) := by
    rw [Matrix.fromBlocks_multiply, Matrix.fromBlocks_multiply]
    have hc : A.map Polynomial.C * Matrix.scalar (Fin n) (Polynomial.X : Polynomial ℚ) =
        Matrix.scalar (Fin m) (Polynomial.X : Polynomial ℚ) * A.map Polynomial.C := by
      apply Matrix.ext
      intro i j
      rw [Matrix.scalar_apply, Matrix.scalar_apply, Matrix.mul_diagonal, Matrix.diagonal_mul]
      exact mul_comm (A.map Polynomial.C i j) (Polynomial.X : Polynomial ℚ)
    simp only [Matrix.mul_zero, Matrix.zero_mul, Matrix.mul_one, Matrix.one_mul, zero_add,
      add_zero, hc]
  have := congrArg Matrix.det hmul
  rw [Matrix.det_mul, Matrix.det_mul, hP, hQ, hD1, hD2] at this
  rw [mul_comm, this]

/-- A product `B * Bᵀ` is positive semi-definite. -/
theorem mul_transpose_psd {K : Type} [LinearOrderedField K] {m n : ℕ}
    (B : Matrix (Fin m) (Fin n) K) (x : Fin m → K) :
    0 ≤ Matrix.dotProduct x ((B * B.transpose).mulVec x) := by
  rw [Matrix.dotProduct_mulVec, ← Matrix.vecMul_vecMul, ← Matrix.dotProduct_mulVec,
    Matrix.mulVec_transpose]
  exact Finset.sum_nonneg fun i _ => mul_self_nonneg _

/-- The trace of `Psi * Psiᵀ` of a segment is the sum of the squares of the entries of the
segment. -/
theorem specPsi_trace (v : List ℚ) (Istart N_L N_R : Nat) :
    (specPsi v Istart N_L N_R * (specPsi v Istart N_L N_R).transpose).trace =
      ((List.range (N_L * N_R)).map fun k => v.getD (Istart + k) 0 * v.getD (Istart + k) 0).sum := by
  rw [list_range_sum_eq_fin_sum, Matrix.trace]
  simp only [Matrix.diag_apply, Matrix.mul_apply, Matrix.transpose_apply]
  rw [← Fintype.sum_prod_type (fun p : Fin N_L × Fin N_R =>
    specPsi v Istart N_L N_R p.1 p.2 * specPsi v Istart N_L N_R p.1 p.2)]
  apply Fintype.sum_equiv finProdFinEquiv
  intro p
  simp only [specPsi, finProdFinEquiv_apply_val]
  have e : Istart + p.1.val * N_R + p.2.val = Istart + (p.2.val + N_R * p.1.val) := by ring
  rw [e]
theorem segRdmL_symm (v : List ℚ) (Istart N_L N_R i j : Nat) :
    (segRdmL v Istart N_L N_R).entry i j = (segRdmL v Istart N_L N_R).entry j i := by
  simp only [segRdmL, MatMatMult]
  congr 1
  apply List.map_congr_left
  intro k _
  rw [segPsi_entry, segPsiT_entry, segPsi_entry, segPsiT_entry]
  exact mul_comm _ _

theorem segRdmR_symm (v : List ℚ) (Istart N_L N_R i j : Nat) :
    (segRdmR v Istart N_L N_R).entry i j = (segRdmR v Istart N_L N_R).entry j i := by
  simp only [segRdmR, MatMatMult]
  congr 1
  apply List.map_congr_left
  intro k _
  rw [segPsi_entry, segPsiT_entry, segPsi_entry, segPsiT_entry]
  exact mul_comm _ _

/-- Two real polynomials that agree up to powers of the variable have the same multiplicity at
every nonzero point. -/
theorem rootMultiplicity_of_X_pow_mul {p q : Polynomial ℝ} (hp : p ≠ 0) (hq : q ≠ 0) (a b : ℕ)
    (h : Polynomial.X ^ a * p = Polynomial.X ^ b * q) (μ : ℝ) (hμ : μ ≠ 0) :
    Polynomial.rootMultiplicity μ p = Polynomial.rootMultiplicity μ q := by
  have hX : ∀ k : ℕ, Polynomial.rootMultiplicity μ ((Polynomial.X : Polynomial ℝ) ^ k) = 0 := by
    intro k
    apply Polynomial.rootMultiplicity_eq_zero
    simp [Polynomial.IsRoot, hμ]
  have hXne : ∀ k : ℕ, (Polynomial.X : Polynomial ℝ) ^ k ≠ 0 := fun k =>
    pow_ne_zero k Polynomial.X_ne_zero
  have h1 := Polynomial.rootMultiplicity_mul (x := μ) (mul_ne_zero (hXne a) hp)
  have h2 := Polynomial.rootMultiplicity_mul (x := μ) (mul_ne_zero (hXne b) hq)
  rw [hX, zero_add] at h1 h2
  rw [← h1, ← h2, h]

/-- C22: for every state vector and every segment of it, the two reduced density matrices
`rdmd_L = Psi * Psi^T` and `rdmd_R = Psi^T * Psi` computed by `GetTruncation` are symmetric
and positive semi-definite, every nonzero real number has the same multiplicity as an
eigenvalue (root of the characteristic polynomial) of both, and both have trace equal to the
sum of the squares of the entries of the segment. -/
theorem C22_rdm_psd_same_spectrum (v : List ℚ) (Istart N_L N_R : Nat) :
    (∀ i j : Nat, (segRdmL v Istart N_L N_R).entry i j = (segRdmL v Istart N_L N_R).entry j i) ∧
    (∀ i j : Nat, (segRdmR v Istart N_L N_R).entry i j = (segRdmR v Istart N_L N_R).entry j i) ∧
    (∀ x : Fin N_L → ℚ, 0 ≤ Matrix.dotProduct x ((rdmMatL v Istart N_L N_R).mulVec x)) ∧
    (∀ x : Fin N_R → ℚ, 0 ≤ Matrix.dotProduct x ((rdmMatR v Istart N_L N_R).mulVec x)) ∧
    (∀ μ : ℝ, μ ≠ 0 →
      Polynomial.rootMultiplicity μ
          ((rdmMatL v Istart N_L N_R).charpoly.map (algebraMap ℚ ℝ)) =
        Polynomial.rootMultiplicity μ
          ((rdmMatR v Istart N_L N_R).charpoly.map (algebraMap ℚ ℝ))) ∧
    ((List.range N_L).map fun i => (segRdmL v Istart N_L N_R).entry i i).sum =
      ((List.range (N_L * N_R)).map fun k =>
        v.getD (Istart + k) 0 * v.getD (Istart + k) 0).sum ∧
    ((List.range N_R).map fun i => (segRdmR v Istart N_L N_R).entry i i).sum =
      ((List.range (N_L * N_R)).map fun k =>
        v.getD (Istart + k) 0 * v.getD (Istart + k) 0).sum := by
  refine ⟨segRdmL_symm v Istart N_L N_R, segRdmR_symm v Istart N_L N_R, ?_, ?_, ?_, ?_, ?_⟩
  · intro x
    rw [rdmMatL_eq]
    exact mul_transpose_psd _ x
  · intro x
    rw [rdmMatR_eq]
    have h := mul_transpose_psd (specPsi v Istart N_L N_R).transpose x
    rwa [Matrix.transpose_transpose] at h
  · intro μ hμ
    have hc := charpoly_mul_comm_rect (specPsi v Istart N_L N_R)
      (specPsi v Istart N_L N_R).transpose
    rw [← rdmMatL_eq, ← rdmMatR_eq] at hc
    have hm := congrArg (Polynomial.map (algebraMap ℚ ℝ)) hc
    simp only [Polynomial.map_mul, Polynomial.map_pow, Polynomial.map_X] at hm
    exact rootMultiplicity_of_X_pow_mul
      ((Matrix.charpoly_monic _).map _).ne_zero ((Matrix.charpoly_monic _).map _).ne_zero
      N_R N_L hm μ hμ
  · rw [← specPsi_trace, ← rdmMatL_eq, list_range_sum_eq_fin_sum]
    rfl
  · rw [← specPsi_trace, Matrix.trace_mul_comm, ← rdmMatR_eq, list_range_sum_eq_fin_sum]
    rfl

theorem eval_charpoly_eq {K : Type} [Field K] {n : ℕ} (M : Matrix (Fin n) (Fin n) K) (r : K) :
    M.charpoly.eval r = (Matrix.scalar (Fin n) r - M).det := by
  rw [Matrix.charpoly, Matrix.eval_det, Matrix.matPolyEquiv_charmatrix, Polynomial.eval_sub,
    Polynomial.eval_X, Polynomial.eval_C]

/-- A root of the characteristic polynomial of `B * Bᵀ` is non-negative. -/
theorem psd_root_nonneg {K : Type} [LinearOrderedField K] {m n : ℕ}
    (B : Matrix (Fin m) (Fin n) K) (r : K)
    (h : (B * B.transpose).charpoly.eval r = 0) : 0 ≤ r := by
  rw [eval_charpoly_eq] at h
  obtain ⟨x, hx, hxe⟩ := Matrix.exists_mulVec_eq_zero_iff.mpr h
  rw [Matrix.sub_mulVec] at hxe
  have e1 : (B * B.transpose).mulVec x = r • x := by
    have := sub_eq_zero.mp hxe
    rw [← this]
    funext i
    simp [Matrix.mulVec, Matrix.dotProduct, Matrix.scalar_apply, Matrix.diagonal_apply]
  have h1 := mul_transpose_psd B x
  rw [e1, Matrix.dotProduct_smul, smul_eq_mul] at h1
  have h2 : 0 < Matrix.dotProduct x x := by
    rcases lt_or_eq_of_le (show 0 ≤ Matrix.dotProduct x x from
      Finset.sum_nonneg fun i _ => mul_self_nonneg _) with h | h
    · exact h
    · exact absurd (Matrix.dotProduct_self_eq_zero.mp h.symm) hx
  by_contra hneg
  have := mul_neg_of_neg_of_pos (not_le.mp hneg) h2
  linarith

/-- The roots of a characteristic polynomial that splits into linear factors sum to the
trace. -/
theorem linear_factors_sum {K : Type} [Field K] {n : ℕ} (M : Matrix (Fin n) (Fin n) K)
    (f : ℕ → K)
    (h : M.charpoly = ((List.range n).map fun k => Polynomial.X - Polynomial.C (f k)).prod) :
    ((List.range n).map f).sum = M.trace := by
  cases n with
  | zero => simp [Matrix.trace]
  | succ k =>
    rw [Matrix.trace_eq_neg_charpoly_coeff, h]
    have hm := Polynomial.multiset_prod_X_sub_C_coeff_card_pred
      (((List.range (k + 1)).map f : List K) : Multiset K) (by simp)
    simp only [Multiset.map_coe, Multiset.prod_coe, Multiset.coe_card, List.length_map,
      List.length_range, Multiset.sum_coe, List.map_map] at hm
    simp only [Fintype.card_fin]
    have e : (fun k => Polynomial.X - Polynomial.C (f k)) =
        ((fun x : K => Polynomial.X - Polynomial.C x) ∘ f) := rfl
    rw [e, hm, neg_neg]

theorem linear_factors_root {K : Type} [Field K] {n : ℕ} (p : Polynomial K) (f : ℕ → K)
    (h : p = ((List.range n).map fun k => Polynomial.X - Polynomial.C (f k)).prod)
    (k : ℕ) (hk : k < n) : p.eval (f k) = 0 := by
  rw [h, Polynomial.eval_list_prod]
  apply List.prod_eq_zero
  rw [List.mem_map]
  refine ⟨Polynomial.X - Polynomial.C (f k),
    List.mem_map.mpr ⟨k, List.mem_range.mpr hk, rfl⟩, ?_⟩
  simp

/-- The real eigenvalues of a matrix `B * Bᵀ` with rational entries, rational or not, are
non-negative and sum to its trace. -/
theorem real_spectrum_weight {m n : ℕ} (B : Matrix (Fin m) (Fin n) ℚ) (μ : ℕ → ℝ)
    (h : (B * B.transpose).charpoly.map (algebraMap ℚ ℝ) =
      ((List.range m).map fun k => Polynomial.X - Polynomial.C (μ k)).prod) :
    (∀ k < m, 0 ≤ μ k) ∧
      ((List.range m).map μ).sum = (((B * B.transpose).trace : ℚ) : ℝ) := by
  have hmap : ((B * B.transpose).map (algebraMap ℚ ℝ)) =
      B.map (algebraMap ℚ ℝ) * (B.map (algebraMap ℚ ℝ)).transpose := by
    rw [Matrix.map_mul, Matrix.transpose_map]
  have hc : (B.map (algebraMap ℚ ℝ) * (B.map (algebraMap ℚ ℝ)).transpose).charpoly =
      ((List.range m).map fun k => Polynomial.X - Polynomial.C (μ k)).prod := by
    rw [← hmap, Matrix.charpoly_map, h]
  constructor
  · intro k hk
    exact psd_root_nonneg _ _ (linear_factors_root _ μ hc k hk)
  · rw [linear_factors_sum _ μ hc, ← hmap, Matrix.trace, Matrix.trace]
    simp only [Matrix.diag_apply, Matrix.map_apply, eq_ratCast, Rat.cast_sum]

/-- The characteristic polynomial of a `2 × 2` matrix with trace `f 0 + f 1` and determinant
`f 0 * f 1` is the product of the factors `X - f 0` and `X - f 1`. -/
theorem charpoly_two (M : Matrix (Fin 2) (Fin 2) ℚ) (f : ℕ → ℚ)
    (ht : M 0 0 + M 1 1 = f 0 + f 1) (hd : M 0 0 * M 1 1 - M 0 1 * M 1 0 = f 0 * f 1) :
    M.charpoly = ((List.range 2).map fun k => Polynomial.X - Polynomial.C (f k)).prod := by
  have ht' : (Polynomial.C (M 0 0) + Polynomial.C (M 1 1) : Polynomial ℚ) =
      Polynomial.C (f 0) + Polynomial.C (f 1) := by
    rw [← Polynomial.C_add, ← Polynomial.C_add, ht]
  have hd' : (Polynomial.C (M 0 0) * Polynomial.C (M 1 1) -
      Polynomial.C (M 0 1) * Polynomial.C (M 1 0) : Polynomial ℚ) =
      Polynomial.C (f 0) * Polynomial.C (f 1) := by
    rw [← Polynomial.C_mul, ← Polynomial.C_mul, ← Polynomial.C_sub, hd, Polynomial.C_mul]
  rw [Matrix.charpoly, Matrix.det_fin_two]
  simp only [Matrix.charmatrix_apply, Matrix.diagonal_apply_eq, Matrix.diagonal_apply_ne,
    ne_eq, zero_ne_one, one_ne_zero, not_false_eq_true, List.range_succ, List.range_zero,
    List.nil_append, List.map_cons, List.map_nil, List.prod_cons, List.prod_nil,
    List.cons_append, zero_sub, mul_one]
  linear_combination (-Polynomial.X) * ht' + hd'

theorem eigRecords_eigvals (eps : EPS) (seqIdx blkIdx n : Nat) :
    (eigRecords eps seqIdx blkIdx 0 n).map (fun e => e.eigval) =
      (List.range n).map fun k => (eps.eig k).1 := by
  simp [eigRecords, Function.comp_def]

/-- The exact eigenvalues of the block `rdmd_L` of a segment are non-negative and sum to the
trace of the block. -/
theorem exact_trace_L (v : List ℚ) (Istart N_L N_R : Nat) (eps : EPS)
    (h : ExactSpectrum N_L (rdmMatL v Istart N_L N_R) eps) :
    TraceSpectrum N_L (rdmMatL v Istart N_L N_R) eps := by
  unfold ExactSpectrum at h
  constructor
  · intro k hk
    have hr := linear_factors_root _ (fun k => (eps.eig k).1) h k hk
    rw [rdmMatL_eq] at hr
    exact psd_root_nonneg _ _ hr
  · exact linear_factors_sum _ (fun k => (eps.eig k).1) h

/-- The exact eigenvalues of the block `rdmd_R` of a segment are non-negative and sum to the
trace of the block. -/
theorem exact_trace_R (v : List ℚ) (Istart N_L N_R : Nat) (eps : EPS)
    (h : ExactSpectrum N_R (rdmMatR v Istart N_L N_R) eps) :
    TraceSpectrum N_R (rdmMatR v Istart N_L N_R) eps := by
  unfold ExactSpectrum at h
  constructor
  · intro k hk
    have hr := linear_factors_root _ (fun k => (eps.eig k).1) h k hk
    rw [rdmMatR_eq] at hr
    have ht : (specPsi v Istart N_L N_R).transpose * specPsi v Istart N_L N_R =
        (specPsi v Istart N_L N_R).transpose *
          ((specPsi v Istart N_L N_R).transpose).transpose := by
      rw [Matrix.transpose_transpose]
    rw [ht] at hr
    exact psd_root_nonneg _ _ hr
  · exact linear_factors_sum _ (fun k => (eps.eig k).1) h

/-- Eigenvalues that sum to the trace of the block `rdmd_L` of a segment sum to the weight of
the segment. -/
theorem trace_segment_L (v : List ℚ) (Istart N_L N_R : Nat) (eps : EPS)
    (h : TraceSpectrum N_L (rdmMatL v Istart N_L N_R) eps) :
    (∀ k < N_L, 0 ≤ (eps.eig k).1) ∧
      ((List.range N_L).map fun k => (eps.eig k).1).sum =
        ((List.range (N_L * N_R)).map fun k =>
          v.getD (Istart + k) 0 * v.getD (Istart + k) 0).sum := by
  refine ⟨h.1, ?_⟩
  rw [h.2, rdmMatL_eq, specPsi_trace]

/-- Eigenvalues that sum to the trace of the block `rdmd_R` of a segment sum to the weight of
the segment. -/
theorem trace_segment_R (v : List ℚ) (Istart N_L N_R : Nat) (eps : EPS)
    (h : TraceSpectrum N_R (rdmMatR v Istart N_L N_R) eps) :
    (∀ k < N_R, 0 ≤ (eps.eig k).1) ∧
      ((List.range N_R).map fun k => (eps.eig k).1).sum =
        ((List.range (N_L * N_R)).map fun k =>
          v.getD (Istart + k) 0 * v.getD (Istart + k) 0).sum := by
  refine ⟨h.1, ?_⟩
  rw [h.2, rdmMatR_eq, Matrix.trace_mul_comm, specPsi_trace]

/-- Records that are non-negative and sum to the sum of the exact real eigenvalues of the
block `rdmd_L` of a segment, such as those eigenvalues themselves when they are rational,
are non-negative and sum to the trace of the block. -/
theorem rounded_trace_L (v : List ℚ) (Istart N_L N_R : Nat) (eps : EPS) (μ : ℕ → ℝ)
    (h : (rdmMatL v Istart N_L N_R).charpoly.map (algebraMap ℚ ℝ) =
      ((List.range N_L).map fun k => Polynomial.X - Polynomial.C (μ k)).prod)
    (hpos : ∀ k < N_L, 0 ≤ (eps.eig k).1)
    (hsum : ((((List.range N_L).map fun k => (eps.eig k).1).sum : ℚ) : ℝ) =
      ((List.range N_L).map μ).sum) :
    TraceSpectrum N_L (rdmMatL v Istart N_L N_R) eps := by
  refine ⟨hpos, ?_⟩
  rw [rdmMatL_eq] at h ⊢
  rw [(real_spectrum_weight _ μ h).2] at hsum
  exact_mod_cast hsum

/-- Records that are non-negative and sum to the sum of the exact real eigenvalues of the
block `rdmd_R` of a segment are non-negative and sum to the trace of the block. -/
theorem rounded_trace_R (v : List ℚ) (Istart N_L N_R : Nat) (eps : EPS) (μ : ℕ → ℝ)
    (h : (rdmMatR v Istart N_L N_R).charpoly.map (algebraMap ℚ ℝ) =
      ((List.range N_R).map fun k => Polynomial.X - Polynomial.C (μ k)).prod)
    (hpos : ∀ k < N_R, 0 ≤ (eps.eig k).1)
    (hsum : ((((List.range N_R).map fun k => (eps.eig k).1).sum : ℚ) : ℝ) =
      ((List.range N_R).map μ).sum) :
    TraceSpectrum N_R (rdmMatR v Istart N_L N_R) eps := by
  refine ⟨hpos, ?_⟩
  have ht : (specPsi v Istart N_L N_R).transpose * specPsi v Istart N_L N_R =
      (specPsi v Istart N_L N_R).transpose *
        ((specPsi v Istart N_L N_R).transpose).transpose := by
    rw [Matrix.transpose_transpose]
  rw [rdmMatR_eq, ht] at h ⊢
  rw [(real_spectrum_weight _ μ h).2] at hsum
  exact_mod_cast hsum

theorem SideInv_step (BlockRef : QuantumNumbers) (v : List ℚ) (off idx : Nat)
    (eigen : List Eigen_t) (eps_list : List EPS) (eps : EPS) (b n w : Nat)
    (hinv : SideInv BlockRef v off idx eigen eps_list)
    (hb : BlockRef.Sizes b = some n)
    (hpos : ∀ k < n, 0 ≤ (eps.eig k).1)
    (hsum : ((List.range n).map fun k => (eps.eig k).1).sum =
      ((List.range w).map fun k => v.getD (off + k) 0 * v.getD (off + k) 0).sum) :
    SideInv BlockRef v (off + w) (idx + 1) (eigen ++ eigRecords eps idx b 0 n)
      (eps_list ++ [eps]) := by
  obtain ⟨h1, h2, h3, h4⟩ := hinv
  have hbl : b < BlockRef.qn_size.length := by
    unfold QuantumNumbers.Sizes at hb
    rw [List.get?_eq_getElem?] at hb
    exact (List.getElem?_eq_some_iff.mp hb).1
  refine ⟨by simp [h1], ?_, ?_, ?_⟩
  · intro e he
    rcases List.mem_append.mp he with he | he
    · obtain ⟨hbe, eps0, hg, hv⟩ := h2 e he
      refine ⟨hbe, eps0, ?_, hv⟩
      rw [List.get?_eq_getElem?] at hg ⊢
      have hlt : e.seqIdx < eps_list.length := (List.getElem?_eq_some_iff.mp hg).1
      rw [List.getElem?_append_left hlt]
      exact hg
    · simp only [eigRecords, List.mem_map, List.mem_range] at he
      obtain ⟨k, _, rfl⟩ := he
      refine ⟨hbl, eps, ?_, ?_⟩
      · rw [List.get?_eq_getElem?]
        simp [h1]
      · simp
  · intro e he
    rcases List.mem_append.mp he with he | he
    · exact h3 e he
    · simp only [eigRecords, List.mem_map, List.mem_range] at he
      obtain ⟨k, hk, rfl⟩ := he
      simpa using hpos k hk
  · rw [List.map_append, List.sum_append, h4, eigRecords_eigvals, hsum, List.range_add,
      List.map_append, List.sum_append, List.map_map]
    rfl

/-- A step of the loop over the L-R pairs with a solver that converges, on a segment of the
right length: the records and the solver contexts that it appends. -/
theorem rdmStep_exact (solve : SeqDense → EPS) (KronBlocks : KronBlocks_t) (v : List ℚ)
    (idx : Nat) (st : RdmState) (N_L N_R : Nat) (hs : SolverConverges solve)
    (hL : KronBlocks.Left.Sizes (KronBlocks.pairs.getD idx (0, 0)).1 = some N_L)
    (hR : KronBlocks.Right.Sizes (KronBlocks.pairs.getD idx (0, 0)).2 = some N_R)
    (hlen : ((KronBlocks.offsets.getD (idx + 1) 0 : Nat) : Int) -
      (KronBlocks.offsets.getD idx 0 : Nat) = (N_L : Int) * (N_R : Int)) :
    rdmStep solve KronBlocks v idx st = .ok
      ⟨st.eigen_L ++ eigRecords (solve (segRdmL v (KronBlocks.offsets.getD idx 0) N_L N_R)) idx
          (KronBlocks.pairs.getD idx (0, 0)).1 0 N_L,
        st.eigen_R ++ eigRecords (solve (segRdmR v (KronBlocks.offsets.getD idx 0) N_L N_R)) idx
          (KronBlocks.pairs.getD idx (0, 0)).2 0 N_R,
        st.eps_list_L ++ [solve (segRdmL v (KronBlocks.offsets.getD idx 0) N_L N_R)],
        st.eps_list_R ++ [solve (segRdmR v (KronBlocks.offsets.getD idx 0) N_L N_R)]⟩ := by
  rw [rdmStep_checked solve KronBlocks v idx st N_L N_R hL hR hlen]
  obtain ⟨a1, a2⟩ := hs (segRdmL v (KronBlocks.offsets.getD idx 0) N_L N_R) rfl
  obtain ⟨b1, b2⟩ := hs (segRdmR v (KronBlocks.offsets.getD idx 0) N_L N_R) rfl
  rw [EigRDM_BlockDiag_converged solve _ _ _ _ rfl a1 a2,
    EigRDM_BlockDiag_converged solve _ _ _ _ rfl b1 b2]
  rfl

/-- The loop over the L-R pairs with a solver whose eigenvalues are non-negative and sum to
the traces keeps the invariant of both sides. -/
theorem rdmLoop_exact (solve : SeqDense → EPS) (KronBlocks : KronBlocks_t) (v : List ℚ)
    (hs : SolverConverges solve) (hx : TraceOnSegments solve KronBlocks v)
    (hseg : ∀ j < KronBlocks.pairs.length, SegmentOK KronBlocks j)
    (fuel idx : Nat) (st : RdmState) (hfuel : idx + fuel ≤ KronBlocks.pairs.length)
    (hiL : SideInv KronBlocks.Left v (KronBlocks.offsets.getD idx 0) idx st.eigen_L
      st.eps_list_L)
    (hiR : SideInv KronBlocks.Right v (KronBlocks.offsets.getD idx 0) idx st.eigen_R
      st.eps_list_R) :
    ∃ st', rdmLoop solve KronBlocks v fuel idx st = .ok st' ∧
      SideInv KronBlocks.Left v (KronBlocks.offsets.getD (idx + fuel) 0) (idx + fuel)
        st'.eigen_L st'.eps_list_L ∧
      SideInv KronBlocks.Right v (KronBlocks.offsets.getD (idx + fuel) 0) (idx + fuel)
        st'.eigen_R st'.eps_list_R := by
  induction fuel generalizing idx st with
  | zero => exact ⟨st, rfl, hiL, hiR⟩
  | succ n ih =>
    obtain ⟨N_L, N_R, hL, hR, hlen⟩ := hseg idx (by omega)
    obtain ⟨xL, xR⟩ := hx idx (by omega) N_L N_R hL hR
    obtain ⟨pL, sL⟩ := trace_segment_L v _ N_L N_R _ xL
    obtain ⟨pR, sR⟩ := trace_segment_R v _ N_L N_R _ xR
    have hoff : KronBlocks.offsets.getD (idx + 1) 0 =
        KronBlocks.offsets.getD idx 0 + N_L * N_R := by
      have : ((KronBlocks.offsets.getD (idx + 1) 0 : Nat) : Int) =
          ((KronBlocks.offsets.getD idx 0 + N_L * N_R : Nat) : Int) := by
        push_cast
        linarith
      exact_mod_cast this
    have jL := SideInv_step KronBlocks.Left v _ idx st.eigen_L st.eps_list_L _ _ N_L
      (N_L * N_R) hiL hL pL sL
    have jR := SideInv_step KronBlocks.Right v _ idx st.eigen_R st.eps_list_R _ _ N_R
      (N_L * N_R) hiR hR pR sR
    rw [← hoff] at jL jR
    unfold rdmLoop
    rw [rdmStep_exact solve KronBlocks v idx st N_L N_R hs hL hR hlen]
    simp only []
    rw [show idx + (n + 1) = idx + 1 + n by omega]
    exact ih (idx + 1) _ (by omega) jL jR

/-- The sum over the positions of a list is the sum over its entries. -/
theorem range_getD_sum (l : List ℚ) (f : ℚ → ℚ) :
    ((List.range l.length).map fun k => f (l.getD k 0)).sum = (l.map f).sum := by
  congr 1
  apply List.ext_getElem
  · simp
  · intro i h1 h2
    simp only [List.length_map, List.length_range] at h1
    simp [List.getD_eq_getElem?_getD, List.getElem?_eq_getElem h1]

/-- When every record is kept, nothing of the weight is lost: the retained records are all
the records and the truncation error is one minus their sum. -/
theorem truncErr_lossless (MStates : Nat) (eigen : List Eigen_t)
    (hM : eigen.length ≤ MStates) (hpos : ∀ e ∈ eigen, 0 ≤ e.eigval) :
    (retainEigen MStates eigen).Perm eigen ∧
      truncErr (retainEigen MStates eigen) = 1 - (eigen.map fun e => e.eigval).sum := by
  have hp : (retainEigen MStates eigen).Perm eigen := by
    refine (retainEigen_perm MStates eigen).trans ?_
    rw [numRetained_eq, min_eq_right hM, List.take_of_length_le (by rw [rankEigen_length])]
    exact rankEigen_perm eigen
  refine ⟨hp, ?_⟩
  rw [truncErr_eq, (hp.map _).sum_eq]
  congr 2
  apply List.map_congr_left
  intro e he
  exact max_eq_left (hpos e he)

/-- With valid records the part of `GetTruncation` for one side succeeds: the matrix has one
row for each retained record, filled with the rows of the retained records. -/
theorem truncateSide_valid (MStates : Nat) (eigen : List Eigen_t) (eps_list : List EPS)
    (BlockRef : QuantumNumbers) (hvalid : ∀ e ∈ eigen, ValidRecord eps_list BlockRef e) :
    ∃ R, truncateSide MStates eigen eps_list BlockRef =
        .ok (R, truncQN BlockRef (retainEigen MStates eigen),
          truncErr (retainEigen MStates eigen)) ∧
      R.nrows = numRetained MStates eigen ∧
      R.inserted = specRows eps_list BlockRef 0 (retainEigen MStates eigen) := by
  have hv : ∀ e ∈ retainEigen MStates eigen, ValidRecord eps_list BlockRef e := by
    intro e he
    apply hvalid
    have h1 := (retainEigen_perm MStates eigen).mem_iff.mp he
    exact (rankEigen_perm eigen).mem_iff.mp (List.mem_of_mem_take h1)
  obtain ⟨R, hR, hn, _, hi⟩ := FillRotation_BlockDiag_ok (retainEigen MStates eigen) eps_list
    BlockRef ⟨numRetained MStates eigen, BlockRef.NumStates, []⟩ hv
  refine ⟨R, ?_, hn, by simpa using hi⟩
  unfold truncateSide
  simp only []
  rw [hR]

theorem exampleSolve2_converges (e0 e1 : ℚ) (v0 v1 : List ℚ) :
    SolverConverges (exampleSolve2 e0 e1 v0 v1) :=
  fun _ _ => ⟨rfl, fun _ _ => rfl⟩

theorem exampleKron2_segments :
    ∀ idx < exampleKron2.pairs.length, SegmentOK exampleKron2 idx := by
  intro idx hidx
  have h1 : idx < 1 := hidx
  interval_cases idx
  exact ⟨2, 2, rfl, rfl, by decide⟩

/-- The eigenvalues `16/25` and `9/25` are the exact eigenvalues of both reduced density
matrices of `exampleGsvRot`. -/
theorem exampleRot_exact :
    ExactSpectrum 2 (rdmMatL exampleGsvRot 0 2 2)
        (exampleSolveRot (segRdmL exampleGsvRot 0 2 2)) ∧
      ExactSpectrum 2 (rdmMatR exampleGsvRot 0 2 2)
        (exampleSolveRot (segRdmR exampleGsvRot 0 2 2)) := by
  have a00 : rdmMatL exampleGsvRot 0 2 2 0 0 = 288 / 625 := by
    rw [rdmMatL_eq, Matrix.mul_apply, Fin.sum_univ_two]
    simp only [Matrix.transpose_apply, specPsi, exampleGsvRot]
    norm_num [List.getD]
  have a01 : rdmMatL exampleGsvRot 0 2 2 0 1 = 84 / 625 := by
    rw [rdmMatL_eq, Matrix.mul_apply, Fin.sum_univ_two]
    simp only [Matrix.transpose_apply, specPsi, exampleGsvRot]
    norm_num [List.getD]
  have a10 : rdmMatL exampleGsvRot 0 2 2 1 0 = 84 / 625 := by
    rw [rdmMatL_eq, Matrix.mul_apply, Fin.sum_univ_two]
    simp only [Matrix.transpose_apply, specPsi, exampleGsvRot]
    norm_num [List.getD]
  have a11 : rdmMatL exampleGsvRot 0 2 2 1 1 = 337 / 625 := by
    rw [rdmMatL_eq, Matrix.mul_apply, Fin.sum_univ_two]
    simp only [Matrix.transpose_apply, specPsi, exampleGsvRot]
    norm_num [List.getD]
  have b00 : rdmMatR exampleGsvRot 0 2 2 0 0 = 288 / 625 := by
    rw [rdmMatR_eq, Matrix.mul_apply, Fin.sum_univ_two]
    simp only [Matrix.transpose_apply, specPsi, exampleGsvRot]
    norm_num [List.getD]
  have b01 : rdmMatR exampleGsvRot 0 2 2 0 1 = 84 / 625 := by
    rw [rdmMatR_eq, Matrix.mul_apply, Fin.sum_univ_two]
    simp only [Matrix.transpose_apply, specPsi, exampleGsvRot]
    norm_num [List.getD]
  have b10 : rdmMatR exampleGsvRot 0 2 2 1 0 = 84 / 625 := by
    rw [rdmMatR_eq, Matrix.mul_apply, Fin.sum_univ_two]
    simp only [Matrix.transpose_apply, specPsi, exampleGsvRot]
    norm_num [List.getD]
  have b11 : rdmMatR exampleGsvRot 0 2 2 1 1 = 337 / 625 := by
    rw [rdmMatR_eq, Matrix.mul_apply, Fin.sum_univ_two]
    simp only [Matrix.transpose_apply, specPsi, exampleGsvRot]
    norm_num [List.getD]
  have e0 : ∀ A, ((exampleSolveRot A).eig 0).1 = 16 / 25 := fun _ => rfl
  have e1 : ∀ A, ((exampleSolveRot A).eig 1).1 = 9 / 25 := fun _ => rfl
  constructor
  · refine charpoly_two _ _ ?_ ?_
    · rw [a00, a11, e0, e1]
      norm_num
    · rw [a00, a01, a10, a11, e0, e1]
      norm_num
  · refine charpoly_two _ _ ?_ ?_
    · rw [b00, b11, e0, e1]
      norm_num
    · rw [b00, b01, b10, b11, e0, e1]
      norm_num

theorem exampleRot_trace : TraceOnSegments exampleSolveRot exampleKron2 exampleGsvRot := by
  intro idx hidx N_L N_R hL hR
  have h1 : idx < 1 := hidx
  interval_cases idx
  obtain rfl : 2 = N_L := Option.some.inj hL
  obtain rfl : 2 = N_R := Option.some.inj hR
  exact ⟨exact_trace_L _ _ _ _ _ exampleRot_exact.1, exact_trace_R _ _ _ _ _ exampleRot_exact.2⟩

/-- The rounded eigenvalues `0.7291` and `0.2709` of the reduced density matrices of
`exampleGsvThirds` are non-negative and sum to the trace. -/
theorem exampleThirds_trace :
    TraceOnSegments exampleSolveThirds exampleKron2 exampleGsvThirds := by
  intro idx hidx N_L N_R hL hR
  have h1 : idx < 1 := hidx
  interval_cases idx
  obtain rfl : 2 = N_L := Option.some.inj hL
  obtain rfl : 2 = N_R := Option.some.inj hR
  refine ⟨⟨?_, ?_⟩, ⟨?_, ?_⟩⟩
  · intro k hk
    interval_cases k <;> with_unfolding_all decide
  · rw [Matrix.trace_fin_two]
    with_unfolding_all decide
  · intro k hk
    interval_cases k <;> with_unfolding_all decide
  · rw [Matrix.trace_fin_two]
    with_unfolding_all decide

/-- C21: let the gathered ground-state vector have the total length of the KronBlockIndex
and unit norm, let the segments tile it (first offset zero, every segment of the length of
the product of its sector sizes, last offset the total length), and let the eigensolver
converge and report for each block of the reduced density matrices eigenvalues that are
non-negative and sum to the trace of the block, as the exact eigenvalues of the block do.
Then `GetTruncation` returns; the eigenvalues in the records of each side are non-negative
and sum to one, the squared norm; and for a side with at most `MStates` records the result
retains all of them: the records kept are a rearrangement of all records, the transposed
rotation matrix has one row for each record, filled from the kept records, the quantum
numbers are those of the kept records, and the truncation error returned for that side is
zero. -/
theorem C21_lossless_truncation (solve : SeqDense → EPS) (KronBlocks : KronBlocks_t)
    (gsv_r : List ℚ) (MStates : Nat)
    (hlen : KronBlocks.NumStates = gsv_r.length)
    (hseg : ∀ idx < KronBlocks.pairs.length, SegmentOK KronBlocks idx)
    (h0 : KronBlocks.offsets.getD 0 0 = 0)
    (hlast : KronBlocks.offsets.getD KronBlocks.pairs.length 0 = KronBlocks.NumStates)
    (hs : SolverConverges solve)
    (hx : TraceOnSegments solve KronBlocks gsv_r)
    (hnorm : (gsv_r.map fun x => x * x).sum = 1) :
    ∃ T st, GetTruncation false solve KronBlocks gsv_r MStates = .ok T ∧
      rdmLoop solve KronBlocks gsv_r KronBlocks.pairs.length 0 ⟨[], [], [], []⟩ = .ok st ∧
      (∀ e ∈ st.eigen_L, 0 ≤ e.eigval) ∧ (st.eigen_L.map fun e => e.eigval).sum = 1 ∧
      (∀ e ∈ st.eigen_R, 0 ≤ e.eigval) ∧ (st.eigen_R.map fun e => e.eigval).sum = 1 ∧
      (st.eigen_L.length ≤ MStates →
        (retainEigen MStates st.eigen_L).Perm st.eigen_L ∧
        T.RotMatT_L.nrows = st.eigen_L.length ∧
        T.RotMatT_L.inserted =
          specRows st.eps_list_L KronBlocks.Left 0 (retainEigen MStates st.eigen_L) ∧
        T.QN_L = truncQN KronBlocks.Left (retainEigen MStates st.eigen_L) ∧
        T.TruncErr_L = 0) ∧
      (st.eigen_R.length ≤ MStates →
        (retainEigen MStates st.eigen_R).Perm st.eigen_R ∧
        T.RotMatT_R.nrows = st.eigen_R.length ∧
        T.RotMatT_R.inserted =
          specRows st.eps_list_R KronBlocks.Right 0 (retainEigen MStates st.eigen_R) ∧
        T.QN_R = truncQN KronBlocks.Right (retainEigen MStates st.eigen_R) ∧
        T.TruncErr_R = 0) := by
  have hinit : ∀ B : QuantumNumbers,
      SideInv B gsv_r (KronBlocks.offsets.getD 0 0) 0 [] [] := by
    intro B
    refine ⟨rfl, fun e he => absurd he (List.not_mem_nil e),
      fun e he => absurd he (List.not_mem_nil e), ?_⟩
    rw [h0]
    rfl
  obtain ⟨st, hloop, iL, iR⟩ := rdmLoop_exact solve KronBlocks gsv_r hs hx hseg
    KronBlocks.pairs.length 0 ⟨[], [], [], []⟩ (by omega) (hinit _) (hinit _)
  rw [Nat.zero_add, hlast, hlen] at iL iR
  unfold SideInv at iL iR
  rw [range_getD_sum gsv_r (fun x => x * x), hnorm] at iL iR
  obtain ⟨_, vL, pL, sL⟩ := iL
  obtain ⟨_, vR, pR, sR⟩ := iR
  obtain ⟨RL, hRL, nL, iL⟩ :=
    truncateSide_valid MStates st.eigen_L st.eps_list_L KronBlocks.Left vL
  obtain ⟨RR, hRR, nR, iR⟩ :=
    truncateSide_valid MStates st.eigen_R st.eps_list_R KronBlocks.Right vR
  refine ⟨⟨RL, truncQN KronBlocks.Left (retainEigen MStates st.eigen_L),
    truncErr (retainEigen MStates st.eigen_L), RR,
    truncQN KronBlocks.Right (retainEigen MStates st.eigen_R),
    truncErr (retainEigen MStates st.eigen_R)⟩, st, ?_, hloop, pL, sL, pR, sR, ?_, ?_⟩
  · unfold GetTruncation
    rw [if_neg (by simp), if_neg (not_not.mpr hlen), hloop]
    simp only []
    rw [hRL]
    simp only []
    rw [hRR]
  · intro hM
    obtain ⟨a, b⟩ := truncErr_lossless MStates st.eigen_L hM pL
    refine ⟨a, ?_, iL, rfl, ?_⟩
    · show RL.nrows = st.eigen_L.length
      rw [nL, numRetained_eq, min_eq_right hM]
    · show truncErr (retainEigen MStates st.eigen_L) = 0
      rw [b, sL, sub_self]
  · intro hM
    obtain ⟨a, b⟩ := truncErr_lossless MStates st.eigen_R hM pR
    refine ⟨a, ?_, iR, rfl, ?_⟩
    · show RR.nrows = st.eigen_R.length
      rw [nR, numRetained_eq, min_eq_right hM]
    · show truncErr (retainEigen MStates st.eigen_R) = 0
      rw [b, sR, sub_self]

/-- C21 at two vectors of unit norm over one segment with sectors of size 2, with
`MStates = 2`, the number of records of either side: at `exampleGsvRot` with a solver that
reports the exact eigenvalues `16/25` and `9/25`, and at `exampleGsvThirds`, whose reduced
density matrices have irrational eigenvalues, with a solver that reports them rounded to
`0.7291` and `0.2709`. In both cases `GetTruncation` returns rotation matrices of two rows
and truncation errors zero. -/
theorem C21_lossless_truncation_witness :
    ((exampleGsvRot.map fun x => x * x).sum = 1 ∧
      ExactSpectrum 2 (rdmMatL exampleGsvRot 0 2 2)
        (exampleSolveRot (segRdmL exampleGsvRot 0 2 2)) ∧
      ∃ T, GetTruncation false exampleSolveRot exampleKron2 exampleGsvRot 2 = .ok T ∧
        T.RotMatT_L.nrows = 2 ∧ T.RotMatT_R.nrows = 2 ∧
        T.TruncErr_L = 0 ∧ T.TruncErr_R = 0) ∧
    ((exampleGsvThirds.map fun x => x * x).sum = 1 ∧
      ∃ T, GetTruncation false exampleSolveThirds exampleKron2 exampleGsvThirds 2 = .ok T ∧
        T.RotMatT_L.nrows = 2 ∧ T.RotMatT_R.nrows = 2 ∧
        T.TruncErr_L = 0 ∧ T.TruncErr_R = 0) := by
  have n1 : (exampleGsvRot.map fun x => x * x).sum = 1 := by with_unfolding_all decide
  have n2 : (exampleGsvThirds.map fun x => x * x).sum = 1 := by with_unfolding_all decide
  refine ⟨⟨n1, exampleRot_exact.1, ?_⟩, ⟨n2, ?_⟩⟩
  · obtain ⟨T, st, hT, hst, _, _, _, _, hL, hR⟩ :=
      C21_lossless_truncation exampleSolveRot exampleKron2 exampleGsvRot 2 rfl
        exampleKron2_segments rfl rfl (exampleSolve2_converges _ _ _ _) exampleRot_trace n1
    have h0 : ∃ st0, rdmLoop exampleSolveRot exampleKron2 exampleGsvRot
        exampleKron2.pairs.length 0 ⟨[], [], [], []⟩ = .ok st0 ∧
        st0.eigen_L.length = 2 ∧ st0.eigen_R.length = 2 := ⟨_, rfl, rfl, rfl⟩
    obtain ⟨st0, h0, l1, l2⟩ := h0
    rw [hst] at h0
    cases h0
    obtain ⟨_, a1, _, _, a2⟩ := hL (le_of_eq l1)
    obtain ⟨_, b1, _, _, b2⟩ := hR (le_of_eq l2)
    exact ⟨T, hT, a1.trans l1, b1.trans l2, a2, b2⟩
  · obtain ⟨T, st, hT, hst, _, _, _, _, hL, hR⟩ :=
      C21_lossless_truncation exampleSolveThirds exampleKron2 exampleGsvThirds 2 rfl
        exampleKron2_segments rfl rfl (exampleSolve2_converges _ _ _ _) exampleThirds_trace n2
    have h0 : ∃ st0, rdmLoop exampleSolveThirds exampleKron2 exampleGsvThirds
        exampleKron2.pairs.length 0 ⟨[], [], [], []⟩ = .ok st0 ∧
        st0.eigen_L.length = 2 ∧ st0.eigen_R.length = 2 := ⟨_, rfl, rfl, rfl⟩
    obtain ⟨st0, h0, l1, l2⟩ := h0
    rw [hst] at h0
    cases h0
    obtain ⟨_, a1, _, _, a2⟩ := hL (le_of_eq l1)
    obtain ⟨_, b1, _, _, b2⟩ := hR (le_of_eq l2)
    exact ⟨T, hT, a1.trans l1, b1.trans l2, a2, b2⟩

/-! ## Claims -/

/-- C1: for every even `N ≥ 2` and every `min_block ≥ 1`, a `Sweep` on a warmed-up container
whose collaborator calls all succeed (symmetry enabled) returns success and performs
renormalization steps on exactly the quadruples `(i-1, N-i-3, i, N-i-2)` for
`i = N/2, ..., N-min_block-3` in increasing `i`, followed by `(N-i-3, i-1, N-i-2, i)` for
`i = min_block, ..., N/2-1` in increasing `i`, and no other steps. -/
theorem C1_sweep_step_sequence (E : Collab) (MStates : Nat) (min_block N : Int) (c : Container)
    (hE : ∀ e, E.ok e = true) (hN : c.num_sites = N) (heven : N % 2 = 0) (hN2 : 2 ≤ N)
    (hmb : 1 ≤ min_block) (hw : c.warmed_up = true) (hs : c.no_symm = false) :
    (Sweep E MStates min_block c).1 = 0 ∧
    stepsOf (Sweep E MStates min_block c).2.log = stepsOf c.log ++
      ((intRange (N / 2) (N - min_block - 2)).map
          (fun i => (i - 1, N - i - 3, i, N - i - 2)) ++
       (intRange min_block (N / 2)).map
          (fun i => (N - i - 3, i - 1, N - i - 2, i))) := by
  have hdiv : N.tdiv 2 = N / 2 := Int.tdiv_eq_ediv (by omega) (by omega)
  have hmbd : ¬ min_block = PETSC_DEFAULT := by
    unfold PETSC_DEFAULT
    omega
  unfold Sweep
  simp only [hw, Bool.not_true, Bool.false_eq_true, if_false, hmbd, if_neg (not_lt.mpr hmb)]
  obtain ⟨c1, h1, f1, s1⟩ := sweepRight_ok hE MStates min_block
    (c.num_sites - min_block - 2 - c.num_sites.tdiv 2).toNat (c.num_sites.tdiv 2) c hs rfl
  rw [chk_ok h1]
  obtain ⟨c2, h2, f2, s2⟩ := sweepLeft_ok hE MStates
    (c1.num_sites.tdiv 2 - min_block).toNat min_block c1 (f1.no_symm.trans hs) rfl
  rw [chk_ok h2]
  refine ⟨rfl, ?_⟩
  simp only [chk]
  rw [s2, s1, f1.num_sites, hN, hdiv, List.append_assoc]
  simp only [intRange, List.map_map]
  rfl

/-- C1, the concrete run: after the warmup of a fresh 8-site container (cluster size 2), a
sweep with `min_block = 1` visits `(3,1,4,2), (4,0,5,1), (3,1,4,2), (2,2,3,3)`. -/
theorem C1_sweep_step_sequence_witness :
    (Warmup (Collab.allOk 2) 4 (Container.fresh 8 0 false false)).1 = 0 ∧
    (Sweep (Collab.allOk 2) 4 1
        (Warmup (Collab.allOk 2) 4 (Container.fresh 8 0 false false)).2).1 = 0 ∧
    stepsOf (Sweep (Collab.allOk 2) 4 1
        (Warmup (Collab.allOk 2) 4 (Container.fresh 8 0 false false)).2).2.log =
      stepsOf (Warmup (Collab.allOk 2) 4 (Container.fresh 8 0 false false)).2.log ++
        [(3, 1, 4, 2), (4, 0, 5, 1), (3, 1, 4, 2), (2, 2, 3, 3)] := by
  have h := C1_sweep_step_sequence (Collab.allOk 2) 4 1 8
    (Warmup (Collab.allOk 2) 4 (Container.fresh 8 0 false false)).2
    (fun _ => rfl) (by decide) (by decide) (by decide) (by decide) (by decide) (by decide)
  refine ⟨by decide, h.1, ?_⟩
  rw [h.2]
  decide

theorem warmupSaveDirs_ok {E : Collab} (hE : ∀ e, E.ok e = true) (c : Container)
    (hD : c.do_save_dir = true → E.dirExists = true) :
    ∃ c', warmupSaveDirs E c = (0, c') ∧ Frame c c' ∧
      c'.sys_blocks = c.sys_blocks ∧ stepsOf c'.log = stepsOf c.log := by
  unfold warmupSaveDirs
  by_cases hd : c.do_save_dir = true
  · rw [if_pos hd, hD hd]
    simp only [Bool.not_true, Bool.false_eq_true, if_false]
    have h0 : ∃ c0, (if c.mpi_rank = 0 then mkdirLoop E c.num_sys_blocks.toNat 0 c else (0, c))
        = (0, c0) ∧ Frame c c0 ∧ c0.sys_blocks = c.sys_blocks ∧
          stepsOf c0.log = stepsOf c.log := by
      split
      · exact mkdirLoop_ok hE _ _ _
      · exact ⟨c, rfl, Frame.frefl c, rfl, rfl⟩
    obtain ⟨c0, h0, f0, b0, s0⟩ := h0
    rw [chk_ok h0]
    obtain ⟨c1, h1, f1, b1, s1⟩ := initSaveLoop_ok hE c0.num_sys_blocks.toNat 0 c0
    exact ⟨c1, h1, f0.ftrans f1, b1.trans b0, s1.trans s0⟩
  · rw [if_neg hd]
    exact ⟨c, rfl, Frame.frefl c, rfl, rfl⟩

/-- The growth part of `Warmup` with succeeding collaborators, for a cluster size of at most
half the chain. -/
theorem warmupGrow_ok {E : Collab} (hE : ∀ e, E.ok e = true) (MStates : Nat) (N : Int)
    (c : Container) (hA : E.AddSiteNumSites = 1) (hN : c.num_sites = N) (heven : N % 2 = 0)
    (hN2 : 2 ≤ N) (hpos : 0 < E.NumEnvSites)
    (hcl : (if E.NumEnvSites % 2 ≠ 0 then E.NumEnvSites * 2 else E.NumEnvSites) ≤ N / 2)
    (h1 : c.sys_ninit = 1) (hs : c.no_symm = false) :
    ∃ c', warmupGrow E MStates c = (0, c') ∧ c'.sys_ninit = N / 2 ∧
      c'.warmed_up = true ∧ c'.num_sites = N := by
  have hdiv : N.tdiv 2 = N / 2 := Int.tdiv_eq_ediv (by omega) (by omega)
  have hmod : N.tmod 2 = 0 := by rw [Int.tmod_eq_emod (by omega) (by omega)]; exact heven
  have hemod : E.NumEnvSites.tmod 2 = E.NumEnvSites % 2 :=
    Int.tmod_eq_emod (by omega) (by omega)
  unfold warmupGrow
  rw [if_neg (by rw [hN, hmod]; simp), if_neg (by rw [hA]; simp)]
  simp only []
  rw [hemod]
  generalize hclv : (if E.NumEnvSites % 2 ≠ 0 then E.NumEnvSites * 2 else E.NumEnvSites) = cl
    at hcl
  have hcl1 : 1 ≤ cl := by rw [← hclv]; split <;> omega
  obtain ⟨c1, e1, f1, n1⟩ := clusterLoop_ok hE cl (cl - c.sys_ninit).toNat c rfl
  rw [chk_ok e1]
  have hc1 : c1.sys_ninit = cl := by rw [n1, h1]; omega
  have hn1 : c1.num_sites = N := f1.num_sites.trans hN
  obtain ⟨c2, e2, f2, n2⟩ := growLoop_ok hE MStates cl hcl1
    (c1.num_sites.tdiv 2 - c1.sys_ninit).toNat c1 (f1.no_symm.trans hs) (by omega) rfl
  rw [chk_ok e2]
  have hn2 : c2.num_sites = N := f2.num_sites.trans hn1
  have hc2 : c2.sys_ninit = N / 2 := by rw [n2, hn1, hc1, hdiv]; omega
  rw [if_neg (by rw [hc2, hn2, hdiv]; simp)]
  exact ⟨_, rfl, hc2, rfl, hn2⟩

/-- The block-building part of `Warmup` with succeeding collaborators, for a cluster size
of at most half the chain. -/
theorem warmupBlocks_ok {E : Collab} (hE : ∀ e, E.ok e = true) (MStates : Nat) (N : Int)
    (c : Container) (hA : E.AddSiteNumSites = 1) (hN : c.num_sites = N) (heven : N % 2 = 0)
    (hN2 : 2 ≤ N) (hpos : 0 < E.NumEnvSites)
    (hcl : (if E.NumEnvSites % 2 ≠ 0 then E.NumEnvSites * 2 else E.NumEnvSites) ≤ N / 2)
    (h0 : c.sys_ninit = 0) (hs : c.no_symm = false) :
    ∃ c', warmupBlocks E MStates c = (0, c') ∧ c'.sys_ninit = N / 2 ∧
      c'.warmed_up = true ∧ c'.num_sites = N := by
  unfold warmupBlocks
  rw [call_ok hE]
  exact warmupGrow_ok hE MStates N _ hA (by simpa using hN) heven hN2 hpos hcl
    (by simp [h0]) (by simpa using hs)

/-- C2 (as stated) fails: for `N = 2` and preferred environment size `1` (cluster size 2),
with every collaborator call succeeding, `Warmup` builds two blocks, one more than `N/2`,
and returns an error without setting the warmed-up flag. -/
theorem C2_warmup_counterexample :
    (2 : Int) % 2 = 0 ∧ (0 : Int) < (Collab.allOk 1).NumEnvSites ∧
    (Warmup (Collab.allOk 1) 4 (Container.fresh 2 0 false false)).1 = 1 ∧
    (Warmup (Collab.allOk 1) 4 (Container.fresh 2 0 false false)).2.sys_ninit = 2 ∧
    (Warmup (Collab.allOk 1) 4 (Container.fresh 2 0 false false)).2.warmed_up = false := by
  decide

/-- C2 (amended): for every even `N ≥ 2` and every positive preferred environment size whose
cluster size (the size itself when even, twice the size when odd) is at most `N/2`, a
`Warmup` on a container that is not warmed up, has no initialized block and has symmetry
enabled, and whose collaborator calls all succeed, returns success and leaves exactly `N/2`
initialized system blocks with the warmed-up flag set. -/
theorem C2_warmup_terminal (E : Collab) (MStates : Nat) (N : Int) (c : Container)
    (hE : ∀ e, E.ok e = true) (hA : E.AddSiteNumSites = 1)
    (hD : c.do_save_dir = true → E.dirExists = true)
    (hN : c.num_sites = N) (heven : N % 2 = 0) (hN2 : 2 ≤ N) (hpos : 0 < E.NumEnvSites)
    (hcl : (if E.NumEnvSites % 2 ≠ 0 then E.NumEnvSites * 2 else E.NumEnvSites) ≤ N / 2)
    (hw : c.warmed_up = false) (h0 : c.sys_ninit = 0) (hs : c.no_symm = false) :
    (Warmup E MStates c).1 = 0 ∧ (Warmup E MStates c).2.sys_ninit = N / 2 ∧
    (Warmup E MStates c).2.warmed_up = true := by
  unfold Warmup
  rw [if_neg (by simp [hw])]
  simp only []
  obtain ⟨c1, h1, f1, _, _⟩ := warmupSaveDirs_ok hE
    { c with
      num_sys_blocks := c.num_sites - 1
      sys_blocks := c.sys_blocks.take (c.num_sites - 1).toNat ++
        List.replicate ((c.num_sites - 1).toNat - c.sys_blocks.length) Block.empty } hD
  rw [chk_ok h1]
  obtain ⟨c2, h2, n2, w2, _⟩ := warmupBlocks_ok hE MStates N c1 hA
    (f1.num_sites.trans hN) heven hN2 hpos hcl (f1.sys_ninit.trans h0) (f1.no_symm.trans hs)
  rw [h2]
  exact ⟨rfl, n2, w2⟩

/-- C2, the concrete run: for `N = 8` and cluster size 2 the warmup ends with 4 initialized
blocks. -/
theorem C2_warmup_terminal_witness :
    (Warmup (Collab.allOk 2) 4 (Container.fresh 8 0 false false)).1 = 0 ∧
    (Warmup (Collab.allOk 2) 4 (Container.fresh 8 0 false false)).2.sys_ninit = 4 ∧
    (Warmup (Collab.allOk 2) 4 (Container.fresh 8 0 false false)).2.warmed_up = true :=
  C2_warmup_terminal (Collab.allOk 2) 4 8 (Container.fresh 8 0 false false)
    (fun _ => rfl) rfl (fun _ => rfl) rfl (by decide) (by decide) (by decide) (by decide)
    rfl rfl rfl

end DMRG
